import Mathlib

/-!
# The Cayley pseudo-random number generator

A shallow embedding of `uintx_t.cpp`, `Permutation.cpp`, `PowerTable.cpp`, `Cayley.cpp` and
`Cayley32.cpp`.  Arrays are lists, a loop is a recursive function on the number of rounds left,
32-bit words are natural numbers reduced modulo `2 ^ 32` wherever the source can wrap, and a loop
whose exit is not evident takes a round budget and returns `none` when the budget runs out.
-/

/-! ## `uintx_t`: the extensible unsigned integer -/

/-- The extensible unsigned integer of `uintx_t.h`: the array `m_pData` of 32-bit words, least
significant first.  `m_nSize` is the length of the list; the default constructor gives `[]`. -/
abbrev uintx_t := List Nat

namespace uintx_t

/-- Number of bits in a word. -/
def BitsInWord : Nat := 32

/-- Number of nibbles in a word. -/
def HalfBytesInWord : Nat := 8

/-- Number of bits in a nibble. -/
def BitsInHalfByte : Nat := 4

/-- Conversion of an `int` to `uint32_t`. -/
def toWord (i : Int) : Nat := (i % 2 ^ 32).toNat

/-- Integer constructor `uintx_t(int i)`: one word holding `i`. -/
def ofInt (i : Int) : uintx_t := [toWord i]

/-- The member `reallocate(s)`: change the number of words and zero the value, if `s` differs
from the current size. -/
def reallocate (x : uintx_t) (s : Nat) : uintx_t :=
  if x.length ≠ s then List.replicate s 0 else x

/-- Assignment `operator=(const int i)`. -/
def assignInt (x : uintx_t) (i : Int) : uintx_t :=
  (reallocate x 1).set 0 (toWord i)

/-- The member `grow(s)`: if `m_nSize <= s`, copy the words into `s` words and zero the rest. -/
def grow (x : uintx_t) (s : Nat) : uintx_t :=
  if x.length ≤ s then x ++ List.replicate (s - x.length) 0 else x

/-- The scan of `normalize`: `for(top=m_nSize - 1; top>0 && m_pData[top]==0; top--);`. -/
def normalizeTop (d : List Nat) : Nat → Nat
  | 0 => 0
  | top + 1 => if d.getD (top + 1) 0 = 0 then normalizeTop d top else top + 1

/-- The member `normalize()`: drop the leading zero words, keeping at least one word. With
`m_nSize = 0` the scan starts at `-1` and nothing changes. -/
def normalize (x : uintx_t) : uintx_t :=
  if x.length = 0 then x
  else
    let top := normalizeTop x (x.length - 1)
    if top < x.length - 1 then x.take (top + 1) else x

/-- The loop of `bitcount`: `while(word > 0){ word >>= 1; count++; }` on a 32-bit word. -/
def bitcountLoop : Nat → Nat → Nat → Nat
  | 0, _, count => count
  | fuel + 1, word, count =>
    if word > 0 then bitcountLoop fuel (word >>> 1) (count + 1) else count

/-- The member `bitcount()`: the number of significant bits. -/
def bitcount (x : uintx_t) : Nat :=
  if x.length ≤ 0 then 0
  else bitcountLoop 32 (x.getD (x.length - 1) 0) 0 + (x.length - 1) * BitsInWord

/-- Mask for the most significant bit of a word. -/
def mask_msb : Nat := (1 <<< (BitsInWord - 1)) % 2 ^ 32

/-- Mask for all but the most significant bit of a word. -/
def mask_lsb : Nat := 2 ^ 32 - 1 - mask_msb

/-- The word loop of `operator+=(const uintx_t& y)`; the arguments are the number of rounds
left, the index `i`, the carry and the array. -/
def addLoop (y : uintx_t) (oldsize : Nat) : Nat → Nat → Nat → List Nat → List Nat × Nat
  | 0, _, carry, d => (d, carry)
  | n + 1, i, carry, d =>
    let left := if i < oldsize then d.getD i 0 else 0
    let right := if i < y.length then y.getD i 0 else 0
    let left_msb := (left &&& mask_msb) >>> (BitsInWord - 1)
    let right_msb := (right &&& mask_msb) >>> (BitsInWord - 1)
    let left := left &&& mask_lsb
    let right := right &&& mask_lsb
    let sum := (left + right + carry) % 2 ^ 32
    let sum_msb := (sum &&& mask_msb) >>> (BitsInWord - 1)
    let sum := sum &&& mask_lsb
    let carry := left_msb + right_msb + sum_msb
    let sum := if carry = 1 ∨ carry = 3 then sum ||| mask_msb else sum
    addLoop y oldsize n (i + 1) (carry >>> 1) (d.set i sum)

/-- Addition `operator+=(const uintx_t& y)`. -/
def operator_add_assign (x y : uintx_t) : uintx_t :=
  let oldsize := x.length
  let d := grow x (if x.length > y.length then x.length else y.length)
  let r := addLoop y oldsize d.length 0 0 d
  if r.2 ≥ 1 then (grow r.1 (r.1.length + 1)).set r.1.length 1 else r.1

/-- Addition `operator+(uintx_t x, uintx_t y)`. -/
def operator_add (x y : uintx_t) : uintx_t := operator_add_assign x y

/-- Addition `operator+=(const int& y)`. -/
def operator_add_assign_int (x : uintx_t) (y : Int) : uintx_t :=
  operator_add_assign x (ofInt y)

/-- The word scan shared by the comparisons, from index `i - 1` down to `0`; `eq` is the answer
when all words agree. -/
def compareLoop (eq : Bool) (x y : List Nat) : Nat → Bool
  | 0 => eq
  | i + 1 =>
    if x.getD i 0 > y.getD i 0 then true
    else if x.getD i 0 < y.getD i 0 then false
    else compareLoop eq x y i

/-- Comparison `operator>(uintx_t x, uintx_t y)`. -/
def operator_gt (x y : uintx_t) : Bool :=
  if x.length > y.length then true
  else if x.length < y.length then false
  else compareLoop false x y x.length

/-- Comparison `operator>(uintx_t x, int y)`. -/
def operator_gt_int (x : uintx_t) (y : Int) : Bool := operator_gt x (ofInt y)

/-- Comparison `operator>=(uintx_t x, uintx_t y)`. -/
def operator_ge (x y : uintx_t) : Bool :=
  if x.length > y.length then true
  else if x.length < y.length then false
  else compareLoop true x y x.length

/-- Comparison `operator<(uintx_t x, uintx_t y)`. -/
def operator_lt (x y : uintx_t) : Bool := operator_gt y x

/-- Comparison `operator<=(uintx_t x, uintx_t y)`. -/
def operator_le (x y : uintx_t) : Bool := operator_ge y x

/-- The first loop of `operator<<=`: copy word `src` to `src + k` for `src` from the top source
index down to `0`; the argument is `src + 1`. -/
def shlWords (oldsize k : Nat) : Nat → List Nat → List Nat
  | 0, d => d
  | src + 1, d =>
    shlWords oldsize k src (if src < oldsize then d.set (src + k) (d.getD src 0) else d)

/-- The second loop of `operator<<=`: `while(dest >= 0) m_pData[dest--] = 0;`; the argument is
`dest + 1`. -/
def shlZero : Nat → List Nat → List Nat
  | 0, d => d
  | dest + 1, d => shlZero dest (d.set dest 0)

/-- The third loop of `operator<<=`: shift within words by `s` bits, from the top word down; the
argument is `dest + 1`. -/
def shlBits (s : Nat) : Nat → List Nat → List Nat
  | 0, d => d
  | dest + 1, d =>
    let v := (d.getD dest 0 <<< s) % 2 ^ 32
    let v := if dest > 0 then v ||| (d.getD (dest - 1) 0 >>> (BitsInWord - s)) else v
    shlBits s dest (d.set dest v)

/-- Left shift `operator<<=(const int distance)`, for `distance >= 0`.  After `grow` the copy
starts at `dest = m_nSize - 1`, `src = dest - distance/32` and runs `m_nSize - distance/32`
rounds (none if `src` starts negative); the zero fill then covers the words below.  The
argument of `grow` is computed in natural numbers here: this is the operator as long as
`bitcount() + distance + 31` stays below `2^31`, the range in which the `int` sum of the source
does not overflow; `operator_shl` computes the sum in `int`. -/
def operator_shl_assign (x : uintx_t) (distance : Nat) : uintx_t :=
  if operator_gt_int x 0 then
    let oldsize := x.length
    let d := grow x ((bitcount x + distance + BitsInWord - 1) / BitsInWord)
    let k := distance / BitsInWord
    let d := shlWords oldsize k (d.length - k) d
    let d := shlZero (if k ≤ d.length then k else d.length) d
    let s := distance % BitsInWord
    if s > 0 then shlBits s d.length d else d
  else x

/-- The word loop of `operator>>=`: `m_pData[dest] = m_pData[src]; m_pData[src] = 0;` with
`src = dest + k`; the arguments are the number of rounds left and `dest`. -/
def shrWords (k : Nat) : Nat → Nat → List Nat → List Nat
  | 0, _, d => d
  | n + 1, dest, d =>
    shrWords k n (dest + 1) ((d.set dest (d.getD (dest + k) 0)).set (dest + k) 0)

/-- The bit loop of `operator>>=`: shift within words by `s` bits for `dest < newsize`; the
arguments are the number of rounds left and `dest`. -/
def shrBits (s size : Nat) : Nat → Nat → List Nat → List Nat
  | 0, _, d => d
  | n + 1, dest, d =>
    let v := d.getD dest 0 >>> s
    let v := if dest + 1 < size then v ||| ((d.getD (dest + 1) 0 <<< (BitsInWord - s)) % 2 ^ 32)
      else v
    shrBits s size n (dest + 1) (d.set dest v)

/-- The last loop of `operator>>=`: `for(int i=newsize; i<m_nSize; i++) m_pData[i] = 0;`; the
arguments are the number of rounds left and `i`. -/
def shrZero : Nat → Nat → List Nat → List Nat
  | 0, _, d => d
  | n + 1, i, d => shrZero n (i + 1) (d.set i 0)

/-- Right shift `operator>>=(const int distance)`, for `distance >= 0`.  `newsize` is an `int`
and the division truncates toward zero.  When `newsize` is negative the last loop of the source
starts below index `0`; those writes fall outside the array and the model starts at `0`. -/
def operator_shr_assign (x : uintx_t) (distance : Nat) : uintx_t :=
  let newsize : Int := Int.tdiv ((bitcount x : Int) - distance + BitsInWord - 1) BitsInWord
  let d :=
    if newsize < 1 then assignInt x 0
    else
      let k := distance / BitsInWord
      let d := if 0 ≠ k then shrWords k (x.length - k) 0 x else x
      let s := distance % BitsInWord
      if s > 0 then shrBits s d.length newsize.toNat 0 d else d
  normalize (shrZero (d.length - newsize.toNat) newsize.toNat d)

/-- The loop of `operator*(uintx_t x, uint32_t y)`, with `y` already widened to 64 bits; the
arguments are the number of rounds left, `i`, `word` and `carry`. -/
def mulLoop (x : uintx_t) (y : Nat) : Nat → Nat → List Nat → List Nat → List Nat × List Nat
  | 0, _, word, carry => (word, carry)
  | n + 1, i, word, carry =>
    let prod := (x.getD i 0 * y) % 2 ^ 64
    mulLoop x y n (i + 1) (word.set i (prod &&& 0xFFFFFFFF)) (carry.set (i + 1) (prod >>> 32))

/-- Multiplication `operator*(uintx_t x, uint32_t y)`. -/
def operator_mul_uint32 (x : uintx_t) (y : Nat) : uintx_t :=
  let word := grow [] x.length
  let carry := grow (ofInt 0) (x.length + 1)
  let r := mulLoop x y x.length 0 word carry
  operator_add (normalize r.1) (normalize r.2)

/-- Multiplication `operator*(uintx_t x, int y)`: as for `uint32_t`, with `(uint64_t)y` the
sign-extended value of the `int`. -/
def operator_mul_int (x : uintx_t) (y : Int) : uintx_t :=
  let word := grow [] x.length
  let carry := grow (ofInt 0) (x.length + 1)
  let r := mulLoop x (y % 2 ^ 64).toNat x.length 0 word carry
  operator_add (normalize r.1) (normalize r.2)

/-- The loop of `operator*(uintx_t y, uintx_t z)`: `while(z > 0)`.  Every round shortens `z` or
sets it to zero, so `z.m_nSize + 1` rounds are enough (`mulBigLoop_exit`). -/
def mulBigLoop : Nat → uintx_t → uintx_t → uintx_t → uintx_t
  | 0, result, _, _ => result
  | fuel + 1, result, y, z =>
    if operator_gt_int z 0 then
      mulBigLoop fuel (operator_add_assign result (operator_mul_uint32 y (z.getD 0 0)))
        (operator_shl_assign y BitsInWord) (operator_shr_assign z BitsInWord)
    else result

/-- Multiplication `operator*(uintx_t y, uintx_t z)`. -/
def operator_mul (y z : uintx_t) : uintx_t := mulBigLoop (z.length + 1) (ofInt 0) y z

/-- Multiplication `operator*=(const uintx_t& y)`. -/
def operator_mul_assign (x y : uintx_t) : uintx_t := operator_mul x y

/-- The word loop of `operator-=`; the arguments are the number of rounds left, `i`, the borrow
and the array. -/
def subLoop (y : uintx_t) : Nat → Nat → Bool → List Nat → List Nat
  | 0, _, _, d => d
  | n + 1, i, borrow, d =>
    let left := d.getD i 0
    let right := if i < y.length then y.getD i 0 else 0
    let right' := if borrow then (right + 1) % 2 ^ 32 else right
    let borrow' := if borrow then decide (right' = 0) else borrow
    let borrow'' := if left < right' then true else borrow'
    subLoop y n (i + 1) borrow'' (d.set i ((left + 2 ^ 32 - right') % 2 ^ 32))

/-- Subtraction `operator-=(const uintx_t& y)`. -/
def operator_sub_assign (x y : uintx_t) : uintx_t :=
  normalize
    (if operator_ge y x then assignInt x 0
     else if operator_gt_int y 0 then subLoop y x.length 0 false x
     else x)

/-- The first loop of `operator/` and `operator%`: `while(w <= y) w <<= 1;`. -/
def alignLoop : Nat → uintx_t → uintx_t → Option uintx_t
  | 0, _, _ => none
  | fuel + 1, w, y =>
    if operator_le w y then alignLoop fuel (operator_shl_assign w 1) y else some w

/-- The second loop of `operator/`: `while(w > z)`. -/
def divLoop (z : uintx_t) : Nat → uintx_t → uintx_t → uintx_t → Option uintx_t
  | 0, _, _, _ => none
  | fuel + 1, q, w, r =>
    if operator_gt w z then
      let q := operator_shl_assign q 1
      let w := operator_shr_assign w 1
      if operator_le w r then
        divLoop z fuel (operator_add_assign_int q 1) w (operator_sub_assign r w)
      else divLoop z fuel q w r
    else some q

/-- Division `operator/(uintx_t y, uintx_t z)`, with a budget of rounds for each of its two
loops.  The first shift distance is `y.bitcount() - z.bitcount()`, taken as `0` when negative. -/
def operator_div (fuel : Nat) (y z : uintx_t) : Option uintx_t :=
  if operator_ge y z then
    (alignLoop fuel (operator_shl_assign z (bitcount y - bitcount z)) y).bind
      (fun w => divLoop z fuel (ofInt 0) w y)
  else some (ofInt 0)

/-- The second loop of `operator%`: `while(w > z)`. -/
def modLoop (z : uintx_t) : Nat → uintx_t → uintx_t → Option uintx_t
  | 0, _, _ => none
  | fuel + 1, w, y =>
    if operator_gt w z then
      let w := operator_shr_assign w 1
      if operator_le w y then modLoop z fuel w (operator_sub_assign y w)
      else modLoop z fuel w y
    else some y

/-- Remainder `operator%(uintx_t y, uintx_t z)`, with a budget of rounds for each of its two
loops. -/
def operator_mod (fuel : Nat) (y z : uintx_t) : Option uintx_t :=
  (alignLoop fuel z y).bind (fun w => modLoop z fuel w y)

/-- Cast `operator uint32_t()`: the least significant word. -/
def operator_uint32 (x : uintx_t) : Nat := x.getD 0 0

/-- The digit of a hexadecimal character, as in `loadstring`; `none` where the source asserts. -/
def hexDigit (c : Char) : Option Nat :=
  if '0' ≤ c ∧ c ≤ '9' then some (c.toNat - '0'.toNat)
  else if 'A' ≤ c ∧ c ≤ 'F' then some (10 + c.toNat - 'A'.toNat)
  else if 'a' ≤ c ∧ c ≤ 'f' then some (10 + c.toNat - 'a'.toNat)
  else none

/-- The digit loop of `loadstring`; the arguments are the characters left, `word`, `shift` and
the array.  `word` is an `int` in the source and is kept one higher here (so `0` is `-1`). -/
def loadLoop : List Char → Nat → Nat → List Nat → Option (List Nat)
  | [], _, _, d => some d
  | c :: cs, word1, shift, d =>
    (hexDigit c).bind fun digit =>
      let shift' := if shift ≤ 0 then BitsInWord else shift
      let word1' := if shift ≤ 0 then word1 - 1 else word1
      let shift'' := shift' - BitsInHalfByte
      loadLoop cs word1' shift'' (d.set (word1' - 1) (d.getD (word1' - 1) 0 ||| (digit <<< shift'')))

/-- The member `loadstring(const char* string)` on an array of `m_nSize` words. -/
def loadstring (size : Nat) (s : String) : Option (List Nat) :=
  let digitcount := s.length
  let shift := (digitcount % HalfBytesInWord) * BitsInHalfByte
  let shift := if shift ≤ 0 then BitsInWord else shift
  loadLoop s.toList size shift (List.replicate size 0)

/-- String constructor `uintx_t(const char* string)`. -/
def ofString (s : String) : Option uintx_t :=
  loadstring ((s.length + HalfBytesInWord - 1) / HalfBytesInWord) s

/-- The number a word list stands for. -/
def value : List Nat → Nat
  | [] => 0
  | a :: l => a + 2 ^ 32 * value l

/-- Every word fits in 32 bits. -/
def WF (x : List Nat) : Prop := ∀ a ∈ x, a < 2 ^ 32

/-- Normalized: at most one word, or a nonzero most significant word. -/
def Normalized (x : List Nat) : Prop := x.length ≤ 1 ∨ x.getLast? ≠ some 0

/-- A well-formed, normalized word list with at least one word. -/
def Canonical (x : List Nat) : Prop := WF x ∧ 1 ≤ x.length ∧ Normalized x

end uintx_t

/-! ## `CPerm`: permutations -/

/-- The permutation of `Permutation.h`: `m_nMap` sends `i` to `m_nMap[i]`, an array of
`m_nSize` bytes. -/
structure CPerm where
  /-- Permutation sends `i` to `m_nMap[i]`. -/
  m_nMap : List Nat
  /-- Number of things being permuted. -/
  m_nSize : Nat
deriving DecidableEq, Repr

namespace CPerm

/-- The loop `for(i=0; i<m_nSize; i++) m_nMap[i] = i;`; the arguments are the number of rounds
left, `i` and the array. -/
def identityLoop : Nat → Nat → List Nat → List Nat
  | 0, _, m => m
  | c + 1, i, m => identityLoop c (i + 1) (m.set i i)

/-- Constructor `CPerm(uint8_t n)`: the identity permutation, on a fresh array of `n` bytes. -/
def identity (n : Nat) : CPerm :=
  { m_nMap := identityLoop n 0 (List.replicate n 0), m_nSize := n }

/-- The loop `for(i=1; i<n; i++) factorial[i] = uint32_t(i)*factorial[i - 1];`; the arguments
are the number of rounds left, `i` and the array. -/
def factorialLoop : Nat → Nat → List uintx_t → List uintx_t
  | 0, _, factorial => factorial
  | c + 1, i, factorial =>
    factorialLoop c (i + 1)
      (factorial.set i (uintx_t.operator_mul_uint32 (factorial.getD (i - 1) []) i))

/-- The loop `for(int i=n-1; i>0; i--){ c[i] = uint32_t(m/factorial[i]); m = m%factorial[i]; }`;
the arguments are `i`, `m` and the array `c`. -/
def coefficientLoop (fuel : Nat) (factorial : List uintx_t) :
    Nat → uintx_t → List Nat → Option (List Nat)
  | 0, _, c => some c
  | i + 1, m, c =>
    (uintx_t.operator_div fuel m (factorial.getD (i + 1) [])).bind fun q =>
      (uintx_t.operator_mod fuel m (factorial.getD (i + 1) [])).bind fun m' =>
        coefficientLoop fuel factorial i m' (c.set (i + 1) (uintx_t.operator_uint32 q))

/-- The loop `for(int j=c[i]; j<i; j++) d[j] = d[j + 1];`; the arguments are the number of
rounds left, `j` and the array `d`. -/
def removeLoop : Nat → Nat → List Nat → List Nat
  | 0, _, d => d
  | c + 1, j, d => removeLoop c (j + 1) (d.set j (d.getD (j + 1) 0))

/-- The loop `for(int i=n-1; i>=0; i--){ m_nMap[i] = d[c[i]]; ... }`; the arguments are
`i + 1`, the array `d` and the map, whose entries are bytes.  The result is `none` where
`d[c[i]]` is read outside the array `d`. -/
def buildLoop (c : List Nat) : Nat → List Nat → List Nat → Option (List Nat)
  | 0, _, m => some m
  | i + 1, d, m =>
    if c.getD i 0 < d.length then
      buildLoop c i (removeLoop (i - c.getD i 0) (c.getD i 0) d)
        (m.set i (d.getD (c.getD i 0) 0 % 256))
    else none

/-- Constructor `CPerm(uint8_t n, uintx_t m)`, the method of Hall and Knuth, for `n >= 1`; the
budget `fuel` is handed to every division and remainder. -/
def ofNumber (fuel : Nat) (n : Nat) (m : uintx_t) : Option CPerm :=
  let factorial := factorialLoop (n - 1) 1 ((List.replicate n []).set 0 (uintx_t.assignInt [] 1))
  let nfactorial := uintx_t.operator_mul_uint32 (factorial.getD (n - 1) []) n
  (uintx_t.operator_mod fuel m nfactorial).bind fun m =>
    (coefficientLoop fuel factorial (n - 1) m (List.replicate n 0)).bind fun c =>
      (buildLoop c n (List.range n) (identity n).m_nMap).map fun map =>
        { m_nMap := map, m_nSize := n }

/-- Constructor `CPerm(uint8_t n, uint8_t init[])`. -/
def ofArray (n : Nat) (init : List Nat) : CPerm :=
  { m_nMap := (List.range n).map fun i => init.getD i 0, m_nSize := n }

/-- The exchange `std::swap(m_nMap[i], m_nMap[j])`. -/
def swap (m : List Nat) (i j : Nat) : List Nat :=
  (m.set i (m.getD j 0)).set j (m.getD i 0)

/-- The loop of `Randomize`; the arguments are the number of rounds left, `i`, the number of
calls of `rng` made so far and the map. -/
def randomizeLoop (size : Nat) (rng : Nat → Nat) : Nat → Nat → Nat → List Nat → List Nat × Nat
  | 0, _, pos, m => (m, pos)
  | c + 1, i, pos, m =>
    let j := (rng pos % 2 ^ 64) % (size - i) + i
    randomizeLoop size rng c (i + 1) (pos + 1) (swap m i j)

/-- The member `Randomize(uint64_t (*rng)(void))`: `rng pos` is the value of the call number
`pos` of the external generator; returns the permutation and the number of calls made. -/
def Randomize (p : CPerm) (rng : Nat → Nat) (pos : Nat) : CPerm × Nat :=
  let r := randomizeLoop p.m_nSize rng (p.m_nSize - 1) 0 pos p.m_nMap
  ({ p with m_nMap := r.1 }, r.2)

/-- The loop of `RandomizeOdd`; the arguments are the number of rounds left, `i`, the number
of calls of `rng` made so far, `nCount` and the map. -/
def randomizeOddLoop (size : Nat) (rng : Nat → Nat) :
    Nat → Nat → Nat → Nat → List Nat → List Nat × Nat × Nat
  | 0, _, pos, nCount, m => (m, pos, nCount)
  | c + 1, i, pos, nCount, m =>
    let j := (rng pos % 2 ^ 64) % (size - i) + i
    if i ≠ j then randomizeOddLoop size rng c (i + 1) (pos + 1) (nCount + 1) (swap m i j)
    else randomizeOddLoop size rng c (i + 1) (pos + 1) nCount m

/-- The member `RandomizeOdd(uint64_t (*rng)(void))`, for `m_nSize >= 2`; the final test is
`if(nCount ^ 1)`. -/
def RandomizeOdd (p : CPerm) (rng : Nat → Nat) (pos : Nat) : CPerm × Nat :=
  let r := randomizeOddLoop p.m_nSize rng (p.m_nSize - 2) 0 pos 0 p.m_nMap
  let m := if r.2.2 ^^^ 1 ≠ 0 then swap r.1 (p.m_nSize - 2) (p.m_nSize - 1) else r.1
  ({ p with m_nMap := m }, r.2.1)

/-- The member `GetSize()`. -/
def GetSize (p : CPerm) : Nat := p.m_nSize

/-- The loop of `IsIdentity`; the arguments are the number of rounds left and `i`. -/
def isIdentityLoop (m : List Nat) : Nat → Nat → Bool
  | 0, _ => true
  | c + 1, i => if m.getD i 0 ≠ i then false else isIdentityLoop m c (i + 1)

/-- The member `IsIdentity()`. -/
def IsIdentity (p : CPerm) : Bool := isIdentityLoop p.m_nMap p.m_nSize 0

/-- The reader `operator[](uint8_t n)`. -/
def get (p : CPerm) (n : Nat) : Nat := p.m_nMap.getD n 0

/-- The loop of `operator*=`: `m_nMap[i] = pmap[m_nMap[i]]`; the arguments are the number of
rounds left, `i` and the map. -/
def composeLoop (pmap : List Nat) : Nat → Nat → List Nat → List Nat
  | 0, _, m => m
  | c + 1, i, m => composeLoop pmap c (i + 1) (m.set i (pmap.getD (m.getD i 0) 0))

/-- Composition `operator*=(const CPerm& p)`, for `p` an object other than `this`. -/
def operator_mul_assign (self p : CPerm) : CPerm :=
  { self with m_nMap := composeLoop p.m_nMap self.m_nSize 0 self.m_nMap }

/-- The inner loop of `GetNum`: `for(j=0; j<i; j++) count += m_nMap[j] < m_nMap[i];`; the
arguments are the number of rounds left, `j` and `count`. -/
def countLoop (m : List Nat) (i : Nat) : Nat → Nat → Nat → Nat
  | 0, _, count => count
  | c + 1, j, count =>
    countLoop m i c (j + 1) (count + if m.getD j 0 < m.getD i 0 then 1 else 0)

/-- The outer loop of `GetNum<uintx_t>`; the arguments are the number of rounds left, `i`, `n`
and `ifactorial`. -/
def getNumLoop (m : List Nat) : Nat → Nat → uintx_t → uintx_t → uintx_t
  | 0, _, n, _ => n
  | c + 1, i, n, ifactorial =>
    let ifactorial := uintx_t.operator_mul_assign ifactorial (uintx_t.ofInt i)
    let count := countLoop m i i 0 0
    getNumLoop m c (i + 1)
      (uintx_t.operator_add_assign n (uintx_t.operator_mul_int ifactorial count)) ifactorial

/-- The member `GetNum<uintx_t>()`: the reverse lexicographic number. -/
def GetNum (p : CPerm) : uintx_t :=
  getNumLoop p.m_nMap (p.m_nSize - 1) 1 (uintx_t.ofInt 0) (uintx_t.ofInt 1)

/-- The image array is a bijection on `0 .. m_nSize - 1`. -/
def IsBijection (p : CPerm) : Prop :=
  p.m_nMap.length = p.m_nSize ∧ p.m_nMap.Nodup ∧ ∀ a ∈ p.m_nMap, a < p.m_nSize

instance (p : CPerm) : Decidable p.IsBijection := by
  unfold IsBijection; infer_instance

end CPerm

/-! ## `CPowerTable`: the table of powers -/

/-- The power table of `PowerTable.h`.  `m_nOrder` counts the entries of `m_stdPower`
(`initLoop` adds one entry with every increment), so the 32-bit counter of the source does not
wrap before the table holds `2 ^ 32` permutations and is a natural number here. -/
structure CPowerTable where
  /-- Table of powers. -/
  m_stdPower : List CPerm
  /-- Order of the underlying permutation. -/
  m_nOrder : Nat
deriving DecidableEq, Repr

namespace CPowerTable

/-- A table as declared, before `Initialize`. -/
def empty : CPowerTable := { m_stdPower := [], m_nOrder := 0 }

/-- The loop of `Initialize`: `while(!q.IsIdentity())`. -/
def initLoop (p : CPerm) : Nat → CPerm → List CPerm → Nat → Option CPowerTable
  | 0, _, _, _ => none
  | fuel + 1, q, power, order =>
    if !q.IsIdentity then
      initLoop p fuel (q.operator_mul_assign p) (power ++ [q]) (order + 1)
    else some { m_stdPower := power, m_nOrder := order }

/-- The member `Initialize(const CPerm& p)`, with a budget of rounds for its loop; the previous
entries are cleared first. -/
def Initialize (fuel : Nat) (t : CPowerTable) (p : CPerm) : Option CPowerTable :=
  let cleared : List CPerm := (t.m_stdPower.drop t.m_stdPower.length)
  initLoop p fuel p (cleared ++ [CPerm.identity p.GetSize]) 1

/-- The member `GetOrder()`. -/
def GetOrder (t : CPowerTable) : Nat := t.m_nOrder

/-- The reader `operator[](int n)`; `none` outside the vector. -/
def get (t : CPowerTable) (n : Nat) : Option CPerm := t.m_stdPower.get? n

end CPowerTable

/-! ## `CCayley`: the engine -/

/-- The table `g_nLandau` of `Cayley.cpp`. -/
def g_nLandau : List Nat :=
  [      1,       1,       2,       3,       4,
         6,       6,      12,      15,      20,
        30,      30,      60,      60,      84,
       105,     140,     210,     210,     420,
       420,     420,     420,     840,     840,
      1260,    1260,    1540,    2310,    2520,
      4620,    4620,    5460,    5460,    9240,
      9240,   13860,   13860,   16380,   16380,
     27720,   30030,   32760,   60060,   60060,
     60060,   60060,  120120,  120120,  180180,
    180180,  180180,  180180,  360360,  360360,
    360360,  360360,  471240,  471240,  556920,
   1021020, 1021020, 1141140, 1141140, 2042040]

/-- The initial delay line of `Cayley.h`. -/
def initialDelayLine : List Nat :=
  [0x57ea5e79bb7b58dc, 0x03198e239ff8ba7d,
   0x7779bd2aeb666379, 0x5de2cf0e048781c3,
   0x89faeceacabe7821, 0xbf5a9b43b4e550ae,
   0x24e37a696814c67e, 0x45e199269f6ad385,
   0xf1df54ec42d8fba8, 0x089f41735277a11d,
   0x602c3888033edae0, 0xc71fee188d41a646,
   0x379121f47085af73, 0x9419d15d410b8eeb,
   0x760744f26b4c05b0, 0x3c68c1fb83c9a47e,
   0xa10d29f01e2f225e, 0x39792d6f9700f5cb,
   0xf5016c43b32d066c, 0x692d0a2cbcc083c0,
   0x229bfc31ea3beeff, 0xe9e6fd8bbf4033b8,
   0x74e8c4ad7bd95bd0, 0xeedb9cede270c79b,
   0x9abd1906822b22ac, 0x3b57c6458e330f89,
   0x7fc8519dfd26353d, 0x2874406cd5a54ba0,
   0x9fe7daf93fe577a2, 0x83d1c7bb3d29cd1f,
   0xbb2d2cbb68483f3d, 0x39af233d402946ec]

/-- The engine of `Cayley.h`. -/
structure CCayley where
  /-- Size of permutations. -/
  m_nSize : Nat
  /-- Order of generators. -/
  m_nOrder : Nat
  /-- Power table of the first generator, `m_nPower[0]`. -/
  m_nPower0 : CPowerTable
  /-- Power table of the second generator, `m_nPower[1]`. -/
  m_nPower1 : CPowerTable
  /-- Current permutation. -/
  m_pCurPerm : CPerm
  /-- Delay line. -/
  m_nDelayLine : List Nat
  /-- Index of last element in delay line. -/
  m_nTail : Nat
deriving DecidableEq, Repr

namespace CCayley

/-- Delay size. -/
def m_nDelay : Nat := 32

/-- Constructor `CCayley(uint32_t n)`; `none` where `assert(n < 64)` fails. -/
def new (n : Nat) : Option CCayley :=
  if n < 64 then
    some { m_nSize := n, m_nOrder := g_nLandau.getD n 0,
           m_nPower0 := CPowerTable.empty, m_nPower1 := CPowerTable.empty,
           m_pCurPerm := CPerm.identity n,
           m_nDelayLine := initialDelayLine, m_nTail := 0 }
  else none

/-- The first `do ... while` of `ChooseGenerators`:
`do{ p.Randomize(rnd); m_nPower[0].Initialize(p); }while(m_nPower[0].GetOrder() < m_nOrder);`.
The arguments are the number of rounds left, `p`, the table and the number of calls of `rnd`
made so far; `fuel` is the budget of every `Initialize`. -/
def chooseFirst (fuel order : Nat) (rnd : Nat → Nat) :
    Nat → CPerm → CPowerTable → Nat → Option (CPerm × CPowerTable × Nat)
  | 0, _, _, _ => none
  | rounds + 1, p, t, pos =>
    let r := p.Randomize rnd pos
    (CPowerTable.Initialize fuel t r.1).bind fun t =>
      if t.GetOrder < order then chooseFirst fuel order rnd rounds r.1 t r.2
      else some (r.1, t, r.2)

/-- The second `do ... while` of `ChooseGenerators`, with `RandomizeOdd`. -/
def chooseSecond (fuel order : Nat) (rnd : Nat → Nat) :
    Nat → CPerm → CPowerTable → Nat → Option (CPerm × CPowerTable × Nat)
  | 0, _, _, _ => none
  | rounds + 1, p, t, pos =>
    let r := p.RandomizeOdd rnd pos
    (CPowerTable.Initialize fuel t r.1).bind fun t =>
      if t.GetOrder < order then chooseSecond fuel order rnd rounds r.1 t r.2
      else some (r.1, t, r.2)

/-- The loop `for(i=0; i<m_nSize; i++) ok = ok && !(p0[i] == i && q0[i] == i);`; the arguments
are the number of rounds left, `i` and `ok`. -/
def fixedPointLoop (p0 q0 : CPerm) : Nat → Nat → Bool → Bool
  | 0, _, ok => ok
  | c + 1, i, ok => fixedPointLoop p0 q0 c (i + 1) (ok && !(p0.get i == i && q0.get i == i))

/-- The loop `while(!ok)` of `ChooseGenerators`; the arguments are the number of rounds left,
`p`, the two tables and the number of calls of `rnd` made so far. -/
def chooseLoop (fuel size order : Nat) (rnd : Nat → Nat) :
    Nat → CPerm → CPowerTable → CPowerTable → Nat → Option (CPowerTable × CPowerTable × Nat)
  | 0, _, _, _, _ => none
  | rounds + 1, p, t0, t1, pos =>
    (chooseFirst fuel order rnd fuel p t0 pos).bind fun r0 =>
      (chooseSecond fuel order rnd fuel r0.1 t1 r0.2.2).bind fun r1 =>
        (r0.2.1.get 1).bind fun p0 =>
          (r1.2.1.get 1).bind fun q0 =>
            if fixedPointLoop p0 q0 size 0 true then some (r0.2.1, r1.2.1, r1.2.2)
            else chooseLoop fuel size order rnd rounds r1.1 r0.2.1 r1.2.1 r1.2.2

/-- The member `ChooseGenerators(uint64_t (*rnd)(void))`, with a budget of rounds for every
loop; returns the engine and the number of calls of `rnd` made. -/
def ChooseGenerators (fuel : Nat) (c : CCayley) (rnd : Nat → Nat) (pos : Nat) :
    Option (CCayley × Nat) :=
  (chooseLoop fuel c.m_nSize c.m_nOrder rnd fuel (CPerm.identity c.m_nSize)
      c.m_nPower0 c.m_nPower1 pos).map
    fun r => ({ c with m_nPower0 := r.1, m_nPower1 := r.2.1 }, r.2.2)

end CCayley

/-! ## Concrete data for the fixed generators and for size 58 -/

namespace Cayley32

/-- Constructor `Cayley32()`: a `CCayley` with permutations of size 32. -/
def new : Option CCayley := CCayley.new 32

/-- The member `Cayley32::ChooseGenerators()`, with a budget of rounds for every loop; `none`
when a loop runs out of rounds or an `assert` fails. -/
def ChooseGenerators (fuel : Nat) (c : CCayley) : Option CCayley :=
  (uintx_t.ofString "350F1C2036E12600512A8400920E").bind fun gen0 =>
    (uintx_t.ofString "EEDC82EE2D472B430D13E5066CD5B").bind fun gen1 =>
      (CPerm.ofNumber fuel 32 gen0).bind fun p0 =>
        (CPowerTable.Initialize fuel c.m_nPower0 p0).bind fun t0 =>
          (CPerm.ofNumber fuel 32 gen1).bind fun p1 =>
            (CPowerTable.Initialize fuel c.m_nPower1 p1).bind fun t1 =>
              if t0.GetOrder = c.m_nOrder ∧ t1.GetOrder = c.m_nOrder then
                some { c with m_nPower0 := t0, m_nPower1 := t1 }
              else none

/-- The words of the number `0x350F1C2036E12600512A8400920E`. -/
def gen0Words : List Nat := [2214629902, 637554986, 471873249, 13583]

/-- The words of the number `0xEEDC82EE2D472B430D13E5066CD5B`. -/
def gen1Words : List Nat := [1348914523, 3023098174, 786617458, 978376]

/-- The image array of the first fixed generator. -/
def gen0Perm : CPerm :=
  { m_nMap := [24, 4, 15, 21, 29, 16, 11, 12, 7, 8, 19, 13, 18, 6, 28, 1, 27, 25, 31, 17, 3, 14, 9,
    26, 30, 10, 20, 22, 23, 2, 5, 0],
    m_nSize := 32 }

/-- The image array of the second fixed generator. -/
def gen1Perm : CPerm :=
  { m_nMap := [4, 10, 1, 22, 16, 8, 12, 27, 20, 19, 3, 24, 28, 25, 23, 26, 7, 0, 17, 21, 5, 30, 2,
    31, 13, 18, 11, 15, 29, 6, 14, 9],
    m_nSize := 32 }

/-- The length of the cycle of every point under `gen0Perm`. -/
def gen0Cycles : List Nat := [13, 5, 5, 7, 5, 13, 3, 13, 13, 13, 4, 3, 13, 3, 7, 5, 13, 4, 13, 4,
    7, 7, 13, 7, 13, 4, 7, 13, 7, 5, 13, 13]

/-- The length of the cycle of every point under `gen1Perm`. -/
def gen1Cycles : List Nat := [13, 5, 5, 5, 13, 3, 4, 13, 3, 7, 5, 13, 4, 13, 7, 13, 13, 13, 13, 7,
    3, 7, 5, 7, 13, 13, 13, 13, 4, 4, 7, 7]

end Cayley32

namespace CCayley

/-- A permutation of 58 points with cycles of length 8, 9, 5, 7, 11 and 17 and one fixed
point. -/
def first58 : CPerm :=
  { m_nMap := [1, 2, 3, 4, 5, 6, 7, 0, 9, 10, 11, 12, 13, 14, 15, 16, 8, 18, 19, 20, 21, 17, 23,
    24, 25, 26, 27, 28, 22, 30, 31, 32, 33, 34, 35, 36, 37, 38, 39, 29, 41, 42, 43, 44, 45, 46, 47,
    48, 49, 50, 51, 52, 53, 54, 55, 56, 40, 57],
    m_nSize := 58 }

/-- A permutation of 58 points with cycles of length 2, 3, 5, 7, 11, 13 and 17. -/
def second58 : CPerm :=
  { m_nMap := [27, 32, 22, 11, 48, 38, 13, 16, 49, 2, 3, 19, 29, 24, 17, 34, 4, 47, 10, 52, 42, 12,
    9, 39, 41, 57, 43, 44, 53, 35, 28, 7, 46, 21, 50, 15, 8, 40, 45, 5, 20, 30, 14, 33, 1, 23, 37,
    0, 51, 6, 55, 54, 56, 31, 36, 26, 18, 25],
    m_nSize := 58 }

/-- The length of the cycle of every point under `first58`. -/
def first58Cycles : List Nat := [8, 8, 8, 8, 8, 8, 8, 8, 9, 9, 9, 9, 9, 9, 9, 9, 9, 5, 5, 5, 5, 5,
    7, 7, 7, 7, 7, 7, 7, 11, 11, 11, 11, 11, 11, 11, 11, 11, 11, 11, 17, 17, 17, 17, 17, 17, 17,
    17, 17, 17, 17, 17, 17, 17, 17, 17, 17, 1]

/-- The length of the cycle of every point under `second58`. -/
def second58Cycles : List Nat := [13, 13, 3, 7, 17, 5, 17, 17, 17, 3, 7, 7, 11, 17, 13, 11, 17, 13,
    7, 7, 13, 11, 3, 5, 17, 2, 11, 13, 17, 11, 17, 17, 13, 11, 11, 11, 17, 13, 5, 5, 13, 17, 13,
    11, 13, 5, 13, 13, 17, 17, 11, 17, 7, 17, 17, 11, 7, 2]

/-- The outputs of an external generator that lead `Randomize` from the identity to `first58` and
then `RandomizeOdd` to `second58`; every later output is 0. -/
def stream58 : List Nat := [1, 1, 1, 1, 1, 1, 1, 0, 1, 1, 1, 1, 1, 1, 1, 1, 0, 1, 1, 1, 1, 0, 1, 1,
    1, 1, 1, 1, 0, 1, 1, 1, 1, 1, 1, 1, 1, 1, 1, 0, 1, 1, 1, 1, 1, 1, 1, 1, 1, 1, 1, 1, 1, 1, 1, 1,
    0, 26, 30, 26, 7, 43, 32, 6, 8, 40, 22, 18, 7, 27, 10, 7, 18, 12, 29, 13, 32, 21, 10, 26, 15,
    16, 32, 16, 16, 24, 5, 13, 8, 13, 8, 15, 4, 16, 19, 6, 8, 11, 8, 2, 2, 0, 3, 6, 2, 2, 7, 4, 2,
    3, 1, 2, 2]

/-- The external generator that returns the entries of `stream58` in turn. -/
def rnd58 (i : Nat) : Nat := stream58.getD i 0

end CCayley

/-! ## The step and the output of the engine -/

namespace CPerm

/-- The assignment `operator=(const CPerm& p)`: `assert(p.m_nSize == m_nSize)`, then `memcpy` of
`m_nSize` entries; `none` where the assertion fails. -/
def operator_assign (self p : CPerm) : Option CPerm :=
  if p.m_nSize = self.m_nSize then
    some { self with m_nMap := (List.range self.m_nSize).map fun i => p.m_nMap.getD i 0 }
  else none

end CPerm

namespace CCayley

/-- The member `NextPerm()`.  Its local `static unsigned int i`, the generator parity, belongs to
the function and not to the engine: it is passed in and handed back.  The result is `none` where
`m_nOrder` is 0 or the power table is read outside its vector. -/
def NextPerm (c : CCayley) (i : Nat) : Option (CCayley × Nat) :=
  if c.m_nOrder = 0 then none
  else
    let n := (c.m_nDelayLine.getD c.m_nTail 0 % c.m_nOrder) % 2 ^ 32
    let table := if i = 0 then some c.m_nPower0 else if i = 1 then some c.m_nPower1 else none
    table.bind fun t =>
      (t.get n).map fun g =>
        ({ c with m_pCurPerm := c.m_pCurPerm.operator_mul_assign g }, (i ^^^ 1) % 2 ^ 32)

/-- The member `srand(uint64_t (*rand)(void))`: `ChooseGenerators(rand)`, then
`m_pCurPerm->Randomize(rand)`. -/
def srand (fuel : Nat) (c : CCayley) (rnd : Nat → Nat) (pos : Nat) : Option (CCayley × Nat) :=
  (ChooseGenerators fuel c rnd pos).map fun r =>
    let q := r.1.m_pCurPerm.Randomize rnd r.2
    ({ r.1 with m_pCurPerm := q.1 }, q.2)

end CCayley

namespace Cayley32e

/-- Constructor `Cayley32e()`: a `CCayley` with permutations of size 32. -/
def new : Option CCayley := CCayley.new 32

/-- The 64-bit word `num` of `rand()`: the exclusive or of the products of the map entries
with the 32 fixed strings.  Every product is reduced modulo `2 ^ 64`, the wrap of the 64-bit
multiplication; a string below `2 ^ 63` is a signed 64-bit literal in the source, and its
product is taken with the same two's complement wrap. -/
def num (perm : CPerm) : Nat :=
      ((perm.get 0 * 0x0d7e11b44d8e8161) % 2 ^ 64) ^^^ ((perm.get 1 * 0x3d43a82e494a9972) % 2 ^ 64) ^^^
      ((perm.get 2 * 0x71b941e4c1557ec7) % 2 ^ 64) ^^^ ((perm.get 3 * 0x56bf34559248d37c) % 2 ^ 64) ^^^
      ((perm.get 4 * 0x445db48764d3c5c8) % 2 ^ 64) ^^^ ((perm.get 5 * 0xd2b96a4ba16b5c56) % 2 ^ 64) ^^^
      ((perm.get 6 * 0xb2bbaa127223e3da) % 2 ^ 64) ^^^ ((perm.get 7 * 0x3232fd669cd2918e) % 2 ^ 64) ^^^
      ((perm.get 8 * 0x331d3d1bd619e971) % 2 ^ 64) ^^^ ((perm.get 9 * 0x74b3680644295539) % 2 ^ 64) ^^^
      ((perm.get 10 * 0xb491addfb1af0f5b) % 2 ^ 64) ^^^ ((perm.get 11 * 0xa3caa6455b313d54) % 2 ^ 64) ^^^
      ((perm.get 12 * 0xb6257e45a726fa52) % 2 ^ 64) ^^^ ((perm.get 13 * 0xd413cd54747f43b1) % 2 ^ 64) ^^^
      ((perm.get 14 * 0x706873eeb3583e05) % 2 ^ 64) ^^^ ((perm.get 15 * 0x3fd0d37b7f24589c) % 2 ^ 64) ^^^
      ((perm.get 16 * 0xc04cb886d76abce0) % 2 ^ 64) ^^^ ((perm.get 17 * 0x3ecfdec3d519aedd) % 2 ^ 64) ^^^
      ((perm.get 18 * 0xbb4f1bccb25c3e51) % 2 ^ 64) ^^^ ((perm.get 19 * 0xb1b80c550732d50f) % 2 ^ 64) ^^^
      ((perm.get 20 * 0x7c5015c795b5c8c2) % 2 ^ 64) ^^^ ((perm.get 21 * 0xb2d8190706c770a8) % 2 ^ 64) ^^^
      ((perm.get 22 * 0x0d7e11b44d8e8161) % 2 ^ 64) ^^^ ((perm.get 23 * 0x3d43a82e494a9972) % 2 ^ 64) ^^^
      ((perm.get 24 * 0x71b941e4c1557ec7) % 2 ^ 64) ^^^ ((perm.get 25 * 0x56bf34559248d37c) % 2 ^ 64) ^^^
      ((perm.get 26 * 0x445db48764d3c5c8) % 2 ^ 64) ^^^ ((perm.get 27 * 0xd2b96a4ba16b5c56) % 2 ^ 64) ^^^
      ((perm.get 28 * 0xb2bbaa127223e3da) % 2 ^ 64) ^^^ ((perm.get 29 * 0x3232fd669cd2918e) % 2 ^ 64) ^^^
      ((perm.get 30 * 0x331d3d1bd619e971) % 2 ^ 64) ^^^ ((perm.get 31 * 0x74b3680644295539) % 2 ^ 64)

/-- The member `rand()`: `NextPerm()`, then `num` enters the delay line at `m_nTail`, the tail
advances modulo `m_nDelay`, and `num ^ m_nDelayLine[m_nTail]` is returned.  The second argument
and the last component of the result are the parity of `NextPerm`. -/
def rand (c : CCayley) (i : Nat) : Option (Nat × CCayley × Nat) :=
  (c.NextPerm i).map fun r =>
    let line := r.1.m_nDelayLine.set r.1.m_nTail (num r.1.m_pCurPerm)
    let tail := (r.1.m_nTail + 1) % CCayley.m_nDelay
    (num r.1.m_pCurPerm ^^^ line.getD tail 0,
      { r.1 with m_nDelayLine := line, m_nTail := tail }, r.2)

/-- The outcome of `k` successive calls of `rand()`: the values returned, the engine and the
parity. -/
def randLoop : Nat → CCayley → Nat → Option (List Nat × CCayley × Nat)
  | 0, c, i => some ([], c, i)
  | k + 1, c, i =>
    (rand c i).bind fun r =>
      (randLoop k r.2.1 r.2.2).map fun s => (r.1 :: s.1, s.2.1, s.2.2)

end Cayley32e

namespace Cayley32

/-- The member `srand(uintx_t& seed)`: `ChooseGenerators()`, then
`*m_pCurPerm = CPerm(32, seed)`. -/
def srand (fuel : Nat) (c : CCayley) (seed : uintx_t) : Option CCayley :=
  (ChooseGenerators fuel c).bind fun c1 =>
    (CPerm.ofNumber fuel 32 seed).bind fun p =>
      (c1.m_pCurPerm.operator_assign p).map fun q => { c1 with m_pCurPerm := q }

end Cayley32

namespace Cayley32e

/-- The 32 fixed strings of `rand()`, in the order of the map entries they multiply. -/
def keys : List Nat :=
  [0x0d7e11b44d8e8161, 0x3d43a82e494a9972, 0x71b941e4c1557ec7, 0x56bf34559248d37c,
   0x445db48764d3c5c8, 0xd2b96a4ba16b5c56, 0xb2bbaa127223e3da, 0x3232fd669cd2918e,
   0x331d3d1bd619e971, 0x74b3680644295539, 0xb491addfb1af0f5b, 0xa3caa6455b313d54,
   0xb6257e45a726fa52, 0xd413cd54747f43b1, 0x706873eeb3583e05, 0x3fd0d37b7f24589c,
   0xc04cb886d76abce0, 0x3ecfdec3d519aedd, 0xbb4f1bccb25c3e51, 0xb1b80c550732d50f,
   0x7c5015c795b5c8c2, 0xb2d8190706c770a8, 0x0d7e11b44d8e8161, 0x3d43a82e494a9972,
   0x71b941e4c1557ec7, 0x56bf34559248d37c, 0x445db48764d3c5c8, 0xd2b96a4ba16b5c56,
   0xb2bbaa127223e3da, 0x3232fd669cd2918e, 0x331d3d1bd619e971, 0x74b3680644295539]

/-- The exclusive or over `i = 0..31` of `perm[i] * keys[i]` modulo `2 ^ 64`. -/
def numSpec (perm : CPerm) : Nat :=
  (List.range 32).foldl (fun a i => a ^^^ (perm.get i * keys.getD i 0) % 2 ^ 64) 0

end Cayley32e

namespace CPerm

/-- The number of inversions of a map: the pairs `i < j` with `m[i] > m[j]`. -/
def inversions : List Nat → Nat
  | [] => 0
  | a :: l => (l.filter fun b => decide (b < a)).length + inversions l

end CPerm

/-! ## Equality, bitwise operators, casts and strings of the long integers -/

namespace uintx_t

/-- The word scan of `operator==`, from index `i - 1` down to `0`. -/
def eqLoop (x y : List Nat) : Nat → Bool
  | 0 => true
  | i + 1 => if x.getD i 0 ≠ y.getD i 0 then false else eqLoop x y i

/-- Equality `operator==(uintx_t x, uintx_t y)`. -/
def operator_eq (x y : uintx_t) : Bool :=
  if x.length ≠ y.length then false else eqLoop x y x.length

/-- Unequality `operator!=(uintx_t x, uintx_t y)`. -/
def operator_ne (x y : uintx_t) : Bool := !operator_eq x y

/-- The loop of `operator&(uintx_t x, const uintx_t& y)`; the arguments are the number of rounds
left, `i` and the array of `x`. -/
def andLoop (y : uintx_t) : Nat → Nat → List Nat → List Nat
  | 0, _, d => d
  | n + 1, i, d => andLoop y n (i + 1) (d.set i (d.getD i 0 &&& y.getD i 0))

/-- Bitwise and `operator&(uintx_t x, const uintx_t& y)`: the loop runs over the first
`min(x.m_nSize, y.m_nSize)` words of `x`. -/
def operator_and (x y : uintx_t) : uintx_t := andLoop y (min x.length y.length) 0 x

/-- The loop of `operator|(uintx_t x, const uintx_t& y)`. -/
def orLoop (y : uintx_t) : Nat → Nat → List Nat → List Nat
  | 0, _, d => d
  | n + 1, i, d => orLoop y n (i + 1) (d.set i (d.getD i 0 ||| y.getD i 0))

/-- Bitwise or `operator|(uintx_t x, const uintx_t& y)`: the loop runs over the first
`min(x.m_nSize, y.m_nSize)` words of `x`. -/
def operator_or (x y : uintx_t) : uintx_t := orLoop y (min x.length y.length) 0 x

/-- Cast `operator uint64_t()`: `(uint64_t(m_pData[1]) << 32) | m_pData[0]`; `none` where a word
is read that the array does not have. -/
def operator_uint64 (x : uintx_t) : Option Nat :=
  if 2 ≤ x.length then some (((x.getD 1 0 <<< 32) % 2 ^ 64) ||| x.getD 0 0) else none

/-- Assignment `operator=(const char* s)`: `reallocate`, then `loadstring`. -/
def operator_assign_string (x : uintx_t) (s : String) : Option uintx_t :=
  loadstring (reallocate x ((s.length + HalfBytesInWord - 1) / HalfBytesInWord)).length s

/-- The character of a hexadecimal digit in `GetString`:
`char(digit + (digit < 10? '0': 'A' - 10))`. -/
def hexChar (digit : Nat) : Char :=
  Char.ofNat (digit + (if digit < 10 then '0'.toNat else 'A'.toNat - 10))

/-- The inner loop of `GetString`: the digits of the word `n`, least significant first; the
first argument is the number of rounds left. -/
def wordDigits : Nat → Nat → List Char
  | 0, _ => []
  | k + 1, n => hexChar (n &&& 0xF) :: wordDigits k (n >>> 4)

/-- The loop of `GetString` that removes leading zeros from the backwards string: while the
iterator at the last character is not `begin()` and reads `'0'`, the last character is popped;
the first argument is the number of rounds left. -/
def stripZeros : Nat → List Char → List Char
  | 0, s => s
  | k + 1, s => if 1 < s.length ∧ s.getLast? = some '0' then stripZeros k s.dropLast else s

/-- The member `GetString()`.  On an array without words the backwards string is empty and
`std::prev(s.end())` is not an iterator of it: `none`. -/
def GetString (x : uintx_t) : Option String :=
  if x.length = 0 then none
  else
    let s := x.flatMap (wordDigits (2 * 4))
    let s := stripZeros s.length s
    let s := if s = [] then ['0'] else s
    some (String.mk s.reverse)

end uintx_t

/-! ## Equality of permutations and the right shift operator -/

namespace CPerm

/-- The loop of `operator==(const CPerm&, const CPerm&)`:
`for(uint8_t i=0; i<p0.m_nSize && ok; i++) ok = ok && (p0.m_nMap[i] == p1.m_nMap[i]);`; the
arguments are the number of rounds left, `i` and `ok`. -/
def equalLoop (m0 m1 : List Nat) : Nat → Nat → Bool → Bool
  | 0, _, ok => ok
  | c + 1, i, ok =>
    if ok then equalLoop m0 m1 c (i + 1) (ok && (m0.getD i 0 == m1.getD i 0)) else ok

/-- The operator `operator==(const CPerm& p0, const CPerm& p1)`; `none` where
`assert(p0.m_nSize == p1.m_nSize)` fails. -/
def operator_eq (p0 p1 : CPerm) : Option Bool :=
  if p0.m_nSize = p1.m_nSize then some (equalLoop p0.m_nMap p1.m_nMap p0.m_nSize 0 true)
  else none

/-- The operator `operator!=(const CPerm& p0, const CPerm& p1)`: `!(p0 == p1)`. -/
def operator_ne (p0 p1 : CPerm) : Option Bool :=
  (operator_eq p0 p1).map fun b => !b

end CPerm

namespace uintx_t

/-- The value of `newsize` in `operator>>=`, an `int`; the last loop of the operator,
`for(int i=newsize; i<m_nSize; i++) m_pData[i] = 0;`, starts at this index. -/
def shrNewsize (x : uintx_t) (distance : Nat) : Int :=
  Int.tdiv ((bitcount x : Int) - distance + BitsInWord - 1) BitsInWord

/-- The operator `operator>>(uintx_t x, int d)`, which returns `x >>= d`, for `d >= 0`; `none`
where the last loop of `operator>>=` writes below index `0` of the array. -/
def operator_shr (x : uintx_t) (d : Nat) : Option uintx_t :=
  if shrNewsize x d < 0 then none else some (operator_shr_assign x d)

end uintx_t

/-! ## Composition on one object and the left shift operator -/

namespace CPerm

/-- The loop of `operator*=` when the argument is the object itself (`p *= p`): `pmap` is then
the array that is being written, so `m_nMap[i] = pmap[m_nMap[i]]` reads entries that earlier
rounds have replaced.  The arguments are the number of rounds left, `i` and the map. -/
def selfLoop : Nat → Nat → List Nat → List Nat
  | 0, _, m => m
  | c + 1, i, m => selfLoop c (i + 1) (m.set i (m.getD (m.getD i 0) 0))

/-- Composition `operator*=(const CPerm& p)` called as `p *= p`, on one object. -/
def operator_mul_assign_self (p : CPerm) : CPerm :=
  { p with m_nMap := selfLoop p.m_nSize 0 p.m_nMap }

end CPerm

namespace uintx_t

/-- The value of an `int` expression whose mathematical value is `v`: the 32-bit two's
complement wrap.  The overflow of a signed sum is undefined in the language; the wrap is what
the compiled code computes. -/
def wrapInt (v : Int) : Int := (v + 2 ^ 31) % 2 ^ 32 - 2 ^ 31

/-- The operator `operator<<(uintx_t x, int d)`, which returns `x <<= d`, for
`0 <= d < 2^31`, with the argument of `grow` computed in `int` as the source does:
`(this->bitcount() + distance + BitsInWord - 1)/BitsInWord`, a division that truncates toward
zero.  `grow(s)` changes nothing unless `m_nSize <= s`, so nothing for a negative `s`; the
loops that follow are those of `operator_shl_assign`. -/
def operator_shl (x : uintx_t) (distance : Nat) : uintx_t :=
  if operator_gt_int x 0 then
    let oldsize := x.length
    let size : Int :=
      Int.tdiv (wrapInt ((bitcount x : Int) + distance + BitsInWord - 1)) BitsInWord
    let d := if 0 ≤ size then grow x size.toNat else x
    let k := distance / BitsInWord
    let d := shlWords oldsize k (d.length - k) d
    let d := shlZero (if k ≤ d.length then k else d.length) d
    let s := distance % BitsInWord
    if s > 0 then shlBits s d.length d else d
  else x

end uintx_t

/-! ## Specification-level functions used in the proofs -/

namespace uintx_t

/-- One round of the word loop of `operator-=`: the difference word and the borrow. -/
def subWord (l r : Nat) (borrow : Bool) : Nat × Bool :=
  let right' := if borrow then (r + 1) % 2 ^ 32 else r
  let borrow' := if borrow then decide (right' = 0) else borrow
  let borrow'' := if l < right' then true else borrow'
  ((l + 2 ^ 32 - right') % 2 ^ 32, borrow'')

/-- One word of the bit loop of `operator<<=`: the word `a` shifted, with the top bits of the
word `p` below it. -/
def shlWord (s a p : Nat) : Nat := (a <<< s) % 2 ^ 32 ||| (p >>> (BitsInWord - s))

/-- The words of a list shifted left by `s` bits, `p` being the word below the list. -/
def shlSpec (s : Nat) : Nat → List Nat → List Nat
  | _, [] => []
  | p, a :: l => shlWord s a p :: shlSpec s a l

/-- One word of the bit loop of `operator>>=`: the word `a` shifted, with the low bits of the
word `nx` above it. -/
def shrWord (s a nx : Nat) : Nat := a >>> s ||| ((nx <<< (BitsInWord - s)) % 2 ^ 32)

/-- The words of a list shifted right by `s` bits. -/
def shrSpec (s : Nat) : List Nat → List Nat
  | [] => []
  | a :: l => shrWord s a (l.headD 0) :: shrSpec s l

end uintx_t

namespace CPerm

open uintx_t

/-- The mixed-radix digits of `v`: digit `j` is `v mod (j+1)!` divided by `j!`. -/
def digits (n v : Nat) : List Nat :=
  (List.range n).map fun j => v % (j + 1).factorial / j.factorial

/-- The number of entries before index `i` that are smaller than entry `i`. -/
def countLt (m : List Nat) (i : Nat) : Nat :=
  (m.take i).countP fun a => decide (a < m.getD i 0)

/-- The rank of an image array: the sum over `i` of `countLt m i` times `i!`. -/
def rankVal (m : List Nat) : Nat :=
  ∑ i in Finset.range m.length, countLt m i * i.factorial

/-- The map the last loop of the constructor builds from the coefficients `c` and the list
`live` of the values still unused: entry `i` is the value at place `c[i]` of the list, which is
then removed. -/
def unrankSpec (c : List Nat) : Nat → List Nat → List Nat
  | 0, _ => []
  | i + 1, live =>
    unrankSpec c i (live.eraseIdx (c.getD i 0)) ++ [live.getD (c.getD i 0) 0]

/-- The permutation `p` composed with itself `k` times by `operator*=`, starting from the
identity. -/
def pow (p : CPerm) : Nat → CPerm
  | 0 => identity p.m_nSize
  | k + 1 => (pow p k).operator_mul_assign p

end CPerm

namespace uintx_t

instance (x : List Nat) : Decidable (WF x) := by
  unfold WF; infer_instance

instance (x : List Nat) : Decidable (Normalized x) := by
  unfold Normalized; infer_instance

instance (x : List Nat) : Decidable (Canonical x) := by
  unfold Canonical; infer_instance

end uintx_t

namespace CPerm

open uintx_t

/-- The image of `i` after `c` applications of the map `m`. -/
def iter (m : List Nat) : Nat → Nat → Nat
  | 0, i => i
  | c + 1, i => m.getD (iter m c i) 0

end CPerm

namespace CCayley

/-- What a seeded engine of size 32 satisfies: a positive 32-bit order, two power tables of
bijections of size 32 with at least `m_nOrder` entries each, a bijection of size 32 as current
permutation, a delay line of 32 words of 64 bits and a tail below 32. -/
def Seeded (c : CCayley) : Prop :=
  c.m_nSize = 32 ∧ 0 < c.m_nOrder ∧ c.m_nOrder < 2 ^ 32 ∧
  (c.m_nOrder ≤ c.m_nPower0.m_stdPower.length ∧
    ∀ g ∈ c.m_nPower0.m_stdPower, g.IsBijection ∧ g.m_nSize = 32) ∧
  (c.m_nOrder ≤ c.m_nPower1.m_stdPower.length ∧
    ∀ g ∈ c.m_nPower1.m_stdPower, g.IsBijection ∧ g.m_nSize = 32) ∧
  (c.m_pCurPerm.IsBijection ∧ c.m_pCurPerm.m_nSize = 32) ∧
  (c.m_nDelayLine.length = 32 ∧ ∀ v ∈ c.m_nDelayLine, v < 2 ^ 64) ∧ c.m_nTail < 32

end CCayley

namespace Cayley32

/-- The engine `Cayley32` after `srand(1)` on a new engine. -/
def seededOne : CCayley :=
  { m_nSize := 32, m_nOrder := 5460,
    m_nPower0 := ⟨(List.range 5460).map (CPerm.pow gen0Perm), 5460⟩,
    m_nPower1 := ⟨(List.range 5460).map (CPerm.pow gen1Perm), 5460⟩,
    m_pCurPerm :=
      ⟨[30, 31, 29, 28, 27, 26, 25, 24, 23, 22, 21, 20, 19, 18, 17, 16, 15, 14, 13, 12, 11, 10,
        9, 8, 7, 6, 5, 4, 3, 2, 1, 0], 32⟩,
    m_nDelayLine := initialDelayLine, m_nTail := 0 }

/-- The current permutation of `seededOne` after a step with the first generator. -/
def stepZero : CPerm :=
  ⟨[22, 5, 4, 21, 7, 28, 25, 27, 14, 12, 20, 23, 19, 30, 17, 8, 2, 3, 11, 24, 6, 10, 18, 31, 0,
    13, 9, 1, 26, 29, 15, 16], 32⟩

/-- The current permutation of `seededOne` after a step with the second generator. -/
def stepOne : CPerm :=
  ⟨[19, 14, 29, 28, 24, 25, 4, 17, 30, 3, 9, 8, 31, 16, 7, 26, 13, 21, 0, 12, 18, 1, 23, 5, 11,
    6, 20, 15, 10, 22, 2, 27], 32⟩

end Cayley32

namespace CPerm

open uintx_t

/-- The reduced draws `rng_k mod (size - (i + k))` of `c` rounds of `Randomize` that start at
index `i` with the call number `pos` of the generator. -/
def draws (size : Nat) (rng : Nat → Nat) : Nat → Nat → Nat → List Nat
  | _, _, 0 => []
  | pos, i, c + 1 => (rng pos % 2 ^ 64) % (size - i) :: draws size rng (pos + 1) (i + 1) c

/-- The exchanges of `Randomize` for a list of reduced draws, from index `i` on. -/
def shuffle : Nat → List Nat → List Nat → List Nat
  | _, [], m => m
  | i, d :: ds, m => shuffle (i + 1) ds (swap m i (i + d))

/-- A list of draws for the indices `i, i + 1, ...` of a map of size `n`: the draw for index
`k` is below `n - k`. -/
def ValidDraws (n : Nat) : Nat → List Nat → Prop
  | _, [] => True
  | i, d :: ds => d < n - i ∧ ValidDraws n (i + 1) ds

end CPerm

namespace uintx_t

/-- The `k` least significant hexadecimal digits of `v`, least significant first. -/
def nibbles : Nat → Nat → List Nat
  | 0, _ => []
  | k + 1, v => v % 16 :: nibbles k (v / 16)

/-- The number with the hexadecimal digits `l`, least significant first. -/
def hexValue : List Nat → Nat
  | [] => 0
  | d :: l => d + 16 * hexValue l

/-- The characters of `GetString`: the decimal digits and the capitals `A` to `F`. -/
def upperHex : List Char := "0123456789ABCDEF".toList

/-- The hexadecimal digits, capitals first. -/
def hexChars : List Char := "0123456789ABCDEFabcdef".toList

/-- The value of a hexadecimal digit in the usual reading: its place among `0123456789ABCDEF`,
and 10 to 15 for `a` to `f`. -/
def digitValue (c : Char) : Nat :=
  if hexChars.indexOf c < 16 then hexChars.indexOf c else hexChars.indexOf c - 6

/-- The number a string denotes in base 16, most significant digit first. -/
def hexNumber (cs : List Char) : Nat :=
  cs.foldl (fun acc c => 16 * acc + digitValue c) 0

end uintx_t

namespace Cayley32e

/-- The word `num` of call `j` of `rand()` (calls counted from 0) on the engine `c` with
parity `i`: the mixed word of the current permutation after `j + 1` calls. -/
def rawWord (c : CCayley) (i j : Nat) : Nat :=
  match randLoop (j + 1) c i with
  | some r => num r.2.1.m_pCurPerm
  | none => 0

end Cayley32e

/-! ## Lemmas -/

/-! ## Word lists and their values -/

namespace uintx_t

theorem getD_set (d : List Nat) (i j v : Nat) :
    (d.set i v).getD j 0 = if i = j ∧ i < d.length then v else d.getD j 0 := by
  simp only [List.getD_eq_getElem?_getD, List.getElem?_set]
  by_cases h : i = j
  · subst h
    by_cases h2 : i < d.length
    · simp [h2]
    · simp [h2, List.getElem?_eq_none (not_lt.mp h2)]
  · simp [h]

theorem value_nil : value [] = 0 := rfl

theorem value_cons (a : Nat) (l : List Nat) : value (a :: l) = a + 2 ^ 32 * value l := rfl

theorem value_append (a b : List Nat) :
    value (a ++ b) = value a + 2 ^ (32 * a.length) * value b := by
  induction a with
  | nil => simp [value]
  | cons x l ih =>
    simp only [List.cons_append, value_cons, ih, List.length_cons]
    rw [show 32 * (l.length + 1) = 32 + 32 * l.length by ring, pow_add]
    ring

theorem value_replicate_zero (n : Nat) : value (List.replicate n 0) = 0 := by
  induction n with
  | zero => rfl
  | succ n ih => simp [List.replicate_succ, value_cons, ih]

theorem WF_nil : WF [] := by intro a h; simp at h

theorem WF_cons {a : Nat} {l : List Nat} : WF (a :: l) ↔ a < 2 ^ 32 ∧ WF l := by
  simp [WF]

theorem WF_append {a b : List Nat} : WF (a ++ b) ↔ WF a ∧ WF b := by
  simp only [WF, List.mem_append]
  constructor
  · intro h; exact ⟨fun x hx => h x (Or.inl hx), fun x hx => h x (Or.inr hx)⟩
  · rintro ⟨h1, h2⟩ x (hx | hx)
    · exact h1 x hx
    · exact h2 x hx

theorem WF_replicate_zero (n : Nat) : WF (List.replicate n 0) := by
  intro a h
  rw [List.mem_replicate] at h
  rw [h.2]; exact Nat.two_pow_pos 32

theorem WF_set {d : List Nat} (h : WF d) (i : Nat) {v : Nat} (hv : v < 2 ^ 32) :
    WF (d.set i v) := by
  intro a ha
  rcases List.mem_or_eq_of_mem_set ha with h1 | h1
  · exact h a h1
  · rw [h1]; exact hv

theorem WF_take {d : List Nat} (h : WF d) (n : Nat) : WF (d.take n) :=
  fun a ha => h a (List.mem_of_mem_take ha)

theorem WF_drop {d : List Nat} (h : WF d) (n : Nat) : WF (d.drop n) :=
  fun a ha => h a (List.mem_of_mem_drop ha)

theorem WF_getD {d : List Nat} (h : WF d) (i : Nat) : d.getD i 0 < 2 ^ 32 := by
  rw [List.getD_eq_getElem?_getD]
  by_cases hi : i < d.length
  · rw [List.getElem?_eq_getElem hi]
    exact h _ (List.getElem_mem hi)
  · rw [List.getElem?_eq_none (not_lt.mp hi)]
    exact Nat.two_pow_pos 32

theorem value_lt {d : List Nat} (h : WF d) : value d < 2 ^ (32 * d.length) := by
  induction d with
  | nil => simp [value]
  | cons a l ih =>
    rw [WF_cons] at h
    have := ih h.2
    simp only [value_cons, List.length_cons]
    rw [show 32 * (l.length + 1) = 32 + 32 * l.length by ring, pow_add]
    have h1 : 2 ^ 32 * (value l + 1) ≤ 2 ^ 32 * 2 ^ (32 * l.length) :=
      Nat.mul_le_mul_left _ this
    have := h.1
    linarith

/-- Changing one word changes the value by the difference of the words at that place. -/
theorem value_set (d : List Nat) (i v : Nat) (hi : i < d.length) :
    value (d.set i v) + d.getD i 0 * 2 ^ (32 * i) = value d + v * 2 ^ (32 * i) := by
  induction d generalizing i with
  | nil => simp at hi
  | cons a l ih =>
    cases i with
    | zero => simp [value_cons]; ring
    | succ i =>
      simp only [List.set_cons_succ, value_cons, List.getD_cons_succ]
      have := ih i (by simpa using hi)
      rw [show 32 * (i + 1) = 32 + 32 * i by ring, pow_add]
      linarith

theorem value_take_add_drop (d : List Nat) (n : Nat) :
    value (d.take n) + 2 ^ (32 * min n d.length) * value (d.drop n) = value d := by
  have := value_append (d.take n) (d.drop n)
  rw [List.take_append_drop, List.length_take] at this
  exact this.symm

theorem value_eq_zero_iff {d : List Nat} : value d = 0 ↔ ∀ a ∈ d, a = 0 := by
  induction d with
  | nil => simp [value]
  | cons a l ih =>
    simp only [value_cons, List.mem_cons, forall_eq_or_imp]
    constructor
    · intro h
      have h1 : a = 0 := by omega
      have h2 : value l = 0 := by
        have : 2 ^ 32 * value l = 0 := by omega
        rcases Nat.mul_eq_zero.mp this with h3 | h3
        · exact absurd h3 (by norm_num)
        · exact h3
      exact ⟨h1, ih.mp h2⟩
    · rintro ⟨h1, h2⟩
      rw [h1, ih.mpr h2]; rfl

/-- Two well-formed word lists of one length with one value are equal. -/
theorem eq_of_length_of_value {x y : List Nat} (hx : WF x) (hy : WF y) (hl : x.length = y.length)
    (hv : value x = value y) : x = y := by
  induction x generalizing y with
  | nil =>
    cases y with
    | nil => rfl
    | cons b l => simp at hl
  | cons a l ih =>
    cases y with
    | nil => simp at hl
    | cons b l2 =>
      rw [WF_cons] at hx hy
      simp only [value_cons] at hv
      have h1 := hx.1
      have h2 := hy.1
      have ha : a = b := by omega
      have hv2 : value l = value l2 := by omega
      rw [ha, ih hx.2 hy.2 (by simpa using hl) hv2]

theorem drop_last (d : List Nat) (h : 1 ≤ d.length) :
    d.drop (d.length - 1) = [d.getD (d.length - 1) 0] := by
  have h1 : d.length - 1 < d.length := by omega
  rw [List.drop_eq_getElem_cons h1, List.drop_of_length_le (by omega)]
  rw [List.getD_eq_getElem?_getD, List.getElem?_eq_getElem h1]
  rfl

theorem getLast?_eq_getD (d : List Nat) (h : 1 ≤ d.length) :
    d.getLast? = some (d.getD (d.length - 1) 0) := by
  rw [List.getLast?_eq_getElem?, List.getD_eq_getElem?_getD]
  rw [List.getElem?_eq_getElem (by omega)]
  simp

/-- A list with at least two words whose top word is not zero has a value of full length. -/
theorem value_ge_of_top {d : List Nat} (h : 1 ≤ d.length) (ht : d.getD (d.length - 1) 0 ≠ 0) :
    2 ^ (32 * (d.length - 1)) ≤ value d := by
  have h1 := value_take_add_drop d (d.length - 1)
  rw [Nat.min_eq_left (by omega)] at h1
  have h2 : d.drop (d.length - 1) = [d.getD (d.length - 1) 0] := drop_last d h
  rw [h2] at h1
  simp only [value_cons, value_nil, mul_zero, add_zero] at h1
  have h3 : 1 ≤ d.getD (d.length - 1) 0 := Nat.one_le_iff_ne_zero.mpr ht
  calc 2 ^ (32 * (d.length - 1)) = 2 ^ (32 * (d.length - 1)) * 1 := by ring
    _ ≤ 2 ^ (32 * (d.length - 1)) * d.getD (d.length - 1) 0 := Nat.mul_le_mul_left _ h3
    _ ≤ value d := by omega

theorem value_lt_of_top_zero {d : List Nat} (hw : WF d) (h : 1 ≤ d.length)
    (ht : d.getD (d.length - 1) 0 = 0) : value d < 2 ^ (32 * (d.length - 1)) := by
  have h1 := value_take_add_drop d (d.length - 1)
  rw [Nat.min_eq_left (by omega)] at h1
  have h2 : d.drop (d.length - 1) = [d.getD (d.length - 1) 0] := drop_last d h
  rw [h2, ht] at h1
  simp only [value_cons, value_nil, mul_zero, add_zero] at h1
  have h3 := value_lt (WF_take hw (d.length - 1))
  rw [List.length_take, Nat.min_eq_left (by omega)] at h3
  omega

theorem Canonical.wf {x : List Nat} (h : Canonical x) : WF x := h.1

theorem Canonical.length_pos {x : List Nat} (h : Canonical x) : 1 ≤ x.length := h.2.1

theorem Canonical.top {x : List Nat} (h : Canonical x) (h2 : 2 ≤ x.length) :
    x.getD (x.length - 1) 0 ≠ 0 := by
  rcases h.2.2 with h3 | h3
  · omega
  · rw [getLast?_eq_getD x h.2.1] at h3
    intro h4
    rw [h4] at h3
    exact h3 rfl

theorem Canonical.value_ge {x : List Nat} (h : Canonical x) (h2 : 2 ≤ x.length) :
    2 ^ (32 * (x.length - 1)) ≤ value x :=
  value_ge_of_top h.2.1 (h.top h2)

/-- A well-formed list with a value of full length is canonical. -/
theorem canonical_of_value_ge {d : List Nat} (hw : WF d) (h : 1 ≤ d.length)
    (hv : 2 ≤ d.length → 2 ^ (32 * (d.length - 1)) ≤ value d) : Canonical d := by
  refine ⟨hw, h, ?_⟩
  by_cases h2 : 2 ≤ d.length
  · right
    rw [getLast?_eq_getD d h]
    intro h3
    have h4 : d.getD (d.length - 1) 0 = 0 := by simpa using h3
    have := value_lt_of_top_zero hw h h4
    have := hv h2
    omega
  · left; omega

theorem pow32_le {a b : Nat} (h : a ≤ b) : 2 ^ (32 * a) ≤ 2 ^ (32 * b) :=
  Nat.pow_le_pow_right (by norm_num) (by omega)

/-- The length of a canonical list is determined by its value. -/
theorem Canonical.length_le_of_value_le {x y : List Nat} (hx : Canonical x) (hy : Canonical y)
    (hv : value x ≤ value y) : x.length ≤ y.length := by
  by_contra hlt
  have hlt : y.length < x.length := not_le.mp hlt
  have h1 := hx.value_ge (by have := hy.length_pos; omega)
  have h2 := value_lt hy.wf
  have h3 : 2 ^ (32 * y.length) ≤ 2 ^ (32 * (x.length - 1)) := pow32_le (by omega)
  omega

/-- Canonical word lists are determined by their value. -/
theorem Canonical.eq_of_value_eq {x y : List Nat} (hx : Canonical x) (hy : Canonical y)
    (hv : value x = value y) : x = y :=
  uintx_t.eq_of_length_of_value hx.wf hy.wf
    (le_antisymm (hx.length_le_of_value_le hy (le_of_eq hv))
      (hy.length_le_of_value_le hx (le_of_eq hv.symm))) hv

theorem canonical_singleton {a : Nat} (h : a < 2 ^ 32) : Canonical [a] :=
  ⟨by intro b hb; simp at hb; rw [hb]; exact h, by simp, Or.inl (by simp)⟩

theorem Canonical.eq_singleton {x : List Nat} (hx : Canonical x) (hv : value x < 2 ^ 32) :
    x = [value x] :=
  hx.eq_of_value_eq (canonical_singleton hv) (by simp [value])

theorem toWord_natCast (i : Nat) : toWord (i : Int) = i % 2 ^ 32 := by
  unfold toWord
  have : ((i : Int) % 2 ^ 32) = ((i % 2 ^ 32 : Nat) : Int) := by norm_cast
  rw [this, Int.toNat_ofNat]

theorem toWord_lt (i : Int) : toWord i < 2 ^ 32 := by
  unfold toWord
  have h1 : (0 : Int) ≤ i % 2 ^ 32 := Int.emod_nonneg _ (by norm_num)
  have h2 : i % 2 ^ 32 < 2 ^ 32 := Int.emod_lt_of_pos _ (by norm_num)
  omega

theorem canonical_ofInt (i : Int) : Canonical (ofInt i) := canonical_singleton (toWord_lt i)

theorem value_ofInt_natCast (i : Nat) : value (ofInt (i : Int)) = i % 2 ^ 32 := by
  simp [ofInt, value, toWord_natCast]

theorem ofInt_zero : ofInt 0 = [0] := by
  have := toWord_natCast 0
  simp [ofInt] at *
  exact this

theorem assignInt_eq (x : uintx_t) (i : Int) : assignInt x i = ofInt i := by
  unfold assignInt reallocate ofInt
  by_cases h : x.length = 1
  · match x, h with
    | [a], _ => simp
  · simp [h]

end uintx_t

namespace uintx_t

/-! ## `grow` and `normalize` -/

theorem length_grow (x : List Nat) (s : Nat) : (grow x s).length = max x.length s := by
  unfold grow
  split_ifs with h
  · simp; omega
  · omega

theorem value_grow (x : List Nat) (s : Nat) : value (grow x s) = value x := by
  unfold grow
  split_ifs with h
  · rw [value_append, value_replicate_zero]; simp
  · rfl

theorem WF_grow {x : List Nat} (h : WF x) (s : Nat) : WF (grow x s) := by
  unfold grow
  split_ifs with h1
  · exact WF_append.mpr ⟨h, WF_replicate_zero _⟩
  · exact h

theorem getD_replicate_zero (n j : Nat) : (List.replicate n 0).getD j 0 = 0 := by
  rw [List.getD_eq_getElem?_getD]
  by_cases h : j < n
  · rw [List.getElem?_eq_getElem (by simpa using h)]; simp
  · rw [List.getElem?_eq_none (by simpa using h)]; rfl

theorem getD_append_replicate_zero (x : List Nat) (n j : Nat) :
    (x ++ List.replicate n 0).getD j 0 = x.getD j 0 := by
  by_cases h : j < x.length
  · rw [List.getD_append _ _ _ _ h]
  · have h' : x.length ≤ j := not_lt.mp h
    rw [List.getD_append_right _ _ _ _ h', getD_replicate_zero]
    rw [List.getD_eq_getElem?_getD, List.getElem?_eq_none h']; rfl

theorem getD_grow (x : List Nat) (s j : Nat) : (grow x s).getD j 0 = x.getD j 0 := by
  unfold grow
  split_ifs with h
  · exact getD_append_replicate_zero x _ j
  · rfl

theorem getD_of_le {d : List Nat} {j : Nat} (h : d.length ≤ j) : d.getD j 0 = 0 := by
  rw [List.getD_eq_getElem?_getD, List.getElem?_eq_none h]; rfl

/-- Two lists of one length with the same words are equal. -/
theorem ext_getD {a b : List Nat} (hl : a.length = b.length)
    (h : ∀ j, j < a.length → a.getD j 0 = b.getD j 0) : a = b := by
  apply List.ext_getElem hl
  intro n h1 h2
  have := h n h1
  rw [List.getD_eq_getElem?_getD, List.getD_eq_getElem?_getD,
    List.getElem?_eq_getElem h1, List.getElem?_eq_getElem h2] at this
  simpa using this

theorem WF_of_getD {d : List Nat} (h : ∀ j, j < d.length → d.getD j 0 < 2 ^ 32) : WF d := by
  intro a ha
  obtain ⟨n, hn, rfl⟩ := List.getElem_of_mem ha
  have := h n hn
  rw [List.getD_eq_getElem?_getD, List.getElem?_eq_getElem hn] at this
  simpa using this

theorem value_take_of_zero (d : List Nat) (n : Nat) (h : ∀ j, n ≤ j → d.getD j 0 = 0) :
    value (d.take n) = value d := by
  have h1 := value_take_add_drop d n
  have h2 : value (d.drop n) = 0 := by
    rw [value_eq_zero_iff]
    intro a ha
    obtain ⟨i, hi, rfl⟩ := List.getElem_of_mem ha
    have h3 := h (n + i) (by omega)
    rw [List.length_drop] at hi
    rw [List.getD_eq_getElem?_getD, List.getElem?_eq_getElem (by omega)] at h3
    simp only [Option.getD_some] at h3
    rw [List.getElem_drop]
    exact h3
  rw [h2] at h1
  simpa using h1

theorem normalizeTop_spec (d : List Nat) (top : Nat) :
    normalizeTop d top ≤ top ∧
    (∀ j, normalizeTop d top < j → j ≤ top → d.getD j 0 = 0) ∧
    (normalizeTop d top = 0 ∨ d.getD (normalizeTop d top) 0 ≠ 0) := by
  induction top with
  | zero =>
    refine ⟨le_refl _, ?_, Or.inl rfl⟩
    intro j h1 h2
    simp only [normalizeTop] at h1
    omega
  | succ t ih =>
    unfold normalizeTop
    split_ifs with h
    · refine ⟨by omega, ?_, ih.2.2⟩
      intro j h1 h2
      by_cases h3 : j = t + 1
      · rw [h3]; exact h
      · exact ih.2.1 j h1 (by omega)
    · refine ⟨le_refl _, ?_, Or.inr h⟩
      intro j h1 h2; omega

theorem normalize_eq_take {x : List Nat} (h : 1 ≤ x.length) :
    normalize x = x.take (normalizeTop x (x.length - 1) + 1) := by
  unfold normalize
  rw [if_neg (by omega)]
  simp only
  split_ifs with h1
  · rfl
  · have := (normalizeTop_spec x (x.length - 1)).1
    rw [List.take_of_length_le (by omega)]

theorem normalize_nil : normalize [] = [] := by simp [normalize]

theorem value_normalize (x : List Nat) : value (normalize x) = value x := by
  by_cases h : 1 ≤ x.length
  · rw [normalize_eq_take h]
    apply value_take_of_zero
    intro j hj
    by_cases h2 : j ≤ x.length - 1
    · exact (normalizeTop_spec x (x.length - 1)).2.1 j (by omega) h2
    · exact getD_of_le (by omega)
  · have : x = [] := List.length_eq_zero.mp (by omega)
    rw [this, normalize_nil]

theorem WF_normalize {x : List Nat} (hw : WF x) : WF (normalize x) := by
  by_cases h : 1 ≤ x.length
  · rw [normalize_eq_take h]; exact WF_take hw _
  · have : x = [] := List.length_eq_zero.mp (by omega)
    rw [this, normalize_nil]; exact WF_nil

theorem length_normalize_le (x : List Nat) : (normalize x).length ≤ x.length := by
  by_cases h : 1 ≤ x.length
  · rw [normalize_eq_take h, List.length_take]; omega
  · have : x = [] := List.length_eq_zero.mp (by omega)
    rw [this, normalize_nil]

theorem canonical_normalize {x : List Nat} (hw : WF x) (h : 1 ≤ x.length) :
    Canonical (normalize x) := by
  have hs := normalizeTop_spec x (x.length - 1)
  have hlen : (normalize x).length = normalizeTop x (x.length - 1) + 1 := by
    rw [normalize_eq_take h, List.length_take]; omega
  refine ⟨WF_normalize hw, by omega, ?_⟩
  rcases hs.2.2 with h0 | h0
  · left; omega
  · right
    rw [getLast?_eq_getD _ (by omega), hlen]
    simp only [Nat.add_sub_cancel]
    rw [normalize_eq_take h, List.getD_eq_getElem?_getD, List.getElem?_take_of_lt (by omega),
      ← List.getD_eq_getElem?_getD]
    intro h1
    exact h0 (by simpa using h1)

theorem normalize_of_canonical {x : List Nat} (h : Canonical x) : normalize x = x :=
  (canonical_normalize h.wf h.length_pos).eq_of_value_eq h (value_normalize x)

/-! ## Comparisons -/

theorem value_take_succ (d : List Nat) (k : Nat) (h : k < d.length) :
    value (d.take (k + 1)) = value (d.take k) + d.getD k 0 * 2 ^ (32 * k) := by
  have h1 : d.take (k + 1) = d.take k ++ [d.getD k 0] := by
    rw [List.take_succ, List.getD_eq_getElem?_getD, List.getElem?_eq_getElem h]
    rfl
  rw [h1, value_append, List.length_take, Nat.min_eq_left (by omega)]
  simp [value]; ring

theorem compareLoop_spec (eq : Bool) {x y : List Nat} (hx : WF x) (hy : WF y) (k : Nat)
    (hkx : k ≤ x.length) (hky : k ≤ y.length) :
    compareLoop eq x y k =
      if value (y.take k) < value (x.take k) then true
      else if value (x.take k) < value (y.take k) then false else eq := by
  induction k with
  | zero => simp [compareLoop, value]
  | succ k ih =>
    have ih := ih (by omega) (by omega)
    unfold compareLoop
    rw [value_take_succ x k (by omega), value_take_succ y k (by omega)]
    have h1 := value_lt (WF_take hx k)
    have h2 := value_lt (WF_take hy k)
    rw [List.length_take, Nat.min_eq_left (by omega)] at h1 h2
    generalize value (x.take k) = vx at *
    generalize value (y.take k) = vy at *
    generalize 2 ^ (32 * k) = P at *
    generalize x.getD k 0 = a at *
    generalize y.getD k 0 = b at *
    by_cases hab : a > b
    · rw [if_pos hab]
      have : (b + 1) * P ≤ a * P := Nat.mul_le_mul_right P hab
      rw [if_pos (by nlinarith)]
    · rw [if_neg hab]
      by_cases hba : a < b
      · rw [if_pos hba]
        have : (a + 1) * P ≤ b * P := Nat.mul_le_mul_right P hba
        rw [if_neg (by nlinarith), if_pos (by nlinarith)]
      · rw [if_neg hba]
        have : a = b := by omega
        subst this
        rw [ih]
        simp only [add_lt_add_iff_right]

theorem operator_gt_eq {x y : List Nat} (hx : Canonical x) (hy : Canonical y) :
    operator_gt x y = decide (value y < value x) := by
  unfold operator_gt
  split_ifs with h1 h2
  · have h3 := hx.value_ge (by have := hy.length_pos; omega)
    have h4 := value_lt hy.wf
    have h5 : 2 ^ (32 * y.length) ≤ 2 ^ (32 * (x.length - 1)) := pow32_le (by omega)
    simp; omega
  · have h3 := hy.value_ge (by have := hx.length_pos; omega)
    have h4 := value_lt hx.wf
    have h5 : 2 ^ (32 * x.length) ≤ 2 ^ (32 * (y.length - 1)) := pow32_le (by omega)
    simp; omega
  · have hl : x.length = y.length := by omega
    rw [compareLoop_spec false hx.wf hy.wf x.length (le_refl _) (by omega)]
    rw [List.take_length, hl, List.take_length]
    by_cases h : value y < value x <;> simp [h]

theorem operator_ge_eq {x y : List Nat} (hx : Canonical x) (hy : Canonical y) :
    operator_ge x y = decide (value y ≤ value x) := by
  unfold operator_ge
  split_ifs with h1 h2
  · have h3 := hx.value_ge (by have := hy.length_pos; omega)
    have h4 := value_lt hy.wf
    have h5 : 2 ^ (32 * y.length) ≤ 2 ^ (32 * (x.length - 1)) := pow32_le (by omega)
    simp; omega
  · have h3 := hy.value_ge (by have := hx.length_pos; omega)
    have h4 := value_lt hx.wf
    have h5 : 2 ^ (32 * x.length) ≤ 2 ^ (32 * (y.length - 1)) := pow32_le (by omega)
    simp; omega
  · have hl : x.length = y.length := by omega
    rw [compareLoop_spec true hx.wf hy.wf x.length (le_refl _) (by omega)]
    rw [List.take_length, hl, List.take_length]
    by_cases h : value y < value x
    · simp [h]; omega
    · by_cases h' : value x < value y
      · simp [h, h']
      · simp [h, h']; omega

theorem operator_le_eq {x y : List Nat} (hx : Canonical x) (hy : Canonical y) :
    operator_le x y = decide (value x ≤ value y) := operator_ge_eq hy hx

theorem operator_gt_int_zero {x : List Nat} (hx : Canonical x) :
    operator_gt_int x 0 = decide (0 < value x) := by
  unfold operator_gt_int
  rw [operator_gt_eq hx (canonical_ofInt 0), ofInt_zero]
  simp [value]

/-! ## `bitcount` -/

theorem bitcountLoop_spec (fuel : Nat) : ∀ (word count : Nat), word < 2 ^ fuel →
    count ≤ bitcountLoop fuel word count ∧
    word < 2 ^ (bitcountLoop fuel word count - count) ∧
    (word ≠ 0 → 2 ^ (bitcountLoop fuel word count - count - 1) ≤ word ∧
      count < bitcountLoop fuel word count) ∧
    (word = 0 → bitcountLoop fuel word count = count) ∧
    bitcountLoop fuel word count ≤ count + fuel := by
  induction fuel with
  | zero =>
    intro word count h
    have : word = 0 := by simpa using h
    subst this
    simp [bitcountLoop]
  | succ f ih =>
    intro word count h
    unfold bitcountLoop
    by_cases hw : word > 0
    · rw [if_pos hw]
      have h1 : word >>> 1 < 2 ^ f := by
        rw [Nat.shiftRight_eq_div_pow]
        rw [pow_succ] at h
        omega
      obtain ⟨i1, i2, i3, i4, i5⟩ := ih (word >>> 1) (count + 1) h1
      generalize bitcountLoop f (word >>> 1) (count + 1) = B at *
      rw [Nat.shiftRight_eq_div_pow] at i2 i3 i4
      simp only [pow_one] at i2 i3 i4
      refine ⟨by omega, ?_, ?_, ?_, by omega⟩
      · have : B - count = (B - (count + 1)) + 1 := by omega
        rw [this, pow_succ]; omega
      · intro _
        refine ⟨?_, by omega⟩
        by_cases h2 : word / 2 = 0
        · have := i4 h2
          have : B - count - 1 = 0 := by omega
          rw [this]; simpa using hw
        · obtain ⟨i3a, i3b⟩ := i3 h2
          have : B - count - 1 = (B - (count + 1) - 1) + 1 := by omega
          rw [this, pow_succ]; omega
      · intro h0; omega
    · rw [if_neg hw]
      have : word = 0 := by omega
      subst this
      simp

/-- The number of significant bits of a canonical word list, as the member `bitcount` finds
it. -/
theorem bitcount_spec {x : List Nat} (hx : Canonical x) :
    value x < 2 ^ bitcount x ∧
    (value x ≠ 0 → 2 ^ (bitcount x - 1) ≤ value x ∧
      32 * (x.length - 1) < bitcount x) ∧
    (value x = 0 → bitcount x = 0) ∧
    bitcount x ≤ 32 * x.length := by
  have hl := hx.length_pos
  unfold bitcount BitsInWord
  rw [if_neg (by omega)]
  have htop := WF_getD hx.wf (x.length - 1)
  have htop2 : 2 ≤ x.length → x.getD (x.length - 1) 0 ≠ 0 := hx.top
  obtain ⟨b1, b2, b3, b4, b5⟩ := bitcountLoop_spec 32 (x.getD (x.length - 1) 0) 0 htop
  generalize bitcountLoop 32 (x.getD (x.length - 1) 0) 0 = b at *
  simp only [Nat.sub_zero] at b2 b3
  have hv := value_take_add_drop x (x.length - 1)
  rw [Nat.min_eq_left (by omega), drop_last x hl] at hv
  simp only [value_cons, value_nil, mul_zero, add_zero] at hv
  have hlo := value_lt (WF_take hx.wf (x.length - 1))
  rw [List.length_take, Nat.min_eq_left (by omega)] at hlo
  generalize value (x.take (x.length - 1)) = lo at *
  generalize x.getD (x.length - 1) 0 = t at *
  have hP : 2 ^ (b + (x.length - 1) * 32) = 2 ^ (32 * (x.length - 1)) * 2 ^ b := by
    rw [← pow_add]; congr 1; ring
  refine ⟨?_, ?_, ?_, by omega⟩
  · rw [hP, ← hv]
    have : 2 ^ (32 * (x.length - 1)) * (t + 1) ≤ 2 ^ (32 * (x.length - 1)) * 2 ^ b :=
      Nat.mul_le_mul_left _ b2
    linarith
  · intro hne
    have ht : t ≠ 0 := by
      intro h0
      subst h0
      by_cases h2 : 2 ≤ x.length
      · exact htop2 h2 rfl
      · have : x.length - 1 = 0 := by omega
        rw [this] at hlo
        simp at hlo
        omega
    obtain ⟨b3a, b3b⟩ := b3 ht
    refine ⟨?_, by omega⟩
    have : b + (x.length - 1) * 32 - 1 = 32 * (x.length - 1) + (b - 1) := by omega
    rw [this, pow_add, ← hv]
    have : 2 ^ (32 * (x.length - 1)) * 2 ^ (b - 1) ≤ 2 ^ (32 * (x.length - 1)) * t :=
      Nat.mul_le_mul_left _ b3a
    linarith
  · intro h0
    have ht : t = 0 := by
      rw [← hv] at h0
      have : 2 ^ (32 * (x.length - 1)) * t = 0 := by omega
      rcases Nat.mul_eq_zero.mp this with h | h
      · exact absurd h (by positivity)
      · exact h
    have hlen : x.length = 1 := by
      by_contra hne
      exact htop2 (by omega) ht
    rw [b4 ht, hlen]

end uintx_t

namespace uintx_t

/-! ## Addition -/

theorem and_msb (a : Nat) (h : a < 2^32) : (a &&& 2^31) >>> 31 = a / 2^31 := by
  rw [Nat.and_two_pow, Nat.shiftRight_eq_div_pow, Nat.testBit_to_div_mod,
    Nat.mul_div_cancel _ (by positivity)]
  have : a / 2^31 < 2 := by omega
  by_cases h1 : a / 2^31 % 2 = 1
  · rw [decide_eq_true h1]; simp only [Bool.toNat_true]; omega
  · rw [decide_eq_false h1]; simp only [Bool.toNat_false]; omega
theorem or_msb (s : Nat) (h : s < 2^31) : s ||| 2^31 = s + 2^31 := by
  have := Nat.mul_add_lt_is_or h 1
  rw [Nat.lor_comm, ← mul_one (2^31), ← this]; ring
/-- One round of the word loop of `operator+=`: the sum word and the carry. -/
def addWord (l r c : Nat) : Nat × Nat :=
  let left_msb := (l &&& mask_msb) >>> (BitsInWord - 1)
  let right_msb := (r &&& mask_msb) >>> (BitsInWord - 1)
  let left := l &&& mask_lsb
  let right := r &&& mask_lsb
  let sum := (left + right + c) % 2 ^ 32
  let sum_msb := (sum &&& mask_msb) >>> (BitsInWord - 1)
  let sum := sum &&& mask_lsb
  let carry := left_msb + right_msb + sum_msb
  let sum := if carry = 1 ∨ carry = 3 then sum ||| mask_msb else sum
  (sum, carry >>> 1)
theorem addLoop_succ (y : uintx_t) (oldsize n i carry : Nat) (d : List Nat) :
    addLoop y oldsize (n + 1) i carry d =
      addLoop y oldsize n (i + 1)
        (addWord (if i < oldsize then d.getD i 0 else 0)
          (if i < y.length then y.getD i 0 else 0) carry).2
        (d.set i (addWord (if i < oldsize then d.getD i 0 else 0)
          (if i < y.length then y.getD i 0 else 0) carry).1) := rfl
theorem addWord_spec (l r c : Nat) (hl : l < 2 ^ 32) (hr : r < 2 ^ 32) (hc : c ≤ 1) :
    (addWord l r c).1 < 2 ^ 32 ∧ (addWord l r c).2 ≤ 1 ∧
    l + r + c = (addWord l r c).1 + 2 ^ 32 * (addWord l r c).2 := by
  unfold addWord
  have hm : mask_msb = 2 ^ 31 := by decide
  have hm2 : mask_lsb = 2 ^ 31 - 1 := by decide
  simp only [hm, hm2, BitsInWord, Nat.and_pow_two_sub_one_eq_mod]
  have e1 : (32 - 1 : Nat) = 31 := rfl
  simp only [e1]
  have hs : (l % 2 ^ 31 + r % 2 ^ 31 + c) % 2 ^ 32 < 2 ^ 32 := Nat.mod_lt _ (by positivity)
  rw [and_msb l hl, and_msb r hr, and_msb _ hs]
  have hs2 : (l % 2 ^ 31 + r % 2 ^ 31 + c) % 2 ^ 32 % 2 ^ 31 < 2 ^ 31 := Nat.mod_lt _ (by positivity)
  rw [Nat.shiftRight_eq_div_pow]
  split_ifs with h
  · rw [or_msb _ hs2]
    omega
  · omega

theorem value_drop_take_succ (y : List Nat) (i n : Nat) :
    value ((y.drop i).take (n + 1)) = y.getD i 0 + 2 ^ 32 * value ((y.drop (i + 1)).take n) := by
  by_cases h : i < y.length
  · rw [List.drop_eq_getElem_cons h, List.take_succ_cons, value_cons,
      List.getD_eq_getElem?_getD, List.getElem?_eq_getElem h]
    rfl
  · rw [List.drop_of_length_le (by omega), List.drop_of_length_le (by omega),
      getD_of_le (by omega)]
    simp [value]

theorem addLoop_spec (y : List Nat) (oldsize : Nat) (hy : WF y) :
    ∀ (n i carry : Nat) (d : List Nat), WF d → carry ≤ 1 → i + n = d.length →
      (∀ j, oldsize ≤ j → i ≤ j → d.getD j 0 = 0) →
      (addLoop y oldsize n i carry d).1.length = d.length ∧
      WF (addLoop y oldsize n i carry d).1 ∧
      (addLoop y oldsize n i carry d).2 ≤ 1 ∧
      value (addLoop y oldsize n i carry d).1
          + 2 ^ (32 * d.length) * (addLoop y oldsize n i carry d).2
        = value d + 2 ^ (32 * i) * (value ((y.drop i).take n) + carry) := by
  intro n
  induction n with
  | zero =>
    intro i carry d hd hc hlen hz
    simp only [addLoop, List.take_zero, value_nil, zero_add]
    have : i = d.length := by omega
    subst this
    exact ⟨trivial, hd, hc, rfl⟩
  | succ n ih =>
    intro i carry d hd hc hlen hz
    rw [addLoop_succ]
    have hl : (if i < oldsize then d.getD i 0 else 0) = d.getD i 0 := by
      split_ifs with h
      · rfl
      · exact (hz i (by omega) (le_refl _)).symm
    have hr : (if i < y.length then y.getD i 0 else 0) = y.getD i 0 := by
      split_ifs with h
      · rfl
      · exact (getD_of_le (by omega)).symm
    rw [hl, hr]
    obtain ⟨w1, w2, w3⟩ := addWord_spec (d.getD i 0) (y.getD i 0) carry
      (WF_getD hd i) (WF_getD hy i) hc
    generalize addWord (d.getD i 0) (y.getD i 0) carry = sw at *
    have hd1 : WF (d.set i sw.1) := WF_set hd i w1
    obtain ⟨r1, r2, r3, r4⟩ := ih (i + 1) sw.2 (d.set i sw.1) hd1 w2
      (by rw [List.length_set]; omega)
      (by
        intro j hj1 hj2
        rw [getD_set, if_neg (by omega)]
        exact hz j hj1 (by omega))
    rw [List.length_set] at r1 r4
    refine ⟨r1, r2, r3, ?_⟩
    have hvs := value_set d i sw.1 (by omega)
    rw [value_drop_take_succ]
    have hP : 2 ^ (32 * (i + 1)) = 2 ^ 32 * 2 ^ (32 * i) := by
      rw [← pow_add]; congr 1; ring
    rw [hP] at r4
    generalize value (addLoop y oldsize n (i + 1) sw.2 (d.set i sw.1)).1
      + 2 ^ (32 * d.length) * (addLoop y oldsize n (i + 1) sw.2 (d.set i sw.1)).2 = A at *
    generalize value ((y.drop (i + 1)).take n) = Y at *
    generalize 2 ^ (32 * i) = P at *
    generalize value (d.set i sw.1) = v1 at *
    generalize value d = v0 at *
    generalize d.getD i 0 = l at *
    generalize y.getD i 0 = r at *
    zify at *
    linear_combination r4 + hvs - P * w3

theorem operator_add_assign_spec {x y : List Nat} (hx : WF x) (hy : WF y) :
    WF (operator_add_assign x y) ∧
    value (operator_add_assign x y) = value x + value y ∧
    ((operator_add_assign x y).length = max x.length y.length ∨
      ((operator_add_assign x y).length = max x.length y.length + 1 ∧
        (operator_add_assign x y).getD (max x.length y.length) 0 = 1)) := by
  unfold operator_add_assign
  have hmax : (if x.length > y.length then x.length else y.length) = max x.length y.length := by
    split_ifs with h
    · omega
    · omega
  simp only [hmax]
  generalize hd0 : grow x (max x.length y.length) = d0
  have hlg : d0.length = max x.length y.length := by
    rw [← hd0, length_grow]; omega
  obtain ⟨r1, r2, r3, r4⟩ := addLoop_spec y x.length hy d0.length
    0 0 d0 (by rw [← hd0]; exact WF_grow hx _) (by omega) (by omega)
    (by
      intro j hj _
      rw [← hd0, getD_grow]
      exact getD_of_le hj)
  simp only [List.drop_zero, Nat.mul_zero, pow_zero, one_mul, add_zero] at r4
  rw [List.take_of_length_le (by omega)] at r4
  have hv0 : value d0 = value x := by rw [← hd0, value_grow]
  generalize addLoop y x.length d0.length 0 0 d0 = r at *
  split_ifs with hc
  · have hc1 : r.2 = 1 := by omega
    have hg : (grow r.1 (r.1.length + 1)).length = r.1.length + 1 := by
      rw [length_grow]; omega
    refine ⟨WF_set (WF_grow r2 _) _ (by norm_num), ?_, Or.inr ⟨?_, ?_⟩⟩
    · have hvs := value_set (grow r.1 (r.1.length + 1)) r.1.length 1 (by omega)
      rw [getD_grow, getD_of_le (le_refl _), value_grow] at hvs
      rw [hc1, ← r1] at r4
      omega
    · rw [List.length_set, hg]; omega
    · rw [getD_set, if_pos ⟨by omega, by omega⟩]
  · have hc0 : r.2 = 0 := by omega
    rw [hc0] at r4
    exact ⟨r2, by omega, Or.inl (by omega)⟩

theorem canonical_add {x y : List Nat} (hx : Canonical x) (hy : Canonical y) :
    Canonical (operator_add_assign x y) := by
  obtain ⟨s1, s2, hlen⟩ := operator_add_assign_spec hx.wf hy.wf
  have hxl := hx.length_pos
  rcases hlen with h | ⟨h1, h2⟩
  · apply canonical_of_value_ge s1 (by omega)
    intro h2
    rw [h, s2]
    rcases Nat.le_total x.length y.length with h3 | h3
    · have hm : max x.length y.length = y.length := by omega
      rw [hm]
      have := hy.value_ge (by omega)
      omega
    · have hm : max x.length y.length = x.length := by omega
      rw [hm]
      have := hx.value_ge (by omega)
      omega
  · refine ⟨s1, by omega, Or.inr ?_⟩
    rw [getLast?_eq_getD _ (by omega), h1]
    simp only [Nat.add_sub_cancel]
    rw [h2]
    simp

theorem value_add {x y : List Nat} (hx : Canonical x) (hy : Canonical y) :
    value (operator_add_assign x y) = value x + value y :=
  (operator_add_assign_spec hx.wf hy.wf).2.1

end uintx_t

namespace uintx_t

/-! ## Subtraction -/

theorem subLoop_succ (y : uintx_t) (n i : Nat) (borrow : Bool) (d : List Nat) :
    subLoop y (n + 1) i borrow d =
      subLoop y n (i + 1)
        (subWord (d.getD i 0) (if i < y.length then y.getD i 0 else 0) borrow).2
        (d.set i (subWord (d.getD i 0) (if i < y.length then y.getD i 0 else 0) borrow).1) :=
  rfl

theorem subWord_spec (l r : Nat) (b : Bool) (hl : l < 2 ^ 32) (hr : r < 2 ^ 32) :
    (subWord l r b).1 < 2 ^ 32 ∧
    l + 2 ^ 32 * (subWord l r b).2.toNat = (subWord l r b).1 + r + b.toNat := by
  unfold subWord
  cases b
  · simp only [Bool.false_eq_true, if_false, Bool.toNat_false]
    by_cases h : l < r
    · simp only [h, if_true, Bool.toNat_true]; omega
    · simp only [h, if_false, Bool.toNat_false]; omega
  · simp only [if_true, Bool.toNat_true]
    by_cases h0 : (r + 1) % 2 ^ 32 = 0
    · simp only [h0, Nat.not_lt_zero, if_false, decide_True, Bool.toNat_true]; omega
    · by_cases h : l < (r + 1) % 2 ^ 32
      · simp only [h, if_true, Bool.toNat_true]; omega
      · simp only [h, if_false, h0, decide_False, Bool.toNat_false]; omega

theorem subLoop_spec (y : List Nat) (hy : WF y) :
    ∀ (n i : Nat) (borrow : Bool) (d : List Nat), WF d → i + n = d.length →
      ∃ bout : Nat, bout ≤ 1 ∧ (subLoop y n i borrow d).length = d.length ∧
        WF (subLoop y n i borrow d) ∧
        value (subLoop y n i borrow d)
            + 2 ^ (32 * i) * (value ((y.drop i).take n) + borrow.toNat)
          = value d + 2 ^ (32 * d.length) * bout := by
  intro n
  induction n with
  | zero =>
    intro i borrow d hd hlen
    have : i = d.length := by omega
    subst this
    refine ⟨borrow.toNat, ?_, rfl, hd, ?_⟩
    · cases borrow <;> simp
    · simp [subLoop, value]
  | succ n ih =>
    intro i borrow d hd hlen
    rw [subLoop_succ]
    have hr : (if i < y.length then y.getD i 0 else 0) = y.getD i 0 := by
      split_ifs with h
      · rfl
      · exact (getD_of_le (by omega)).symm
    rw [hr]
    obtain ⟨w1, w2⟩ := subWord_spec (d.getD i 0) (y.getD i 0) borrow
      (WF_getD hd i) (WF_getD hy i)
    generalize subWord (d.getD i 0) (y.getD i 0) borrow = sw at *
    obtain ⟨bout, b1, r1, r2, r4⟩ := ih (i + 1) sw.2 (d.set i sw.1) (WF_set hd i w1)
      (by rw [List.length_set]; omega)
    rw [List.length_set] at r1 r4
    refine ⟨bout, b1, r1, r2, ?_⟩
    have hvs := value_set d i sw.1 (by omega)
    rw [value_drop_take_succ]
    have hP : 2 ^ (32 * (i + 1)) = 2 ^ 32 * 2 ^ (32 * i) := by
      rw [← pow_add]; congr 1; ring
    rw [hP] at r4
    generalize value (subLoop y n (i + 1) sw.2 (d.set i sw.1)) = A at *
    generalize 2 ^ (32 * d.length) * bout = B at *
    generalize value ((y.drop (i + 1)).take n) = Y at *
    generalize 2 ^ (32 * i) = P at *
    generalize value (d.set i sw.1) = v1 at *
    generalize value d = v0 at *
    generalize d.getD i 0 = l at *
    generalize y.getD i 0 = r at *
    generalize sw.2.toNat = b2 at *
    generalize borrow.toNat = b0 at *
    zify at *
    linear_combination r4 + hvs - P * w2

theorem operator_sub_assign_spec {x y : List Nat} (hx : Canonical x) (hy : Canonical y) :
    Canonical (operator_sub_assign x y) ∧
    value (operator_sub_assign x y) = value x - value y := by
  unfold operator_sub_assign
  rw [operator_ge_eq hy hx, operator_gt_int_zero hy]
  by_cases h1 : value x ≤ value y
  · rw [decide_eq_true h1, if_pos rfl, assignInt_eq, normalize_of_canonical (canonical_ofInt 0)]
    refine ⟨canonical_ofInt 0, ?_⟩
    rw [ofInt_zero]; simp [value]; omega
  · rw [decide_eq_false h1, if_neg (by simp)]
    by_cases h2 : 0 < value y
    · rw [decide_eq_true h2, if_pos rfl]
      obtain ⟨bout, b1, r1, r2, r4⟩ := subLoop_spec y hy.wf x.length 0 false x hx.wf (by omega)
      simp only [List.drop_zero, Nat.mul_zero, pow_zero, one_mul, Bool.toNat_false,
        add_zero] at r4
      have hlen := hy.length_le_of_value_le hx (by omega)
      rw [List.take_of_length_le hlen] at r4
      have hlt := value_lt r2
      rw [r1] at hlt
      have hb : bout = 0 := by
        by_contra hne
        have : bout = 1 := by omega
        subst this
        omega
      subst hb
      refine ⟨canonical_normalize r2 (by rw [r1]; exact hx.length_pos), ?_⟩
      rw [value_normalize]; omega
    · rw [decide_eq_false h2, if_neg (by simp), normalize_of_canonical hx]
      exact ⟨hx, by omega⟩

/-! ## Multiplication by a word -/

theorem mulLoop_spec (x : List Nat) (y : Nat) :
    ∀ (n i : Nat) (word carry : List Nat), i + n ≤ word.length → i + n + 1 ≤ carry.length →
      (mulLoop x y n i word carry).1.length = word.length ∧
      (mulLoop x y n i word carry).2.length = carry.length ∧
      ∀ j, (mulLoop x y n i word carry).1.getD j 0 =
          (if i ≤ j ∧ j < i + n then ((x.getD j 0 * y) % 2 ^ 64) % 2 ^ 32 else word.getD j 0) ∧
        (mulLoop x y n i word carry).2.getD j 0 =
          (if i + 1 ≤ j ∧ j < i + 1 + n then ((x.getD (j - 1) 0 * y) % 2 ^ 64) / 2 ^ 32
           else carry.getD j 0) := by
  intro n
  induction n with
  | zero =>
    intro i word carry h1 h2
    refine ⟨rfl, rfl, fun j => ⟨?_, ?_⟩⟩
    · rw [if_neg (by omega)]; rfl
    · rw [if_neg (by omega)]; rfl
  | succ n ih =>
    intro i word carry h1 h2
    unfold mulLoop
    simp only
    obtain ⟨r1, r2, r3⟩ := ih (i + 1) (word.set i (x.getD i 0 * y % 2 ^ 64 &&& 0xFFFFFFFF))
      (carry.set (i + 1) ((x.getD i 0 * y % 2 ^ 64) >>> 32))
      (by rw [List.length_set]; omega) (by rw [List.length_set]; omega)
    rw [List.length_set] at r1 r2
    refine ⟨r1, r2, fun j => ⟨?_, ?_⟩⟩
    · rw [(r3 j).1, getD_set]
      have hm : x.getD i 0 * y % 2 ^ 64 &&& 0xFFFFFFFF = x.getD i 0 * y % 2 ^ 64 % 2 ^ 32 :=
        Nat.and_pow_two_sub_one_eq_mod _ 32
      rw [hm]
      by_cases hj : j = i
      · subst hj
        rw [if_neg (by omega), if_pos ⟨rfl, by omega⟩, if_pos ⟨le_refl _, by omega⟩]
      · by_cases hj2 : i + 1 ≤ j ∧ j < i + 1 + n
        · rw [if_pos hj2, if_pos ⟨by omega, by omega⟩]
        · rw [if_neg hj2, if_neg (by omega), if_neg (by omega)]
    · rw [(r3 j).2, getD_set, Nat.shiftRight_eq_div_pow]
      by_cases hj : j = i + 1
      · subst hj
        rw [if_neg (by omega), if_pos ⟨rfl, by omega⟩, if_pos ⟨le_refl _, by omega⟩]
        simp
      · by_cases hj2 : i + 1 + 1 ≤ j ∧ j < i + 1 + 1 + n
        · rw [if_pos hj2, if_pos ⟨by omega, by omega⟩]
        · rw [if_neg hj2, if_neg (by omega), if_neg (by omega)]

theorem getD_map_zero (f : Nat → Nat) (hf : f 0 = 0) (x : List Nat) (j : Nat) :
    (x.map f).getD j 0 = f (x.getD j 0) := by
  rw [List.getD_eq_getElem?_getD, List.getD_eq_getElem?_getD, List.getElem?_map]
  cases x[j]? with
  | none => simp [hf]
  | some a => simp

theorem value_mul_words (x : List Nat) (y : Nat) :
    value (x.map fun a => a * y % 2 ^ 32) + 2 ^ 32 * value (x.map fun a => a * y / 2 ^ 32)
      = value x * y := by
  induction x with
  | nil => simp [value]
  | cons a l ih =>
    simp only [List.map_cons, value_cons]
    have := Nat.mod_add_div (a * y) (2 ^ 32)
    generalize value (l.map fun a => a * y % 2 ^ 32) = A at *
    generalize value (l.map fun a => a * y / 2 ^ 32) = B at *
    generalize a * y % 2 ^ 32 = lo at *
    generalize a * y / 2 ^ 32 = hi at *
    generalize value l = v at *
    zify at *
    linear_combination this + 2 ^ 32 * ih

/-- The two arrays built by the loop of `operator*(uintx_t, uint32_t)`. -/
theorem mulLoop_eq (x : List Nat) (y : Nat) (hx : WF x) (hy : y < 2 ^ 32) :
    mulLoop x y x.length 0 (grow [] x.length) (grow (ofInt 0) (x.length + 1)) =
      (x.map (fun a => a * y % 2 ^ 32), 0 :: x.map (fun a => a * y / 2 ^ 32)) := by
  have hg1 : (grow [] x.length).length = x.length := by rw [length_grow]; simp
  have hg2 : (grow (ofInt 0) (x.length + 1)).length = x.length + 1 := by
    rw [length_grow, ofInt_zero]; simp
  obtain ⟨r1, r2, r3⟩ := mulLoop_spec x y x.length 0 (grow [] x.length)
    (grow (ofInt 0) (x.length + 1)) (by omega) (by omega)
  have hsmall : ∀ j, x.getD j 0 * y % 2 ^ 64 = x.getD j 0 * y := by
    intro j
    apply Nat.mod_eq_of_lt
    have := WF_getD hx j
    calc x.getD j 0 * y < 2 ^ 32 * 2 ^ 32 := by
          apply Nat.mul_lt_mul'' this hy
      _ = 2 ^ 64 := by norm_num
  apply Prod.ext
  · apply ext_getD (by rw [r1, hg1]; simp)
    intro j hj
    rw [r1, hg1] at hj
    rw [(r3 j).1, if_pos ⟨by omega, by omega⟩, hsmall,
      getD_map_zero (fun a => a * y % 2 ^ 32) (by simp)]
  · apply ext_getD (by rw [r2, hg2]; simp)
    intro j hj
    rw [r2, hg2] at hj
    rw [(r3 j).2]
    cases j with
    | zero =>
      rw [if_neg (by omega), getD_grow, ofInt_zero]; rfl
    | succ j =>
      rw [if_pos ⟨by omega, by omega⟩, hsmall, List.getD_cons_succ,
        getD_map_zero (fun a => a * y / 2 ^ 32) (by simp)]
      simp

theorem WF_map_lo (x : List Nat) (y : Nat) : WF (x.map fun a => a * y % 2 ^ 32) := by
  intro a ha
  rw [List.mem_map] at ha
  obtain ⟨b, _, rfl⟩ := ha
  exact Nat.mod_lt _ (by positivity)

theorem WF_map_hi (x : List Nat) (y : Nat) (hx : WF x) (hy : y < 2 ^ 32) :
    WF (0 :: x.map fun a => a * y / 2 ^ 32) := by
  rw [WF_cons]
  refine ⟨by positivity, ?_⟩
  intro a ha
  rw [List.mem_map] at ha
  obtain ⟨b, hb, rfl⟩ := ha
  have := hx b hb
  have h2 : b * y < 2 ^ 32 * 2 ^ 32 := Nat.mul_lt_mul'' this hy
  exact Nat.div_lt_of_lt_mul h2

theorem operator_mul_uint32_spec {x : List Nat} (hx : Canonical x) {y : Nat} (hy : y < 2 ^ 32) :
    Canonical (operator_mul_uint32 x y) ∧ value (operator_mul_uint32 x y) = value x * y := by
  unfold operator_mul_uint32 operator_add
  simp only
  rw [mulLoop_eq x y hx.wf hy]
  simp only
  have c1 : Canonical (normalize (x.map fun a => a * y % 2 ^ 32)) :=
    canonical_normalize (WF_map_lo x y) (by simpa using hx.length_pos)
  have c2 : Canonical (normalize (0 :: x.map fun a => a * y / 2 ^ 32)) :=
    canonical_normalize (WF_map_hi x y hx.wf hy) (by simp)
  refine ⟨canonical_add c1 c2, ?_⟩
  rw [value_add c1 c2, value_normalize, value_normalize, value_cons, zero_add]
  exact value_mul_words x y

theorem operator_mul_int_spec {x : List Nat} (hx : Canonical x) {y : Nat} (hy : y < 2 ^ 32) :
    Canonical (operator_mul_int x (y : Int)) ∧
    value (operator_mul_int x (y : Int)) = value x * y := by
  have h : operator_mul_int x (y : Int) = operator_mul_uint32 x y := by
    unfold operator_mul_int operator_mul_uint32
    have : ((y : Int) % 2 ^ 64).toNat = y := by
      have h1 : ((y : Int) % 2 ^ 64) = ((y % 2 ^ 64 : Nat) : Int) := by norm_cast
      rw [h1, Int.toNat_ofNat]
      exact Nat.mod_eq_of_lt (by omega)
    rw [this]
  rw [h]
  exact operator_mul_uint32_spec hx hy

end uintx_t

namespace uintx_t

/-! ## Left shift -/

theorem shlWords_spec (oldsize k : Nat) :
    ∀ (n : Nat) (d : List Nat),
      (shlWords oldsize k n d).length = d.length ∧
      ∀ j, (shlWords oldsize k n d).getD j 0 =
        if k ≤ j ∧ j - k < n ∧ j - k < oldsize ∧ j < d.length then d.getD (j - k) 0
        else d.getD j 0 := by
  intro n
  induction n with
  | zero =>
    intro d
    refine ⟨rfl, fun j => ?_⟩
    rw [if_neg (by omega)]; rfl
  | succ n ih =>
    intro d
    unfold shlWords
    by_cases hn : n < oldsize
    · rw [if_pos hn]
      obtain ⟨r1, r2⟩ := ih (d.set (n + k) (d.getD n 0))
      rw [List.length_set] at r1 r2
      refine ⟨r1, fun j => ?_⟩
      rw [r2 j, getD_set, getD_set]
      split_ifs <;> first | rfl | (exfalso; omega) | (congr 1; omega)
    · rw [if_neg hn]
      obtain ⟨r1, r2⟩ := ih d
      refine ⟨r1, fun j => ?_⟩
      rw [r2 j]
      split_ifs <;> first | rfl | (exfalso; omega)

theorem shlZero_spec : ∀ (n : Nat) (d : List Nat),
    (shlZero n d).length = d.length ∧
    ∀ j, (shlZero n d).getD j 0 = if j < n then 0 else d.getD j 0 := by
  intro n
  induction n with
  | zero =>
    intro d
    exact ⟨rfl, fun j => by rw [if_neg (by omega)]; rfl⟩
  | succ n ih =>
    intro d
    unfold shlZero
    obtain ⟨r1, r2⟩ := ih (d.set n 0)
    rw [List.length_set] at r1
    refine ⟨r1, fun j => ?_⟩
    rw [r2 j, getD_set]
    split_ifs <;> first | rfl | (exfalso; omega) | (apply getD_of_le; omega)

theorem shlWord_zero (s a : Nat) : shlWord s a 0 = (a <<< s) % 2 ^ 32 := by
  simp [shlWord]

theorem shlBits_spec (s : Nat) : ∀ (n : Nat) (d : List Nat), n ≤ d.length →
    (shlBits s n d).length = d.length ∧
    ∀ j, (shlBits s n d).getD j 0 =
      if j < n then shlWord s (d.getD j 0) (if j = 0 then 0 else d.getD (j - 1) 0)
      else d.getD j 0 := by
  intro n
  induction n with
  | zero =>
    intro d _
    exact ⟨rfl, fun j => by rw [if_neg (by omega)]; rfl⟩
  | succ n ih =>
    intro d hn
    unfold shlBits
    simp only
    have hv : (if n > 0 then (d.getD n 0 <<< s) % 2 ^ 32 ||| (d.getD (n - 1) 0 >>> (BitsInWord - s))
        else (d.getD n 0 <<< s) % 2 ^ 32)
        = shlWord s (d.getD n 0) (if n = 0 then 0 else d.getD (n - 1) 0) := by
      by_cases h0 : n = 0
      · subst h0; simp [shlWord]
      · rw [if_pos (by omega), if_neg h0]; rfl
    rw [hv]
    obtain ⟨r1, r2⟩ := ih (d.set n (shlWord s (d.getD n 0) (if n = 0 then 0 else d.getD (n - 1) 0)))
      (by rw [List.length_set]; omega)
    rw [List.length_set] at r1
    refine ⟨r1, fun j => ?_⟩
    rw [r2 j, getD_set, getD_set]
    split_ifs <;> first | rfl | (exfalso; omega) | (have e : n = j := (by omega); rw [e])

theorem length_shlSpec (s : Nat) : ∀ (l : List Nat) (p : Nat), (shlSpec s p l).length = l.length
  | [], _ => rfl
  | a :: l, p => by simp [shlSpec, length_shlSpec s l a]

theorem getD_shlSpec (s : Nat) : ∀ (l : List Nat) (p j : Nat), j < l.length →
    (shlSpec s p l).getD j 0 = shlWord s (l.getD j 0) (if j = 0 then p else l.getD (j - 1) 0)
  | [], _, _, h => by simp at h
  | a :: l, p, 0, _ => by simp [shlSpec]
  | a :: l, p, j + 1, h => by
    simp only [shlSpec, List.getD_cons_succ]
    rw [getD_shlSpec s l a j (by simpa using h)]
    by_cases h0 : j = 0
    · subst h0; simp
    · rw [if_neg h0, if_neg (by omega)]
      congr 1
      obtain ⟨i, rfl⟩ : ∃ i, j = i + 1 := ⟨j - 1, by omega⟩
      simp

theorem shlWord_eq (s a p : Nat) (hs : 0 < s) (hs2 : s < 32) (hp : p < 2 ^ 32) :
    shlWord s a p = (a * 2 ^ s) % 2 ^ 32 + p / 2 ^ (32 - s) ∧
    shlWord s a p < 2 ^ 32 := by
  unfold shlWord BitsInWord
  rw [Nat.shiftLeft_eq, Nat.shiftRight_eq_div_pow]
  have hW : (2 : Nat) ^ 32 = 2 ^ s * 2 ^ (32 - s) := by
    rw [← pow_add]; congr 1; omega
  have h1 : a * 2 ^ s % 2 ^ 32 = 2 ^ s * (a % 2 ^ (32 - s)) := by
    rw [hW, mul_comm a, Nat.mul_mod_mul_left]
  have h2 : p / 2 ^ (32 - s) < 2 ^ s := by
    apply Nat.div_lt_of_lt_mul
    rw [mul_comm, ← hW]; exact hp
  rw [h1, ← Nat.mul_add_lt_is_or h2]
  refine ⟨rfl, ?_⟩
  have h3 : a % 2 ^ (32 - s) < 2 ^ (32 - s) := Nat.mod_lt _ (by positivity)
  calc 2 ^ s * (a % 2 ^ (32 - s)) + p / 2 ^ (32 - s)
      < 2 ^ s * (a % 2 ^ (32 - s)) + 2 ^ s := by omega
    _ = 2 ^ s * (a % 2 ^ (32 - s) + 1) := by ring
    _ ≤ 2 ^ s * 2 ^ (32 - s) := Nat.mul_le_mul_left _ h3
    _ = 2 ^ 32 := hW.symm

theorem shlSpec_value (s : Nat) (hs : 0 < s) (hs2 : s < 32) :
    ∀ (l : List Nat) (p : Nat), WF l → p < 2 ^ 32 →
      WF (shlSpec s p l) ∧
      value (shlSpec s p l) + 2 ^ (32 * l.length) * (l.getLastD p / 2 ^ (32 - s))
        = value l * 2 ^ s + p / 2 ^ (32 - s)
  | [], p, _, _ => by simp [shlSpec, value, WF_nil]
  | a :: l, p, hl, hp => by
    rw [WF_cons] at hl
    obtain ⟨ih1, ih2⟩ := shlSpec_value s hs hs2 l a hl.2 hl.1
    obtain ⟨e1, e2⟩ := shlWord_eq s a p hs hs2 hp
    refine ⟨WF_cons.mpr ⟨e2, ih1⟩, ?_⟩
    simp only [shlSpec, value_cons, List.length_cons, List.getLastD_cons]
    rw [e1]
    have hW : (2 : Nat) ^ 32 = 2 ^ (32 - s) * 2 ^ s := by
      rw [← pow_add]; congr 1; omega
    have h3 : a * 2 ^ s / 2 ^ 32 = a / 2 ^ (32 - s) := by
      rw [hW, Nat.mul_div_mul_right _ _ (by positivity)]
    have h4 := Nat.mod_add_div (a * 2 ^ s) (2 ^ 32)
    rw [h3] at h4
    have hP : 2 ^ (32 * (l.length + 1)) = 2 ^ 32 * 2 ^ (32 * l.length) := by
      rw [← pow_add]; congr 1; ring
    rw [hP]
    generalize value (shlSpec s a l) = A at *
    generalize 2 ^ (32 * l.length) = P at *
    generalize l.getLastD a / 2 ^ (32 - s) = c at *
    generalize a * 2 ^ s % 2 ^ 32 = lo at *
    generalize a / 2 ^ (32 - s) = hi at *
    generalize p / 2 ^ (32 - s) = q at *
    generalize value l = v at *
    generalize (2 : Nat) ^ s = S at *
    zify at *
    linear_combination 2 ^ 32 * ih2 + h4

theorem shlBits_eq (s : Nat) (d : List Nat) : shlBits s d.length d = shlSpec s 0 d := by
  obtain ⟨r1, r2⟩ := shlBits_spec s d.length d (le_refl _)
  apply ext_getD (by rw [r1, length_shlSpec])
  intro j hj
  rw [r1] at hj
  rw [r2 j, if_pos hj, getD_shlSpec s d 0 j hj]

/-- The words after the two word loops of `operator<<=`. -/
theorem shl_words_eq (x : List Nat) (k N : Nat) (hN : x.length + k ≤ N) :
    shlZero (if k ≤ (shlWords x.length k ((grow x N).length - k) (grow x N)).length then k
        else (shlWords x.length k ((grow x N).length - k) (grow x N)).length)
      (shlWords x.length k ((grow x N).length - k) (grow x N))
      = List.replicate k 0 ++ grow x (N - k) := by
  have hg : (grow x N).length = N := by rw [length_grow]; omega
  obtain ⟨r1, r2⟩ := shlWords_spec x.length k ((grow x N).length - k) (grow x N)
  rw [hg] at r1 r2 ⊢
  rw [r1, if_pos (by omega)]
  obtain ⟨z1, z2⟩ := shlZero_spec k (shlWords x.length k (N - k) (grow x N))
  have hg2 : (grow x (N - k)).length = N - k := by rw [length_grow]; omega
  apply ext_getD
  · rw [z1, r1, List.length_append, List.length_replicate, hg2]; omega
  · intro j hj
    rw [z1, r1] at hj
    have hjN : j < N := hj
    rw [z2 j]
    by_cases hjk : j < k
    · rw [if_pos hjk, List.getD_append _ _ _ _ (by simpa using hjk), getD_replicate_zero]
    · rw [if_neg hjk, List.getD_append_right _ _ _ _ (by simpa using hjk), r2 j,
        List.length_replicate, getD_grow]
      by_cases hjl : j - k < x.length
      · rw [if_pos ⟨by omega, by omega, hjl, by omega⟩, getD_grow]
      · have e1 : x.getD j 0 = 0 := getD_of_le (by omega)
        have e2 : x.getD (j - k) 0 = 0 := getD_of_le (by omega)
        rw [if_neg (by omega), getD_grow, getD_grow, e1, e2]

theorem value_shl_words (x : List Nat) (k m : Nat) :
    value (List.replicate k 0 ++ grow x m) = value x * 2 ^ (32 * k) := by
  rw [value_append, value_replicate_zero, value_grow, List.length_replicate]
  ring

theorem operator_shl_assign_spec {x : List Nat} (hx : Canonical x) (distance : Nat) :
    Canonical (operator_shl_assign x distance) ∧
    value (operator_shl_assign x distance) = value x * 2 ^ distance := by
  unfold operator_shl_assign
  rw [operator_gt_int_zero hx]
  by_cases h0 : 0 < value x
  swap
  · rw [decide_eq_false h0, if_neg (by simp)]
    have : value x = 0 := by omega
    exact ⟨hx, by rw [this]; simp⟩
  rw [decide_eq_true h0, if_pos rfl]
  simp only [BitsInWord]
  obtain ⟨b1, b2, b3, b4⟩ := bitcount_spec hx
  obtain ⟨b2a, b2b⟩ := b2 (by omega)
  have hxl := hx.length_pos
  generalize hN : (bitcount x + distance + 32 - 1) / 32 = N
  have hNl : x.length + distance / 32 ≤ N := by omega
  have hNu : bitcount x + distance ≤ 32 * N := by omega
  have hNu2 : 32 * (N - 1) ≤ bitcount x + distance - 1 := by omega
  have hN1 : 1 ≤ N := by omega
  rw [shl_words_eq x (distance / 32) N hNl]
  have hlen : (List.replicate (distance / 32) 0 ++ grow x (N - distance / 32)).length = N := by
    rw [List.length_append, List.length_replicate, length_grow]; omega
  have hwf : WF (List.replicate (distance / 32) 0 ++ grow x (N - distance / 32)) :=
    WF_append.mpr ⟨WF_replicate_zero _, WF_grow hx.wf _⟩
  have hval := value_shl_words x (distance / 32) (N - distance / 32)
  have hd : distance = 32 * (distance / 32) + distance % 32 := (Nat.div_add_mod _ _).symm
  have hbig : value x * 2 ^ distance < 2 ^ (32 * N) := by
    calc value x * 2 ^ distance < 2 ^ bitcount x * 2 ^ distance :=
          Nat.mul_lt_mul_of_pos_right b1 (by positivity)
      _ = 2 ^ (bitcount x + distance) := by rw [pow_add]
      _ ≤ 2 ^ (32 * N) := Nat.pow_le_pow_right (by norm_num) hNu
  have hsmall : 2 ≤ N → 2 ^ (32 * (N - 1)) ≤ value x * 2 ^ distance := by
    intro _
    calc 2 ^ (32 * (N - 1)) ≤ 2 ^ (bitcount x + distance - 1) :=
          Nat.pow_le_pow_right (by norm_num) hNu2
      _ = 2 ^ (bitcount x - 1) * 2 ^ distance := by
          rw [← pow_add]; congr 1; omega
      _ ≤ value x * 2 ^ distance := Nat.mul_le_mul_right _ b2a
  generalize hE : List.replicate (distance / 32) 0 ++ grow x (N - distance / 32) = e at *
  by_cases hs : 0 < distance % 32
  · rw [if_pos hs]
    have hs2 : distance % 32 < 32 := Nat.mod_lt _ (by norm_num)
    rw [shlBits_eq]
    obtain ⟨w1, w2⟩ := shlSpec_value (distance % 32) hs hs2 e 0 hwf (by norm_num)
    simp only [Nat.zero_div, add_zero] at w2
    have hv2 : value e * 2 ^ (distance % 32) = value x * 2 ^ distance := by
      rw [hval, mul_assoc, ← pow_add, ← hd]
    rw [hv2, hlen] at w2
    have hlt := value_lt w1
    rw [length_shlSpec, hlen] at hlt
    have hc : e.getLastD 0 / 2 ^ (32 - distance % 32) = 0 := by
      by_contra hne
      have : 1 ≤ e.getLastD 0 / 2 ^ (32 - distance % 32) := Nat.pos_of_ne_zero hne
      have : 2 ^ (32 * N) * 1 ≤ 2 ^ (32 * N) * (e.getLastD 0 / 2 ^ (32 - distance % 32)) :=
        Nat.mul_le_mul_left _ this
      omega
    rw [hc] at w2
    simp only [mul_zero, add_zero] at w2
    refine ⟨canonical_of_value_ge w1 (by rw [length_shlSpec, hlen]; omega) ?_, w2⟩
    rw [length_shlSpec, hlen, w2]
    exact hsmall
  · rw [if_neg hs]
    have hs0 : distance % 32 = 0 := by omega
    have hv2 : value e = value x * 2 ^ distance := by
      rw [hval]; congr 2; omega
    refine ⟨canonical_of_value_ge hwf (by omega) ?_, hv2⟩
    rw [hlen, hv2]
    exact hsmall

end uintx_t

namespace uintx_t

/-! ## Right shift -/

theorem newsize_spec (B distance : Nat) :
    (B ≤ distance →
      Int.tdiv ((B : Int) - distance + BitsInWord - 1) BitsInWord < 1 ∧
      (Int.tdiv ((B : Int) - distance + BitsInWord - 1) BitsInWord).toNat = 0) ∧
    (distance < B →
      Int.tdiv ((B : Int) - distance + BitsInWord - 1) BitsInWord
        = ((B - distance + 31) / 32 : Nat)) := by
  have hB : ((BitsInWord : Nat) : Int) = 32 := rfl
  rw [hB]
  constructor
  · intro h
    have key : Int.tdiv ((B : Int) - distance + 32 - 1) 32 ≤ 0 := by
      by_cases h0 : (0 : Int) ≤ (B : Int) - distance + 32 - 1
      · rw [Int.tdiv_eq_zero_of_lt h0 (by omega)]
      · have e : (B : Int) - distance + 32 - 1 = -((distance : Int) - B - 31) := by ring
        rw [e, Int.neg_tdiv]
        have := Int.tdiv_nonneg (a := (distance : Int) - B - 31) (b := 32) (by omega) (by omega)
        omega
    exact ⟨by omega, by omega⟩
  · intro h
    have e : (B : Int) - distance + 32 - 1 = ((B - distance + 31 : Nat) : Int) := by omega
    rw [e]
    rfl

theorem shrWords_spec (k : Nat) (hk : 1 ≤ k) :
    ∀ (n dest : Nat) (d : List Nat), dest + n + k ≤ d.length →
      (shrWords k n dest d).length = d.length ∧
      ∀ j, (shrWords k n dest d).getD j 0 =
        if dest ≤ j ∧ j < dest + n then d.getD (j + k) 0
        else if dest + k ≤ j ∧ j < dest + n + k then 0 else d.getD j 0 := by
  intro n
  induction n with
  | zero =>
    intro dest d _
    refine ⟨rfl, fun j => ?_⟩
    rw [if_neg (by omega), if_neg (by omega)]; rfl
  | succ n ih =>
    intro dest d hd
    unfold shrWords
    obtain ⟨r1, r2⟩ := ih (dest + 1) ((d.set dest (d.getD (dest + k) 0)).set (dest + k) 0)
      (by rw [List.length_set, List.length_set]; omega)
    rw [List.length_set, List.length_set] at r1
    refine ⟨r1, fun j => ?_⟩
    rw [r2 j, getD_set, getD_set, getD_set, getD_set, List.length_set]
    split_ifs <;>
      first | rfl | (exfalso; omega) | (have e : dest = j := (by omega); rw [e])

theorem shrWord_zero (s a : Nat) : shrWord s a 0 = a >>> s := by
  simp [shrWord]

theorem shrBits_spec (s size : Nat) :
    ∀ (n dest : Nat) (d : List Nat), dest + n ≤ d.length →
      (shrBits s size n dest d).length = d.length ∧
      ∀ j, (shrBits s size n dest d).getD j 0 =
        if dest ≤ j ∧ j < dest + n then
          shrWord s (d.getD j 0) (if j + 1 < size then d.getD (j + 1) 0 else 0)
        else d.getD j 0 := by
  intro n
  induction n with
  | zero =>
    intro dest d _
    refine ⟨rfl, fun j => ?_⟩
    rw [if_neg (by omega)]; rfl
  | succ n ih =>
    intro dest d hd
    unfold shrBits
    simp only
    have hv : (if dest + 1 < size then
          d.getD dest 0 >>> s ||| ((d.getD (dest + 1) 0 <<< (BitsInWord - s)) % 2 ^ 32)
        else d.getD dest 0 >>> s)
        = shrWord s (d.getD dest 0) (if dest + 1 < size then d.getD (dest + 1) 0 else 0) := by
      split_ifs with h
      · rfl
      · rw [shrWord_zero]
    rw [hv]
    obtain ⟨r1, r2⟩ := ih (dest + 1)
      (d.set dest (shrWord s (d.getD dest 0) (if dest + 1 < size then d.getD (dest + 1) 0 else 0)))
      (by rw [List.length_set]; omega)
    rw [List.length_set] at r1
    refine ⟨r1, fun j => ?_⟩
    rw [r2 j, getD_set, getD_set]
    split_ifs <;>
      first | rfl | (exfalso; omega) | (have e : dest = j := (by omega); rw [e])

theorem shrZero_spec : ∀ (n i : Nat) (d : List Nat),
    (shrZero n i d).length = d.length ∧
    ∀ j, (shrZero n i d).getD j 0 = if i ≤ j ∧ j < i + n then 0 else d.getD j 0 := by
  intro n
  induction n with
  | zero =>
    intro i d
    exact ⟨rfl, fun j => by rw [if_neg (by omega)]; rfl⟩
  | succ n ih =>
    intro i d
    unfold shrZero
    obtain ⟨r1, r2⟩ := ih (i + 1) (d.set i 0)
    rw [List.length_set] at r1
    refine ⟨r1, fun j => ?_⟩
    rw [r2 j, getD_set]
    split_ifs <;> first | rfl | (exfalso; omega) | (apply getD_of_le; omega)

theorem length_shrSpec (s : Nat) : ∀ (l : List Nat), (shrSpec s l).length = l.length
  | [] => rfl
  | a :: l => by simp [shrSpec, length_shrSpec s l]

theorem headD_eq_getD (l : List Nat) : l.headD 0 = l.getD 0 0 := by
  cases l <;> rfl

theorem getD_shrSpec (s : Nat) : ∀ (l : List Nat) (j : Nat), j < l.length →
    (shrSpec s l).getD j 0 = shrWord s (l.getD j 0) (l.getD (j + 1) 0)
  | [], _, h => by simp at h
  | a :: l, 0, _ => by cases l <;> rfl
  | a :: l, j + 1, h => by
    simp only [shrSpec, List.getD_cons_succ]
    exact getD_shrSpec s l j (by simpa using h)

theorem shrWord_eq (s a nx : Nat) (hs : 0 < s) (hs2 : s < 32) (ha : a < 2 ^ 32) :
    shrWord s a nx = a / 2 ^ s + 2 ^ (32 - s) * (nx % 2 ^ s) ∧ shrWord s a nx < 2 ^ 32 := by
  unfold shrWord BitsInWord
  rw [Nat.shiftLeft_eq, Nat.shiftRight_eq_div_pow]
  have hW : (2 : Nat) ^ 32 = 2 ^ s * 2 ^ (32 - s) := by
    rw [← pow_add]; congr 1; omega
  have h1 : nx * 2 ^ (32 - s) % 2 ^ 32 = 2 ^ (32 - s) * (nx % 2 ^ s) := by
    rw [hW, Nat.mul_mod_mul_right, mul_comm]
  have h2 : a / 2 ^ s < 2 ^ (32 - s) := by
    apply Nat.div_lt_of_lt_mul
    rw [← hW]; exact ha
  rw [h1, Nat.lor_comm, ← Nat.mul_add_lt_is_or h2]
  refine ⟨by ring, ?_⟩
  have h3 : nx % 2 ^ s < 2 ^ s := Nat.mod_lt _ (by positivity)
  calc 2 ^ (32 - s) * (nx % 2 ^ s) + a / 2 ^ s
      < 2 ^ (32 - s) * (nx % 2 ^ s) + 2 ^ (32 - s) := by omega
    _ = 2 ^ (32 - s) * (nx % 2 ^ s + 1) := by ring
    _ ≤ 2 ^ (32 - s) * 2 ^ s := Nat.mul_le_mul_left _ h3
    _ = 2 ^ 32 := by rw [hW]; ring

theorem headD_eq_value_mod {l : List Nat} (hl : WF l) : l.headD 0 = value l % 2 ^ 32 := by
  cases l with
  | nil => rfl
  | cons a l =>
    rw [WF_cons] at hl
    simp only [List.headD_cons, value_cons]
    rw [Nat.add_mul_mod_self_left, Nat.mod_eq_of_lt hl.1]

theorem shrSpec_value (s : Nat) (hs : 0 < s) (hs2 : s < 32) :
    ∀ (l : List Nat), WF l → WF (shrSpec s l) ∧ value (shrSpec s l) = value l / 2 ^ s
  | [], _ => by simp [shrSpec, value, WF_nil]
  | a :: l, hl => by
    rw [WF_cons] at hl
    obtain ⟨ih1, ih2⟩ := shrSpec_value s hs hs2 l hl.2
    obtain ⟨e1, e2⟩ := shrWord_eq s a (l.headD 0) hs hs2 hl.1
    refine ⟨WF_cons.mpr ⟨e2, ih1⟩, ?_⟩
    simp only [shrSpec, value_cons]
    rw [e1, ih2, headD_eq_value_mod hl.2]
    have hW : (2 : Nat) ^ 32 = 2 ^ s * 2 ^ (32 - s) := by
      rw [← pow_add]; congr 1; omega
    generalize value l = V
    have hSpos : 0 < 2 ^ s := by positivity
    have h1 : V % 2 ^ 32 % 2 ^ s = V % 2 ^ s := by
      rw [hW]; exact Nat.mod_mul_right_mod _ _ _
    rw [h1]
    have h2 : (a + 2 ^ 32 * V) / 2 ^ s = a / 2 ^ s + 2 ^ (32 - s) * V := by
      rw [hW, mul_assoc, Nat.add_mul_div_left _ _ hSpos]
    rw [h2]
    have h3 := Nat.div_add_mod V (2 ^ s)
    generalize V / 2 ^ s = q at *
    generalize V % 2 ^ s = r at *
    rw [hW, ← h3]
    ring

theorem value_drop (x : List Nat) (hx : WF x) (k : Nat) :
    value (x.drop k) = value x / 2 ^ (32 * k) := by
  by_cases hk : k ≤ x.length
  · have h1 := value_take_add_drop x k
    rw [Nat.min_eq_left hk] at h1
    have h2 := value_lt (WF_take hx k)
    rw [List.length_take, Nat.min_eq_left hk] at h2
    rw [← h1, Nat.add_mul_div_left _ _ (by positivity), Nat.div_eq_of_lt h2, zero_add]
  · rw [List.drop_of_length_le (by omega), value_nil]
    symm
    apply Nat.div_eq_of_lt
    calc value x < 2 ^ (32 * x.length) := value_lt hx
      _ ≤ 2 ^ (32 * k) := pow32_le (by omega)

/-- Right shift, for a distance below 32 or a multiple of 32. -/
theorem operator_shr_assign_spec {x : List Nat} (hx : Canonical x) (distance : Nat)
    (hd : distance < 32 ∨ distance % 32 = 0) :
    Canonical (operator_shr_assign x distance) ∧
    value (operator_shr_assign x distance) = value x / 2 ^ distance := by
  unfold operator_shr_assign
  obtain ⟨n1, n2⟩ := newsize_spec (bitcount x) distance
  generalize Int.tdiv ((bitcount x : Int) - distance + BitsInWord - 1) BitsInWord = ns at *
  obtain ⟨b1, b2, b3, b4⟩ := bitcount_spec hx
  have hxl := hx.length_pos
  simp only
  by_cases hB : bitcount x ≤ distance
  · obtain ⟨m1, m2⟩ := n1 hB
    rw [if_pos m1, assignInt_eq, m2, ofInt_zero]
    have : shrZero ([0] : List Nat).length 0 [0] = [0] := rfl
    simp only [Nat.sub_zero]
    rw [this, normalize_of_canonical (canonical_singleton (by norm_num))]
    refine ⟨canonical_singleton (by norm_num), ?_⟩
    simp only [value_cons, value_nil, mul_zero, add_zero]
    symm
    apply Nat.div_eq_of_lt
    calc value x < 2 ^ bitcount x := b1
      _ ≤ 2 ^ distance := Nat.pow_le_pow_right (by norm_num) hB
  · have hB' : distance < bitcount x := by omega
    have hns := n2 hB'
    generalize hM : (bitcount x - distance + 31) / 32 = M at hns
    subst hns
    rw [if_neg (by omega), Int.toNat_ofNat]
    simp only [BitsInWord]
    have hv0 : value x ≠ 0 := by
      intro h; have := b3 h; omega
    obtain ⟨b2a, b2b⟩ := b2 hv0
    have hM1 : 1 ≤ M := by omega
    have hML : M ≤ x.length := by omega
    by_cases hs : 0 < distance % 32
    · -- a shift within words only
      have hk : distance / 32 = 0 := by omega
      have hds : distance % 32 = distance := by omega
      rw [hk, if_neg (show ¬ ((0 : Nat) ≠ 0) by simp), if_pos hs, hds]
      obtain ⟨r1, r2⟩ := shrBits_spec distance x.length M 0 x (by omega)
      obtain ⟨z1, z2⟩ := shrZero_spec ((shrBits distance x.length M 0 x).length - M) M
        (shrBits distance x.length M 0 x)
      have hfin : shrZero ((shrBits distance x.length M 0 x).length - M) M
          (shrBits distance x.length M 0 x) = shrSpec distance x := by
        apply ext_getD (by rw [z1, r1, length_shrSpec])
        intro j hj
        rw [z1, r1] at hj
        rw [z2 j, r1, getD_shrSpec distance x j hj]
        by_cases hjM : j < M
        · rw [if_neg (by omega), r2 j, if_pos ⟨by omega, by omega⟩]
          congr 1
          split_ifs with h
          · rfl
          · exact (getD_of_le (by omega)).symm
        · rw [if_pos ⟨by omega, by omega⟩]
          have hj2 : j = x.length - 1 := by omega
          have e2 : x.getD (j + 1) 0 = 0 := getD_of_le (by omega)
          rw [e2, shrWord_zero, Nat.shiftRight_eq_div_pow]
          symm
          apply Nat.div_eq_of_lt
          have hv := value_take_add_drop x (x.length - 1)
          rw [Nat.min_eq_left (by omega), drop_last x hxl, ← hj2] at hv
          simp only [value_cons, value_nil, mul_zero, add_zero] at hv
          have hBs : bitcount x ≤ 32 * j + distance := by omega
          have h3 : 2 ^ (32 * j) * x.getD j 0 < 2 ^ (32 * j) * 2 ^ distance := by
            calc 2 ^ (32 * j) * x.getD j 0 ≤ value x := by omega
              _ < 2 ^ bitcount x := b1
              _ ≤ 2 ^ (32 * j + distance) := Nat.pow_le_pow_right (by norm_num) hBs
              _ = 2 ^ (32 * j) * 2 ^ distance := by rw [pow_add]
          exact Nat.lt_of_mul_lt_mul_left h3
      rw [hfin]
      obtain ⟨w1, w2⟩ := shrSpec_value distance (by omega) (by omega) x hx.wf
      refine ⟨canonical_normalize w1 (by rw [length_shrSpec]; omega), ?_⟩
      rw [value_normalize, w2]
    · -- a shift by whole words only
      have hs0 : distance % 32 = 0 := by omega
      rw [if_neg hs]
      have hdk : distance = 32 * (distance / 32) := by omega
      generalize distance / 32 = k at *
      have hMk : M = x.length - k := by omega
      have hkL : k < x.length := by omega
      have hdd : ∀ j, j < M →
          (if 0 ≠ k then shrWords k (x.length - k) 0 x else x).getD j 0 = x.getD (j + k) 0 := by
        intro j hj
        by_cases hk0 : k = 0
        · subst hk0; simp
        · rw [if_pos (by omega)]
          obtain ⟨r1, r2⟩ := shrWords_spec k (by omega) (x.length - k) 0 x (by omega)
          rw [r2 j, if_pos ⟨by omega, by omega⟩]
      have hdl : (if 0 ≠ k then shrWords k (x.length - k) 0 x else x).length = x.length := by
        by_cases hk0 : k = 0
        · subst hk0; simp
        · rw [if_pos (by omega)]
          exact (shrWords_spec k (by omega) (x.length - k) 0 x (by omega)).1
      generalize (if 0 ≠ k then shrWords k (x.length - k) 0 x else x) = d at *
      obtain ⟨z1, z2⟩ := shrZero_spec (d.length - M) M d
      have hfin : shrZero (d.length - M) M d = x.drop k ++ List.replicate k 0 := by
        apply ext_getD
        · rw [z1, hdl, List.length_append, List.length_drop, List.length_replicate]; omega
        · intro j hj
          rw [z1, hdl] at hj
          rw [z2 j, getD_append_replicate_zero]
          by_cases hjM : j < M
          · rw [if_neg (by omega), hdd j hjM]
            rw [List.getD_eq_getElem?_getD, List.getD_eq_getElem?_getD, List.getElem?_drop,
              add_comm]
          · rw [if_pos ⟨by omega, by omega⟩]
            symm
            apply getD_of_le
            rw [List.length_drop]; omega
      rw [hfin]
      have hwf : WF (x.drop k ++ List.replicate k 0) :=
        WF_append.mpr ⟨WF_drop hx.wf k, WF_replicate_zero k⟩
      refine ⟨canonical_normalize hwf (by
        rw [List.length_append, List.length_drop, List.length_replicate]; omega), ?_⟩
      rw [value_normalize, value_append, value_replicate_zero, mul_zero, add_zero,
        value_drop x hx.wf k, hdk]

end uintx_t

namespace uintx_t

/-! ## Multiplication, division and remainder -/

theorem getD_zero_eq_value_mod {z : List Nat} (hz : WF z) : z.getD 0 0 = value z % 2 ^ 32 := by
  rw [← headD_eq_getD, headD_eq_value_mod hz]

theorem canonical_zero : Canonical (ofInt 0) := canonical_ofInt 0

theorem value_ofInt_zero : value (ofInt 0) = 0 := by rw [ofInt_zero]; rfl

theorem value_ofInt_one : value (ofInt 1) = 1 := by
  have := value_ofInt_natCast 1
  simpa using this

theorem mulBigLoop_spec : ∀ (fuel : Nat) (r y z : List Nat), Canonical r → Canonical y →
    Canonical z → value z < 2 ^ (32 * fuel) →
    Canonical (mulBigLoop (fuel + 1) r y z) ∧
    value (mulBigLoop (fuel + 1) r y z) = value r + value y * value z := by
  intro fuel
  induction fuel with
  | zero =>
    intro r y z hr hy hz hv
    have h0 : value z = 0 := by simpa using hv
    unfold mulBigLoop
    rw [operator_gt_int_zero hz, decide_eq_false (by omega), if_neg (by simp)]
    exact ⟨hr, by rw [h0]; simp⟩
  | succ f ih =>
    intro r y z hr hy hz hv
    unfold mulBigLoop
    rw [operator_gt_int_zero hz]
    by_cases h0 : 0 < value z
    · rw [decide_eq_true h0, if_pos rfl]
      have hw : z.getD 0 0 < 2 ^ 32 := WF_getD hz.wf 0
      obtain ⟨m1, m2⟩ := operator_mul_uint32_spec hy hw
      obtain ⟨s1, s2⟩ := operator_shl_assign_spec hy BitsInWord
      obtain ⟨t1, t2⟩ := operator_shr_assign_spec hz BitsInWord (Or.inr rfl)
      have a1 := canonical_add hr m1
      have a2 := value_add hr m1
      have hz' : value (operator_shr_assign z BitsInWord) < 2 ^ (32 * f) := by
        rw [t2]
        apply Nat.div_lt_of_lt_mul
        have : (2 : Nat) ^ BitsInWord * 2 ^ (32 * f) = 2 ^ (32 * (f + 1)) := by
          rw [← pow_add]; congr 1; simp [BitsInWord]; ring
        rw [this]; exact hv
      obtain ⟨i1, i2⟩ := ih _ _ _ a1 s1 t1 hz'
      refine ⟨i1, ?_⟩
      rw [i2, a2, m2, s2, t2, getD_zero_eq_value_mod hz.wf]
      have hB : (2 : Nat) ^ BitsInWord = 2 ^ 32 := rfl
      rw [hB]
      have := Nat.mod_add_div (value z) (2 ^ 32)
      generalize value z % 2 ^ 32 = lo at *
      generalize value z / 2 ^ 32 = hi at *
      rw [← this]; ring
    · rw [decide_eq_false h0, if_neg (by simp)]
      have : value z = 0 := by omega
      exact ⟨hr, by rw [this]; simp⟩

theorem operator_mul_spec {y z : List Nat} (hy : Canonical y) (hz : Canonical z) :
    Canonical (operator_mul y z) ∧ value (operator_mul y z) = value y * value z := by
  unfold operator_mul
  obtain ⟨h1, h2⟩ := mulBigLoop_spec z.length (ofInt 0) y z canonical_zero hy hz (value_lt hz.wf)
  exact ⟨h1, by rw [h2, value_ofInt_zero, zero_add]⟩

theorem alignLoop_spec (y : List Nat) (hy : Canonical y) :
    ∀ (fuel : Nat) (w : List Nat), Canonical w → 0 < fuel →
      value y < value w * 2 ^ (fuel - 1) →
      ∃ (w' : List Nat) (t : Nat), alignLoop fuel w y = some w' ∧ Canonical w' ∧
        value w' = value w * 2 ^ t ∧ value y < value w' ∧
        (t = 0 ∨ value w * 2 ^ (t - 1) ≤ value y) := by
  intro fuel
  induction fuel with
  | zero => intro w _ h; omega
  | succ f ih =>
    intro w hw _ hv
    unfold alignLoop
    rw [operator_le_eq hw hy]
    by_cases hle : value w ≤ value y
    · rw [decide_eq_true hle, if_pos rfl]
      obtain ⟨s1, s2⟩ := operator_shl_assign_spec hw 1
      have hf : 0 < f := by
        by_contra h
        have : f = 0 := by omega
        subst this
        simp at hv
        omega
      have hv' : value y < value (operator_shl_assign w 1) * 2 ^ (f - 1) := by
        have e : 2 ^ 1 * 2 ^ (f - 1) = 2 ^ (f + 1 - 1) := by
          rw [← pow_add]; congr 1; omega
        rw [s2, mul_assoc, e]; exact hv
      obtain ⟨w', t, e1, e2, e3, e4, e5⟩ := ih _ s1 hf hv'
      refine ⟨w', t + 1, e1, e2, ?_, e4, Or.inr ?_⟩
      · rw [e3, s2, pow_succ]; ring
      · simp only [Nat.add_sub_cancel]
        rcases e5 with h | h
        · subst h; simpa using hle
        · rw [s2] at h
          have h3 : 2 ^ t ≤ 2 ^ 1 * 2 ^ (t - 1) := by
            rw [← pow_add]; exact Nat.pow_le_pow_right (by norm_num) (by omega)
          calc value w * 2 ^ t ≤ value w * (2 ^ 1 * 2 ^ (t - 1)) := Nat.mul_le_mul_left _ h3
            _ = value w * 2 ^ 1 * 2 ^ (t - 1) := by ring
            _ ≤ value y := h
    · rw [decide_eq_false hle, if_neg (by simp)]
      exact ⟨w, 0, rfl, hw, by simp, by omega, Or.inl rfl⟩

theorem modLoop_spec (z : List Nat) (hz : Canonical z) (hz0 : 0 < value z) :
    ∀ (t fuel : Nat) (w y : List Nat), t < fuel → Canonical w → Canonical y →
      value w = value z * 2 ^ t → value y < value w →
      ∃ y', modLoop z fuel w y = some y' ∧ Canonical y' ∧ value y' = value y % value z := by
  intro t
  induction t with
  | zero =>
    intro fuel w y hf hw hy hwv hyv
    obtain ⟨f, rfl⟩ : ∃ f, fuel = f + 1 := ⟨fuel - 1, by omega⟩
    unfold modLoop
    rw [operator_gt_eq hw hz, decide_eq_false (by rw [hwv]; simp), if_neg (by simp)]
    refine ⟨y, rfl, hy, ?_⟩
    rw [Nat.mod_eq_of_lt]
    rw [hwv] at hyv; simpa using hyv
  | succ t ih =>
    intro fuel w y hf hw hy hwv hyv
    obtain ⟨f, rfl⟩ : ∃ f, fuel = f + 1 := ⟨fuel - 1, by omega⟩
    unfold modLoop
    have hgt : value z < value w := by
      rw [hwv]
      have : 2 ≤ 2 ^ (t + 1) := by
        calc 2 = 2 ^ 1 := rfl
          _ ≤ 2 ^ (t + 1) := Nat.pow_le_pow_right (by norm_num) (by omega)
      nlinarith
    rw [operator_gt_eq hw hz, decide_eq_true hgt, if_pos rfl]
    obtain ⟨s1, s2⟩ := operator_shr_assign_spec hw 1 (Or.inl (by norm_num))
    have hw' : value (operator_shr_assign w 1) = value z * 2 ^ t := by
      rw [s2, hwv, pow_succ, ← mul_assoc]
      simp
    simp only
    rw [operator_le_eq s1 hy]
    by_cases hle : value (operator_shr_assign w 1) ≤ value y
    · rw [decide_eq_true hle, if_pos rfl]
      obtain ⟨d1, d2⟩ := operator_sub_assign_spec hy s1
      have hlt : value (operator_sub_assign y (operator_shr_assign w 1))
          < value (operator_shr_assign w 1) := by
        have hyv2 : value y < 2 * (value z * 2 ^ t) := by
          rw [hwv, pow_succ] at hyv; linarith
        rw [d2, hw']
        rw [hw'] at hle
        omega
      obtain ⟨y', e1, e2, e3⟩ := ih f _ _ (by omega) s1 d1 hw' hlt
      refine ⟨y', e1, e2, ?_⟩
      rw [e3, d2, hw']
      exact Nat.sub_mul_mod (by rw [← hw']; exact hle)
    · rw [decide_eq_false hle, if_neg (by simp)]
      exact ih f _ _ (by omega) s1 hy hw' (by omega)

theorem divLoop_spec (z : List Nat) (hz : Canonical z) (hz0 : 0 < value z) :
    ∀ (t fuel : Nat) (q w r : List Nat), t < fuel → Canonical q → Canonical w → Canonical r →
      value w = value z * 2 ^ t → value r < value w →
      ∃ q', divLoop z fuel q w r = some q' ∧ Canonical q' ∧
        value q' = value q * 2 ^ t + value r / value z := by
  intro t
  induction t with
  | zero =>
    intro fuel q w r hf hq hw hr hwv hrv
    obtain ⟨f, rfl⟩ : ∃ f, fuel = f + 1 := ⟨fuel - 1, by omega⟩
    unfold divLoop
    rw [operator_gt_eq hw hz, decide_eq_false (by rw [hwv]; simp), if_neg (by simp)]
    refine ⟨q, rfl, hq, ?_⟩
    rw [Nat.div_eq_of_lt (by rw [hwv] at hrv; simpa using hrv)]
    simp
  | succ t ih =>
    intro fuel q w r hf hq hw hr hwv hrv
    obtain ⟨f, rfl⟩ : ∃ f, fuel = f + 1 := ⟨fuel - 1, by omega⟩
    unfold divLoop
    have hgt : value z < value w := by
      rw [hwv]
      have : 2 ≤ 2 ^ (t + 1) := by
        calc 2 = 2 ^ 1 := rfl
          _ ≤ 2 ^ (t + 1) := Nat.pow_le_pow_right (by norm_num) (by omega)
      nlinarith
    rw [operator_gt_eq hw hz, decide_eq_true hgt, if_pos rfl]
    obtain ⟨s1, s2⟩ := operator_shr_assign_spec hw 1 (Or.inl (by norm_num))
    obtain ⟨q1, q2⟩ := operator_shl_assign_spec hq 1
    have hw' : value (operator_shr_assign w 1) = value z * 2 ^ t := by
      rw [s2, hwv, pow_succ, ← mul_assoc]
      simp
    simp only
    rw [operator_le_eq s1 hr]
    by_cases hle : value (operator_shr_assign w 1) ≤ value r
    · rw [decide_eq_true hle, if_pos rfl]
      obtain ⟨d1, d2⟩ := operator_sub_assign_spec hr s1
      have hlt : value (operator_sub_assign r (operator_shr_assign w 1))
          < value (operator_shr_assign w 1) := by
        have hrv2 : value r < 2 * (value z * 2 ^ t) := by
          rw [hwv, pow_succ] at hrv; linarith
        rw [d2, hw']
        rw [hw'] at hle
        omega
      have a1 : Canonical (operator_add_assign_int (operator_shl_assign q 1) 1) :=
        canonical_add q1 (canonical_ofInt 1)
      have a2 : value (operator_add_assign_int (operator_shl_assign q 1) 1)
          = value q * 2 + 1 := by
        unfold operator_add_assign_int
        rw [value_add q1 (canonical_ofInt 1), q2, value_ofInt_one]; simp
      obtain ⟨q', e1, e2, e3⟩ := ih f _ _ _ (by omega) a1 s1 d1 hw' hlt
      refine ⟨q', e1, e2, ?_⟩
      rw [e3, a2, d2, hw']
      rw [hw'] at hle
      rw [Nat.sub_mul_div _ _ _ hle, pow_succ]
      have : 2 ^ t ≤ value r / value z := by
        rw [Nat.le_div_iff_mul_le hz0, mul_comm]; exact hle
      generalize value r / value z = c at *
      generalize (2 : Nat) ^ t = P at *
      have : (value q * 2 + 1) * P = value q * (P * 2) + P := by ring
      omega
    · rw [decide_eq_false hle, if_neg (by simp)]
      obtain ⟨q', e1, e2, e3⟩ := ih f _ _ _ (by omega) q1 s1 hr hw' (by omega)
      refine ⟨q', e1, e2, ?_⟩
      rw [e3, q2, pow_succ]; ring

theorem pow_exp_lt {a b : Nat} (h : 2 ^ a < 2 ^ b) : a < b := by
  by_contra hn
  have := Nat.pow_le_pow_right (show 0 < 2 by norm_num) (not_lt.mp hn)
  omega

/-- The remainder of canonical operands, given `32 * m_nSize + 1` rounds for each loop. -/
theorem operator_mod_spec {y z : List Nat} (hy : Canonical y) (hz : Canonical z)
    (hz0 : 0 < value z) (fuel : Nat) (hf : 32 * y.length + 1 ≤ fuel) :
    ∃ r, operator_mod fuel y z = some r ∧ Canonical r ∧ value r = value y % value z := by
  unfold operator_mod
  have hylt := value_lt hy.wf
  have h1 : value y < value z * 2 ^ (fuel - 1) := by
    calc value y < 2 ^ (32 * y.length) := hylt
      _ ≤ 2 ^ (fuel - 1) := Nat.pow_le_pow_right (by norm_num) (by omega)
      _ ≤ value z * 2 ^ (fuel - 1) := Nat.le_mul_of_pos_left _ hz0
  obtain ⟨w', t, e1, e2, e3, e4, e5⟩ := alignLoop_spec y hy fuel z hz (by omega) h1
  rw [e1, Option.some_bind]
  have ht : t < fuel := by
    rcases e5 with h | h
    · omega
    · have h2 : 2 ^ (t - 1) < 2 ^ (32 * y.length) := by
        calc 2 ^ (t - 1) ≤ value z * 2 ^ (t - 1) := Nat.le_mul_of_pos_left _ hz0
          _ ≤ value y := h
          _ < _ := hylt
      have := pow_exp_lt h2
      omega
  exact modLoop_spec z hz hz0 t fuel w' y ht e2 hy e3 e4

/-- The quotient of canonical operands, given `32 * m_nSize + 1` rounds for each loop. -/
theorem operator_div_spec {y z : List Nat} (hy : Canonical y) (hz : Canonical z)
    (hz0 : 0 < value z) (fuel : Nat) (hf : 32 * y.length + 1 ≤ fuel) :
    ∃ q, operator_div fuel y z = some q ∧ Canonical q ∧ value q = value y / value z := by
  unfold operator_div
  rw [operator_ge_eq hy hz]
  by_cases hle : value z ≤ value y
  · rw [decide_eq_true hle, if_pos rfl]
    have hylt := value_lt hy.wf
    obtain ⟨s1, s2⟩ := operator_shl_assign_spec hz (bitcount y - bitcount z)
    have hpos : 0 < value (operator_shl_assign z (bitcount y - bitcount z)) := by
      rw [s2]; positivity
    have h1 : value y < value (operator_shl_assign z (bitcount y - bitcount z))
        * 2 ^ (fuel - 1) := by
      calc value y < 2 ^ (32 * y.length) := hylt
        _ ≤ 2 ^ (fuel - 1) := Nat.pow_le_pow_right (by norm_num) (by omega)
        _ ≤ _ := Nat.le_mul_of_pos_left _ hpos
    obtain ⟨w', t, e1, e2, e3, e4, e5⟩ := alignLoop_spec y hy fuel _ s1 (by omega) h1
    rw [e1, Option.some_bind]
    obtain ⟨by1, by2, by3, by4⟩ := bitcount_spec hy
    obtain ⟨bz1, bz2, bz3, bz4⟩ := bitcount_spec hz
    have hw : value w' = value z * 2 ^ (bitcount y - bitcount z + t) := by
      rw [e3, s2, pow_add, mul_assoc]
    have ht : bitcount y - bitcount z + t < fuel := by
      rcases e5 with h | h
      · omega
      · rw [s2] at h
        have h2 : 2 ^ (bitcount y - bitcount z + (t - 1)) < 2 ^ (32 * y.length) := by
          calc 2 ^ (bitcount y - bitcount z + (t - 1))
              ≤ value z * 2 ^ (bitcount y - bitcount z + (t - 1)) :=
                Nat.le_mul_of_pos_left _ hz0
            _ = value z * 2 ^ (bitcount y - bitcount z) * 2 ^ (t - 1) := by
                rw [pow_add, mul_assoc]
            _ ≤ value y := h
            _ < _ := hylt
        have := pow_exp_lt h2
        omega
    obtain ⟨q', f1, f2, f3⟩ := divLoop_spec z hz hz0 _ fuel (ofInt 0) w' y ht canonical_zero
      e2 hy hw e4
    exact ⟨q', f1, f2, by rw [f3, value_ofInt_zero]; simp⟩
  · rw [decide_eq_false hle, if_neg (by simp)]
    refine ⟨ofInt 0, rfl, canonical_zero, ?_⟩
    rw [value_ofInt_zero, Nat.div_eq_of_lt (by omega)]

end uintx_t

/-! ## The constructor `CPerm(n, m)` on numbers -/

namespace CPerm

open uintx_t

theorem getD_set_gen {α : Type} (d : List α) (i j : Nat) (v dflt : α) :
    (d.set i v).getD j dflt = if i = j ∧ i < d.length then v else d.getD j dflt := by
  simp only [List.getD_eq_getElem?_getD, List.getElem?_set]
  by_cases h : i = j
  · subst h
    by_cases h2 : i < d.length
    · simp [h2]
    · simp [h2, List.getElem?_eq_none (not_lt.mp h2)]
  · simp [h]

theorem getD_range (n j : Nat) (h : j < n) : (List.range n).getD j 0 = j := by
  rw [List.getD_eq_getElem?_getD, List.getElem?_range h]; rfl

theorem identityLoop_spec : ∀ (c i : Nat) (m : List Nat),
    (identityLoop c i m).length = m.length ∧
    ∀ j, (identityLoop c i m).getD j 0 =
      if i ≤ j ∧ j < i + c ∧ j < m.length then j else m.getD j 0 := by
  intro c
  induction c with
  | zero =>
    intro i m
    exact ⟨rfl, fun j => by rw [if_neg (by omega)]; rfl⟩
  | succ c ih =>
    intro i m
    unfold identityLoop
    obtain ⟨r1, r2⟩ := ih (i + 1) (m.set i i)
    rw [List.length_set] at r1 r2
    refine ⟨r1, fun j => ?_⟩
    rw [r2 j, uintx_t.getD_set]
    split_ifs <;> first | rfl | (exfalso; omega) | omega

theorem identity_map (n : Nat) : (identity n).m_nMap = List.range n := by
  unfold identity
  simp only
  obtain ⟨r1, r2⟩ := identityLoop_spec n 0 (List.replicate n 0)
  rw [List.length_replicate] at r1 r2
  apply ext_getD (by rw [r1, List.length_range])
  intro j hj
  rw [r1] at hj
  rw [r2 j, if_pos ⟨by omega, by omega, hj⟩, getD_range n j hj]

theorem identity_size (n : Nat) : (identity n).m_nSize = n := rfl

/-- The table of factorials built by the first loop of the constructor. -/
theorem factorialLoop_spec (n : Nat) (hn : n ≤ 2 ^ 32) :
    ∀ (c i : Nat) (f : List uintx_t), 1 ≤ i → i + c = n → f.length = n →
      (∀ j, j < i → Canonical (f.getD j []) ∧ value (f.getD j []) = j.factorial) →
      (factorialLoop c i f).length = n ∧
      ∀ j, j < n → Canonical ((factorialLoop c i f).getD j []) ∧
        value ((factorialLoop c i f).getD j []) = j.factorial := by
  intro c
  induction c with
  | zero =>
    intro i f _ hic hf h
    refine ⟨hf, fun j hj => h j (by omega)⟩
  | succ c ih =>
    intro i f hi hic hf h
    unfold factorialLoop
    obtain ⟨p1, p2⟩ := h (i - 1) (by omega)
    obtain ⟨m1, m2⟩ := operator_mul_uint32_spec p1 (show i < 2 ^ 32 by omega)
    apply ih (i + 1) _ (by omega) (by omega) (by rw [List.length_set]; exact hf)
    intro j hj
    rw [getD_set_gen]
    by_cases hji : j = i
    · subst hji
      rw [if_pos ⟨rfl, by omega⟩]
      refine ⟨m1, ?_⟩
      rw [m2, p2]
      obtain ⟨k, rfl⟩ : ∃ k, j = k + 1 := ⟨j - 1, by omega⟩
      simp only [Nat.add_sub_cancel, Nat.factorial_succ]
      ring
    · rw [if_neg (by omega)]
      exact h j (by omega)

theorem factorial_table (n : Nat) (hn1 : 1 ≤ n) (hn : n ≤ 2 ^ 32) :
    (factorialLoop (n - 1) 1 ((List.replicate n []).set 0 (assignInt [] 1))).length = n ∧
    ∀ j, j < n →
      Canonical ((factorialLoop (n - 1) 1
        ((List.replicate n []).set 0 (assignInt [] 1))).getD j []) ∧
      value ((factorialLoop (n - 1) 1
        ((List.replicate n []).set 0 (assignInt [] 1))).getD j []) = j.factorial := by
  apply factorialLoop_spec n hn (n - 1) 1 _ (le_refl _) (by omega)
    (by rw [List.length_set, List.length_replicate])
  intro j hj
  have hj0 : j = 0 := by omega
  subst hj0
  rw [getD_set_gen, if_pos ⟨rfl, by rw [List.length_replicate]; omega⟩, assignInt_eq]
  exact ⟨canonical_ofInt 1, by rw [value_ofInt_one]; rfl⟩

theorem factorial_mod_mod (v : Nat) {a b : Nat} (h : a ≤ b) :
    v % b.factorial % a.factorial = v % a.factorial :=
  Nat.mod_mod_of_dvd v (Nat.factorial_dvd_factorial h)

theorem digit_lt (v j : Nat) : v % (j + 1).factorial / j.factorial < j + 1 := by
  apply Nat.div_lt_of_lt_mul
  rw [mul_comm, ← Nat.factorial_succ]
  exact Nat.mod_lt _ (Nat.factorial_pos _)

/-- The coefficients found by the second loop of the constructor: the mixed-radix digits of the
number. -/
theorem coefficientLoop_spec (fuel n : Nat) (hn : n ≤ 2 ^ 32) (factorial : List uintx_t)
    (hF : ∀ j, j < n → Canonical (factorial.getD j []) ∧
      value (factorial.getD j []) = j.factorial) :
    ∀ (i : Nat) (m : uintx_t) (c : List Nat), i < n → Canonical m →
      value m < (i + 1).factorial → 32 * m.length + 1 ≤ fuel → c.length = n →
      ∃ c', coefficientLoop fuel factorial i m c = some c' ∧ c'.length = n ∧
        ∀ j, c'.getD j 0 =
          if 1 ≤ j ∧ j ≤ i then value m % (j + 1).factorial / j.factorial
          else c.getD j 0 := by
  intro i
  induction i with
  | zero =>
    intro m c _ _ _ _ hc
    exact ⟨c, rfl, hc, fun j => by rw [if_neg (by omega)]⟩
  | succ i ih =>
    intro m c hi hm hmv hfuel hc
    unfold coefficientLoop
    obtain ⟨f1, f2⟩ := hF (i + 1) hi
    have fpos : 0 < value (factorial.getD (i + 1) []) := by
      rw [f2]; exact Nat.factorial_pos _
    obtain ⟨q, q1, q2, q3⟩ := operator_div_spec hm f1 fpos fuel hfuel
    obtain ⟨m', r1, r2, r3⟩ := operator_mod_spec hm f1 fpos fuel hfuel
    rw [q1, Option.some_bind, r1, Option.some_bind]
    have hlen : m'.length ≤ m.length :=
      r2.length_le_of_value_le hm (by rw [r3]; exact Nat.mod_le _ _)
    rw [f2] at q3 r3
    have hm'v : value m' < (i + 1).factorial := by
      rw [r3]; exact Nat.mod_lt _ (Nat.factorial_pos _)
    obtain ⟨c', e1, e2, e3⟩ := ih m' (c.set (i + 1) (operator_uint32 q)) (by omega) r2
      hm'v (by omega) (by rw [List.length_set]; exact hc)
    refine ⟨c', e1, e2, fun j => ?_⟩
    rw [e3 j, uintx_t.getD_set, r3]
    by_cases hj : 1 ≤ j ∧ j ≤ i
    · rw [if_pos hj, if_pos ⟨hj.1, by omega⟩, factorial_mod_mod _ (by omega)]
    · rw [if_neg hj]
      by_cases hj2 : j = i + 1
      · subst hj2
        rw [if_pos ⟨rfl, by omega⟩, if_pos ⟨by omega, le_refl _⟩, Nat.mod_eq_of_lt hmv]
        have hq : value q < i + 1 + 1 := by
          rw [q3]
          apply Nat.div_lt_of_lt_mul
          rw [mul_comm, ← Nat.factorial_succ]; exact hmv
        unfold operator_uint32
        rw [getD_zero_eq_value_mod q2.wf, Nat.mod_eq_of_lt (by omega), q3]
      · rw [if_neg (by omega), if_neg (by omega)]

theorem length_digits (n v : Nat) : (digits n v).length = n := by simp [digits]

theorem getD_digits (n v j : Nat) (h : j < n) :
    (digits n v).getD j 0 = v % (j + 1).factorial / j.factorial := by
  unfold digits
  rw [List.getD_eq_getElem?_getD, List.getElem?_map, List.getElem?_range h]
  rfl

/-- The constructor `CPerm(n, m)` builds its map from the mixed-radix digits of
`m mod n!`. -/
theorem ofNumber_eq (fuel n : Nat) (m : uintx_t) (hn1 : 1 ≤ n) (hn : n < 2 ^ 32)
    (hm : Canonical m) (hfuel : 32 * m.length + 1 ≤ fuel) :
    ofNumber fuel n m =
      (buildLoop (digits n (value m % n.factorial)) n (List.range n) (List.range n)).map
        fun map => { m_nMap := map, m_nSize := n } := by
  unfold ofNumber
  simp only
  obtain ⟨F1, F2⟩ := factorial_table n hn1 (by omega)
  generalize factorialLoop (n - 1) 1 ((List.replicate n []).set 0 (assignInt [] 1)) = F at *
  obtain ⟨t1, t2⟩ := F2 (n - 1) (by omega)
  obtain ⟨nf1, nf2⟩ := operator_mul_uint32_spec t1 hn
  have hnf : value (operator_mul_uint32 (F.getD (n - 1) []) n) = n.factorial := by
    rw [nf2, t2]
    obtain ⟨k, rfl⟩ : ∃ k, n = k + 1 := ⟨n - 1, by omega⟩
    simp only [Nat.add_sub_cancel, Nat.factorial_succ]; ring
  obtain ⟨m1, r1, r2, r3⟩ := operator_mod_spec hm nf1 (by rw [hnf]; exact Nat.factorial_pos _)
    fuel hfuel
  rw [r1, Option.some_bind]
  rw [hnf] at r3
  have hlen : m1.length ≤ m.length :=
    r2.length_le_of_value_le hm (by rw [r3]; exact Nat.mod_le _ _)
  have hm1v : value m1 < (n - 1 + 1).factorial := by
    rw [r3, Nat.sub_add_cancel hn1]; exact Nat.mod_lt _ (Nat.factorial_pos _)
  obtain ⟨c, c1, c2, c3⟩ := coefficientLoop_spec fuel n (by omega) F F2 (n - 1) m1
    (List.replicate n 0) (by omega) r2 hm1v (by omega) (List.length_replicate _ _)
  rw [c1, Option.some_bind, identity_map]
  have hc : c = digits n (value m % n.factorial) := by
    apply ext_getD (by rw [c2, length_digits])
    intro j hj
    rw [c2] at hj
    rw [c3 j, getD_digits n _ j hj, r3]
    by_cases h0 : j = 0
    · subst h0
      rw [if_neg (by omega), getD_replicate_zero]
      simp [Nat.mod_one]
    · rw [if_pos ⟨by omega, by omega⟩]
  rw [hc]

end CPerm

/-! ## The reverse lexicographic number `GetNum` -/

namespace CPerm

open uintx_t

theorem countLoop_spec (m : List Nat) (i : Nat) : ∀ (c j count : Nat), j + c ≤ m.length →
    countLoop m i c j count =
      count + ((m.drop j).take c).countP fun a => decide (a < m.getD i 0) := by
  intro c
  induction c with
  | zero => intro j count _; simp [countLoop]
  | succ c ih =>
    intro j count h
    unfold countLoop
    rw [ih (j + 1) _ (by omega)]
    have hj : j < m.length := by omega
    rw [List.drop_eq_getElem_cons hj, List.take_succ_cons, List.countP_cons,
      List.getD_eq_getElem?_getD, List.getElem?_eq_getElem hj]
    simp only [Option.getD_some, decide_eq_true_eq]
    split_ifs <;> omega

theorem countLoop_eq (m : List Nat) (i : Nat) (h : i ≤ m.length) :
    countLoop m i i 0 0 = countLt m i := by
  rw [countLoop_spec m i i 0 0 (by omega)]
  simp [countLt]

theorem countLt_le (m : List Nat) (i : Nat) : countLt m i ≤ i := by
  unfold countLt
  calc _ ≤ (m.take i).length := List.countP_le_length _
    _ ≤ i := by rw [List.length_take]; omega

theorem getNumLoop_spec (m : List Nat) :
    ∀ (c i : Nat) (n ifactorial : uintx_t), 1 ≤ i → i + c ≤ m.length → i + c ≤ 2 ^ 32 →
      Canonical n → Canonical ifactorial → value ifactorial = (i - 1).factorial →
      Canonical (getNumLoop m c i n ifactorial) ∧
      value (getNumLoop m c i n ifactorial) =
        value n + ∑ j in Finset.range c, countLt m (i + j) * (i + j).factorial := by
  intro c
  induction c with
  | zero =>
    intro i n ifactorial _ _ _ hn _ _
    exact ⟨hn, by simp [getNumLoop]⟩
  | succ c ih =>
    intro i n ifactorial hi hlen h32 hn hf hfv
    unfold getNumLoop
    simp only
    have hiv : value (ofInt (i : Int)) = i := by
      rw [value_ofInt_natCast, Nat.mod_eq_of_lt (by omega)]
    obtain ⟨f1, f2⟩ := operator_mul_spec hf (canonical_ofInt (i : Int))
    have f3 : value (uintx_t.operator_mul_assign ifactorial (ofInt (i : Int))) = i.factorial := by
      unfold uintx_t.operator_mul_assign
      rw [f2, hfv, hiv]
      obtain ⟨k, rfl⟩ : ∃ k, i = k + 1 := ⟨i - 1, by omega⟩
      simp only [Nat.add_sub_cancel, Nat.factorial_succ]; ring
    have f1' : Canonical (uintx_t.operator_mul_assign ifactorial (ofInt (i : Int))) := f1
    rw [countLoop_eq m i (by omega)]
    have hcnt : countLt m i < 2 ^ 32 := by
      have := countLt_le m i; omega
    obtain ⟨p1, p2⟩ := operator_mul_int_spec f1' hcnt
    have a1 := canonical_add hn p1
    have a2 := value_add hn p1
    obtain ⟨r1, r2⟩ := ih (i + 1) _ _ (by omega) (by omega) (by omega) a1 f1' (by simpa using f3)
    refine ⟨r1, ?_⟩
    rw [r2, a2, p2, f3, Finset.sum_range_succ']
    simp only [Nat.add_zero]
    have : ∀ j, i + 1 + j = i + (j + 1) := fun j => by omega
    simp only [this]
    ring

/-- The member `GetNum<uintx_t>` returns the rank of the image array as a canonical number. -/
theorem GetNum_spec (p : CPerm) (hlen : p.m_nMap.length = p.m_nSize) (hn1 : 1 ≤ p.m_nSize)
    (hn : p.m_nSize ≤ 2 ^ 32) :
    Canonical (GetNum p) ∧ value (GetNum p) = rankVal p.m_nMap := by
  unfold GetNum
  obtain ⟨r1, r2⟩ := getNumLoop_spec p.m_nMap (p.m_nSize - 1) 1 (ofInt 0) (ofInt 1) (le_refl _)
    (by omega) (by omega) canonical_zero (canonical_ofInt 1) (by rw [value_ofInt_one]; rfl)
  refine ⟨r1, ?_⟩
  rw [r2, value_ofInt_zero, zero_add]
  unfold rankVal
  rw [hlen]
  obtain ⟨k, hk⟩ : ∃ k, p.m_nSize = k + 1 := ⟨p.m_nSize - 1, by omega⟩
  rw [hk, Nat.add_sub_cancel, Finset.sum_range_succ']
  have h0 : countLt p.m_nMap 0 = 0 := by simp [countLt]
  rw [h0, zero_mul, add_zero]
  apply Finset.sum_congr rfl
  intro j _
  rw [add_comm 1 j]

theorem rankVal_append (m : List Nat) (x : Nat) :
    rankVal (m ++ [x]) = rankVal m + (m.countP fun a => decide (a < x)) * m.length.factorial := by
  unfold rankVal
  rw [List.length_append, List.length_singleton, Finset.sum_range_succ]
  congr 1
  · apply Finset.sum_congr rfl
    intro i hi
    rw [Finset.mem_range] at hi
    unfold countLt
    rw [List.take_append_of_le_length (by omega), List.getD_append _ _ _ _ hi]
  · unfold countLt
    rw [List.take_left, List.getD_append_right _ _ _ _ (le_refl _)]
    simp

theorem rankVal_nil : rankVal [] = 0 := by simp [rankVal]

end CPerm

/-! ## The map built by the constructor -/

namespace CPerm

open uintx_t

theorem removeLoop_spec : ∀ (c j : Nat) (d : List Nat), j + c < d.length →
    (removeLoop c j d).length = d.length ∧
    ∀ t, (removeLoop c j d).getD t 0 =
      if j ≤ t ∧ t < j + c then d.getD (t + 1) 0 else d.getD t 0 := by
  intro c
  induction c with
  | zero =>
    intro j d _
    exact ⟨rfl, fun t => by rw [if_neg (by omega)]; rfl⟩
  | succ c ih =>
    intro j d h
    unfold removeLoop
    obtain ⟨r1, r2⟩ := ih (j + 1) (d.set j (d.getD (j + 1) 0)) (by rw [List.length_set]; omega)
    rw [List.length_set] at r1
    refine ⟨r1, fun t => ?_⟩
    rw [r2 t, uintx_t.getD_set, uintx_t.getD_set]
    split_ifs <;> first | rfl | (exfalso; omega) | (have e : j = t := (by omega); rw [e])

theorem unrankSpec_succ (c : List Nat) (i : Nat) (live : List Nat) :
    unrankSpec c (i + 1) live =
      unrankSpec c i (live.eraseIdx (c.getD i 0)) ++ [live.getD (c.getD i 0) 0] := rfl

theorem length_unrankSpec (c : List Nat) : ∀ (i : Nat) (live : List Nat),
    (unrankSpec c i live).length = i
  | 0, _ => rfl
  | i + 1, live => by simp [unrankSpec, length_unrankSpec c i]

theorem getD_eraseIdx (l : List Nat) (k t : Nat) :
    (l.eraseIdx k).getD t 0 = if t < k then l.getD t 0 else l.getD (t + 1) 0 := by
  simp only [List.getD_eq_getElem?_getD, List.getElem?_eraseIdx]
  split_ifs <;> rfl

theorem getD_take (l : List Nat) (n t : Nat) :
    (l.take n).getD t 0 = if t < n then l.getD t 0 else 0 := by
  simp only [List.getD_eq_getElem?_getD, List.getElem?_take]
  split_ifs <;> rfl

theorem buildLoop_spec (c : List Nat) : ∀ (i : Nat) (d m : List Nat), i ≤ d.length →
    i ≤ m.length → (∀ j, j < i → c.getD j 0 ≤ j) → (∀ t, d.getD t 0 < 256) →
    ∃ r, buildLoop c i d m = some r ∧ r.length = m.length ∧
      ∀ j, r.getD j 0 =
        if j < i then (unrankSpec c i (d.take i)).getD j 0 else m.getD j 0 := by
  intro i
  induction i with
  | zero =>
    intro d m _ _ _ _
    exact ⟨m, rfl, rfl, fun j => by rw [if_neg (by omega)]⟩
  | succ i ih =>
    intro d m hd hm hc h256
    unfold buildLoop
    have hci := hc i (by omega)
    rw [if_pos (by omega)]
    obtain ⟨q1, q2⟩ := removeLoop_spec (i - c.getD i 0) (c.getD i 0) d (by omega)
    obtain ⟨r, r0, r1, r2⟩ := ih (removeLoop (i - c.getD i 0) (c.getD i 0) d)
      (m.set i (d.getD (c.getD i 0) 0 % 256)) (by rw [q1]; omega)
      (by rw [List.length_set]; omega) (fun j hj => hc j (by omega))
      (by
        intro t
        rw [q2 t]
        split_ifs
        · exact h256 _
        · exact h256 _)
    rw [List.length_set] at r1
    refine ⟨r, r0, r1, fun j => ?_⟩
    have htake : (removeLoop (i - c.getD i 0) (c.getD i 0) d).take i
        = (d.take (i + 1)).eraseIdx (c.getD i 0) := by
      apply ext_getD
      · rw [List.length_take, q1, List.length_eraseIdx, List.length_take]
        rw [if_pos (by rw [Nat.min_eq_left hd]; omega)]
        omega
      · intro t ht
        rw [List.length_take, q1] at ht
        rw [getD_take, if_pos (by omega), q2 t, getD_eraseIdx, getD_take, getD_take]
        split_ifs <;> first | rfl | (exfalso; omega)
    rw [r2 j, htake]
    by_cases hj : j < i
    · rw [if_pos hj, if_pos (by omega), unrankSpec_succ]
      rw [List.getD_append _ _ _ _ (by rw [length_unrankSpec]; exact hj)]
    · rw [if_neg hj, uintx_t.getD_set]
      by_cases hji : j = i
      · subst hji
        rw [if_pos ⟨rfl, by omega⟩, if_pos (by omega), unrankSpec_succ]
        rw [List.getD_append_right _ _ _ _ (by rw [length_unrankSpec]), length_unrankSpec,
          Nat.sub_self, getD_take, if_pos (by omega), Nat.mod_eq_of_lt (h256 _)]
        rfl
      · rw [if_neg (by omega), if_neg (by omega)]

theorem buildLoop_eq (c : List Nat) (n : Nat) (hn : n ≤ 256) (hc : ∀ j, j < n → c.getD j 0 ≤ j) :
    buildLoop c n (List.range n) (List.range n) = some (unrankSpec c n (List.range n)) := by
  obtain ⟨r, r0, r1, r2⟩ := buildLoop_spec c n (List.range n) (List.range n)
    (by rw [List.length_range]) (by rw [List.length_range]) hc
    (by
      intro t
      by_cases ht : t < n
      · rw [getD_range n t ht]; omega
      · rw [getD_of_le (by rw [List.length_range]; omega)]; norm_num)
  rw [List.length_range] at r1
  rw [r0]
  congr 1
  apply ext_getD (by rw [r1, length_unrankSpec])
  intro j hj
  rw [r1] at hj
  rw [r2 j, if_pos hj]
  congr 2
  rw [List.take_of_length_le (by rw [List.length_range])]

theorem perm_eraseIdx_snoc (live : List Nat) (k : Nat) (hk : k < live.length) :
    (live.eraseIdx k ++ [live.getD k 0]).Perm live := by
  have h1 : live.getD k 0 = live[k] := by
    rw [List.getD_eq_getElem?_getD, List.getElem?_eq_getElem hk]; rfl
  have h2 : live = live.take k ++ live[k] :: live.drop (k + 1) := by
    conv_lhs => rw [← List.take_append_drop k live, List.drop_eq_getElem_cons hk]
  rw [h1, List.eraseIdx_eq_take_drop_succ]
  conv_rhs => rw [h2]
  rw [List.append_assoc]
  apply List.Perm.append_left
  exact (List.perm_append_singleton _ _)

theorem unrankSpec_perm (c : List Nat) : ∀ (i : Nat) (live : List Nat), live.length = i →
    (∀ j, j < i → c.getD j 0 ≤ j) → (unrankSpec c i live).Perm live
  | 0, live, h, _ => by
    have : live = [] := List.length_eq_zero.mp h
    subst this
    exact List.Perm.refl _
  | i + 1, live, h, hc => by
    rw [unrankSpec_succ]
    have hk : c.getD i 0 < live.length := by have := hc i (by omega); omega
    have ih := unrankSpec_perm c i (live.eraseIdx (c.getD i 0))
      (by rw [List.length_eraseIdx, if_pos hk]; omega) (fun j hj => hc j (by omega))
    exact (List.Perm.append_right _ ih).trans (perm_eraseIdx_snoc live _ hk)

/-- Before the place `k` of a strictly increasing list stand exactly the values smaller than
the value at `k`. -/
theorem countP_eraseIdx_sorted (live : List Nat) (hs : live.Pairwise (· < ·)) (k : Nat)
    (hk : k < live.length) :
    (live.eraseIdx k).countP (fun a => decide (a < live.getD k 0)) = k := by
  have h1 : live.getD k 0 = live[k] := by
    rw [List.getD_eq_getElem?_getD, List.getElem?_eq_getElem hk]; rfl
  have h2 : live = live.take k ++ live[k] :: live.drop (k + 1) := by
    conv_lhs => rw [← List.take_append_drop k live, List.drop_eq_getElem_cons hk]
  rw [h1, List.eraseIdx_eq_take_drop_succ, List.countP_append]
  rw [h2, List.pairwise_append] at hs
  obtain ⟨-, hs2, hs3⟩ := hs
  have e1 : (live.take k).countP (fun a => decide (a < live[k])) = k := by
    rw [List.countP_eq_length.mpr]
    · rw [List.length_take]; omega
    · intro a ha
      simp only [decide_eq_true_eq]
      exact hs3 a ha _ (List.mem_cons_self _ _)
  have e2 : (live.drop (k + 1)).countP (fun a => decide (a < live[k])) = 0 := by
    rw [List.countP_eq_zero]
    intro a ha
    simp only [decide_eq_true_eq, not_lt]
    rw [List.pairwise_cons] at hs2
    exact le_of_lt (hs2.1 a ha)
  rw [e1, e2]
  rfl

theorem pairwise_eraseIdx {live : List Nat} (hs : live.Pairwise (· < ·)) (k : Nat) :
    (live.eraseIdx k).Pairwise (· < ·) :=
  hs.sublist (List.eraseIdx_sublist live k)

/-- The rank of the map built from the coefficients `c` out of an increasing list is the
mixed-radix number with the digits `c`. -/
theorem rankVal_unrankSpec (c : List Nat) : ∀ (i : Nat) (live : List Nat), live.length = i →
    live.Pairwise (· < ·) → (∀ j, j < i → c.getD j 0 ≤ j) →
    rankVal (unrankSpec c i live) = ∑ j in Finset.range i, c.getD j 0 * j.factorial
  | 0, _, _, _, _ => by simp [unrankSpec, rankVal]
  | i + 1, live, h, hs, hc => by
    rw [unrankSpec_succ]
    have hk : c.getD i 0 < live.length := by have := hc i (by omega); omega
    have hlen : (live.eraseIdx (c.getD i 0)).length = i := by
      rw [List.length_eraseIdx, if_pos hk]; omega
    have ih := rankVal_unrankSpec c i (live.eraseIdx (c.getD i 0)) hlen
      (pairwise_eraseIdx hs _) (fun j hj => hc j (by omega))
    have hp := unrankSpec_perm c i (live.eraseIdx (c.getD i 0)) hlen
      (fun j hj => hc j (by omega))
    rw [rankVal_append, ih, length_unrankSpec, hp.countP_eq,
      countP_eraseIdx_sorted live hs _ hk, Finset.sum_range_succ]

theorem pairwise_range (n : Nat) : (List.range n).Pairwise (· < ·) :=
  List.pairwise_lt_range n

/-- The digits of a number give the number back, below `n!`. -/
theorem sum_digits (v : Nat) : ∀ n : Nat,
    ∑ j in Finset.range n, (v % (j + 1).factorial / j.factorial) * j.factorial
      = v % n.factorial
  | 0 => by simp [Nat.mod_one]
  | n + 1 => by
    rw [Finset.sum_range_succ, sum_digits v n]
    have h1 := Nat.mod_add_div (v % (n + 1).factorial) n.factorial
    rw [factorial_mod_mod v (Nat.le_succ n)] at h1
    rw [mul_comm] at h1
    exact h1

end CPerm

/-! ## The two round trips between permutations and numbers -/

namespace uintx_t

/-- Every natural number has a canonical word list. -/
theorem exists_canonical (v : Nat) : ∃ x : List Nat, Canonical x ∧ value x = v := by
  induction v using Nat.strong_induction_on with
  | _ v ih =>
    by_cases h : v < 2 ^ 32
    · exact ⟨[v], canonical_singleton h, by simp [value]⟩
    · have hpos : 0 < v / 2 ^ 32 := Nat.div_pos (by omega) (by norm_num)
      obtain ⟨x', c', v'⟩ := ih (v / 2 ^ 32) (Nat.div_lt_self (by omega) (by norm_num))
      refine ⟨(v % 2 ^ 32) :: x', ?_, ?_⟩
      · apply canonical_of_value_ge
        · exact WF_cons.mpr ⟨Nat.mod_lt _ (by norm_num), c'.wf⟩
        · simp
        · intro _
          simp only [List.length_cons, Nat.add_sub_cancel, value_cons]
          have h1 : 2 ^ (32 * (x'.length - 1)) ≤ value x' := by
            by_cases h2 : 2 ≤ x'.length
            · exact c'.value_ge h2
            · have : x'.length - 1 = 0 := by omega
              rw [this, v']; simpa using hpos
          have h3 : 2 ^ (32 * x'.length) = 2 ^ 32 * 2 ^ (32 * (x'.length - 1)) := by
            rw [← pow_add]; congr 1
            have := c'.length_pos; omega
          rw [h3]
          have := Nat.mul_le_mul_left (2 ^ 32) h1
          omega
      · rw [value_cons, v']
        exact Nat.mod_add_div v (2 ^ 32)

theorem factorial_64_lt : Nat.factorial 64 < (2 ^ 32) ^ 10 := by decide

/-- A canonical number below `n!`, `n <= 64`, has at most ten words. -/
theorem length_le_ten {x : List Nat} (hx : Canonical x) {n : Nat} (hn : n ≤ 64)
    (hv : value x < n.factorial) : x.length ≤ 10 := by
  by_contra h
  have h1 := hx.value_ge (by omega)
  have h2 : 2 ^ (32 * 10) ≤ 2 ^ (32 * (x.length - 1)) := pow32_le (by omega)
  have h3 : n.factorial ≤ Nat.factorial 64 := Nat.factorial_le hn
  have h4 := factorial_64_lt
  rw [← pow_mul] at h4
  omega

end uintx_t

namespace CPerm

open uintx_t

theorem digits_le (n v : Nat) : ∀ j, j < n → (digits n v).getD j 0 ≤ j := by
  intro j hj
  rw [getD_digits n v j hj]
  have := digit_lt v j
  omega

/-- The constructor `CPerm(n, m)` in closed form. -/
theorem ofNumber_spec (fuel n : Nat) (m : uintx_t) (hn1 : 1 ≤ n) (hn : n ≤ 256)
    (hm : Canonical m) (hfuel : 32 * m.length + 1 ≤ fuel) :
    ofNumber fuel n m = some
      { m_nMap := unrankSpec (digits n (value m % n.factorial)) n (List.range n),
        m_nSize := n } := by
  rw [ofNumber_eq fuel n m hn1 (by omega) hm hfuel, buildLoop_eq _ n hn (digits_le n _)]
  rfl

theorem rankVal_unrank (n v : Nat) (hv : v < n.factorial) :
    rankVal (unrankSpec (digits n v) n (List.range n)) = v := by
  rw [rankVal_unrankSpec _ n (List.range n) (List.length_range n) (pairwise_range n)
    (digits_le n v)]
  have h := sum_digits v n
  rw [Nat.mod_eq_of_lt hv] at h
  refine Eq.trans (Finset.sum_congr rfl ?_) h
  intro j hj
  rw [Finset.mem_range] at hj
  rw [getD_digits n _ j hj]

theorem isBijection_of_perm {p : CPerm} (h : p.m_nMap.Perm (List.range p.m_nSize)) :
    p.IsBijection := by
  refine ⟨by rw [h.length_eq, List.length_range], ?_, ?_⟩
  · exact h.nodup_iff.mpr (List.nodup_range _)
  · intro a ha
    exact List.mem_range.mp (h.mem_iff.mp ha)

theorem perm_of_isBijection {p : CPerm} (h : p.IsBijection) :
    p.m_nMap.Perm (List.range p.m_nSize) := by
  obtain ⟨h1, h2, h3⟩ := h
  apply (List.subperm_of_subset h2 ?_).perm_of_length_le
  · rw [List.length_range, h1]
  · intro a ha
    exact List.mem_range.mpr (h3 a ha)

theorem unrank_isBijection (n v : Nat) :
    ({ m_nMap := unrankSpec (digits n v) n (List.range n), m_nSize := n } : CPerm).IsBijection :=
  isBijection_of_perm
    (unrankSpec_perm _ n (List.range n) (List.length_range n) (digits_le n v))

/-- A mixed-radix number with digits `d i <= i` is below `n!`. -/
theorem mixed_lt (d : Nat → Nat) (hd : ∀ i, d i ≤ i) : ∀ n : Nat,
    ∑ i in Finset.range n, d i * i.factorial < n.factorial
  | 0 => by simp
  | n + 1 => by
    rw [Finset.sum_range_succ, Nat.factorial_succ]
    have := mixed_lt d hd n
    have h2 : d n * n.factorial ≤ n * n.factorial := Nat.mul_le_mul_right _ (hd n)
    have : (n + 1) * n.factorial = n * n.factorial + n.factorial := by ring
    omega

/-- The digits of a mixed-radix number are its coefficients. -/
theorem mixed_digit (d : Nat → Nat) (hd : ∀ i, d i ≤ i) (j : Nat) : ∀ n : Nat, j < n →
    (∑ i in Finset.range n, d i * i.factorial) % (j + 1).factorial / j.factorial = d j := by
  intro n
  induction n with
  | zero => intro h; omega
  | succ n ih =>
    intro h
    rw [Finset.sum_range_succ]
    by_cases hjn : j = n
    · subst hjn
      have h1 := mixed_lt d hd (j + 1)
      rw [Finset.sum_range_succ] at h1
      rw [Nat.mod_eq_of_lt h1, Nat.add_mul_div_right _ _ (Nat.factorial_pos _),
        Nat.div_eq_of_lt (mixed_lt d hd j), zero_add]
    · obtain ⟨k, hk⟩ := Nat.factorial_dvd_factorial (show j + 1 ≤ n by omega)
      rw [hk, ← mul_assoc, mul_comm (d n), mul_assoc, Nat.add_mul_mod_self_left]
      exact ih (by omega)

theorem countLt_append (m : List Nat) (x : Nat) (j : Nat) (hj : j < m.length) :
    countLt (m ++ [x]) j = countLt m j := by
  unfold countLt
  rw [List.take_append_of_le_length (by omega), List.getD_append _ _ _ _ hj]

theorem eq_take_snoc (m : List Nat) (i : Nat) (h : m.length = i + 1) :
    m = m.take i ++ [m.getD i 0] := by
  have hi : i < m.length := by omega
  conv_lhs => rw [← List.take_append_drop i m, List.drop_eq_getElem_cons hi,
    List.drop_of_length_le (by omega)]
  rw [List.getD_eq_getElem?_getD, List.getElem?_eq_getElem hi]
  rfl

/-- In a strictly increasing list, the number of values below a member is its place. -/
theorem sorted_index (live : List Nat) (hs : live.Pairwise (· < ·)) (x : Nat) (hx : x ∈ live) :
    (live.countP fun a => decide (a < x)) < live.length ∧
    live.getD (live.countP fun a => decide (a < x)) 0 = x := by
  obtain ⟨k, hk, rfl⟩ := List.getElem_of_mem hx
  have h1 : live.getD k 0 = live[k] := by
    rw [List.getD_eq_getElem?_getD, List.getElem?_eq_getElem hk]; rfl
  have hc : (live.countP fun a => decide (a < live[k])) = k := by
    have hp := (perm_eraseIdx_snoc live k hk).countP_eq (fun a => decide (a < live[k]))
    have e := countP_eraseIdx_sorted live hs k hk
    rw [h1] at e
    rw [← hp, List.countP_append, e, h1]
    simp
  rw [hc]
  exact ⟨hk, h1⟩

/-- The map rebuilt from the counts of an arrangement of an increasing list is that
arrangement. -/
theorem unrankSpec_countLt (c : List Nat) : ∀ (i : Nat) (live m : List Nat), m.length = i →
    m.Perm live → live.Pairwise (· < ·) → (∀ j, j < i → c.getD j 0 = countLt m j) →
    unrankSpec c i live = m
  | 0, _, m, h, _, _, _ => by
    have : m = [] := List.length_eq_zero.mp h
    subst this; rfl
  | i + 1, live, m, h, hp, hs, hc => by
    have hm := eq_take_snoc m i h
    have hx : m.getD i 0 ∈ live := by
      apply hp.mem_iff.mp
      rw [List.getD_eq_getElem?_getD, List.getElem?_eq_getElem (by omega)]
      exact List.getElem_mem _
    have hci : c.getD i 0 = live.countP fun a => decide (a < m.getD i 0) := by
      have e : (m.countP fun a => decide (a < m.getD i 0))
          = (m.take i ++ [m.getD i 0]).countP fun a => decide (a < m.getD i 0) := by
        rw [← hm]
      rw [hc i (by omega), ← hp.countP_eq, e, List.countP_append]
      simp [countLt]
    obtain ⟨s1, s2⟩ := sorted_index live hs _ hx
    rw [← hci] at s1 s2
    have hp' : (m.take i).Perm (live.eraseIdx (c.getD i 0)) := by
      have h1 := perm_eraseIdx_snoc live _ s1
      rw [s2] at h1
      have h2 : (m.take i ++ [m.getD i 0]).Perm (live.eraseIdx (c.getD i 0) ++ [m.getD i 0]) := by
        rw [← hm]; exact hp.trans h1.symm
      exact (List.perm_append_right_iff _).mp h2
    have ih := unrankSpec_countLt c i (live.eraseIdx (c.getD i 0)) (m.take i)
      (by rw [List.length_take]; omega) hp' (pairwise_eraseIdx hs _)
      (by
        intro j hj
        have e : countLt m j = countLt (m.take i ++ [m.getD i 0]) j := by rw [← hm]
        rw [hc j (by omega), e]
        exact countLt_append _ _ j (by rw [List.length_take]; omega))
    rw [unrankSpec_succ, ih, s2, ← hm]

/-- The rank of a bijection of size `n` is below `n!` and its digits are the counts. -/
theorem rankVal_digits (m : List Nat) :
    rankVal m < m.length.factorial ∧
    ∀ j, j < m.length → (digits m.length (rankVal m)).getD j 0 = countLt m j := by
  unfold rankVal
  refine ⟨mixed_lt (countLt m) (countLt_le m) _, fun j hj => ?_⟩
  rw [getD_digits _ _ j hj]
  exact mixed_digit (countLt m) (countLt_le m) j _ hj

theorem unrank_rankVal (p : CPerm) (h : p.IsBijection) :
    unrankSpec (digits p.m_nSize (rankVal p.m_nMap)) p.m_nSize (List.range p.m_nSize)
      = p.m_nMap := by
  have hl := h.1
  obtain ⟨r1, r2⟩ := rankVal_digits p.m_nMap
  rw [hl] at r1 r2
  exact unrankSpec_countLt _ p.m_nSize (List.range p.m_nSize) p.m_nMap hl
    (perm_of_isBijection h) (pairwise_range _) r2

end CPerm

/-! ## Bijectivity of the image array -/

namespace CPerm

open uintx_t

theorem getD_map_of_lt (f : Nat → Nat) (l : List Nat) (j : Nat) (hj : j < l.length) :
    (l.map f).getD j 0 = f (l.getD j 0) := by
  simp only [List.getD_eq_getElem?_getD, List.getElem?_map, List.getElem?_eq_getElem hj,
    Option.map_some', Option.getD_some]

theorem map_getD_range (m : List Nat) (n : Nat) (h : m.length = n) :
    (List.range n).map (fun t => m.getD t 0) = m := by
  apply ext_getD (by simp [h])
  intro j hj
  simp only [List.length_map, List.length_range] at hj
  rw [List.getD_eq_getElem?_getD, List.getElem?_map, List.getElem?_range hj]
  rfl

theorem composeLoop_spec (pmap : List Nat) : ∀ (c i : Nat) (m : List Nat),
    (composeLoop pmap c i m).length = m.length ∧
    ∀ t, (composeLoop pmap c i m).getD t 0 =
      if i ≤ t ∧ t < i + c ∧ t < m.length then pmap.getD (m.getD t 0) 0 else m.getD t 0 := by
  intro c
  induction c with
  | zero =>
    intro i m
    exact ⟨rfl, fun t => by rw [if_neg (by omega)]; rfl⟩
  | succ c ih =>
    intro i m
    unfold composeLoop
    obtain ⟨r1, r2⟩ := ih (i + 1) (m.set i (pmap.getD (m.getD i 0) 0))
    rw [List.length_set] at r1 r2
    refine ⟨r1, fun t => ?_⟩
    rw [r2 t, uintx_t.getD_set]
    split_ifs <;> first | rfl | (exfalso; omega) | (have e : i = t := (by omega); rw [e])

/-- The map after `operator*=`: entry `i` is `pmap[m[i]]`. -/
theorem composeLoop_eq (pmap m : List Nat) :
    composeLoop pmap m.length 0 m = m.map fun v => pmap.getD v 0 := by
  obtain ⟨r1, r2⟩ := composeLoop_spec pmap m.length 0 m
  apply ext_getD (by rw [r1, List.length_map])
  intro j hj
  rw [r1] at hj
  rw [r2 j, if_pos ⟨by omega, by omega, hj⟩, getD_map_of_lt _ _ _ hj]

theorem operator_mul_assign_map (p q : CPerm) (h : p.m_nMap.length = p.m_nSize) :
    (p.operator_mul_assign q).m_nMap = p.m_nMap.map fun v => q.m_nMap.getD v 0 := by
  unfold operator_mul_assign
  simp only
  rw [← h, composeLoop_eq]

theorem operator_mul_assign_isBijection (p q : CPerm) (hp : p.IsBijection) (hq : q.IsBijection)
    (hs : p.m_nSize = q.m_nSize) : (p.operator_mul_assign q).IsBijection := by
  apply isBijection_of_perm
  rw [operator_mul_assign_map p q hp.1]
  have h1 := (perm_of_isBijection hp).map fun v => q.m_nMap.getD v 0
  have h2 : (List.range p.m_nSize).map (fun v => q.m_nMap.getD v 0) = q.m_nMap :=
    map_getD_range _ _ (by rw [hq.1, hs])
  rw [h2] at h1
  have h3 := perm_of_isBijection hq
  rw [← hs] at h3
  exact h1.trans h3

theorem getD_swap (m : List Nat) (i j t : Nat) (hi : i < m.length) (hj : j < m.length) :
    (swap m i j).getD t 0 = m.getD (Equiv.swap i j t) 0 := by
  unfold swap
  rw [uintx_t.getD_set, uintx_t.getD_set, List.length_set, Equiv.swap_apply_def]
  split_ifs <;>
    first
    | rfl
    | (exfalso; omega)
    | (have e : i = j := (by omega); rw [e])

theorem length_swap (m : List Nat) (i j : Nat) : (swap m i j).length = m.length := by
  simp [swap]

/-- A list indexed through a bijection of its indices is a rearrangement of the list. -/
theorem reindex_perm (m : List Nat) (f : Nat → Nat) (hf : Function.Injective f)
    (hr : ∀ t, t < m.length → f t < m.length) :
    ((List.range m.length).map fun t => m.getD (f t) 0).Perm m := by
  have h1 : ((List.range m.length).map f).Perm (List.range m.length) := by
    apply (List.subperm_of_subset ((List.nodup_range _).map hf) ?_).perm_of_length_le
    · simp
    · intro a ha
      rw [List.mem_map] at ha
      obtain ⟨t, ht, rfl⟩ := ha
      exact List.mem_range.mpr (hr t (List.mem_range.mp ht))
  have h2 := h1.map fun t => m.getD t 0
  rw [List.map_map, map_getD_range m m.length rfl] at h2
  exact h2

theorem swap_perm (m : List Nat) (i j : Nat) (hi : i < m.length) (hj : j < m.length) :
    (swap m i j).Perm m := by
  have h : swap m i j = (List.range m.length).map fun t => m.getD (Equiv.swap i j t) 0 := by
    apply ext_getD (by simp [length_swap])
    intro t ht
    rw [length_swap] at ht
    rw [getD_swap m i j t hi hj, getD_map_of_lt _ _ _ (by rw [List.length_range]; exact ht),
      getD_range _ _ ht]
  rw [h]
  apply reindex_perm m _ (Equiv.swap i j).injective
  intro t ht
  rw [Equiv.swap_apply_def]
  split_ifs <;> omega

theorem randomizeLoop_spec (size : Nat) (rng : Nat → Nat) :
    ∀ (c i pos : Nat) (m : List Nat), m.length = size → i + c + 1 ≤ size ∨ c = 0 →
      (randomizeLoop size rng c i pos m).1.Perm m ∧
      (randomizeLoop size rng c i pos m).2 = pos + c := by
  intro c
  induction c with
  | zero =>
    intro i pos m _ _
    exact ⟨List.Perm.refl _, rfl⟩
  | succ c ih =>
    intro i pos m hm hc
    unfold randomizeLoop
    simp only
    have hi : i + 1 < size := by omega
    have hj : rng pos % 2 ^ 64 % (size - i) + i < size := by
      have := Nat.mod_lt (rng pos % 2 ^ 64) (show 0 < size - i by omega)
      omega
    have hsw := swap_perm m i (rng pos % 2 ^ 64 % (size - i) + i) (by omega) (by omega)
    obtain ⟨r1, r2⟩ := ih (i + 1) (pos + 1) (swap m i (rng pos % 2 ^ 64 % (size - i) + i))
      (by rw [length_swap]; exact hm) (by omega)
    exact ⟨r1.trans hsw, by rw [r2]; omega⟩

theorem Randomize_isBijection (p : CPerm) (rng : Nat → Nat) (pos : Nat) (hp : p.IsBijection) :
    (p.Randomize rng pos).1.IsBijection ∧ (p.Randomize rng pos).1.m_nSize = p.m_nSize := by
  refine ⟨?_, rfl⟩
  apply isBijection_of_perm
  unfold Randomize
  simp only
  obtain ⟨r1, -⟩ := randomizeLoop_spec p.m_nSize rng (p.m_nSize - 1) 0 pos p.m_nMap hp.1
    (by omega)
  exact r1.trans (perm_of_isBijection hp)

theorem randomizeOddLoop_spec (size : Nat) (rng : Nat → Nat) :
    ∀ (c i pos nCount : Nat) (m : List Nat), m.length = size → i + c + 1 ≤ size ∨ c = 0 →
      (randomizeOddLoop size rng c i pos nCount m).1.Perm m := by
  intro c
  induction c with
  | zero =>
    intro i pos nCount m _ _
    exact List.Perm.refl _
  | succ c ih =>
    intro i pos nCount m hm hc
    unfold randomizeOddLoop
    simp only
    have hi : i + 1 < size := by omega
    have hj : rng pos % 2 ^ 64 % (size - i) + i < size := by
      have := Nat.mod_lt (rng pos % 2 ^ 64) (show 0 < size - i by omega)
      omega
    split_ifs with h
    · have hsw := swap_perm m i (rng pos % 2 ^ 64 % (size - i) + i) (by omega) (by omega)
      exact (ih (i + 1) (pos + 1) (nCount + 1) _ (by rw [length_swap]; exact hm)
        (by omega)).trans hsw
    · exact ih (i + 1) (pos + 1) nCount m hm (by omega)

theorem RandomizeOdd_isBijection (p : CPerm) (rng : Nat → Nat) (pos : Nat) (hp : p.IsBijection)
    (h2 : 2 ≤ p.m_nSize) :
    (p.RandomizeOdd rng pos).1.IsBijection ∧
    (p.RandomizeOdd rng pos).1.m_nSize = p.m_nSize := by
  refine ⟨?_, rfl⟩
  apply isBijection_of_perm
  unfold RandomizeOdd
  simp only
  have r1 := randomizeOddLoop_spec p.m_nSize rng (p.m_nSize - 2) 0 pos 0 p.m_nMap hp.1
    (by omega)
  split_ifs with h
  · have hl := r1.length_eq
    exact ((swap_perm _ _ _ (by rw [hl, hp.1]; omega) (by rw [hl, hp.1]; omega)).trans r1).trans
      (perm_of_isBijection hp)
  · exact r1.trans (perm_of_isBijection hp)

theorem identity_isBijection (n : Nat) : (identity n).IsBijection := by
  apply isBijection_of_perm
  rw [identity_map]
  exact List.Perm.refl _

/-! ### The constructor on the empty number -/

theorem compareLoop_self (eq : Bool) (x : List Nat) : ∀ k, compareLoop eq x x k = eq
  | 0 => rfl
  | k + 1 => by
    unfold compareLoop
    rw [if_neg (lt_irrefl _), if_neg (lt_irrefl _)]
    exact compareLoop_self eq x k

theorem operator_mod_nil (fuel : Nat) (z : List Nat) (hf : 1 ≤ fuel) (hz : 1 ≤ z.length) :
    operator_mod fuel [] z = some [] := by
  obtain ⟨f, rfl⟩ : ∃ f, fuel = f + 1 := ⟨fuel - 1, by omega⟩
  have h1 : operator_le z [] = false := by
    unfold operator_le operator_ge
    rw [if_neg (by simp), if_pos (by simpa using hz)]
  have h2 : operator_gt z z = false := by
    unfold operator_gt
    rw [if_neg (lt_irrefl _), if_neg (lt_irrefl _), compareLoop_self]
  unfold operator_mod alignLoop
  rw [h1]
  simp only [Bool.false_eq_true, if_false, Option.some_bind]
  unfold modLoop
  rw [h2]
  simp

theorem operator_div_nil (fuel : Nat) (z : List Nat) (hz : 1 ≤ z.length) :
    operator_div fuel [] z = some (ofInt 0) := by
  have h1 : operator_ge [] z = false := by
    unfold operator_ge
    rw [if_neg (by simp), if_pos (by simpa using hz)]
  unfold operator_div
  rw [h1]
  simp

theorem set_replicate_zero (n i : Nat) : (List.replicate n 0).set i 0 = List.replicate n 0 := by
  apply ext_getD (by simp)
  intro j _
  rw [uintx_t.getD_set]
  split_ifs with h
  · rw [getD_replicate_zero]
  · rfl

theorem coefficientLoop_nil (fuel n : Nat) (hf : 1 ≤ fuel) (factorial : List uintx_t)
    (hF : ∀ j, j < n → Canonical (factorial.getD j [])) :
    ∀ i, i < n →
      coefficientLoop fuel factorial i [] (List.replicate n 0) = some (List.replicate n 0)
  | 0, _ => rfl
  | i + 1, hi => by
    unfold coefficientLoop
    have hz := (hF (i + 1) hi).length_pos
    rw [operator_div_nil fuel _ hz, operator_mod_nil fuel _ hf hz]
    simp only [Option.some_bind]
    have : operator_uint32 (ofInt 0) = 0 := by rw [ofInt_zero]; rfl
    rw [this, set_replicate_zero]
    exact coefficientLoop_nil fuel n hf factorial hF i (by omega)

theorem digits_zero (n : Nat) : digits n 0 = List.replicate n 0 := by
  apply ext_getD (by simp [length_digits])
  intro j hj
  rw [length_digits] at hj
  rw [getD_digits n 0 j hj, getD_replicate_zero]
  simp

/-- The constructor on the number without words, the value of the default constructor of
`uintx_t`, gives the permutation of the number zero. -/
theorem ofNumber_nil (fuel n : Nat) (hn1 : 1 ≤ n) (hn : n ≤ 256) (hf : 1 ≤ fuel) :
    ofNumber fuel n [] = some
      { m_nMap := unrankSpec (digits n 0) n (List.range n), m_nSize := n } := by
  unfold ofNumber
  simp only
  obtain ⟨F1, F2⟩ := factorial_table n hn1 (by omega)
  generalize factorialLoop (n - 1) 1 ((List.replicate n []).set 0 (assignInt [] 1)) = F at *
  obtain ⟨t1, t2⟩ := F2 (n - 1) (by omega)
  obtain ⟨nf1, nf2⟩ := operator_mul_uint32_spec t1 (show n < 2 ^ 32 by omega)
  rw [operator_mod_nil fuel _ hf nf1.length_pos, Option.some_bind,
    coefficientLoop_nil fuel n hf F (fun j hj => (F2 j hj).1) (n - 1) (by omega),
    Option.some_bind, identity_map, ← digits_zero, buildLoop_eq _ n hn (digits_le n 0)]
  rfl

/-- The constructor `CPerm(n, r)` returns a bijection of size `n` for every normalized
number. -/
theorem ofNumber_isBijection (fuel n : Nat) (r : uintx_t) (hn1 : 1 ≤ n) (hn : n ≤ 256)
    (hw : WF r) (hnorm : Normalized r) (hfuel : 32 * r.length + 1 ≤ fuel) :
    ∃ p, ofNumber fuel n r = some p ∧ p.IsBijection ∧ p.m_nSize = n := by
  by_cases h0 : r = []
  · subst h0
    exact ⟨_, ofNumber_nil fuel n hn1 hn (by omega), unrank_isBijection n 0, rfl⟩
  · have hc : Canonical r := by
      refine ⟨hw, ?_, hnorm⟩
      cases r with
      | nil => exact absurd rfl h0
      | cons a l => simp
    exact ⟨_, ofNumber_spec fuel n r hn1 hn hc hfuel, unrank_isBijection n _, rfl⟩

end CPerm

/-! ## Powers of a permutation and the power table -/

namespace CPerm

open uintx_t

theorem pow_size (p : CPerm) : ∀ k, (pow p k).m_nSize = p.m_nSize
  | 0 => rfl
  | k + 1 => by
    show (pow p k).m_nSize = p.m_nSize
    exact pow_size p k

theorem pow_isBijection (p : CPerm) (hb : p.IsBijection) : ∀ k, (pow p k).IsBijection
  | 0 => identity_isBijection _
  | k + 1 => operator_mul_assign_isBijection _ _ (pow_isBijection p hb k) hb (pow_size p k)

theorem ext_of_getD {x y : CPerm} (hs : x.m_nSize = y.m_nSize)
    (hx : x.m_nMap.length = x.m_nSize) (hy : y.m_nMap.length = y.m_nSize)
    (h : ∀ i, i < x.m_nSize → x.m_nMap.getD i 0 = y.m_nMap.getD i 0) : x = y := by
  cases x with
  | mk xm xs =>
    cases y with
    | mk ym ys =>
      simp only at hs hx hy h
      subst hs
      have : xm = ym := ext_getD (by rw [hx, hy]) (fun j hj => h j (by omega))
      rw [this]

theorem getD_lt_of_isBijection {p : CPerm} (hb : p.IsBijection) (i : Nat) (hi : i < p.m_nSize) :
    p.m_nMap.getD i 0 < p.m_nSize := by
  have hl : i < p.m_nMap.length := by rw [hb.1]; exact hi
  apply hb.2.2
  rw [List.getD_eq_getElem?_getD, List.getElem?_eq_getElem hl]
  exact List.getElem_mem hl

theorem getD_inj_of_isBijection {p : CPerm} (hb : p.IsBijection) (i j : Nat)
    (hi : i < p.m_nSize) (hj : j < p.m_nSize)
    (h : p.m_nMap.getD i 0 = p.m_nMap.getD j 0) : i = j := by
  have hli : i < p.m_nMap.length := by rw [hb.1]; exact hi
  have hlj : j < p.m_nMap.length := by rw [hb.1]; exact hj
  rw [List.getD_eq_getElem?_getD, List.getD_eq_getElem?_getD, List.getElem?_eq_getElem hli,
    List.getElem?_eq_getElem hlj] at h
  simp only [Option.getD_some] at h
  exact (hb.2.1.getElem_inj_iff).mp h

/-- A bijective image array is the graph of a permutation of `Fin n`. -/
theorem exists_perm {p : CPerm} (hb : p.IsBijection) :
    ∃ σ : Equiv.Perm (Fin p.m_nSize), ∀ i : Fin p.m_nSize, ((σ i : Fin p.m_nSize) : Nat)
      = p.m_nMap.getD i 0 := by
  have inj : Function.Injective
      (fun i : Fin p.m_nSize =>
        (⟨p.m_nMap.getD i 0, getD_lt_of_isBijection hb i i.2⟩ : Fin p.m_nSize)) := by
    intro a b hab
    simp only [Fin.mk.injEq] at hab
    exact Fin.ext (getD_inj_of_isBijection hb a b a.2 b.2 hab)
  exact ⟨Equiv.ofBijective _ (Finite.injective_iff_bijective.mp inj), fun i => rfl⟩

theorem pow_getD {p : CPerm} (hb : p.IsBijection) (σ : Equiv.Perm (Fin p.m_nSize))
    (hσ : ∀ i : Fin p.m_nSize, ((σ i : Fin p.m_nSize) : Nat) = p.m_nMap.getD i 0) :
    ∀ (k : Nat) (i : Fin p.m_nSize),
      (pow p k).m_nMap.getD i 0 = (((σ ^ k) i : Fin p.m_nSize) : Nat)
  | 0, i => by
    show (identity p.m_nSize).m_nMap.getD i 0 = _
    rw [identity_map, getD_range _ _ i.2]
    simp
  | k + 1, i => by
    show ((pow p k).operator_mul_assign p).m_nMap.getD i 0 = _
    have hk := pow_isBijection p hb k
    have hl : (i : Nat) < (pow p k).m_nMap.length := by
      rw [hk.1, pow_size]; exact i.2
    rw [operator_mul_assign_map _ _ hk.1, getD_map_of_lt _ _ _ hl, pow_getD hb σ hσ k i,
      ← hσ, pow_succ']
    rfl

theorem pow_eq_iff {p : CPerm} (hb : p.IsBijection) (σ : Equiv.Perm (Fin p.m_nSize))
    (hσ : ∀ i : Fin p.m_nSize, ((σ i : Fin p.m_nSize) : Nat) = p.m_nMap.getD i 0) (a b : Nat) :
    pow p a = pow p b ↔ σ ^ a = σ ^ b := by
  constructor
  · intro h
    ext i
    rw [← pow_getD hb σ hσ a i, ← pow_getD hb σ hσ b i, h]
  · intro h
    apply ext_of_getD (by rw [pow_size, pow_size]) (pow_isBijection p hb a).1
      (pow_isBijection p hb b).1
    intro i hi
    rw [pow_size] at hi
    have h1 := pow_getD hb σ hσ a ⟨i, hi⟩
    have h2 := pow_getD hb σ hσ b ⟨i, hi⟩
    simp only at h1 h2
    rw [h1, h2, h]

theorem pow_zero (p : CPerm) : pow p 0 = identity p.m_nSize := rfl

theorem pow_succ_eq (p : CPerm) (k : Nat) : pow p (k + 1) = (pow p k).operator_mul_assign p :=
  rfl

theorem pow_one (p : CPerm) (h : p.m_nMap.length = p.m_nSize) : pow p 1 = p := by
  refine ext_of_getD (pow_size p 1) ?_ h ?_
  · show (composeLoop p.m_nMap p.m_nSize 0 (identity p.m_nSize).m_nMap).length = _
    rw [(composeLoop_spec _ _ _ _).1, identity_map, List.length_range]
    rfl
  · intro i hi
    rw [pow_size] at hi
    rw [pow_succ_eq, pow_zero,
      operator_mul_assign_map _ _ (by rw [identity_map, List.length_range]; rfl), identity_map,
      getD_map_of_lt _ _ _ (by rw [List.length_range]; exact hi), getD_range _ _ hi]

/-- Composition of powers adds the exponents. -/
theorem pow_mul_pow {p : CPerm} (hb : p.IsBijection) (a b : Nat) :
    (pow p a).operator_mul_assign (pow p b) = pow p (a + b) := by
  obtain ⟨σ, hσ⟩ := exists_perm hb
  have ha := pow_isBijection p hb a
  apply ext_of_getD
  · show (pow p a).m_nSize = _
    rw [pow_size, pow_size]
  · exact (operator_mul_assign_isBijection _ _ ha (pow_isBijection p hb b)
      (by rw [pow_size, pow_size])).1
  · exact (pow_isBijection p hb (a + b)).1
  · intro i hi
    have hi' : i < p.m_nSize := by
      have : ((pow p a).operator_mul_assign (pow p b)).m_nSize = (pow p a).m_nSize := rfl
      rw [this, pow_size] at hi; exact hi
    have hl : i < (pow p a).m_nMap.length := by rw [ha.1, pow_size]; exact hi'
    rw [operator_mul_assign_map _ _ ha.1, getD_map_of_lt _ _ _ hl]
    have h1 := pow_getD hb σ hσ a ⟨i, hi'⟩
    simp only at h1
    rw [h1, pow_getD hb σ hσ b ((σ ^ a) ⟨i, hi'⟩)]
    have h2 := pow_getD hb σ hσ (a + b) ⟨i, hi'⟩
    simp only at h2
    rw [h2, add_comm a b, pow_add]
    rfl

/-- A bijection has an order: a least positive exponent giving the identity; the order
divides `n!`. -/
theorem exists_order {p : CPerm} (hb : p.IsBijection) :
    ∃ k, 1 ≤ k ∧ k ∣ p.m_nSize.factorial ∧ pow p k = identity p.m_nSize ∧
      (∀ j, 0 < j → j < k → pow p j ≠ identity p.m_nSize) ∧
      ∀ a, pow p a = pow p (a % k) := by
  obtain ⟨σ, hσ⟩ := exists_perm hb
  refine ⟨orderOf σ, orderOf_pos σ, ?_, ?_, ?_, ?_⟩
  · have := orderOf_dvd_card (x := σ)
    rw [Fintype.card_perm, Fintype.card_fin] at this
    exact this
  · rw [← pow_zero p, pow_eq_iff hb σ hσ, pow_orderOf_eq_one]; rfl
  · intro j hj0 hj h
    rw [← pow_zero p, pow_eq_iff hb σ hσ] at h
    exact pow_ne_one_of_lt_orderOf (by omega) hj (by simpa using h)
  · intro a
    rw [pow_eq_iff hb σ hσ, pow_mod_orderOf]

end CPerm

namespace CPerm

open uintx_t

theorem isIdentityLoop_spec (m : List Nat) : ∀ (c i : Nat),
    isIdentityLoop m c i = true ↔ ∀ t, i ≤ t → t < i + c → m.getD t 0 = t := by
  intro c
  induction c with
  | zero =>
    intro i
    simp only [isIdentityLoop, true_iff]
    intro t h1 h2; omega
  | succ c ih =>
    intro i
    unfold isIdentityLoop
    by_cases h : m.getD i 0 = i
    · rw [if_neg (by simpa using h), ih (i + 1)]
      constructor
      · intro H t h1 h2
        by_cases e : t = i
        · rw [e]; exact h
        · exact H t (by omega) (by omega)
      · intro H t h1 h2
        exact H t (by omega) (by omega)
    · rw [if_pos (by simpa using h)]
      simp only [Bool.false_eq_true, false_iff, not_forall]
      exact ⟨i, le_refl _, by omega, h⟩

theorem isIdentity_iff (p : CPerm) (h : p.m_nMap.length = p.m_nSize) :
    p.IsIdentity = true ↔ p = identity p.m_nSize := by
  unfold IsIdentity
  rw [isIdentityLoop_spec]
  constructor
  · intro H
    refine ext_of_getD (identity_size _).symm h
      (by rw [identity_map, List.length_range]; rfl) ?_
    intro i hi
    rw [H i (by omega) (by omega), identity_map, getD_range _ _ hi]
  · intro H t _ ht
    rw [H, identity_map, getD_range _ _ (by simpa using ht)]

end CPerm

namespace CPowerTable

open CPerm

/-- The table `initLoop` builds when the order of `p` is `k`. -/
theorem initLoop_spec (p : CPerm) (hb : p.IsBijection) (k : Nat)
    (hid : pow p k = identity p.m_nSize)
    (hmin : ∀ j, 0 < j → j < k → pow p j ≠ identity p.m_nSize) :
    ∀ (d fuel order : Nat), order + d = k → d < fuel → 1 ≤ order →
      initLoop p fuel (pow p order) ((List.range order).map (pow p)) order
        = some { m_stdPower := (List.range k).map (pow p), m_nOrder := k } := by
  intro d
  induction d with
  | zero =>
    intro fuel order ho hf _
    obtain ⟨f, rfl⟩ : ∃ f, fuel = f + 1 := ⟨fuel - 1, by omega⟩
    have hok : order = k := by omega
    subst hok
    unfold initLoop
    have h1 : (pow p order).IsIdentity = true := by
      rw [isIdentity_iff _ (pow_isBijection p hb order).1, pow_size]; exact hid
    rw [h1]
    simp
  | succ d ih =>
    intro fuel order ho hf ho1
    obtain ⟨f, rfl⟩ : ∃ f, fuel = f + 1 := ⟨fuel - 1, by omega⟩
    unfold initLoop
    have h1 : (pow p order).IsIdentity = false := by
      rw [Bool.eq_false_iff]
      intro h
      rw [isIdentity_iff _ (pow_isBijection p hb order).1, pow_size] at h
      exact hmin order (by omega) (by omega) h
    rw [h1]
    simp only [Bool.not_false, if_true]
    have h2 : (List.range order).map (pow p) ++ [pow p order]
        = (List.range (order + 1)).map (pow p) := by
      rw [List.range_succ, List.map_append]; rfl
    rw [h2, ← pow_succ_eq]
    exact ih f (order + 1) (by omega) (by omega) (by omega)

/-- The member `Initialize` on a bijection whose order is `k`: given at least `k` rounds it
returns the table of the powers `p^0 .. p^(k-1)` and the order `k`, whatever the table held
before. -/
theorem Initialize_of_order (p : CPerm) (hb : p.IsBijection) (k : Nat) (hk : 1 ≤ k)
    (hid : pow p k = identity p.m_nSize)
    (hmin : ∀ j, 0 < j → j < k → pow p j ≠ identity p.m_nSize)
    (fuel : Nat) (hf : k ≤ fuel) (t : CPowerTable) :
    Initialize fuel t p = some { m_stdPower := (List.range k).map (pow p), m_nOrder := k } := by
  unfold Initialize
  simp only [List.drop_length, List.nil_append]
  have h := initLoop_spec p hb k hid hmin (k - 1) fuel 1 (by omega) (by omega) (le_refl _)
  rw [pow_one p hb.1] at h
  exact h

theorem Initialize_spec (p : CPerm) (hb : p.IsBijection) :
    ∃ k, 1 ≤ k ∧ k ∣ p.m_nSize.factorial ∧ pow p k = identity p.m_nSize ∧
      (∀ j, 0 < j → j < k → pow p j ≠ identity p.m_nSize) ∧
      (∀ a, pow p a = pow p (a % k)) ∧
      ∀ (fuel : Nat) (t : CPowerTable), p.m_nSize.factorial ≤ fuel →
        Initialize fuel t p
          = some { m_stdPower := (List.range k).map (pow p), m_nOrder := k } := by
  obtain ⟨k, k1, k2, k3, k4, k5⟩ := exists_order hb
  refine ⟨k, k1, k2, k3, k4, k5, fun fuel t hf => ?_⟩
  have hle : k ≤ p.m_nSize.factorial := Nat.le_of_dvd (Nat.factorial_pos _) k2
  exact Initialize_of_order p hb k k1 k3 k4 fuel (by omega) t

theorem get_table (p : CPerm) (k i : Nat) (hi : i < k) :
    ({ m_stdPower := (List.range k).map (pow p), m_nOrder := k } : CPowerTable).get i
      = some (pow p i) := by
  unfold get
  simp only
  rw [List.get?_eq_getElem?, List.getElem?_map, List.getElem?_range hi]
  rfl

end CPowerTable

namespace CPerm

/-- A certificate for the order: `p^k` is the identity and `p^(k/q)` is not, for every prime
divisor `q` of `k`. -/
theorem order_of_certificate {p : CPerm} (hb : p.IsBijection) (k : Nat) (hk : 0 < k)
    (hid : pow p k = identity p.m_nSize)
    (hq : ∀ q, q.Prime → q ∣ k → pow p (k / q) ≠ identity p.m_nSize) :
    ∀ j, 0 < j → j < k → pow p j ≠ identity p.m_nSize := by
  obtain ⟨σ, hσ⟩ := exists_perm hb
  have h1 : σ ^ k = 1 := by
    have := (pow_eq_iff hb σ hσ k 0).mp (by rw [hid]; rfl)
    simpa using this
  have h2 : orderOf σ = k := by
    apply orderOf_eq_of_pow_and_pow_div_prime hk h1
    intro q hqp hqd h
    apply hq q hqp hqd
    rw [← pow_zero p, pow_eq_iff hb σ hσ]
    simpa using h
  intro j hj0 hj h
  rw [← pow_zero p, pow_eq_iff hb σ hσ] at h
  rw [← h2] at hj
  exact pow_ne_one_of_lt_orderOf (by omega) hj (by simpa using h)

end CPerm

namespace CPerm

theorem iter_add (m : List Nat) (b i : Nat) : ∀ a, iter m (a + b) i = iter m a (iter m b i)
  | 0 => by rw [Nat.zero_add]; rfl
  | a + 1 => by
    rw [Nat.add_right_comm]
    show m.getD (iter m (a + b) i) 0 = m.getD (iter m a (iter m b i)) 0
    rw [iter_add m b i a]

theorem iter_mul (m : List Nat) (L i : Nat) (h : iter m L i = i) : ∀ a, iter m (a * L) i = i
  | 0 => by rw [Nat.zero_mul]; rfl
  | a + 1 => by rw [Nat.succ_mul, iter_add, h, iter_mul m L i h a]

theorem iter_mod (m : List Nat) (L i : Nat) (h : iter m L i = i) (c : Nat) :
    iter m c i = iter m (c % L) i := by
  conv_lhs => rw [← Nat.mod_add_div c L, Nat.mul_comm L, iter_add, iter_mul m L i h]

theorem pow_getD_iter {p : CPerm} (hb : p.IsBijection) : ∀ (c i : Nat), i < p.m_nSize →
    (pow p c).m_nMap.getD i 0 = iter p.m_nMap c i
  | 0, i, hi => by
    show (identity p.m_nSize).m_nMap.getD i 0 = i
    rw [identity_map, getD_range _ _ hi]
  | c + 1, i, hi => by
    show ((pow p c).operator_mul_assign p).m_nMap.getD i 0 = p.m_nMap.getD (iter p.m_nMap c i) 0
    have hl := (pow_isBijection p hb c).1
    rw [operator_mul_assign_map _ _ hl, getD_map_of_lt _ _ _ (by rw [hl, pow_size]; exact hi),
      pow_getD_iter hb c i hi]

theorem prime_mem_of_dvd_prod (l : List Nat) (hl : ∀ a ∈ l, a.Prime) (q : Nat) (hq : q.Prime)
    (h : q ∣ l.prod) : q ∈ l := by
  obtain ⟨a, ha, hd⟩ := (Prime.dvd_prod_iff hq.prime).mp h
  rw [(Nat.prime_dvd_prime_iff_eq hq (hl a ha)).mp hd]
  exact ha

/-- A cycle certificate for the order `k` of `p`: `lens` gives for every point a period that
divides `k`, and for every prime `q` of the factorisation `primes` of `k` some point is moved by
`p^(k/q)`. -/
theorem order_of_cycles {p : CPerm} (hb : p.IsBijection) (lens primes : List Nat) (k : Nat)
    (h1 : ∀ i, i < p.m_nSize → iter p.m_nMap (lens.getD i 0) i = i ∧ lens.getD i 0 ∣ k)
    (hk : 0 < k) (hprod : primes.prod = k) (hprime : ∀ q ∈ primes, q.Prime)
    (hq : ∀ q ∈ primes, ∃ i, i < p.m_nSize ∧
      iter p.m_nMap ((k / q) % lens.getD i 0) i ≠ i) :
    pow p k = identity p.m_nSize ∧ ∀ j, 0 < j → j < k → pow p j ≠ identity p.m_nSize := by
  have hid : pow p k = identity p.m_nSize := by
    refine ext_of_getD (pow_size p k) (pow_isBijection p hb k).1
      (by rw [identity_map, List.length_range]; rfl) ?_
    intro i hi
    rw [pow_size] at hi
    rw [pow_getD_iter hb k i hi, identity_map, getD_range _ _ hi,
      iter_mod _ _ _ (h1 i hi).1 k, Nat.mod_eq_zero_of_dvd (h1 i hi).2]
    rfl
  refine ⟨hid, order_of_certificate hb k hk hid ?_⟩
  intro q hqp hqd h
  rw [← hprod] at hqd
  obtain ⟨i, hi, hne⟩ := hq q (prime_mem_of_dvd_prod primes hprime q hqp hqd)
  apply hne
  rw [← iter_mod _ _ _ (h1 i hi).1, ← pow_getD_iter hb _ i hi, h, identity_map,
    getD_range _ _ hi]

end CPerm

namespace CPowerTable

open CPerm

/-- The member `Initialize` on a bijection with a cycle certificate for the order `k`. -/
theorem Initialize_of_cycles {p : CPerm} (hb : p.IsBijection) (lens primes : List Nat) (k : Nat)
    (h1 : ∀ i, i < p.m_nSize → iter p.m_nMap (lens.getD i 0) i = i ∧ lens.getD i 0 ∣ k)
    (hk : 0 < k) (hprod : primes.prod = k) (hprime : ∀ q ∈ primes, q.Prime)
    (hq : ∀ q ∈ primes, ∃ i, i < p.m_nSize ∧
      iter p.m_nMap ((k / q) % lens.getD i 0) i ≠ i)
    (fuel : Nat) (hf : k ≤ fuel) (t : CPowerTable) :
    Initialize fuel t p = some { m_stdPower := (List.range k).map (pow p), m_nOrder := k } := by
  obtain ⟨c1, c2⟩ := order_of_cycles hb lens primes k h1 hk hprod hprime hq
  exact Initialize_of_order p hb k hk c1 c2 fuel hf t

end CPowerTable

namespace Cayley32

open CPerm uintx_t

theorem ofString_gen0 : uintx_t.ofString "350F1C2036E12600512A8400920E" = some gen0Words := by
  decide!

theorem ofString_gen1 : uintx_t.ofString "EEDC82EE2D472B430D13E5066CD5B" = some gen1Words := by
  decide!

theorem ofNumber_gen0 (fuel : Nat) (hf : 129 ≤ fuel) :
    CPerm.ofNumber fuel 32 gen0Words = some gen0Perm := by
  rw [ofNumber_spec fuel 32 gen0Words (by decide) (by decide) (by decide) hf]
  have h : unrankSpec (digits 32 (value gen0Words % Nat.factorial 32)) 32 (List.range 32)
      = gen0Perm.m_nMap := by decide!
  rw [h]
  rfl

theorem ofNumber_gen1 (fuel : Nat) (hf : 129 ≤ fuel) :
    CPerm.ofNumber fuel 32 gen1Words = some gen1Perm := by
  rw [ofNumber_spec fuel 32 gen1Words (by decide) (by decide) (by decide) hf]
  have h : unrankSpec (digits 32 (value gen1Words % Nat.factorial 32)) 32 (List.range 32)
      = gen1Perm.m_nMap := by decide!
  rw [h]
  rfl

theorem primes_5460 : ∀ q ∈ [2, 2, 3, 5, 7, 13], Nat.Prime q := by
  intro q hq
  simp only [List.mem_cons, List.mem_singleton, List.not_mem_nil, or_false] at hq
  rcases hq with rfl | rfl | rfl | rfl | rfl | rfl <;> norm_num

theorem Initialize_gen0 (fuel : Nat) (hf : 5460 ≤ fuel) (t : CPowerTable) :
    CPowerTable.Initialize fuel t gen0Perm
      = some { m_stdPower := (List.range 5460).map (pow gen0Perm), m_nOrder := 5460 } :=
  CPowerTable.Initialize_of_cycles (by decide) gen0Cycles [2, 2, 3, 5, 7, 13] 5460 (by decide)
    (by decide) (by decide) primes_5460 (by decide) fuel hf t

theorem Initialize_gen1 (fuel : Nat) (hf : 5460 ≤ fuel) (t : CPowerTable) :
    CPowerTable.Initialize fuel t gen1Perm
      = some { m_stdPower := (List.range 5460).map (pow gen1Perm), m_nOrder := 5460 } :=
  CPowerTable.Initialize_of_cycles (by decide) gen1Cycles [2, 2, 3, 5, 7, 13] 5460 (by decide)
    (by decide) (by decide) primes_5460 (by decide) fuel hf t

end Cayley32

namespace CCayley

open CPerm

theorem primes_471240 : ∀ q ∈ [2, 2, 2, 3, 3, 5, 7, 11, 17], Nat.Prime q := by
  intro q hq
  simp only [List.mem_cons, List.mem_singleton, List.not_mem_nil, or_false] at hq
  rcases hq with rfl | rfl | rfl | rfl | rfl | rfl | rfl | rfl | rfl <;> norm_num

theorem primes_510510 : ∀ q ∈ [2, 3, 5, 7, 11, 13, 17], Nat.Prime q := by
  intro q hq
  simp only [List.mem_cons, List.mem_singleton, List.not_mem_nil, or_false] at hq
  rcases hq with rfl | rfl | rfl | rfl | rfl | rfl | rfl <;> norm_num

theorem Initialize_first58 (fuel : Nat) (hf : 471240 ≤ fuel) (t : CPowerTable) :
    CPowerTable.Initialize fuel t first58
      = some { m_stdPower := (List.range 471240).map (pow first58), m_nOrder := 471240 } :=
  CPowerTable.Initialize_of_cycles (by decide) first58Cycles [2, 2, 2, 3, 3, 5, 7, 11, 17] 471240
    (by decide) (by decide) (by decide) primes_471240 (by decide) fuel hf t

theorem Initialize_second58 (fuel : Nat) (hf : 510510 ≤ fuel) (t : CPowerTable) :
    CPowerTable.Initialize fuel t second58
      = some { m_stdPower := (List.range 510510).map (pow second58), m_nOrder := 510510 } :=
  CPowerTable.Initialize_of_cycles (by decide) second58Cycles [2, 3, 5, 7, 11, 13, 17] 510510
    (by decide) (by decide) (by decide) primes_510510 (by decide) fuel hf t

theorem chooseFirst_accept (fuel order : Nat) (rnd : Nat → Nat) (rounds : Nat) (p : CPerm)
    (t : CPowerTable) (pos : Nat) (tab : CPowerTable) (hr : 0 < rounds)
    (h : CPowerTable.Initialize fuel t (p.Randomize rnd pos).1 = some tab)
    (ho : ¬ tab.GetOrder < order) :
    chooseFirst fuel order rnd rounds p t pos
      = some ((p.Randomize rnd pos).1, tab, (p.Randomize rnd pos).2) := by
  obtain ⟨r, rfl⟩ : ∃ r, rounds = r + 1 := ⟨rounds - 1, by omega⟩
  unfold chooseFirst
  simp only [h, Option.some_bind, if_neg ho]

theorem chooseSecond_accept (fuel order : Nat) (rnd : Nat → Nat) (rounds : Nat) (p : CPerm)
    (t : CPowerTable) (pos : Nat) (tab : CPowerTable) (hr : 0 < rounds)
    (h : CPowerTable.Initialize fuel t (p.RandomizeOdd rnd pos).1 = some tab)
    (ho : ¬ tab.GetOrder < order) :
    chooseSecond fuel order rnd rounds p t pos
      = some ((p.RandomizeOdd rnd pos).1, tab, (p.RandomizeOdd rnd pos).2) := by
  obtain ⟨r, rfl⟩ : ∃ r, rounds = r + 1 := ⟨rounds - 1, by omega⟩
  unfold chooseSecond
  simp only [h, Option.some_bind, if_neg ho]

theorem chooseLoop_accept (fuel size order : Nat) (rnd : Nat → Nat) (rounds : Nat) (p : CPerm)
    (t0 t1 : CPowerTable) (pos : Nat) (r0 r1 : CPerm × CPowerTable × Nat) (p0 q0 : CPerm)
    (hr : 0 < rounds)
    (h0 : chooseFirst fuel order rnd fuel p t0 pos = some r0)
    (h1 : chooseSecond fuel order rnd fuel r0.1 t1 r0.2.2 = some r1)
    (hp : r0.2.1.get 1 = some p0) (hq : r1.2.1.get 1 = some q0)
    (hfix : fixedPointLoop p0 q0 size 0 true = true) :
    chooseLoop fuel size order rnd rounds p t0 t1 pos = some (r0.2.1, r1.2.1, r1.2.2) := by
  obtain ⟨r, rfl⟩ : ∃ r, rounds = r + 1 := ⟨rounds - 1, by omega⟩
  unfold chooseLoop
  simp only [h0, h1, hp, hq, Option.some_bind, hfix, if_true]

theorem Randomize_58 : (CPerm.identity 58).Randomize rnd58 0 = (first58, 57) := by
  decide!

theorem RandomizeOdd_58 : first58.RandomizeOdd rnd58 57 = (second58, 113) := by
  decide!

theorem fixedPointLoop_58 : fixedPointLoop first58 second58 58 0 true = true := by
  decide!

end CCayley

/-! ## The constructor and the remainder on every normalized number -/

namespace CPerm

open uintx_t

/-- The constructor on every well-formed normalized number, the empty one included. -/
theorem ofNumber_normalized (fuel n : Nat) (r : uintx_t) (hn1 : 1 ≤ n) (hn : n ≤ 256)
    (hw : WF r) (hnorm : Normalized r) (hfuel : 32 * r.length + 1 ≤ fuel) :
    ofNumber fuel n r = some
      { m_nMap := unrankSpec (digits n (value r % n.factorial)) n (List.range n),
        m_nSize := n } := by
  by_cases h0 : r = []
  · subst h0
    rw [ofNumber_nil fuel n hn1 hn (by omega)]
    simp [value]
  · have hc : Canonical r := by
      refine ⟨hw, ?_, hnorm⟩
      cases r with
      | nil => exact absurd rfl h0
      | cons a l => simp
    exact ofNumber_spec fuel n r hn1 hn hc hfuel

/-- The remainder on every well-formed normalized number, the empty one included. -/
theorem operator_mod_normalized (fuel : Nat) (r z : uintx_t) (hw : WF r) (hnorm : Normalized r)
    (hz : Canonical z) (hz0 : 0 < value z) (hfuel : 32 * r.length + 1 ≤ fuel) :
    ∃ q, operator_mod fuel r z = some q ∧ WF q ∧ Normalized q ∧ q.length ≤ r.length ∧
      value q = value r % value z := by
  by_cases h0 : r = []
  · subst h0
    refine ⟨[], operator_mod_nil fuel z (by omega) hz.length_pos, WF_nil, Or.inl (by simp),
      le_refl _, ?_⟩
    simp [value]
  · have hc : Canonical r := by
      refine ⟨hw, ?_, hnorm⟩
      cases r with
      | nil => exact absurd rfl h0
      | cons a l => simp
    obtain ⟨q, q1, q2, q3⟩ := operator_mod_spec hc hz hz0 fuel hfuel
    refine ⟨q, q1, q2.wf, q2.2.2, ?_, q3⟩
    apply q2.length_le_of_value_le hc
    rw [q3]
    exact Nat.mod_le _ _

/-- The constructor `CPerm(5, 73)`. -/
theorem ofNumber_five (fuel : Nat) (hfuel : 33 ≤ fuel) :
    ofNumber fuel 5 (uintx_t.ofInt 73) = some ⟨[2, 4, 1, 0, 3], 5⟩ := by
  have h : uintx_t.ofInt 73 = [73] := by decide
  rw [h, ofNumber_spec fuel 5 [73] (by decide) (by decide) (by decide) hfuel]
  have h2 : unrankSpec (digits 5 (value [73] % Nat.factorial 5)) 5 (List.range 5)
      = [2, 4, 1, 0, 3] := by decide
  rw [h2]

end CPerm

/-! ## The engine: power tables, the step and the seeded state -/

namespace CPowerTable

open CPerm

theorem initLoop_mono (p : CPerm) : ∀ (f : Nat) (q : CPerm) (pw : List CPerm) (o : Nat)
    (tab : CPowerTable), initLoop p f q pw o = some tab →
    ∀ f2, f ≤ f2 → initLoop p f2 q pw o = some tab
  | 0, _, _, _, _, h, _, _ => by simp [initLoop] at h
  | f + 1, q, pw, o, tab, h, f2, hf => by
    obtain ⟨g, rfl⟩ : ∃ g, f2 = g + 1 := ⟨f2 - 1, by omega⟩
    unfold initLoop at h ⊢
    by_cases hq : q.IsIdentity = true
    · rw [hq] at h ⊢
      exact h
    · have hq2 : q.IsIdentity = false := by simpa using hq
      rw [hq2] at h ⊢
      simp only [Bool.not_false, if_true] at h ⊢
      exact initLoop_mono p f _ _ _ tab h g (by omega)

/-- Whatever the budget, a table that `Initialize` returns for a bijection is the table of its
powers, of length the order. -/
theorem Initialize_some (p : CPerm) (hb : p.IsBijection) (fuel : Nat) (t tab : CPowerTable)
    (h : Initialize fuel t p = some tab) :
    ∃ k, 1 ≤ k ∧ tab = { m_stdPower := (List.range k).map (pow p), m_nOrder := k } := by
  obtain ⟨k, k1, -, -, -, -, k6⟩ := Initialize_spec p hb
  refine ⟨k, k1, ?_⟩
  have h1 := k6 (max fuel p.m_nSize.factorial) t (le_max_right _ _)
  unfold Initialize at h h1
  have h2 := initLoop_mono p fuel _ _ _ tab h (max fuel p.m_nSize.factorial) (le_max_left _ _)
  rw [h2] at h1
  exact Option.some.inj h1

theorem mem_table (p : CPerm) (hb : p.IsBijection) (k : Nat) (g : CPerm)
    (hg : g ∈ (List.range k).map (pow p)) : g.IsBijection ∧ g.m_nSize = p.m_nSize := by
  obtain ⟨j, -, rfl⟩ := List.mem_map.mp hg
  exact ⟨pow_isBijection p hb j, pow_size p j⟩

theorem mem_table_eq (p : CPerm) (hb : p.IsBijection) (k : Nat) (t : CPowerTable)
    (ht : t = { m_stdPower := (List.range k).map (pow p), m_nOrder := k }) (g : CPerm)
    (hg : g ∈ t.m_stdPower) : g.IsBijection ∧ g.m_nSize = p.m_nSize := by
  subst ht
  exact mem_table p hb k g hg

end CPowerTable

namespace CPerm

theorem operator_assign_eq (self p : CPerm) (hl : p.m_nMap.length = p.m_nSize)
    (hs : p.m_nSize = self.m_nSize) : self.operator_assign p = some p := by
  unfold operator_assign
  rw [if_pos hs, map_getD_range p.m_nMap self.m_nSize (by rw [hl, hs])]
  cases p
  simp only at hs
  rw [hs]

end CPerm

namespace CCayley

open CPerm

/-- The step on an engine whose table for parity `i` has more than `e` entries. -/
theorem NextPerm_eq (c : CCayley) (i : Nat) (t : CPowerTable) (g : CPerm)
    (ho : 0 < c.m_nOrder) (ho2 : c.m_nOrder < 2 ^ 32) (hi : i < 2)
    (ht : t = if i = 0 then c.m_nPower0 else c.m_nPower1)
    (hg : t.get (c.m_nDelayLine.getD c.m_nTail 0 % c.m_nOrder) = some g) :
    NextPerm c i
      = some ({ c with m_pCurPerm := c.m_pCurPerm.operator_mul_assign g }, 1 - i) := by
  unfold NextPerm
  rw [if_neg (by omega)]
  have hlt : c.m_nDelayLine.getD c.m_nTail 0 % c.m_nOrder < c.m_nOrder := Nat.mod_lt _ ho
  have hm : (c.m_nDelayLine.getD c.m_nTail 0 % c.m_nOrder) % 2 ^ 32
      = c.m_nDelayLine.getD c.m_nTail 0 % c.m_nOrder := Nat.mod_eq_of_lt (by omega)
  simp only [hm]
  have hx : (i ^^^ 1) % 2 ^ 32 = 1 - i := by
    interval_cases i <;> rfl
  rw [hx]
  interval_cases i
  · simp only [if_true] at ht ⊢
    rw [Option.some_bind, ← ht, hg]
    rfl
  · simp only [if_true] at ht ⊢
    rw [if_neg (by decide), Option.some_bind]
    rw [if_neg (by decide)] at ht
    rw [← ht, hg]
    rfl

end CCayley

namespace Cayley32e

open CPerm

theorem num_eq_numSpec (perm : CPerm) : num perm = numSpec perm := by
  unfold num numSpec
  simp only [List.range_succ, List.range_zero, List.nil_append, List.cons_append,
    List.foldl_cons, List.foldl_nil, Nat.zero_xor, keys, List.getD_cons_succ,
    List.getD_cons_zero]

theorem num_lt (perm : CPerm) : num perm < 2 ^ 64 := by
  unfold num
  repeat first
    | exact Nat.mod_lt _ (by norm_num)
    | apply Nat.xor_lt_two_pow

end Cayley32e

namespace Cayley32e

open CPerm CCayley

theorem getD_mem_of_lt (l : List Nat) (j : Nat) (h : j < l.length) : l.getD j 0 ∈ l := by
  rw [List.getD_eq_getElem?_getD, List.getElem?_eq_getElem h, Option.getD_some]
  exact List.getElem_mem h

theorem rand_eq (c : CCayley) (i : Nat) (c1 : CCayley) (i1 : Nat)
    (h : c.NextPerm i = some (c1, i1)) :
    rand c i = some
      (num c1.m_pCurPerm ^^^
          (c1.m_nDelayLine.set c1.m_nTail (num c1.m_pCurPerm)).getD ((c1.m_nTail + 1) % 32) 0,
        { c1 with m_nDelayLine := c1.m_nDelayLine.set c1.m_nTail (num c1.m_pCurPerm),
                  m_nTail := (c1.m_nTail + 1) % 32 }, i1) := by
  unfold rand
  rw [h]
  rfl

/-- One call of `rand()` on a seeded engine: the exponent is below the number of entries of the
table read, the call returns a value below `2 ^ 64`, and the engine is seeded afterwards. -/
theorem rand_seeded (c : CCayley) (i : Nat) (hc : c.Seeded) (hi : i < 2) :
    ∃ (g : CPerm) (out : Nat) (c2 : CCayley),
      (if i = 0 then c.m_nPower0 else c.m_nPower1).get
        (c.m_nDelayLine.getD c.m_nTail 0 % c.m_nOrder) = some g ∧
      c.m_nDelayLine.getD c.m_nTail 0 % c.m_nOrder
        < (if i = 0 then c.m_nPower0 else c.m_nPower1).m_stdPower.length ∧
      rand c i = some (out, c2, 1 - i) ∧
      c2 = { c with m_pCurPerm := c.m_pCurPerm.operator_mul_assign g,
                    m_nDelayLine :=
                      c.m_nDelayLine.set c.m_nTail (num (c.m_pCurPerm.operator_mul_assign g)),
                    m_nTail := (c.m_nTail + 1) % 32 } ∧
      out = num c2.m_pCurPerm ^^^ c2.m_nDelayLine.getD c2.m_nTail 0 ∧
      out < 2 ^ 64 ∧ c2.Seeded := by
  obtain ⟨h1, h2, h3, ⟨h4, h5⟩, ⟨h6, h7⟩, ⟨h8, h9⟩, ⟨h10, h10b⟩, h11⟩ := hc
  have he : c.m_nDelayLine.getD c.m_nTail 0 % c.m_nOrder < c.m_nOrder := Nat.mod_lt _ h2
  have hlen : c.m_nDelayLine.getD c.m_nTail 0 % c.m_nOrder
      < (if i = 0 then c.m_nPower0 else c.m_nPower1).m_stdPower.length := by
    split_ifs <;> omega
  have hmem : ∀ g ∈ (if i = 0 then c.m_nPower0 else c.m_nPower1).m_stdPower,
      g.IsBijection ∧ g.m_nSize = 32 := by
    split_ifs
    · exact h5
    · exact h7
  have hget : (if i = 0 then c.m_nPower0 else c.m_nPower1).get
      (c.m_nDelayLine.getD c.m_nTail 0 % c.m_nOrder)
      = some ((if i = 0 then c.m_nPower0 else c.m_nPower1).m_stdPower.get ⟨_, hlen⟩) := by
    unfold CPowerTable.get
    rw [List.get?_eq_get hlen]
  have hline : ∀ v ∈ c.m_nDelayLine.set c.m_nTail
      (num (c.m_pCurPerm.operator_mul_assign
        ((if i = 0 then c.m_nPower0 else c.m_nPower1).m_stdPower.get ⟨_, hlen⟩))),
      v < 2 ^ 64 := by
    intro v hv
    rcases List.mem_or_eq_of_mem_set hv with h | h
    · exact h10b v h
    · rw [h]; exact num_lt _
  have hlen2 : (c.m_nDelayLine.set c.m_nTail
      (num (c.m_pCurPerm.operator_mul_assign
        ((if i = 0 then c.m_nPower0 else c.m_nPower1).m_stdPower.get ⟨_, hlen⟩)))).length
      = 32 := by
    rw [List.length_set]; exact h10
  refine ⟨_, _, _, hget, hlen, ?_, rfl, rfl, ?_, ?_⟩
  · rw [rand_eq c i _ _ (NextPerm_eq c i _ _ h2 h3 hi rfl hget)]
  · apply Nat.xor_lt_two_pow (num_lt _)
    apply hline
    exact getD_mem_of_lt _ _ (by rw [hlen2]; exact Nat.mod_lt _ (by norm_num))
  · obtain ⟨g1, g2⟩ := hmem _ (List.get_mem _ _ hlen)
    exact ⟨h1, h2, h3, ⟨h4, h5⟩, ⟨h6, h7⟩,
      ⟨operator_mul_assign_isBijection _ _ h8 g1 (by rw [h9, g2]), h9⟩, ⟨hlen2, hline⟩,
      Nat.mod_lt _ (by norm_num)⟩

/-- Every number of successive calls of `rand()` on a seeded engine returns, with one value
below `2 ^ 64` per call and a seeded engine at the end. -/
theorem randLoop_seeded : ∀ (k : Nat) (c : CCayley) (i : Nat), c.Seeded → i < 2 →
    ∃ r, randLoop k c i = some r ∧ r.1.length = k ∧ (∀ v ∈ r.1, v < 2 ^ 64) ∧
      r.2.1.Seeded ∧ r.2.2 < 2
  | 0, c, i, hc, hi => ⟨([], c, i), rfl, rfl, by simp, hc, hi⟩
  | k + 1, c, i, hc, hi => by
    obtain ⟨g, out, c2, -, -, h3, -, -, h4, h5⟩ := rand_seeded c i hc hi
    obtain ⟨r, r1, r2, r3, r4, r5⟩ := randLoop_seeded k c2 (1 - i) h5 (by omega)
    refine ⟨(out :: r.1, r.2.1, r.2.2), ?_, by simp [r2], ?_, r4, r5⟩
    · unfold randLoop
      rw [h3]
      simp only [Option.some_bind]
      rw [r1]
      rfl
    · intro v hv
      rcases List.mem_cons.mp hv with rfl | hv
      · exact h4
      · exact r3 v hv

end Cayley32e

/-! ## Seeding -/

namespace Cayley32

open CPerm uintx_t

theorem gen0Perm_isBijection : gen0Perm.IsBijection := by
  decide!

theorem gen1Perm_isBijection : gen1Perm.IsBijection := by
  decide!

theorem new_eq : Cayley32.new = some ⟨32, 5460, CPowerTable.empty, CPowerTable.empty,
    CPerm.identity 32, initialDelayLine, 0⟩ := rfl

theorem ChooseGenerators_eq (fuel : Nat) (hf : 5460 ≤ fuel) (c : CCayley)
    (ho : c.m_nOrder = 5460) :
    ChooseGenerators fuel c = some
      { c with m_nPower0 := ⟨(List.range 5460).map (pow gen0Perm), 5460⟩,
               m_nPower1 := ⟨(List.range 5460).map (pow gen1Perm), 5460⟩ } := by
  unfold ChooseGenerators
  rw [ofString_gen0, ofString_gen1]
  simp only [Option.some_bind]
  rw [ofNumber_gen0 fuel (by omega), ofNumber_gen1 fuel (by omega)]
  simp only [Option.some_bind]
  rw [Initialize_gen0 fuel hf, Initialize_gen1 fuel hf]
  simp only [Option.some_bind]
  rw [if_pos ⟨by rw [ho]; rfl, by rw [ho]; rfl⟩]

/-- The member `srand(seed)` on an engine of order 5460 whose current permutation has size 32:
both tables are rebuilt, the current permutation becomes `CPerm(32, seed)`, and nothing else
changes. -/
theorem srand_eq (fuel : Nat) (c : CCayley) (seed : uintx_t) (hf : 5460 ≤ fuel)
    (hf2 : 32 * seed.length + 1 ≤ fuel) (ho : c.m_nOrder = 5460)
    (hs : c.m_pCurPerm.m_nSize = 32) (hw : WF seed) (hnorm : Normalized seed) :
    srand fuel c seed = some
      { c with m_nPower0 := ⟨(List.range 5460).map (pow gen0Perm), 5460⟩,
               m_nPower1 := ⟨(List.range 5460).map (pow gen1Perm), 5460⟩,
               m_pCurPerm :=
                 ⟨unrankSpec (digits 32 (value seed % Nat.factorial 32)) 32 (List.range 32),
                   32⟩ } := by
  unfold srand
  rw [ChooseGenerators_eq fuel hf c ho, Option.some_bind,
    ofNumber_normalized fuel 32 seed (by decide) (by decide) hw hnorm hf2, Option.some_bind]
  simp only
  rw [operator_assign_eq _ _ (unrank_isBijection 32 _).1 hs.symm]
  rfl

theorem seeded_of_tables (c : CCayley) (h1 : c.m_nSize = 32) (ho : c.m_nOrder = 5460)
    (hp : c.m_pCurPerm.IsBijection ∧ c.m_pCurPerm.m_nSize = 32)
    (hd : c.m_nDelayLine.length = 32 ∧ ∀ v ∈ c.m_nDelayLine, v < 2 ^ 64) (ht : c.m_nTail < 32)
    (h0 : c.m_nPower0 = ⟨(List.range 5460).map (pow gen0Perm), 5460⟩)
    (h1b : c.m_nPower1 = ⟨(List.range 5460).map (pow gen1Perm), 5460⟩) : c.Seeded := by
  refine ⟨h1, by omega, by omega, ⟨?_, ?_⟩, ⟨?_, ?_⟩, hp, hd, ht⟩
  · rw [h0, ho]
    simp only [List.length_map, List.length_range, le_refl]
  · intro g hg
    exact CPowerTable.mem_table_eq gen0Perm gen0Perm_isBijection _ _ h0 g hg
  · rw [h1b, ho]
    simp only [List.length_map, List.length_range, le_refl]
  · intro g hg
    exact CPowerTable.mem_table_eq gen1Perm gen1Perm_isBijection _ _ h1b g hg

theorem initialDelayLine_lt : initialDelayLine.length = 32 ∧
    ∀ v ∈ initialDelayLine, v < 2 ^ 64 := by
  decide

end Cayley32

namespace CCayley

open CPerm

theorem chooseFirst_some (fuel order : Nat) (rnd : Nat → Nat) : ∀ (rounds : Nat) (p : CPerm)
    (t : CPowerTable) (pos : Nat) (r : CPerm × CPowerTable × Nat), p.IsBijection →
    chooseFirst fuel order rnd rounds p t pos = some r →
    r.1.IsBijection ∧ r.1.m_nSize = p.m_nSize ∧
      ∃ k, order ≤ k ∧ r.2.1 = ⟨(List.range k).map (pow r.1), k⟩
  | 0, _, _, _, _, _, h => by simp [chooseFirst] at h
  | rounds + 1, p, t, pos, r, hb, h => by
    unfold chooseFirst at h
    simp only at h
    obtain ⟨b1, b2⟩ := Randomize_isBijection p rnd pos hb
    cases hI : CPowerTable.Initialize fuel t (p.Randomize rnd pos).1 with
    | none => rw [hI] at h; simp at h
    | some tab =>
      rw [hI, Option.some_bind] at h
      by_cases hlt : tab.GetOrder < order
      · rw [if_pos hlt] at h
        obtain ⟨c1, c2, c3⟩ := chooseFirst_some fuel order rnd rounds _ _ _ r b1 h
        exact ⟨c1, by rw [c2, b2], c3⟩
      · rw [if_neg hlt] at h
        obtain ⟨k, -, hk⟩ := CPowerTable.Initialize_some _ b1 fuel t tab hI
        have hr := Option.some.inj h
        subst hr
        refine ⟨b1, b2, k, ?_, hk⟩
        rw [hk] at hlt
        exact not_lt.mp hlt

theorem chooseSecond_some (fuel order : Nat) (rnd : Nat → Nat) : ∀ (rounds : Nat) (p : CPerm)
    (t : CPowerTable) (pos : Nat) (r : CPerm × CPowerTable × Nat), p.IsBijection →
    2 ≤ p.m_nSize → chooseSecond fuel order rnd rounds p t pos = some r →
    r.1.IsBijection ∧ r.1.m_nSize = p.m_nSize ∧
      ∃ k, order ≤ k ∧ r.2.1 = ⟨(List.range k).map (pow r.1), k⟩
  | 0, _, _, _, _, _, _, h => by simp [chooseSecond] at h
  | rounds + 1, p, t, pos, r, hb, h2, h => by
    unfold chooseSecond at h
    simp only at h
    obtain ⟨b1, b2⟩ := RandomizeOdd_isBijection p rnd pos hb h2
    cases hI : CPowerTable.Initialize fuel t (p.RandomizeOdd rnd pos).1 with
    | none => rw [hI] at h; simp at h
    | some tab =>
      rw [hI, Option.some_bind] at h
      by_cases hlt : tab.GetOrder < order
      · rw [if_pos hlt] at h
        obtain ⟨c1, c2, c3⟩ :=
          chooseSecond_some fuel order rnd rounds _ _ _ r b1 (by rw [b2]; exact h2) h
        exact ⟨c1, by rw [c2, b2], c3⟩
      · rw [if_neg hlt] at h
        obtain ⟨k, -, hk⟩ := CPowerTable.Initialize_some _ b1 fuel t tab hI
        have hr := Option.some.inj h
        subst hr
        refine ⟨b1, b2, k, ?_, hk⟩
        rw [hk] at hlt
        exact not_lt.mp hlt

/-- The tables that `chooseLoop` returns are those of two bijections of the size of `p`, each
with at least `order` entries. -/
theorem chooseLoop_some (fuel size order : Nat) (rnd : Nat → Nat) : ∀ (rounds : Nat)
    (p : CPerm) (t0 t1 : CPowerTable) (pos : Nat) (r : CPowerTable × CPowerTable × Nat),
    p.IsBijection → 2 ≤ p.m_nSize →
    chooseLoop fuel size order rnd rounds p t0 t1 pos = some r →
    (∃ g k, g.IsBijection ∧ g.m_nSize = p.m_nSize ∧ order ≤ k ∧
      r.1 = ⟨(List.range k).map (pow g), k⟩) ∧
    (∃ g k, g.IsBijection ∧ g.m_nSize = p.m_nSize ∧ order ≤ k ∧
      r.2.1 = ⟨(List.range k).map (pow g), k⟩)
  | 0, _, _, _, _, _, _, _, h => by simp [chooseLoop] at h
  | rounds + 1, p, t0, t1, pos, r, hb, h2, h => by
    unfold chooseLoop at h
    cases hA : chooseFirst fuel order rnd fuel p t0 pos with
    | none => rw [hA] at h; simp at h
    | some r0 =>
      rw [hA, Option.some_bind] at h
      obtain ⟨a1, a2, ka, a3, a4⟩ := chooseFirst_some fuel order rnd fuel p t0 pos r0 hb hA
      cases hB : chooseSecond fuel order rnd fuel r0.1 t1 r0.2.2 with
      | none => rw [hB] at h; simp at h
      | some r1 =>
        rw [hB, Option.some_bind] at h
        obtain ⟨b1, b2, kb, b3, b4⟩ :=
          chooseSecond_some fuel order rnd fuel r0.1 t1 r0.2.2 r1 a1 (by rw [a2]; exact h2) hB
        cases hp : r0.2.1.get 1 with
        | none => rw [hp] at h; simp at h
        | some p0 =>
          rw [hp, Option.some_bind] at h
          cases hq : r1.2.1.get 1 with
          | none => rw [hq] at h; simp at h
          | some q0 =>
            rw [hq, Option.some_bind] at h
            by_cases hfix : fixedPointLoop p0 q0 size 0 true = true
            · rw [if_pos hfix] at h
              have hr := Option.some.inj h
              subst hr
              exact ⟨⟨r0.1, ka, a1, a2, a3, a4⟩, ⟨r1.1, kb, b1, by rw [b2, a2], b3, b4⟩⟩
            · rw [if_neg hfix] at h
              obtain ⟨c1, c2⟩ := chooseLoop_some fuel size order rnd rounds r1.1 r0.2.1 r1.2.1
                r1.2.2 r b1 (by rw [b2, a2]; exact h2) h
              obtain ⟨g, k, d1, d2, d3, d4⟩ := c1
              obtain ⟨g', k', e1, e2, e3, e4⟩ := c2
              exact ⟨⟨g, k, d1, by rw [d2, b2, a2], d3, d4⟩,
                ⟨g', k', e1, by rw [e2, b2, a2], e3, e4⟩⟩

/-- An engine of size 32 is seeded once `srand(rnd)` has returned. -/
theorem srand_seeded (fuel : Nat) (rnd : Nat → Nat) (pos : Nat) (r : CCayley × Nat)
    (h : (CCayley.new 32).bind (fun e => srand fuel e rnd pos) = some r) : r.1.Seeded := by
  have hnew : CCayley.new 32 = some ⟨32, 5460, CPowerTable.empty, CPowerTable.empty,
      CPerm.identity 32, initialDelayLine, 0⟩ := rfl
  rw [hnew, Option.some_bind] at h
  unfold srand ChooseGenerators at h
  simp only at h
  cases hL : chooseLoop fuel 32 5460 rnd fuel (CPerm.identity 32) CPowerTable.empty
      CPowerTable.empty pos with
  | none => rw [hL] at h; simp at h
  | some s =>
    rw [hL] at h
    simp only [Option.map_some'] at h
    have hr := Option.some.inj h
    subst hr
    obtain ⟨⟨g, k, d1, d2, d3, d4⟩, ⟨g', k', e1, e2, e3, e4⟩⟩ :=
      chooseLoop_some fuel 32 5460 rnd fuel (CPerm.identity 32) _ _ pos s
        (identity_isBijection 32) (by decide) hL
    have hid : (CPerm.identity 32).m_nSize = 32 := rfl
    rw [hid] at d2 e2
    obtain ⟨f1, f2⟩ := Randomize_isBijection (CPerm.identity 32) rnd s.2.2
      (identity_isBijection 32)
    refine ⟨rfl, (by show 0 < 5460; decide), (by show 5460 < 2 ^ 32; decide), ⟨?_, ?_⟩,
      ⟨?_, ?_⟩, ⟨f1, f2⟩, Cayley32.initialDelayLine_lt, (by show 0 < 32; decide)⟩
    · show 5460 ≤ s.1.m_stdPower.length
      rw [d4]
      simp only [List.length_map, List.length_range]
      exact d3
    · show ∀ x ∈ s.1.m_stdPower, _
      rw [d4]
      intro x hx
      have := CPowerTable.mem_table g d1 k x hx
      rw [d2] at this
      exact this
    · show 5460 ≤ s.2.1.m_stdPower.length
      rw [e4]
      simp only [List.length_map, List.length_range]
      exact e3
    · show ∀ x ∈ s.2.1.m_stdPower, _
      rw [e4]
      intro x hx
      have := CPowerTable.mem_table g' e1 k' x hx
      rw [e2] at this
      exact this

end CCayley

/-! ## The engine seeded with 1 -/

namespace CPerm

theorem pow_eq_iter {p : CPerm} (hb : p.IsBijection) (k : Nat) :
    pow p k = ⟨(List.range p.m_nSize).map (iter p.m_nMap k), p.m_nSize⟩ := by
  refine ext_of_getD (pow_size p k) (pow_isBijection p hb k).1
    (by simp only [List.length_map, List.length_range]) ?_
  intro i hi
  rw [pow_size] at hi
  rw [pow_getD_iter hb k i hi]
  simp only
  rw [getD_map_of_lt _ _ _ (by rw [List.length_range]; exact hi), getD_range _ _ hi]

theorem pow_eq_of_cycles {p : CPerm} (hb : p.IsBijection) (lens : List Nat)
    (h1 : ∀ i, i < p.m_nSize → iter p.m_nMap (lens.getD i 0) i = i) (k : Nat) :
    pow p k = ⟨(List.range p.m_nSize).map fun i => iter p.m_nMap (k % lens.getD i 0) i,
      p.m_nSize⟩ := by
  rw [pow_eq_iter hb]
  congr 1
  apply List.map_congr_left
  intro i hi
  exact iter_mod _ _ _ (h1 i (List.mem_range.mp hi)) k

end CPerm

namespace Cayley32

open CPerm uintx_t CCayley

theorem srand_one :
    (Cayley32.new.bind fun e => srand 5460 e [1]) = some seededOne := by
  rw [new_eq, Option.some_bind,
    srand_eq 5460 _ [1] (Nat.le_refl _) (by decide) rfl rfl (by decide) (by decide)]
  have h : unrankSpec (digits 32 (value [1] % Nat.factorial 32)) 32 (List.range 32)
      = seededOne.m_pCurPerm.m_nMap := by decide!
  rw [h]
  rfl

theorem seededOne_seeded : seededOne.Seeded :=
  seeded_of_tables seededOne rfl rfl ⟨by decide!, rfl⟩ initialDelayLine_lt (by decide) rfl rfl

theorem exponent_one : seededOne.m_nDelayLine.getD seededOne.m_nTail 0 % seededOne.m_nOrder
    = 2084 := by
  decide

theorem mul_gen0 : seededOne.m_pCurPerm.operator_mul_assign (pow gen0Perm 2084) = stepZero := by
  rw [pow_eq_of_cycles gen0Perm_isBijection gen0Cycles (by decide)]
  decide!

theorem mul_gen1 : seededOne.m_pCurPerm.operator_mul_assign (pow gen1Perm 2084) = stepOne := by
  rw [pow_eq_of_cycles gen1Perm_isBijection gen1Cycles (by decide)]
  decide!

theorem NextPerm_zero :
    seededOne.NextPerm 0 = some ({ seededOne with m_pCurPerm := stepZero }, 1) := by
  rw [NextPerm_eq seededOne 0 seededOne.m_nPower0 (pow gen0Perm 2084) (by decide) (by decide)
    (by decide) rfl (by
      rw [exponent_one]
      exact CPowerTable.get_table gen0Perm 5460 2084 (by decide)), mul_gen0]

theorem NextPerm_one :
    seededOne.NextPerm 1 = some ({ seededOne with m_pCurPerm := stepOne }, 0) := by
  rw [NextPerm_eq seededOne 1 seededOne.m_nPower1 (pow gen1Perm 2084) (by decide) (by decide)
    (by decide) rfl (by
      rw [exponent_one]
      exact CPowerTable.get_table gen1Perm 5460 2084 (by decide)), mul_gen1]

theorem rand_zero :
    Cayley32e.rand seededOne 0 = some (2079350733731690469,
      { seededOne with m_pCurPerm := stepZero,
                       m_nDelayLine := initialDelayLine.set 0 2288629442395688344,
                       m_nTail := 1 }, 1) := by
  rw [Cayley32e.rand_eq _ _ _ _ NextPerm_zero]
  have h : Cayley32e.num stepZero = 2288629442395688344 := by decide!
  simp only [h]
  have h2 : (2288629442395688344 ^^^
      (seededOne.m_nDelayLine.set seededOne.m_nTail 2288629442395688344).getD
        ((seededOne.m_nTail + 1) % 32) 0) = 2079350733731690469 := by decide!
  rw [h2]
  rfl

theorem rand_one :
    Cayley32e.rand seededOne 1 = some (13478094467035858464,
      { seededOne with m_pCurPerm := stepOne,
                       m_nDelayLine := initialDelayLine.set 0 13263736018263882845,
                       m_nTail := 1 }, 0) := by
  rw [Cayley32e.rand_eq _ _ _ _ NextPerm_one]
  have h : Cayley32e.num stepOne = 13263736018263882845 := by decide!
  simp only [h]
  have h2 : (13263736018263882845 ^^^
      (seededOne.m_nDelayLine.set seededOne.m_nTail 13263736018263882845).getD
        ((seededOne.m_nTail + 1) % 32) 0) = 13478094467035858464 := by decide!
  rw [h2]
  rfl

end Cayley32

namespace CCayley

open CPerm

/-- What a step that returns has done: the parity was 0 or 1, the table of that parity has an
entry `g` at the exponent, and only the current permutation has changed. -/
theorem NextPerm_inv (c c1 : CCayley) (i i1 : Nat) (h : c.NextPerm i = some (c1, i1)) :
    ∃ g, i < 2 ∧ 0 < c.m_nOrder ∧
      (if i = 0 then c.m_nPower0 else c.m_nPower1).get
        ((c.m_nDelayLine.getD c.m_nTail 0 % c.m_nOrder) % 2 ^ 32) = some g ∧
      c1 = { c with m_pCurPerm := c.m_pCurPerm.operator_mul_assign g } ∧ i1 = 1 - i := by
  unfold NextPerm at h
  by_cases ho : c.m_nOrder = 0
  · rw [if_pos ho] at h
    exact absurd h (by simp)
  · rw [if_neg ho] at h
    simp only at h
    by_cases h0 : i = 0
    · subst h0
      simp only [if_true, Option.some_bind] at h
      cases hg : c.m_nPower0.get ((c.m_nDelayLine.getD c.m_nTail 0 % c.m_nOrder) % 2 ^ 32) with
      | none => rw [hg] at h; simp at h
      | some g =>
        rw [hg] at h
        simp only [Option.map_some', Option.some.injEq, Prod.mk.injEq] at h
        exact ⟨g, by decide, Nat.pos_of_ne_zero ho, by simpa using hg, h.1.symm, h.2.symm⟩
    · by_cases h1 : i = 1
      · subst h1
        simp only [if_true, Option.some_bind] at h
        rw [if_neg (by decide)] at h
        simp only [Option.some_bind] at h
        cases hg : c.m_nPower1.get ((c.m_nDelayLine.getD c.m_nTail 0 % c.m_nOrder) % 2 ^ 32)
          with
        | none => rw [hg] at h; simp at h
        | some g =>
          rw [hg] at h
          simp only [Option.map_some', Option.some.injEq, Prod.mk.injEq] at h
          refine ⟨g, by decide, Nat.pos_of_ne_zero ho, ?_, h.1.symm, h.2.symm⟩
          rw [if_neg (by decide)]
          exact hg
      · rw [if_neg h0, if_neg h1] at h
        simp at h

end CCayley

/-! ## The exchanges of `Randomize` -/

namespace CPerm

theorem randomizeLoop_eq_shuffle (size : Nat) (rng : Nat → Nat) :
    ∀ (c i pos : Nat) (m : List Nat),
      (randomizeLoop size rng c i pos m).1 = shuffle i (draws size rng pos i c) m
  | 0, _, _, _ => rfl
  | c + 1, i, pos, m => by
    unfold randomizeLoop draws shuffle
    simp only
    rw [randomizeLoop_eq_shuffle size rng c (i + 1) (pos + 1), Nat.add_comm (_ % _) i]

theorem length_draws (size : Nat) (rng : Nat → Nat) :
    ∀ (c pos i : Nat), (draws size rng pos i c).length = c
  | 0, _, _ => rfl
  | c + 1, pos, i => by
    unfold draws
    rw [List.length_cons, length_draws size rng c]

theorem validDraws_draws (size : Nat) (rng : Nat → Nat) :
    ∀ (c pos i : Nat), i + c ≤ size → ValidDraws size i (draws size rng pos i c)
  | 0, _, _, _ => trivial
  | c + 1, pos, i, h => by
    unfold draws
    exact ⟨Nat.mod_lt _ (by omega), validDraws_draws size rng c (pos + 1) (i + 1) (by omega)⟩

/-- Every valid list of draws is the list of reduced draws of a generator. -/
theorem draws_of_valid (size : Nat) (hs : size ≤ 2 ^ 64) :
    ∀ (ds : List Nat) (pos i : Nat), ValidDraws size i ds →
      ∀ rng : Nat → Nat, (∀ k, k < ds.length → rng (pos + k) = ds.getD k 0) →
        draws size rng pos i ds.length = ds
  | [], _, _, _, _, _ => rfl
  | d :: ds, pos, i, hv, rng, hr => by
    show (rng pos % 2 ^ 64) % (size - i) :: draws size rng (pos + 1) (i + 1) ds.length = _
    have h0 : rng pos = d := hr 0 (by simp)
    have hd : d < size - i := hv.1
    rw [h0, Nat.mod_eq_of_lt (by omega : d < 2 ^ 64), Nat.mod_eq_of_lt hd,
      draws_of_valid size hs ds (pos + 1) (i + 1) hv.2 rng (by
        intro k hk
        have := hr (k + 1) (by simp; omega)
        rw [← Nat.add_assoc] at this
        rw [Nat.add_right_comm]
        simpa using this)]

theorem length_shuffle : ∀ (ds : List Nat) (i : Nat) (m : List Nat),
    (shuffle i ds m).length = m.length
  | [], _, _ => rfl
  | d :: ds, i, m => by
    unfold shuffle
    rw [length_shuffle ds, length_swap]

theorem shuffle_perm : ∀ (ds : List Nat) (i : Nat) (m : List Nat),
    ValidDraws m.length i ds → (shuffle i ds m).Perm m
  | [], _, _, _ => List.Perm.refl _
  | d :: ds, i, m, hv => by
    unfold shuffle
    have hd : d < m.length - i := hv.1
    exact (shuffle_perm ds (i + 1) _ (by rw [length_swap]; exact hv.2)).trans
      (swap_perm m i (i + d) (by omega) (by omega))

/-- The exchanges from index `i` on leave the entries below `i` alone. -/
theorem shuffle_getD_lt : ∀ (ds : List Nat) (i : Nat) (m : List Nat) (k : Nat), k < i →
    ValidDraws m.length i ds → (shuffle i ds m).getD k 0 = m.getD k 0
  | [], _, _, _, _, _ => rfl
  | d :: ds, i, m, k, hk, hv => by
    unfold shuffle
    have hd : d < m.length - i := hv.1
    rw [shuffle_getD_lt ds (i + 1) _ k (by omega) (by rw [length_swap]; exact hv.2),
      getD_swap m i (i + d) k (by omega) (by omega),
      Equiv.swap_apply_of_ne_of_ne (by omega) (by omega)]

/-- The first exchange decides the entry at index `i`. -/
theorem shuffle_getD_self (d : Nat) (ds : List Nat) (i : Nat) (m : List Nat)
    (hv : ValidDraws m.length i (d :: ds)) :
    (shuffle i (d :: ds) m).getD i 0 = m.getD (i + d) 0 := by
  have hd : d < m.length - i := hv.1
  show (shuffle (i + 1) ds (swap m i (i + d))).getD i 0 = _
  rw [shuffle_getD_lt ds (i + 1) _ i (by omega) (by rw [length_swap]; exact hv.2),
    getD_swap m i (i + d) i (by omega) (by omega), Equiv.swap_apply_left]

theorem nodup_getD_inj {m : List Nat} (hm : m.Nodup) {a b : Nat} (ha : a < m.length)
    (hb : b < m.length) (h : m.getD a 0 = m.getD b 0) : a = b := by
  rw [List.getD_eq_getElem?_getD, List.getD_eq_getElem?_getD, List.getElem?_eq_getElem ha,
    List.getElem?_eq_getElem hb] at h
  exact (List.Nodup.getElem_inj_iff hm).mp (by simpa using h)

/-- Two valid lists of draws of one length with the same outcome are equal. -/
theorem shuffle_inj : ∀ (ds1 ds2 : List Nat) (i : Nat) (m : List Nat), m.Nodup →
    ValidDraws m.length i ds1 → ValidDraws m.length i ds2 → ds1.length = ds2.length →
    shuffle i ds1 m = shuffle i ds2 m → ds1 = ds2
  | [], [], _, _, _, _, _, _, _ => rfl
  | [], _ :: _, _, _, _, _, _, hl, _ => by simp at hl
  | _ :: _, [], _, _, _, _, _, hl, _ => by simp at hl
  | d1 :: ds1, d2 :: ds2, i, m, hm, hv1, hv2, hl, h => by
    have hd1 : d1 < m.length - i := hv1.1
    have hd2 : d2 < m.length - i := hv2.1
    have e := congrArg (fun l => l.getD i 0) h
    simp only at e
    rw [shuffle_getD_self d1 ds1 i m hv1, shuffle_getD_self d2 ds2 i m hv2] at e
    have e2 : i + d1 = i + d2 := nodup_getD_inj hm (by omega) (by omega) e
    have e3 : d1 = d2 := by omega
    subst e3
    have hp := swap_perm m i (i + d1) (by omega) (by omega)
    rw [shuffle_inj ds1 ds2 (i + 1) (swap m i (i + d1)) (hp.nodup_iff.mpr hm)
      (by rw [length_swap]; exact hv1.2) (by rw [length_swap]; exact hv2.2)
      (by simpa using hl) h]

theorem perm_eq_of_agree {m q : List Nat} (hp : m.Perm q) (i : Nat) (hl : m.length = i + 1)
    (h : ∀ k, k < i → m.getD k 0 = q.getD k 0) : m = q := by
  have hlq : q.length = i + 1 := by rw [← hp.length_eq, hl]
  have ht : m.take i = q.take i := by
    apply uintx_t.ext_getD (by simp [hl, hlq])
    intro j hj
    have hj2 : j < i := by simp [hl] at hj; omega
    rw [getD_take, getD_take, if_pos hj2, if_pos hj2]
    exact h j hj2
  have hm : m = m.take i ++ [m.getD i 0] := by
    apply uintx_t.ext_getD (by simp [hl])
    intro j hj
    by_cases hj2 : j < i
    · rw [List.getD_append _ _ _ _ (by simp [hl]; omega), getD_take, if_pos hj2]
    · have e : j = i := by omega
      subst e
      rw [List.getD_append_right _ _ _ _ (by simp [hl])]
      simp [hl]
  have hq : q = q.take i ++ [q.getD i 0] := by
    apply uintx_t.ext_getD (by simp [hlq])
    intro j hj
    by_cases hj2 : j < i
    · rw [List.getD_append _ _ _ _ (by simp [hlq]; omega), getD_take, if_pos hj2]
    · have e : j = i := by omega
      subst e
      rw [List.getD_append_right _ _ _ _ (by simp [hlq])]
      simp [hlq]
  rw [hm, hq, ht] at hp
  have h1 := (List.perm_append_left_iff _).mp hp
  have h2 : m.getD i 0 = q.getD i 0 := by simpa using h1
  rw [hm, hq, ht, h2]

end CPerm

namespace CPerm

theorem exists_getD_of_mem {m : List Nat} {v : Nat} (h : v ∈ m) :
    ∃ j, j < m.length ∧ m.getD j 0 = v := by
  obtain ⟨j, hj, e⟩ := List.getElem_of_mem h
  refine ⟨j, hj, ?_⟩
  rw [List.getD_eq_getElem?_getD, List.getElem?_eq_getElem hj, Option.getD_some, e]

/-- Every rearrangement `q` of `m` that agrees with `m` below `i` is the outcome of a valid
list of draws for the indices `i .. i + c - 1`, where `m` has `i + c + 1` entries. -/
theorem shuffle_surj : ∀ (c i : Nat) (m q : List Nat), m.Nodup → m.Perm q →
    m.length = i + c + 1 → (∀ k, k < i → m.getD k 0 = q.getD k 0) →
    ∃ ds, ds.length = c ∧ ValidDraws m.length i ds ∧ shuffle i ds m = q
  | 0, i, m, q, _, hp, hl, h => ⟨[], rfl, trivial, perm_eq_of_agree hp i hl h⟩
  | c + 1, i, m, q, hm, hp, hl, h => by
    have hlq : q.length = i + (c + 1) + 1 := by rw [← hp.length_eq, hl]
    have hq : q.Nodup := hp.nodup_iff.mp hm
    have hmem : q.getD i 0 ∈ m := by
      apply hp.mem_iff.mpr
      exact Cayley32e.getD_mem_of_lt q i (by omega)
    obtain ⟨j, hj, ej⟩ := exists_getD_of_mem hmem
    have hij : i ≤ j := by
      by_contra hlt
      have hlt : j < i := not_le.mp hlt
      have e1 := h j hlt
      rw [ej] at e1
      have := nodup_getD_inj hq (by omega) (by omega) e1
      omega
    have hp2 := swap_perm m i j (by omega) hj
    obtain ⟨ds, d1, d2, d3⟩ := shuffle_surj c (i + 1) (swap m i j) q (hp2.nodup_iff.mpr hm)
      (hp2.trans hp) (by rw [length_swap, hl]; omega) (by
        intro k hk
        rw [getD_swap m i j k (by omega) hj]
        by_cases hki : k = i
        · subst hki
          rw [Equiv.swap_apply_left, ej]
        · rw [Equiv.swap_apply_of_ne_of_ne hki (by omega)]
          exact h k (by omega))
    rw [length_swap] at d2
    refine ⟨(j - i) :: ds, by simp [d1], ⟨by omega, d2⟩, ?_⟩
    show shuffle (i + 1) ds (swap m i (i + (j - i))) = q
    have e : i + (j - i) = j := by omega
    rw [e]
    exact d3

theorem prod_range_sub : ∀ n : Nat,
    ((List.range n).map fun i => n - i).prod = n.factorial
  | 0 => rfl
  | n + 1 => by
    rw [List.range_succ_eq_map, List.map_cons, List.prod_cons, List.map_map,
      Nat.factorial_succ]
    have h : ((fun i => n + 1 - i) ∘ Nat.succ) = fun i => n - i := by
      funext i
      simp
    rw [h, prod_range_sub n]
    rfl

/-- The number of valid tuples of draws: the product of the sizes `n - i` of the ranges of the
`n - 1` draws is `n!`. -/
theorem prod_draw_ranges (n : Nat) (hn : 1 ≤ n) :
    ((List.range (n - 1)).map fun i => n - i).prod = n.factorial := by
  obtain ⟨k, rfl⟩ : ∃ k, n = k + 1 := ⟨n - 1, by omega⟩
  rw [← prod_range_sub (k + 1), List.range_succ (n := k), List.map_append, List.prod_append]
  simp

theorem Randomize_map (p : CPerm) (rng : Nat → Nat) (pos : Nat) :
    (p.Randomize rng pos).1.m_nMap
      = shuffle 0 (draws p.m_nSize rng pos 0 (p.m_nSize - 1)) p.m_nMap := by
  unfold Randomize
  exact randomizeLoop_eq_shuffle _ _ _ _ _ _

theorem Randomize_size (p : CPerm) (rng : Nat → Nat) (pos : Nat) :
    (p.Randomize rng pos).1.m_nSize = p.m_nSize := rfl

theorem eq_of_map_eq {p q : CPerm} (hs : p.m_nSize = q.m_nSize) (hm : p.m_nMap = q.m_nMap) :
    p = q := by
  cases p
  cases q
  simp only at hs hm
  rw [hs, hm]

end CPerm

/-! ## Arithmetic on every normalized number, the empty one included -/

namespace uintx_t

theorem canonical_of_ne_nil {x : List Nat} (hw : WF x) (hn : Normalized x) (h0 : x ≠ []) :
    Canonical x := by
  refine ⟨hw, ?_, hn⟩
  cases x with
  | nil => exact absurd rfl h0
  | cons a l => simp

theorem normalized_nil : Normalized [] := Or.inl (by simp)

theorem operator_sub_assign_nil_left (y : List Nat) : operator_sub_assign [] y = [0] := by
  have h : operator_ge y [] = true := by
    unfold operator_ge
    by_cases hy : y.length > 0
    · rw [if_pos (by simpa using hy)]
    · have : y = [] := by
        cases y with
        | nil => rfl
        | cons a l => simp at hy
      subst this
      rfl
  unfold operator_sub_assign
  rw [h]
  rfl

theorem operator_sub_assign_nil_right {x : List Nat} (hx : Canonical x) :
    operator_sub_assign x [] = x := by
  have hl := hx.length_pos
  have h1 : operator_ge [] x = false := by
    unfold operator_ge
    rw [if_neg (by simp), if_pos (by simpa using hl)]
  have h2 : operator_gt_int [] 0 = false := by rfl
  unfold operator_sub_assign
  rw [h1, h2]
  simp only [Bool.false_eq_true, if_false]
  exact normalize_of_canonical hx

/-- Subtraction on well-formed normalized numbers: the result is canonical and has the value
`value x - value y`, which is 0 when `value x <= value y`. -/
theorem operator_sub_normalized {x y : List Nat} (hx : WF x) (hnx : Normalized x) (hy : WF y)
    (hny : Normalized y) :
    Canonical (operator_sub_assign x y) ∧
    value (operator_sub_assign x y) = value x - value y := by
  by_cases h0 : x = []
  · subst h0
    rw [operator_sub_assign_nil_left]
    exact ⟨canonical_singleton (by norm_num), by simp [value]⟩
  · have cx := canonical_of_ne_nil hx hnx h0
    by_cases h1 : y = []
    · subst h1
      rw [operator_sub_assign_nil_right cx]
      exact ⟨cx, by simp [value]⟩
    · exact operator_sub_assign_spec cx (canonical_of_ne_nil hy hny h1)

theorem operator_mul_uint32_nil (w : Nat) : operator_mul_uint32 [] w = [0] := by
  unfold operator_mul_uint32
  rw [ofInt_zero]
  simp only [List.length_nil, mulLoop]
  decide

theorem operator_shl_assign_nil (d : Nat) : operator_shl_assign [] d = [] := by
  rfl

theorem mulBigLoop_nil : ∀ (fuel : Nat) (r z : List Nat), Canonical r → Canonical z →
    Canonical (mulBigLoop fuel r [] z) ∧ value (mulBigLoop fuel r [] z) = value r
  | 0, r, z, hr, _ => ⟨hr, rfl⟩
  | fuel + 1, r, z, hr, hz => by
    unfold mulBigLoop
    by_cases hg : operator_gt_int z 0 = true
    · rw [if_pos hg, operator_mul_uint32_nil, operator_shl_assign_nil]
      have c0 : Canonical [0] := canonical_singleton (by norm_num)
      obtain ⟨i1, i2⟩ := mulBigLoop_nil fuel (operator_add_assign r [0])
        (operator_shr_assign z BitsInWord) (canonical_add hr c0)
        (operator_shr_assign_spec hz BitsInWord (Or.inr rfl)).1
      refine ⟨i1, ?_⟩
      rw [i2, value_add hr c0]
      simp [value]
    · rw [if_neg hg]
      exact ⟨hr, rfl⟩

/-- Multiplication on well-formed normalized numbers. -/
theorem operator_mul_normalized {y z : List Nat} (hy : WF y) (hny : Normalized y) (hz : WF z)
    (hnz : Normalized z) :
    Canonical (operator_mul y z) ∧ value (operator_mul y z) = value y * value z := by
  by_cases h1 : z = []
  · subst h1
    have : operator_mul y [] = [0] := by
      unfold operator_mul
      rfl
    rw [this]
    exact ⟨canonical_singleton (by norm_num), by simp [value]⟩
  · have cz := canonical_of_ne_nil hz hnz h1
    by_cases h0 : y = []
    · subst h0
      unfold operator_mul
      obtain ⟨i1, i2⟩ := mulBigLoop_nil (z.length + 1) (ofInt 0) z canonical_zero cz
      exact ⟨i1, by rw [i2, value_ofInt_zero]; simp [value]⟩
    · exact operator_mul_spec (canonical_of_ne_nil hy hny h0) cz

/-- Division and remainder on a well-formed normalized dividend and a divisor of positive
value. -/
theorem operator_div_mod_normalized {y z : List Nat} (hy : WF y) (hny : Normalized y)
    (hz : WF z) (hnz : Normalized z) (hz0 : 0 < value z) (fuel : Nat)
    (hf : 32 * y.length + 1 ≤ fuel) :
    ∃ q r, operator_div fuel y z = some q ∧ operator_mod fuel y z = some r ∧
      Canonical q ∧ WF r ∧ Normalized r ∧
      value q = value y / value z ∧ value r = value y % value z := by
  have cz : Canonical z := by
    apply canonical_of_ne_nil hz hnz
    intro h
    subst h
    simp [value] at hz0
  by_cases h0 : y = []
  · subst h0
    refine ⟨ofInt 0, [], CPerm.operator_div_nil fuel z cz.length_pos,
      CPerm.operator_mod_nil fuel z (by omega) cz.length_pos, canonical_zero, WF_nil, normalized_nil,
      ?_, ?_⟩
    · rw [value_ofInt_zero]; simp [value]
    · simp [value]
  · have cy := canonical_of_ne_nil hy hny h0
    obtain ⟨q, q1, q2, q3⟩ := operator_div_spec cy cz hz0 fuel hf
    obtain ⟨r, r1, r2, r3⟩ := operator_mod_spec cy cz hz0 fuel hf
    exact ⟨q, r, q1, r1, q2, r2.wf, r2.2.2, q3, r3⟩

/-- Left shift on well-formed normalized numbers. -/
theorem operator_shl_normalized {x : List Nat} (hx : WF x) (hnx : Normalized x) (d : Nat) :
    WF (operator_shl_assign x d) ∧ Normalized (operator_shl_assign x d) ∧
    value (operator_shl_assign x d) = value x * 2 ^ d := by
  by_cases h0 : x = []
  · subst h0
    rw [operator_shl_assign_nil]
    exact ⟨WF_nil, normalized_nil, by simp [value]⟩
  · obtain ⟨s1, s2⟩ := operator_shl_assign_spec (canonical_of_ne_nil hx hnx h0) d
    exact ⟨s1.wf, s1.2.2, s2⟩

theorem eqLoop_spec (x y : List Nat) : ∀ k : Nat,
    eqLoop x y k = true ↔ ∀ i, i < k → x.getD i 0 = y.getD i 0
  | 0 => by simp [eqLoop]
  | k + 1 => by
    unfold eqLoop
    by_cases h : x.getD k 0 = y.getD k 0
    · rw [if_neg (by simpa using h), eqLoop_spec x y k]
      constructor
      · intro H i hi
        by_cases e : i = k
        · rw [e]; exact h
        · exact H i (by omega)
      · intro H i hi
        exact H i (by omega)
    · rw [if_pos (by simpa using h)]
      simp only [Bool.false_eq_true, false_iff, not_forall]
      exact ⟨k, by omega, h⟩

/-- The test `operator==` is equality of the word lists. -/
theorem operator_eq_iff (x y : List Nat) : operator_eq x y = true ↔ x = y := by
  unfold operator_eq
  by_cases hl : x.length = y.length
  · rw [if_neg (by simpa using hl), eqLoop_spec]
    constructor
    · intro H
      exact ext_getD hl H
    · intro H i _
      rw [H]
  · rw [if_pos (by simpa using hl)]
    constructor
    · intro h; exact absurd h (by simp)
    · intro h; exact absurd (congrArg List.length h) hl

theorem operator_eq_canonical {x y : List Nat} (hx : Canonical x) (hy : Canonical y) :
    operator_eq x y = true ↔ value x = value y := by
  rw [operator_eq_iff]
  constructor
  · intro h; rw [h]
  · intro h; exact hx.eq_of_value_eq hy h

end uintx_t

namespace uintx_t

/-- Addition on well-formed normalized numbers, the empty one included. -/
theorem operator_add_normalized {x y : List Nat} (hx : WF x) (hnx : Normalized x) (hy : WF y)
    (hny : Normalized y) :
    WF (operator_add_assign x y) ∧ Normalized (operator_add_assign x y) ∧
    value (operator_add_assign x y) = value x + value y := by
  obtain ⟨s1, s2, s3⟩ := operator_add_assign_spec hx hy
  refine ⟨s1, ?_, s2⟩
  by_cases h0 : x = []
  · by_cases h1 : y = []
    · subst h0 h1
      exact Or.inl (by decide)
    · subst h0
      have cy := canonical_of_ne_nil hy hny h1
      have hm : max ([] : List Nat).length y.length = y.length := by simp
      rw [hm] at s3
      rcases s3 with h | ⟨h, h2⟩
      · have e := eq_of_length_of_value s1 hy h (by rw [s2]; simp [value])
        rw [e]
        exact hny
      · exfalso
        have := value_ge_of_top (d := operator_add_assign [] y) (by omega)
          (by rw [h, Nat.add_sub_cancel, h2]; norm_num)
        rw [h, Nat.add_sub_cancel, s2] at this
        have := value_lt hy
        simp [value] at *
        omega
  · have cx := canonical_of_ne_nil hx hnx h0
    by_cases h1 : y = []
    · subst h1
      have hm : max x.length ([] : List Nat).length = x.length := by simp
      rw [hm] at s3
      rcases s3 with h | ⟨h, h2⟩
      · have e := eq_of_length_of_value s1 hx h (by rw [s2]; simp [value])
        rw [e]
        exact hnx
      · exfalso
        have := value_ge_of_top (d := operator_add_assign x []) (by omega)
          (by rw [h, Nat.add_sub_cancel, h2]; norm_num)
        rw [h, Nat.add_sub_cancel, s2] at this
        have := value_lt hx
        simp [value] at *
        omega
    · exact (canonical_add cx (canonical_of_ne_nil hy hny h1)).2.2

end uintx_t

/-! ## The hexadecimal string of a number -/

namespace uintx_t

theorem nibbles_succ (k v : Nat) : nibbles (k + 1) v = v % 16 :: nibbles k (v / 16) := rfl

theorem hexValue_cons (d : Nat) (l : List Nat) : hexValue (d :: l) = d + 16 * hexValue l := rfl

theorem wordDigits_eq : ∀ (k n : Nat), wordDigits k n = (nibbles k n).map hexChar
  | 0, _ => rfl
  | k + 1, n => by
    rw [nibbles_succ]
    unfold wordDigits
    have h1 : n &&& 0xF = n % 16 := Nat.and_pow_two_sub_one_eq_mod n 4
    have h2 : n >>> 4 = n / 16 := Nat.shiftRight_eq_div_pow n 4
    rw [h1, h2, wordDigits_eq k, List.map_cons]

theorem nibbles_append : ∀ (i k v : Nat),
    nibbles (i + k) v = nibbles i v ++ nibbles k (v / 16 ^ i)
  | 0, k, v => by simp [nibbles]
  | i + 1, k, v => by
    rw [Nat.add_right_comm, nibbles_succ, nibbles_succ, nibbles_append i k (v / 16),
      Nat.div_div_eq_div_mul, pow_succ, Nat.mul_comm 16]
    rfl

theorem nibbles_add_mul : ∀ (i a b : Nat), nibbles i (a + 16 ^ i * b) = nibbles i a
  | 0, _, _ => rfl
  | i + 1, a, b => by
    rw [nibbles_succ, nibbles_succ]
    have h1 : (a + 16 ^ (i + 1) * b) % 16 = a % 16 := by
      rw [pow_succ, Nat.mul_comm (16 ^ i) 16, Nat.mul_assoc, Nat.add_mul_mod_self_left]
    have h2 : (a + 16 ^ (i + 1) * b) / 16 = a / 16 + 16 ^ i * b := by
      rw [pow_succ, Nat.mul_comm (16 ^ i) 16, Nat.mul_assoc,
        Nat.add_mul_div_left _ _ (by norm_num : 0 < 16)]
    rw [h1, h2, nibbles_add_mul i]

theorem nibbles_zero : ∀ k : Nat, nibbles k 0 = List.replicate k 0
  | 0 => rfl
  | k + 1 => by
    rw [nibbles_succ, Nat.zero_div, nibbles_zero k]
    rfl

/-- The backwards digits of `GetString` are the hexadecimal digits of the value. -/
theorem flatMap_wordDigits : ∀ (x : List Nat), WF x →
    x.flatMap (wordDigits 8) = (nibbles (8 * x.length) (value x)).map hexChar
  | [], _ => rfl
  | a :: l, h => by
    rw [WF_cons] at h
    rw [List.flatMap_cons, flatMap_wordDigits l h.2, wordDigits_eq, value_cons,
      List.length_cons, Nat.mul_succ, Nat.add_comm (8 * l.length) 8, nibbles_append,
      List.map_append]
    have h1 : (2 : Nat) ^ 32 = 16 ^ 8 := by norm_num
    have h2 : (a + 2 ^ 32 * value l) / 16 ^ 8 = value l := by
      rw [← h1, Nat.add_mul_div_left _ _ (by norm_num : 0 < 2 ^ 32),
        Nat.div_eq_of_lt h.1, Nat.zero_add]
    rw [h2, h1, nibbles_add_mul]

theorem hexValue_append : ∀ (l m : List Nat),
    hexValue (l ++ m) = hexValue l + 16 ^ l.length * hexValue m
  | [], m => by simp [hexValue]
  | d :: l, m => by
    rw [List.cons_append, hexValue_cons, hexValue_cons, hexValue_append l m, List.length_cons,
      pow_succ]
    ring

theorem nibbles_hexValue : ∀ (l : List Nat) (j : Nat), (∀ d ∈ l, d < 16) →
    nibbles (l.length + j) (hexValue l) = l ++ List.replicate j 0
  | [], j, _ => by
    rw [List.length_nil, Nat.zero_add, List.nil_append]
    exact nibbles_zero j
  | d :: l, j, h => by
    have hd : d < 16 := h d (List.mem_cons_self _ _)
    rw [List.length_cons, Nat.add_right_comm, nibbles_succ, hexValue_cons]
    have h1 : (d + 16 * hexValue l) % 16 = d := by
      rw [Nat.add_mul_mod_self_left]
      exact Nat.mod_eq_of_lt hd
    have h2 : (d + 16 * hexValue l) / 16 = hexValue l := by
      rw [Nat.add_mul_div_left _ _ (by norm_num : 0 < 16), Nat.div_eq_of_lt hd, Nat.zero_add]
    rw [h1, h2, nibbles_hexValue l j (fun a ha => h a (List.mem_cons_of_mem _ ha))]
    rfl

theorem hexValue_lt : ∀ (l : List Nat), (∀ d ∈ l, d < 16) → hexValue l < 16 ^ l.length
  | [], _ => by simp [hexValue]
  | d :: l, h => by
    have hd : d < 16 := h d (List.mem_cons_self _ _)
    have ih := hexValue_lt l (fun a ha => h a (List.mem_cons_of_mem _ ha))
    rw [hexValue_cons, List.length_cons, pow_succ]
    omega

/-- The loop that removes leading zeros stops at the most significant digit. -/
theorem stripZeros_spec : ∀ (j k : Nat) (m : List Char), m ≠ [] →
    (m.length = 1 ∨ m.getLast? ≠ some '0') → j ≤ k →
    stripZeros k (m ++ List.replicate j '0') = m
  | 0, k, m, hm, hl, _ => by
    rw [List.replicate_zero, List.append_nil]
    cases k with
    | zero => rfl
    | succ k =>
      unfold stripZeros
      rw [if_neg]
      rintro ⟨h1, h2⟩
      rcases hl with h | h
      · omega
      · exact h h2
  | j + 1, k, m, hm, hl, hjk => by
    obtain ⟨k, rfl⟩ : ∃ k2, k = k2 + 1 := ⟨k - 1, by omega⟩
    unfold stripZeros
    have hlen : 0 < m.length := List.length_pos.mpr hm
    have e : m ++ List.replicate (j + 1) '0' = (m ++ List.replicate j '0') ++ ['0'] := by
      rw [List.replicate_succ', List.append_assoc]
    rw [e, if_pos ⟨by simp; omega, by simp⟩, List.dropLast_concat]
    exact stripZeros_spec j k m hm hl (by omega)

end uintx_t

namespace uintx_t

theorem getD_eq_value_div : ∀ (d : List Nat), WF d → ∀ w : Nat,
    d.getD w 0 = value d / 2 ^ (32 * w) % 2 ^ 32
  | [], _, w => by simp [value]
  | a :: l, h, 0 => by
    rw [WF_cons] at h
    rw [value_cons, List.getD_cons_zero, Nat.mul_zero, pow_zero, Nat.div_one,
      Nat.add_mul_mod_self_left, Nat.mod_eq_of_lt h.1]
  | a :: l, h, w + 1 => by
    rw [WF_cons] at h
    rw [value_cons, List.getD_cons_succ, getD_eq_value_div l h.2 w, Nat.mul_succ, pow_add,
      Nat.mul_comm (2 ^ (32 * w)), ← Nat.div_div_eq_div_mul,
      Nat.add_mul_div_left _ _ (by norm_num : 0 < 2 ^ 32), Nat.div_eq_of_lt h.1, Nat.zero_add]

/-- One digit of `loadstring`: the digit `a` enters the word `w` at bit `s`, below the digits
loaded so far. -/
theorem load_step (d : List Nat) (V a r w s : Nat) (hd : WF d) (hw : w < d.length)
    (ha : a < 16) (hs : s ≤ 28) (hpos : 32 * w + s = 4 * r)
    (hv : value d = V * 16 ^ (r + 1)) :
    WF (d.set w (d.getD w 0 ||| (a <<< s))) ∧
    value (d.set w (d.getD w 0 ||| (a <<< s))) = (V * 16 + a) * 16 ^ r := by
  have hR : (16 : Nat) ^ r = 2 ^ (32 * w) * 2 ^ s := by
    rw [← pow_add, hpos, pow_mul]
    norm_num
  have hdw : d.getD w 0 < 2 ^ 32 := WF_getD hd w
  have has : a * 2 ^ s < 2 ^ (s + 4) := by
    rw [pow_add, Nat.mul_comm]
    exact Nat.mul_lt_mul_of_pos_left ha (by positivity)
  have hdvd : 2 ^ (s + 4) ∣ d.getD w 0 := by
    rw [getD_eq_value_div d hd w, hv]
    have e : V * 16 ^ (r + 1) / 2 ^ (32 * w) = V * 2 ^ (s + 4) := by
      have : V * 16 ^ (r + 1) = 2 ^ (32 * w) * (V * 2 ^ (s + 4)) := by
        rw [pow_succ 16 r, hR, pow_add]; ring
      rw [this, Nat.mul_div_cancel_left _ (by positivity)]
    rw [e]
    apply (Nat.dvd_mod_iff (Nat.pow_dvd_pow 2 (by omega : s + 4 ≤ 32))).mpr
    exact Dvd.intro_left V rfl
  obtain ⟨c, hc⟩ := hdvd
  have hor : d.getD w 0 ||| (a <<< s) = d.getD w 0 + a * 2 ^ s := by
    rw [Nat.shiftLeft_eq, hc]
    exact (Nat.mul_add_lt_is_or has c).symm
  have hlt : d.getD w 0 ||| (a <<< s) < 2 ^ 32 := by
    apply Nat.or_lt_two_pow hdw
    rw [Nat.shiftLeft_eq]
    calc a * 2 ^ s < 2 ^ (s + 4) := has
      _ ≤ 2 ^ 32 := Nat.pow_le_pow_right (by norm_num) (by omega)
  refine ⟨WF_set hd w hlt, ?_⟩
  have h1 := value_set d w (d.getD w 0 ||| (a <<< s)) hw
  rw [hor] at h1 ⊢
  rw [hv, pow_succ] at h1
  have h2 : value (d.set w (d.getD w 0 + a * 2 ^ s))
      = V * (16 ^ r * 16) + a * 2 ^ s * 2 ^ (32 * w) := by
    have : (d.getD w 0 + a * 2 ^ s) * 2 ^ (32 * w)
        = d.getD w 0 * 2 ^ (32 * w) + a * 2 ^ s * 2 ^ (32 * w) := by ring
    omega
  rw [h2, hR]
  ring

end uintx_t

namespace uintx_t

theorem loadLoop_cons (c : Char) (cs : List Char) (word1 shift : Nat) (d : List Nat) (a : Nat)
    (h : hexDigit c = some a) :
    loadLoop (c :: cs) word1 shift d =
      loadLoop cs (if shift ≤ 0 then word1 - 1 else word1)
        ((if shift ≤ 0 then BitsInWord else shift) - BitsInHalfByte)
        (d.set ((if shift ≤ 0 then word1 - 1 else word1) - 1)
          (d.getD ((if shift ≤ 0 then word1 - 1 else word1) - 1) 0 |||
            (a <<< ((if shift ≤ 0 then BitsInWord else shift) - BitsInHalfByte)))) := by
  rw [loadLoop, h]
  rfl

/-- The digit loop of `loadstring`: with `4 * t` the shift, `8 * word + t` digits are still to
be placed (`8 * word1 + t = digits left + 8`), and the array, whose value is `V * 16 ^ (digits
left)`, receives the digits `ds`, most significant first. -/
theorem loadLoop_spec : ∀ (cs : List Char) (ds : List Nat) (word1 t : Nat) (d : List Nat)
    (V : Nat), cs.map hexDigit = ds.map some → (∀ a ∈ ds, a < 16) → WF d →
    word1 ≤ d.length → t ≤ 8 → 8 * word1 + t = cs.length + 8 →
    value d = V * 16 ^ cs.length →
    ∃ d2, loadLoop cs word1 (4 * t) d = some d2 ∧ WF d2 ∧ d2.length = d.length ∧
      value d2 = V * 16 ^ cs.length + hexValue ds.reverse
  | [], ds, word1, t, d, V, hm, _, hd, _, _, _, hv => by
    have hds : ds = [] := by
      cases ds with
      | nil => rfl
      | cons a l => simp at hm
    subst hds
    exact ⟨d, rfl, hd, rfl, by rw [hv]; simp [hexValue]⟩
  | c :: cs, ds, word1, t, d, V, hm, hlt, hd, hw, ht, hinv, hv => by
    obtain ⟨a, ds2, rfl⟩ : ∃ a ds2, ds = a :: ds2 := by
      cases ds with
      | nil => simp at hm
      | cons a l => exact ⟨a, l, rfl⟩
    rw [List.map_cons, List.map_cons, List.cons.injEq] at hm
    have ha : a < 16 := hlt a (List.mem_cons_self _ _)
    rw [List.length_cons] at hinv hv
    rw [loadLoop_cons c cs word1 (4 * t) d a hm.1]
    -- the word and the shift after the wrap
    obtain ⟨w1, t1, e1, e2, h1, h2, h3, h4⟩ : ∃ w1 t1 : Nat,
        (if 4 * t ≤ 0 then word1 - 1 else word1) = w1 ∧
        (if 4 * t ≤ 0 then BitsInWord else 4 * t) - BitsInHalfByte = 4 * t1 ∧
        1 ≤ w1 ∧ w1 ≤ d.length ∧ t1 ≤ 7 ∧ 8 * w1 + t1 = cs.length + 8 := by
      by_cases h0 : t = 0
      · subst h0
        refine ⟨word1 - 1, 7, by simp, by simp [BitsInWord, BitsInHalfByte], ?_, ?_, ?_, ?_⟩
          <;> omega
      · refine ⟨word1, t - 1, by rw [if_neg (by omega)],
          by rw [if_neg (by omega)]; simp only [BitsInHalfByte]; omega, ?_, ?_, ?_, ?_⟩ <;> omega
    rw [e1, e2]
    obtain ⟨s1, s2⟩ := load_step d V a cs.length (w1 - 1) (4 * t1) hd (by omega) ha (by omega)
      (by omega) hv
    obtain ⟨d2, i1, i2, i3, i4⟩ := loadLoop_spec cs ds2 w1 t1 _ (V * 16 + a) hm.2
      (fun b hb => hlt b (List.mem_cons_of_mem _ hb)) s1 (by rw [List.length_set]; exact h2)
      (by omega) h4 s2
    refine ⟨d2, i1, i2, by rw [i3, List.length_set], ?_⟩
    have hl : ds2.length = cs.length := by
      have := congrArg List.length hm.2
      simpa using this.symm
    have hA : hexValue [a] = a := by simp [hexValue]
    rw [i4, List.reverse_cons, hexValue_append, List.length_reverse, List.length_cons,
      pow_succ, hl, hA]
    ring

/-- The string constructor on a string of hexadecimal digits `ds`: the array has
`ceil(n / 8)` well-formed words and the value of the digits. -/
theorem ofString_spec (s : String) (ds : List Nat) (hm : s.toList.map hexDigit = ds.map some)
    (hlt : ∀ a ∈ ds, a < 16) :
    ∃ x, ofString s = some x ∧ WF x ∧ x.length = (s.length + 7) / 8 ∧
      value x = hexValue ds.reverse := by
  unfold ofString loadstring
  simp only [HalfBytesInWord, BitsInHalfByte, BitsInWord]
  have hn : s.length = s.toList.length := rfl
  obtain ⟨t, e1, e2, e3⟩ : ∃ t : Nat,
      (if s.length % 8 * 4 ≤ 0 then 32 else s.length % 8 * 4) = 4 * t ∧ t ≤ 8 ∧
      8 * ((s.length + 8 - 1) / 8) + t = s.toList.length + 8 := by
    by_cases h0 : s.length % 8 = 0
    · refine ⟨8, by rw [h0]; rfl, le_refl _, ?_⟩
      rw [← hn]; omega
    · refine ⟨s.length % 8, by rw [if_neg (by omega)]; omega, by omega, ?_⟩
      rw [← hn]; omega
  rw [e1]
  obtain ⟨d2, i1, i2, i3, i4⟩ := loadLoop_spec s.toList ds ((s.length + 8 - 1) / 8) t
    (List.replicate ((s.length + 8 - 1) / 8) 0) 0 hm hlt (WF_replicate_zero _)
    (by rw [List.length_replicate]) e2 e3 (by rw [value_replicate_zero]; simp)
  refine ⟨d2, i1, i2, ?_, by rw [i4]; simp⟩
  rw [i3, List.length_replicate]
  rfl

end uintx_t

namespace uintx_t

theorem upperHex_spec : ∀ c ∈ upperHex,
    hexDigit c = some ((hexDigit c).getD 0) ∧ (hexDigit c).getD 0 < 16 ∧
      hexChar ((hexDigit c).getD 0) = c := by
  decide

theorem hexChar_zero : hexChar 0 = '0' := by decide

/-- On a non-empty string of capital hexadecimal digits without a leading zero (the string `0`
apart), `GetString` returns the string the number was constructed from. -/
theorem GetString_after_ofString (s : String) (hne : s.toList ≠ [])
    (hup : ∀ c ∈ s.toList, c ∈ upperHex)
    (hlead : s.toList.length = 1 ∨ s.toList.head? ≠ some '0') :
    (ofString s).bind GetString = some s := by
  have hmap : s.toList.map hexDigit
      = (s.toList.map fun c => (hexDigit c).getD 0).map some := by
    rw [List.map_map]
    apply List.map_congr_left
    intro c hc
    exact (upperHex_spec c (hup c hc)).1
  have hlt : ∀ a ∈ s.toList.map fun c => (hexDigit c).getD 0, a < 16 := by
    intro a ha
    obtain ⟨c, hc, rfl⟩ := List.mem_map.mp ha
    exact (upperHex_spec c (hup c hc)).2.1
  have hback : (s.toList.map fun c => (hexDigit c).getD 0).map hexChar = s.toList := by
    rw [List.map_map]
    conv_rhs => rw [← List.map_id s.toList]
    apply List.map_congr_left
    intro c hc
    exact (upperHex_spec c (hup c hc)).2.2
  obtain ⟨x, x1, x2, x3, x4⟩ := ofString_spec s _ hmap hlt
  have hn : s.length = s.toList.length := rfl
  have hpos : 0 < s.toList.length := List.length_pos.mpr hne
  rw [x1, Option.some_bind]
  unfold GetString
  rw [if_neg (by rw [x3, hn]; omega)]
  simp only
  have hnib := nibbles_hexValue (s.toList.map fun c => (hexDigit c).getD 0).reverse
    (8 * x.length - s.toList.length) (by
      intro d hd
      exact hlt d (List.mem_reverse.mp hd))
  rw [List.length_reverse, List.length_map,
    show s.toList.length + (8 * x.length - s.toList.length) = 8 * x.length by
      rw [x3, hn]; omega] at hnib
  have hflat : x.flatMap (wordDigits (2 * 4))
      = s.toList.reverse ++ List.replicate (8 * x.length - s.toList.length) '0' := by
    rw [show (2 * 4 : Nat) = 8 from rfl, flatMap_wordDigits x x2, x4, hnib,
      List.map_append, List.map_reverse, hback, List.map_replicate, hexChar_zero]
  rw [hflat]
  have hstrip : stripZeros
      (s.toList.reverse ++ List.replicate (8 * x.length - s.toList.length) '0').length
      (s.toList.reverse ++ List.replicate (8 * x.length - s.toList.length) '0')
      = s.toList.reverse := by
    apply stripZeros_spec
    · simpa using hne
    · rcases hlead with h | h
      · exact Or.inl (by rw [List.length_reverse]; exact h)
      · exact Or.inr (by rw [List.getLast?_reverse]; exact h)
    · rw [List.length_append, List.length_replicate]
      omega
  rw [hstrip, if_neg (by simpa using hne), List.reverse_reverse]
  rfl

end uintx_t

/-! ## Division by zero, equality of permutations, the rounds of `Initialize` -/

namespace uintx_t

theorem operator_shl_assign_zero (d : Nat) : operator_shl_assign [0] d = [0] := by
  unfold operator_shl_assign
  rw [if_neg (by decide)]

/-- With `w = 0` the loop `while(w <= y) w <<= 1;` never leaves: no number of rounds is
enough. -/
theorem alignLoop_zero {y : List Nat} (hy : Canonical y) : ∀ fuel, alignLoop fuel [0] y = none
  | 0 => rfl
  | fuel + 1 => by
    unfold alignLoop
    have hle : operator_le [0] y = true := by
      rw [operator_le_eq (by decide) hy]
      simp [value]
    rw [if_pos hle, operator_shl_assign_zero]
    exact alignLoop_zero hy fuel

/-- Division and remainder by the one-word zero never return, for a dividend of at least one
word. -/
theorem operator_div_mod_zero {y : List Nat} (hy : Canonical y) (fuel : Nat) :
    operator_div fuel y [0] = none ∧ operator_mod fuel y [0] = none := by
  constructor
  · unfold operator_div
    have hge : operator_ge y [0] = true := by
      rw [operator_ge_eq hy (by decide)]
      simp [value]
    rw [if_pos hge, operator_shl_assign_zero, alignLoop_zero hy]
    rfl
  · unfold operator_mod
    rw [alignLoop_zero hy]
    rfl

/-- The member `normalize()` leaves a normalized array, whatever the words. -/
theorem normalized_normalize (x : List Nat) : Normalized (normalize x) := by
  by_cases h : 1 ≤ x.length
  · have hs := normalizeTop_spec x (x.length - 1)
    have hlen : (normalize x).length = normalizeTop x (x.length - 1) + 1 := by
      rw [normalize_eq_take h, List.length_take]; omega
    rcases hs.2.2 with h0 | h0
    · left; omega
    · right
      rw [getLast?_eq_getD _ (by omega), hlen]
      simp only [Nat.add_sub_cancel]
      rw [normalize_eq_take h, List.getD_eq_getElem?_getD, List.getElem?_take_of_lt (by omega),
        ← List.getD_eq_getElem?_getD]
      intro h1
      exact h0 (by simpa using h1)
  · have : x = [] := List.length_eq_zero.mp (by omega)
    rw [this, normalize_nil]
    exact normalized_nil

theorem normalized_operator_shr_assign (x : List Nat) (d : Nat) :
    Normalized (operator_shr_assign x d) := by
  unfold operator_shr_assign
  exact normalized_normalize _

end uintx_t

namespace CPerm

theorem equalLoop_spec (m0 m1 : List Nat) : ∀ (c i : Nat) (ok : Bool),
    equalLoop m0 m1 c i ok = true ↔
      ok = true ∧ ∀ j, i ≤ j → j < i + c → m0.getD j 0 = m1.getD j 0
  | 0, i, ok => by
    unfold equalLoop
    constructor
    · intro h
      exact ⟨h, fun j h1 h2 => by omega⟩
    · exact fun h => h.1
  | c + 1, i, ok => by
    unfold equalLoop
    cases ok with
    | false => simp
    | true =>
      rw [if_pos rfl, equalLoop_spec m0 m1 c (i + 1)]
      simp only [Bool.true_and, beq_iff_eq, true_and]
      constructor
      · rintro ⟨h1, h2⟩ j hj1 hj2
        rcases Nat.eq_or_lt_of_le hj1 with rfl | hlt
        · exact h1
        · exact h2 j hlt (by omega)
      · intro h
        exact ⟨h i (le_refl _) (by omega), fun j hj1 hj2 => h j (by omega) (by omega)⟩

/-- On two permutations of the same size whose arrays have that size, `operator==` returns
whether the arrays are identical and `operator!=` the negation. -/
theorem operator_eq_same_size (p0 p1 : CPerm) (hs : p0.m_nSize = p1.m_nSize)
    (h0 : p0.m_nMap.length = p0.m_nSize) (h1 : p1.m_nMap.length = p1.m_nSize) :
    operator_eq p0 p1 = some (decide (p0 = p1)) ∧
    operator_ne p0 p1 = some (decide (p0 ≠ p1)) := by
  have he : operator_eq p0 p1 = some (decide (p0 = p1)) := by
    unfold operator_eq
    rw [if_pos hs]
    congr 1
    rw [Bool.eq_iff_iff, equalLoop_spec, decide_eq_true_iff]
    constructor
    · rintro ⟨-, h⟩
      exact ext_of_getD hs h0 h1 fun i hi => h i (Nat.zero_le _) (by omega)
    · rintro rfl
      exact ⟨rfl, fun _ _ _ => rfl⟩
  refine ⟨he, ?_⟩
  unfold operator_ne
  rw [he]
  simp

end CPerm

namespace CPowerTable

open CPerm

/-- Fewer rounds than the order do not end the loop of `Initialize`. -/
theorem initLoop_short (p : CPerm) (hb : p.IsBijection) (k : Nat)
    (hmin : ∀ j, 0 < j → j < k → pow p j ≠ identity p.m_nSize) :
    ∀ (fuel order : Nat) (pw : List CPerm), 1 ≤ order → order + fuel ≤ k →
      initLoop p fuel (pow p order) pw order = none
  | 0, _, _, _, _ => rfl
  | fuel + 1, order, pw, ho1, ho => by
    unfold initLoop
    have h1 : (pow p order).IsIdentity = false := by
      rw [Bool.eq_false_iff]
      intro h
      rw [isIdentity_iff _ (pow_isBijection p hb order).1, pow_size] at h
      exact hmin order (by omega) (by omega) h
    rw [h1]
    simp only [Bool.not_false, if_true]
    rw [← pow_succ_eq]
    exact initLoop_short p hb k hmin fuel (order + 1) _ (by omega) (by omega)

theorem Initialize_short (p : CPerm) (hb : p.IsBijection) (k : Nat)
    (hmin : ∀ j, 0 < j → j < k → pow p j ≠ identity p.m_nSize)
    (fuel : Nat) (hf : fuel < k) (t : CPowerTable) : Initialize fuel t p = none := by
  unfold Initialize
  have h := initLoop_short p hb k hmin fuel 1
    (t.m_stdPower.drop t.m_stdPower.length ++ [CPerm.identity p.GetSize]) (le_refl _) (by omega)
  rw [pow_one p hb.1] at h
  exact h

end CPowerTable

/-! ## The strings the constructor accepts -/

namespace uintx_t

theorem hexDigit_hexChars : ∀ c ∈ hexChars,
    hexDigit c = some (digitValue c) ∧ digitValue c < 16 := by
  decide

theorem mem_of_toNat (c : Char) (lo hi : Nat) (h1 : lo ≤ c.toNat) (h2 : c.toNat ≤ hi)
    (h : ∀ n, lo ≤ n → n ≤ hi → Char.ofNat n ∈ hexChars) : c ∈ hexChars := by
  have := h c.toNat h1 h2
  rwa [Char.ofNat_toNat] at this

theorem hexDigit_eq_none_iff (c : Char) : hexDigit c = none ↔ c ∉ hexChars := by
  constructor
  · intro h hc
    rw [(hexDigit_hexChars c hc).1] at h
    exact Option.some_ne_none _ h
  · intro hc
    unfold hexDigit
    have hle : ∀ a b : Char, a ≤ b ↔ a.toNat ≤ b.toNat := fun a b => Iff.rfl
    rw [if_neg, if_neg, if_neg]
    · rintro ⟨h1, h2⟩
      rw [hle] at h1 h2
      refine hc (mem_of_toNat c 97 102 h1 h2 ?_)
      intro n hn1 hn2
      interval_cases n <;> decide
    · rintro ⟨h1, h2⟩
      rw [hle] at h1 h2
      refine hc (mem_of_toNat c 65 70 h1 h2 ?_)
      intro n hn1 hn2
      interval_cases n <;> decide
    · rintro ⟨h1, h2⟩
      rw [hle] at h1 h2
      refine hc (mem_of_toNat c 48 57 h1 h2 ?_)
      intro n hn1 hn2
      interval_cases n <;> decide

theorem loadLoop_eq_none_iff : ∀ (cs : List Char) (word1 shift : Nat) (d : List Nat),
    loadLoop cs word1 shift d = none ↔ ∃ c ∈ cs, hexDigit c = none
  | [], _, _, _ => by simp [loadLoop]
  | c :: cs, word1, shift, d => by
    cases h : hexDigit c with
    | none =>
      rw [loadLoop, h]
      simp only [Option.none_bind, true_iff]
      exact ⟨c, List.mem_cons_self _ _, h⟩
    | some a =>
      rw [loadLoop_cons c cs word1 shift d a h, loadLoop_eq_none_iff cs]
      constructor
      · rintro ⟨b, hb, hb2⟩
        exact ⟨b, List.mem_cons_of_mem _ hb, hb2⟩
      · rintro ⟨b, hb, hb2⟩
        rcases List.mem_cons.mp hb with rfl | hb
        · rw [h] at hb2
          exact absurd hb2 (Option.some_ne_none _)
        · exact ⟨b, hb, hb2⟩

theorem ofString_eq_none_iff (s : String) :
    ofString s = none ↔ ∃ c ∈ s.toList, c ∉ hexChars := by
  unfold ofString loadstring
  simp only
  rw [loadLoop_eq_none_iff]
  constructor
  · rintro ⟨c, hc, h⟩
    exact ⟨c, hc, (hexDigit_eq_none_iff c).mp h⟩
  · rintro ⟨c, hc, h⟩
    exact ⟨c, hc, (hexDigit_eq_none_iff c).mpr h⟩

/-- The string assignment ends as the string constructor does, whatever the number held. -/
theorem operator_assign_string_eq (x : uintx_t) (s : String) :
    operator_assign_string x s = ofString s := by
  unfold operator_assign_string ofString
  congr 1
  unfold reallocate
  split_ifs with h
  · rw [List.length_replicate]
  · simpa using h

theorem hexNumber_eq (cs : List Char) :
    hexNumber cs = hexValue (cs.map digitValue).reverse := by
  have h : ∀ (cs : List Char) (acc : Nat),
      cs.foldl (fun acc c => 16 * acc + digitValue c) acc
        = acc * 16 ^ cs.length + hexValue (cs.map digitValue).reverse := by
    intro cs
    induction cs with
    | nil => intro acc; simp [hexValue]
    | cons c cs ih =>
      intro acc
      rw [List.foldl_cons, ih, List.map_cons, List.reverse_cons, hexValue_append,
        List.length_reverse, List.length_map, List.length_cons, hexValue_cons]
      simp only [hexValue]
      ring
  have := h cs 0
  rw [Nat.zero_mul, Nat.zero_add] at this
  exact this

/-- A string of hexadecimal digits, in either case, is accepted and the number made has the
value the string denotes in base 16. -/
theorem ofString_hexNumber (s : String) (h : ∀ c ∈ s.toList, c ∈ hexChars) :
    ∃ x, ofString s = some x ∧ WF x ∧ x.length = (s.length + 7) / 8 ∧
      value x = hexNumber s.toList := by
  have hm : s.toList.map hexDigit = (s.toList.map digitValue).map some := by
    rw [List.map_map]
    apply List.map_congr_left
    intro c hc
    exact (hexDigit_hexChars c (h c hc)).1
  have hlt : ∀ a ∈ s.toList.map digitValue, a < 16 := by
    intro a ha
    obtain ⟨c, hc, rfl⟩ := List.mem_map.mp ha
    exact (hexDigit_hexChars c (h c hc)).2
  obtain ⟨x, x1, x2, x3, x4⟩ := ofString_spec s _ hm hlt
  exact ⟨x, x1, x2, x3, by rw [x4, hexNumber_eq]⟩

end uintx_t

/-! ## Map entries under equal keys -/

namespace Cayley32e

open CPerm

/-- Exchanging the map entries at `i` and `i + 22`, for `i < 10`, keeps `num`. -/
theorem num_swap (perm : CPerm) (i : Nat) (hi : i < 10) (hl : perm.m_nMap.length = 32) :
    num ⟨swap perm.m_nMap i (i + 22), perm.m_nSize⟩ = num perm := by
  have hg : ∀ t, (swap perm.m_nMap i (i + 22)).getD t 0
      = perm.m_nMap.getD (if t = i then i + 22 else if t = i + 22 then i else t) 0 := by
    intro t
    rw [getD_swap _ _ _ _ (by omega) (by omega), Equiv.swap_apply_def]
  unfold num CPerm.get
  simp only [hg]
  interval_cases i <;> simp only [Nat.reduceAdd, Nat.reduceEqDiff, if_true, if_false,
    OfNat.ofNat_ne_zero, OfNat.zero_ne_ofNat] <;> ac_rfl

end Cayley32e

/-! ## The delay line over successive calls of `rand()` -/

namespace Cayley32e

open CPerm CCayley

/-- One more call, seen from the end of the run. -/
theorem randLoop_succ : ∀ (k : Nat) (c : CCayley) (i : Nat),
    randLoop (k + 1) c i = (randLoop k c i).bind fun s =>
      (rand s.2.1 s.2.2).map fun r => (s.1 ++ [r.1], r.2.1, r.2.2)
  | 0, c, i => by
    simp only [randLoop, Option.some_bind]
    cases rand c i <;> rfl
  | k + 1, c, i => by
    rw [randLoop]
    conv_rhs => rw [randLoop]
    cases h : rand c i with
    | none => rfl
    | some r =>
      simp only [Option.some_bind]
      rw [randLoop_succ k r.2.1 r.2.2]
      cases h2 : randLoop k r.2.1 r.2.2 with
      | none => rfl
      | some s =>
        simp only [Option.some_bind, Option.map_some']
        cases h3 : rand s.2.1 s.2.2 with
        | none => rfl
        | some t => rfl

/-- The engine after `k` calls of `rand()` on an engine whose tail is 0: the tail is `k mod 32`
and place `j` of the delay line holds the word of the last call that wrote it, or its first
value when no call has. -/
theorem randLoop_delayLine (c : CCayley) (i : Nat) (hc : c.Seeded) (hi : i < 2)
    (ht : c.m_nTail = 0) : ∀ k : Nat,
    ∃ outs ck ik, randLoop k c i = some (outs, ck, ik) ∧ outs.length = k ∧ ck.Seeded ∧ ik < 2 ∧
      ck.m_nTail = k % 32 ∧ ck.m_nOrder = c.m_nOrder ∧
      (ik = (i + k) % 2 ∧ ck.m_nPower0 = c.m_nPower0 ∧ ck.m_nPower1 = c.m_nPower1) ∧
      ∀ j, j < 32 → ck.m_nDelayLine.getD j 0 =
        if k ≤ j then c.m_nDelayLine.getD j 0 else rawWord c i (j + 32 * ((k - 1 - j) / 32))
  | 0 => ⟨[], c, i, rfl, rfl, hc, hi, by rw [ht], rfl, ⟨by omega, rfl, rfl⟩,
      fun j _ => by rw [if_pos (Nat.zero_le _)]⟩
  | k + 1 => by
    obtain ⟨outs, ck, ik, h1, h2, h3, h4, h5, h6, ⟨p1, p2, p3⟩, h7⟩ :=
      randLoop_delayLine c i hc hi ht k
    obtain ⟨g, out, c2, -, -, r3, r4, -, -, r7⟩ := rand_seeded ck ik h3 h4
    have hrun : randLoop (k + 1) c i = some (outs ++ [out], c2, 1 - ik) := by
      rw [randLoop_succ, h1, Option.some_bind, r3]
      rfl
    have hraw : rawWord c i k = num c2.m_pCurPerm := by
      unfold rawWord
      rw [hrun]
    have hlen : ck.m_nDelayLine.length = 32 := h3.2.2.2.2.2.2.1.1
    have hperm : c2.m_pCurPerm = ck.m_pCurPerm.operator_mul_assign g := by rw [r4]
    refine ⟨outs ++ [out], c2, 1 - ik, hrun, by simp [h2], r7, by omega, ?_, ?_,
      ⟨by omega, by rw [r4]; exact p2, by rw [r4]; exact p3⟩, ?_⟩
    · rw [r4]
      show (ck.m_nTail + 1) % 32 = (k + 1) % 32
      rw [h5]
      omega
    · rw [r4]
      exact h6
    · intro j hj
      have hd : c2.m_nDelayLine = ck.m_nDelayLine.set ck.m_nTail (num c2.m_pCurPerm) := by
        rw [hperm, r4]
      rw [hd, uintx_t.getD_set, h5, hlen]
      by_cases hjk : k % 32 = j
      · rw [if_pos ⟨hjk, by omega⟩, if_neg (by omega), ← hraw]
        congr 1
        omega
      · rw [if_neg (fun h => hjk h.1), h7 j hj]
        by_cases hkj : k ≤ j
        · have : k ≠ j := fun h => hjk (by rw [h]; exact Nat.mod_eq_of_lt hj)
          rw [if_pos hkj, if_pos (by omega)]
        · rw [if_neg hkj, if_neg (by omega)]
          congr 2
          omega

/-- Call `k` of `rand()` on a seeded engine whose tail is 0: the exponent is taken from the
first delay line for `k < 32` and from the word of call `k - 32` after that; the value returned
is the word of the call, exclusive or the first delay line at `k + 1` for `k < 31` and the word
of call `k - 31` after that. -/
theorem rand_recurrence (c : CCayley) (i : Nat) (hc : c.Seeded) (hi : i < 2)
    (ht : c.m_nTail = 0) (k : Nat) :
    ∃ outs ck ik g out ck1, randLoop k c i = some (outs, ck, ik) ∧ ik = (i + k) % 2 ∧
      ck.m_nDelayLine.getD ck.m_nTail 0 % ck.m_nOrder
        = (if k < 32 then c.m_nDelayLine.getD k 0 else rawWord c i (k - 32)) % c.m_nOrder ∧
      (if ik = 0 then c.m_nPower0 else c.m_nPower1).get
        ((if k < 32 then c.m_nDelayLine.getD k 0 else rawWord c i (k - 32)) % c.m_nOrder)
          = some g ∧
      rand ck ik = some (out, ck1, 1 - ik) ∧
      randLoop (k + 1) c i = some (outs ++ [out], ck1, 1 - ik) ∧
      ck1.m_pCurPerm = ck.m_pCurPerm.operator_mul_assign g ∧
      rawWord c i k = num ck1.m_pCurPerm ∧
      out = rawWord c i k ^^^
        (if k < 31 then c.m_nDelayLine.getD (k + 1) 0 else rawWord c i (k - 31)) := by
  obtain ⟨outs, ck, ik, h1, -, h3, h4, h5, h6, ⟨p1, p2, p3⟩, h7⟩ :=
    randLoop_delayLine c i hc hi ht k
  obtain ⟨g, out, c2, r1, -, r3, r4, r5, -, -⟩ := rand_seeded ck ik h3 h4
  obtain ⟨outs2, ck2, ik2, s1, -, -, -, s5, -, -, s7⟩ := randLoop_delayLine c i hc hi ht (k + 1)
  have hrun : randLoop (k + 1) c i = some (outs ++ [out], c2, 1 - ik) := by
    rw [randLoop_succ, h1, Option.some_bind, r3]
    rfl
  have hraw : rawWord c i k = num c2.m_pCurPerm := by
    unfold rawWord
    rw [hrun]
  have hck2 : ck2 = c2 := by
    rw [hrun] at s1
    injection s1 with s1
    injection s1 with _ s1
    injection s1 with s1 _
    exact s1.symm
  have he : ck.m_nDelayLine.getD ck.m_nTail 0
      = if k < 32 then c.m_nDelayLine.getD k 0 else rawWord c i (k - 32) := by
    rw [h5, h7 (k % 32) (Nat.mod_lt _ (by decide))]
    by_cases hk : k < 32
    · rw [if_pos hk, if_pos (by omega), Nat.mod_eq_of_lt hk]
    · rw [if_neg hk, if_neg (by omega)]
      congr 1
      omega
  refine ⟨outs, ck, ik, g, out, c2, h1, p1, by rw [he, h6], ?_, r3, hrun, by rw [r4], hraw, ?_⟩
  · rw [← he, ← h6, ← p2, ← p3]
    exact r1
  · rw [r5, ← hraw]
    congr 1
    rw [← hck2, s5, s7 ((k + 1) % 32) (Nat.mod_lt _ (by decide))]
    by_cases hk : k < 31
    · rw [if_pos hk, if_pos (by omega), Nat.mod_eq_of_lt (by omega)]
    · rw [if_neg hk, if_neg (by omega)]
      congr 1
      omega

end Cayley32e

namespace Cayley32

open CPerm CCayley

/-- A new `Cayley32` engine after `srand(seed)`, for a well-formed normalized seed: it is
seeded, its order is 5460, its delay line is the initial one and its tail is 0. -/
theorem srand_new (fuel : Nat) (seed : uintx_t) (hw : uintx_t.WF seed)
    (hnorm : uintx_t.Normalized seed) (hf : 5460 ≤ fuel) (hf2 : 32 * seed.length + 1 ≤ fuel) :
    ∃ e, (Cayley32.new.bind fun e => Cayley32.srand fuel e seed) = some e ∧ e.Seeded ∧
      e.m_nOrder = 5460 ∧ e.m_nDelayLine = initialDelayLine ∧ e.m_nTail = 0 := by
  rw [Cayley32.new_eq, Option.some_bind]
  refine ⟨_, Cayley32.srand_eq fuel _ seed hf hf2 rfl rfl hw hnorm, ?_, rfl, rfl, rfl⟩
  exact Cayley32.seeded_of_tables _ rfl rfl ⟨CPerm.unrank_isBijection 32 _, rfl⟩
    Cayley32.initialDelayLine_lt (by show 0 < 32; decide) rfl rfl

end Cayley32

/-! ## The rank as an index in reverse lexicographic order -/

namespace CPerm

open uintx_t

theorem countP_lt_mono (x y : Nat) (h : x ≤ y) (l : List Nat) :
    (l.countP fun a => decide (a < x)) ≤ l.countP fun a => decide (a < y) := by
  apply List.countP_mono_left
  intro a _ ha
  simp only [decide_eq_true_eq] at ha ⊢
  omega

theorem countP_lt_strict (x y : Nat) (h : x < y) : ∀ (l : List Nat), x ∈ l →
    (l.countP fun a => decide (a < x)) < l.countP fun a => decide (a < y)
  | [], hx => by simp at hx
  | b :: l, hx => by
    rw [List.countP_cons, List.countP_cons]
    rcases List.mem_cons.mp hx with rfl | hx
    · have := countP_lt_mono x y (Nat.le_of_lt h) l
      simp only [lt_irrefl, decide_False, h, decide_True]
      simp only [Bool.false_eq_true, if_false, if_true]
      omega
    · have := countP_lt_strict x y h l hx
      by_cases hb : b < x
      · have hb2 : b < y := by omega
        simp only [hb, hb2, decide_True, if_true]
        omega
      · simp only [hb, decide_False, Bool.false_eq_true, if_false]
        split_ifs <;> omega

theorem countP_lt_snoc (m : List Nat) (a : Nat) :
    ((m ++ [a]).countP fun b => decide (b < a)) = m.countP fun b => decide (b < a) := by
  rw [List.countP_append]
  simp

theorem lex_cons_iff (a b : Nat) (l m : List Nat) :
    List.Lex (· < ·) (a :: l) (b :: m) ↔ a < b ∨ (a = b ∧ List.Lex (· < ·) l m) := by
  constructor
  · intro h
    cases h with
    | cons h => exact Or.inr ⟨rfl, h⟩
    | rel h => exact Or.inl h
  · rintro (h | ⟨rfl, h⟩)
    · exact List.Lex.rel h
    · exact List.Lex.cons h

/-- The rank orders the arrangements of the same distinct values as the lexicographic order
orders the arrays read from the last entry to the first. -/
theorem rankVal_lt_iff : ∀ (n : Nat) (l l2 : List Nat), l.length = n → l.Nodup → l.Perm l2 →
    (rankVal l < rankVal l2 ↔ List.Lex (· < ·) l.reverse l2.reverse)
  | 0, l, l2, hl, _, hp => by
    have h1 : l = [] := List.length_eq_zero.mp hl
    subst h1
    have h2 : l2 = [] := List.Perm.nil_eq hp |>.symm
    subst h2
    simp [rankVal_nil]
  | n + 1, l, l2, hl, hnd, hp => by
    have hl2 : l2.length = n + 1 := by rw [← hp.length_eq, hl]
    obtain ⟨m, a, rfl⟩ : ∃ m a, l = m ++ [a] := by
      rcases List.eq_nil_or_concat l with h | ⟨m, a, h⟩
      · rw [h] at hl; simp at hl
      · exact ⟨m, a, by rw [h, List.concat_eq_append]⟩
    obtain ⟨m2, a2, rfl⟩ : ∃ m a, l2 = m ++ [a] := by
      rcases List.eq_nil_or_concat l2 with h | ⟨m, a, h⟩
      · rw [h] at hl2; simp at hl2
      · exact ⟨m, a, by rw [h, List.concat_eq_append]⟩
    have hm : m.length = n := by simpa using hl
    have hm2 : m2.length = n := by simpa using hl2
    have hr : rankVal m < n.factorial := by rw [← hm]; exact (rankVal_digits m).1
    have hr2 : rankVal m2 < n.factorial := by rw [← hm2]; exact (rankVal_digits m2).1
    have hc : (m.countP fun b => decide (b < a))
        = (m ++ [a]).countP fun b => decide (b < a) := (countP_lt_snoc m a).symm
    have hc2 : (m2.countP fun b => decide (b < a2))
        = (m ++ [a]).countP fun b => decide (b < a2) := by
      rw [hp.countP_eq, countP_lt_snoc]
    have ha : a ∈ m ++ [a] := by simp
    have ha2 : a2 ∈ m ++ [a] := hp.mem_iff.mpr (by simp)
    rw [rankVal_append, rankVal_append, hm, hm2, hc, hc2]
    simp only [List.reverse_append, List.reverse_singleton, List.singleton_append]
    rw [lex_cons_iff]
    rcases Nat.lt_trichotomy a a2 with h | h | h
    · have hs := countP_lt_strict a a2 h _ ha
      have hmul := Nat.mul_le_mul_right n.factorial (Nat.succ_le_of_lt hs)
      rw [Nat.succ_mul] at hmul
      constructor
      · exact fun _ => Or.inl h
      · intro _
        omega
    · subst h
      have hpm : m.Perm m2 := (List.perm_append_right_iff [a]).mp hp
      have hndm : m.Nodup := (List.nodup_append.mp hnd).1
      have ih := rankVal_lt_iff n m m2 hm hndm hpm
      constructor
      · intro hlt
        exact Or.inr ⟨rfl, ih.mp (by omega)⟩
      · rintro (h | ⟨-, h⟩)
        · omega
        · have := ih.mpr h
          omega
    · have hs := countP_lt_strict a2 a h _ ha2
      have hmul := Nat.mul_le_mul_right n.factorial (Nat.succ_le_of_lt hs)
      rw [Nat.succ_mul] at hmul
      constructor
      · intro _
        omega
      · rintro (h3 | ⟨h3, -⟩) <;> omega

/-- A decreasing array has rank 0. -/
theorem rankVal_decreasing : ∀ (n : Nat) (l : List Nat), l.length = n → l.Pairwise (· > ·) →
    rankVal l = 0
  | 0, l, hl, _ => by
    have h1 : l = [] := List.length_eq_zero.mp hl
    rw [h1, rankVal_nil]
  | n + 1, l, hl, hpw => by
    obtain ⟨m, a, rfl⟩ : ∃ m a, l = m ++ [a] := by
      rcases List.eq_nil_or_concat l with h | ⟨m, a, h⟩
      · rw [h] at hl; simp at hl
      · exact ⟨m, a, by rw [h, List.concat_eq_append]⟩
    have hm : m.length = n := by simpa using hl
    rw [List.pairwise_append] at hpw
    rw [rankVal_append, rankVal_decreasing n m hm hpw.1]
    have : (m.countP fun b => decide (b < a)) = 0 := by
      rw [List.countP_eq_zero]
      intro b hb
      have := hpw.2.2 b hb a (by simp)
      simp only [decide_eq_true_eq]
      omega
    rw [this]
    simp

theorem rankVal_reverse_range (n : Nat) : rankVal (List.range n).reverse = 0 :=
  rankVal_decreasing n _ (by simp) (by
    rw [List.pairwise_reverse]
    exact pairwise_range n)

/-- The identity has the last rank. -/
theorem rankVal_range : ∀ n : Nat, rankVal (List.range n) + 1 = n.factorial
  | 0 => by simp [rankVal_nil]
  | n + 1 => by
    rw [List.range_succ, rankVal_append, List.length_range, Nat.factorial_succ]
    have : ((List.range n).countP fun b => decide (b < n)) = n := by
      rw [List.countP_eq_length.mpr, List.length_range]
      intro b hb
      simpa using List.mem_range.mp hb
    rw [this]
    have ih := rankVal_range n
    have : (n + 1) * n.factorial = n * n.factorial + n.factorial := by ring
    omega

/-- The constructor on the number 0 gives the reversal. -/
theorem ofNumber_zero (fuel n : Nat) (hn1 : 1 ≤ n) (hn : n ≤ 256) (hf : 33 ≤ fuel) :
    ofNumber fuel n (ofInt 0) = some ⟨(List.range n).reverse, n⟩ := by
  rw [ofNumber_normalized fuel n (ofInt 0) hn1 hn (by decide) (by decide) (by
    show 32 * 1 + 1 ≤ fuel
    omega)]
  have hb : (⟨(List.range n).reverse, n⟩ : CPerm).IsBijection :=
    isBijection_of_perm (List.reverse_perm _)
  have h := unrank_rankVal ⟨(List.range n).reverse, n⟩ hb
  simp only at h
  rw [rankVal_reverse_range] at h
  have hv : value (ofInt 0) % n.factorial = 0 := by
    rw [show value (ofInt 0) = 0 by decide, Nat.zero_mod]
  rw [hv, h]

end CPerm

/-! ## Normalization under the arithmetic operators, and exchanged map entries -/

namespace uintx_t

/-- The operators `+`, `-`, `*`, `/`, `%` and `<<` on canonical numbers return normalized
numbers, and so does `>>` for every distance whose last loop stays inside the array
(`newsize >= 0`). -/
theorem arithmetic_normalized {x y : List Nat} (hx : Canonical x) (hy : Canonical y) :
    Normalized (operator_add x y) ∧ Normalized (operator_sub_assign x y) ∧
    Normalized (operator_mul x y) ∧
    (0 < value y → ∀ fuel, 32 * x.length + 1 ≤ fuel →
      ∃ q r, operator_div fuel x y = some q ∧ operator_mod fuel x y = some r ∧
        Normalized q ∧ Normalized r) ∧
    ∀ d, Normalized (operator_shl_assign x d) ∧
      (0 ≤ shrNewsize x d → ∃ r, operator_shr x d = some r ∧ Normalized r) := by
  refine ⟨(operator_add_normalized hx.wf hx.2.2 hy.wf hy.2.2).2.1,
    (operator_sub_normalized hx.wf hx.2.2 hy.wf hy.2.2).1.2.2,
    (operator_mul_normalized hx.wf hx.2.2 hy.wf hy.2.2).1.2.2, ?_, ?_⟩
  · intro h0 fuel hf
    obtain ⟨q, r, h1, h2, h3, -, h5, -, -⟩ :=
      operator_div_mod_normalized hx.wf hx.2.2 hy.wf hy.2.2 h0 fuel hf
    exact ⟨q, r, h1, h2, h3.2.2, h5⟩
  · intro d
    refine ⟨(operator_shl_normalized hx.wf hx.2.2 d).2.1, fun h => ?_⟩
    unfold operator_shr
    rw [if_neg (by omega)]
    exact ⟨_, rfl, normalized_operator_shr_assign x d⟩

end uintx_t

namespace CPerm

/-- Exchanging two entries of a bijection gives another bijection, different from the first. -/
theorem swap_isBijection_ne (p : CPerm) (hb : p.IsBijection) (i j : Nat) (hi : i < p.m_nSize)
    (hj : j < p.m_nSize) (hij : i ≠ j) :
    (⟨swap p.m_nMap i j, p.m_nSize⟩ : CPerm).IsBijection ∧
    (⟨swap p.m_nMap i j, p.m_nSize⟩ : CPerm) ≠ p := by
  have hl := hb.1
  constructor
  · apply isBijection_of_perm
    exact (swap_perm p.m_nMap i j (by omega) (by omega)).trans (perm_of_isBijection hb)
  · intro h
    have hm : swap p.m_nMap i j = p.m_nMap := congrArg CPerm.m_nMap h
    have hg := getD_swap p.m_nMap i j i (by omega) (by omega)
    rw [hm, Equiv.swap_apply_left] at hg
    exact hij (getD_inj_of_isBijection hb i j hi hj hg)

end CPerm

/-! ## The constructor on every word list, seeding with every seed, the shift in `int` -/

namespace CPerm

open uintx_t

theorem buildLoop_length (c : List Nat) : ∀ (i : Nat) (d m r : List Nat),
    buildLoop c i d m = some r → r.length = m.length
  | 0, _, m, r, h => by
    simp only [buildLoop, Option.some.injEq] at h
    rw [← h]
  | i + 1, d, m, r, h => by
    unfold buildLoop at h
    split_ifs at h with hc
    have := buildLoop_length c i _ _ r h
    rw [this, List.length_set]

/-- Whatever the number, a permutation the constructor returns has the size asked for and an
array of that size. -/
theorem ofNumber_size (fuel n : Nat) (m : uintx_t) (p : CPerm) (h : ofNumber fuel n m = some p) :
    p.m_nSize = n ∧ p.m_nMap.length = n := by
  unfold ofNumber at h
  simp only at h
  cases h1 : operator_mod fuel m (operator_mul_uint32 ((factorialLoop (n - 1) 1
      ((List.replicate n []).set 0 (assignInt [] 1))).getD (n - 1) []) n) with
  | none => rw [h1] at h; simp at h
  | some m1 =>
    rw [h1, Option.some_bind] at h
    cases h2 : coefficientLoop fuel (factorialLoop (n - 1) 1
        ((List.replicate n []).set 0 (assignInt [] 1))) (n - 1) m1 (List.replicate n 0) with
    | none => rw [h2] at h; simp at h
    | some c =>
      rw [h2, Option.some_bind] at h
      cases h3 : buildLoop c n (List.range n) (identity n).m_nMap with
      | none => rw [h3] at h; simp at h
      | some r =>
        rw [h3] at h
        simp only [Option.map_some', Option.some.injEq] at h
        have hl := buildLoop_length c n _ _ r h3
        rw [identity_map, List.length_range] at hl
        rw [← h]
        exact ⟨rfl, hl⟩

/-- For a size `1 <= n <= 64`, a well-formed normalized number `r` and a canonical `z` of value
`n!`: the remainder `r % z` has the value `value r mod n!`, and the constructor returns the
same permutation on `r`, on `r % z` and on every well-formed normalized number congruent to
`r` modulo `n!`. -/
theorem ofNumber_of_mod (n fuel : Nat) (r z : uintx_t) (hn1 : 1 ≤ n) (hn : n ≤ 64)
    (hw : WF r) (hnorm : Normalized r) (hz : Canonical z) (hzv : value z = n.factorial)
    (hfuel : 32 * r.length + 1 ≤ fuel) :
    ∃ q p, operator_mod fuel r z = some q ∧ value q = value r % n.factorial ∧
      CPerm.ofNumber fuel n r = some p ∧ CPerm.ofNumber fuel n q = some p ∧
      p.m_nMap = CPerm.unrankSpec (CPerm.digits n (value r % n.factorial)) n (List.range n) ∧
      ∀ (s : uintx_t) (fuel2 : Nat), WF s → Normalized s → 32 * s.length + 1 ≤ fuel2 →
        value s % n.factorial = value r % n.factorial → CPerm.ofNumber fuel2 n s = some p := by
  obtain ⟨q, q1, q2, q3, q4, q5⟩ := CPerm.operator_mod_normalized fuel r z hw hnorm hz
    (by rw [hzv]; exact Nat.factorial_pos n) hfuel
  rw [hzv] at q5
  refine ⟨q, _, q1, q5, CPerm.ofNumber_normalized fuel n r hn1 (by omega) hw hnorm hfuel, ?_, rfl,
    ?_⟩
  · rw [CPerm.ofNumber_normalized fuel n q hn1 (by omega) q2 q3 (by omega), q5, Nat.mod_mod]
  · intro s fuel2 hs1 hs2 hs3 hs4
    rw [CPerm.ofNumber_normalized fuel2 n s hn1 (by omega) hs1 hs2 hs3, hs4]

end CPerm

namespace Cayley32

open CPerm CCayley

/-- The member `srand(seed)` on an engine of order 5460 whose current permutation has size 32,
for every seed: it returns where the constructor `CPerm(32, seed)` does, with that permutation
as the current one and the tables of the two fixed generators; the other members are kept. -/
theorem srand_eq_map (fuel : Nat) (c : CCayley) (seed : uintx_t) (hf : 5460 ≤ fuel)
    (ho : c.m_nOrder = 5460) (hs : c.m_pCurPerm.m_nSize = 32) :
    srand fuel c seed = (CPerm.ofNumber fuel 32 seed).map fun p =>
      { c with m_nPower0 := ⟨(List.range 5460).map (pow gen0Perm), 5460⟩,
               m_nPower1 := ⟨(List.range 5460).map (pow gen1Perm), 5460⟩,
               m_pCurPerm := p } := by
  unfold srand
  rw [ChooseGenerators_eq fuel hf c ho, Option.some_bind]
  cases h : CPerm.ofNumber fuel 32 seed with
  | none => rfl
  | some p =>
    obtain ⟨p1, p2⟩ := ofNumber_size fuel 32 seed p h
    rw [Option.some_bind, Option.map_some']
    simp only
    rw [operator_assign_eq _ p (by rw [p2, p1]) (by rw [p1, hs])]
    rfl

end Cayley32

namespace uintx_t

theorem wrapInt_of_lt (v : Int) (h0 : 0 ≤ v) (h1 : v < 2 ^ 31) : wrapInt v = v := by
  unfold wrapInt
  omega

/-- Where the `int` sum `bitcount() + distance + 31` does not overflow, the shift computed
with `int` sizes is the shift computed with natural numbers. -/
theorem operator_shl_eq (x : uintx_t) (d : Nat) (h : bitcount x + d + 31 < 2 ^ 31) :
    operator_shl x d = operator_shl_assign x d := by
  unfold operator_shl operator_shl_assign
  have hw : wrapInt ((bitcount x : Int) + d + BitsInWord - 1)
      = ((bitcount x + d + BitsInWord - 1 : Nat) : Int) := by
    rw [wrapInt_of_lt _ (by simp only [BitsInWord]; omega) (by simp only [BitsInWord]; omega)]
    simp only [BitsInWord]
    omega
  have ht : Int.tdiv ((bitcount x + d + BitsInWord - 1 : Nat) : Int) (BitsInWord : Nat)
      = (((bitcount x + d + BitsInWord - 1) / BitsInWord : Nat) : Int) := by
    rw [Int.tdiv_eq_ediv (Int.ofNat_nonneg _) (Int.ofNat_nonneg _)]
    rfl
  simp only [hw, ht, Int.ofNat_nonneg, if_true, Int.toNat_ofNat]

/-- The value of `x << d` for a well-formed normalized `x`, within the range of `int`. -/
theorem operator_shl_value_of_lt {x : List Nat} (hx : WF x) (hnx : Normalized x) (d : Nat)
    (h : bitcount x + d + 31 < 2 ^ 31) :
    WF (operator_shl x d) ∧ Normalized (operator_shl x d) ∧
    value (operator_shl x d) = value x * 2 ^ d := by
  rw [operator_shl_eq x d h]
  exact operator_shl_normalized hx hnx d

end uintx_t

/-! ## Main theorems -/

open uintx_t

/-- C1: for every size `n` with `1 <= n <= 64` and every canonical number `x` below `n!`, the
constructor `CPerm(n, x)` returns, given at least 321 rounds for each loop of its divisions, and
`GetNum<uintx_t>` of the permutation it builds is `x` again. -/
theorem CPerm.getNum_ofNumber (n : Nat) (x : uintx_t) (fuel : Nat) (hn1 : 1 ≤ n) (hn : n ≤ 64)
    (hx : Canonical x) (hr : value x < n.factorial) (hfuel : 321 ≤ fuel) :
    (CPerm.ofNumber fuel n x).map CPerm.GetNum = some x := by
  have hlen := length_le_ten hx hn hr
  rw [CPerm.ofNumber_spec fuel n x hn1 (by omega) hx (by omega), Option.map_some']
  obtain ⟨g1, g2⟩ := CPerm.GetNum_spec
    { m_nMap := CPerm.unrankSpec (CPerm.digits n (value x % n.factorial)) n (List.range n),
      m_nSize := n } (CPerm.length_unrankSpec _ _ _) hn1 (by simp only; omega)
  simp only at g2
  rw [Nat.mod_eq_of_lt hr] at g1 g2 ⊢
  rw [CPerm.rankVal_unrank n _ hr] at g2
  rw [g1.eq_of_value_eq hx g2]

/-- The round trip of C1 at size 5 and the number 73. -/
theorem CPerm.getNum_ofNumber_witness :
    (1 ≤ 5 ∧ 5 ≤ 64 ∧ Canonical [73] ∧ value [73] < Nat.factorial 5 ∧ 321 ≤ 321) ∧
    (CPerm.ofNumber 321 5 [73]).map CPerm.GetNum = some [73] :=
  ⟨⟨by decide, by decide, canonical_singleton (by decide), by decide, by decide⟩,
    CPerm.getNum_ofNumber 5 [73] 321 (by decide) (by decide) (canonical_singleton (by decide))
      (by decide) (by decide)⟩

/-- C2: for every size `n` with `1 <= n <= 64` and every bijection `p` of that size,
`GetNum<uintx_t>` is a canonical number below `n!`, the constructor `CPerm(n, p.GetNum())`
returns `p`, no other bijection of size `n` has the same number, and every number below `n!` is
the number of a bijection of size `n`. -/
theorem CPerm.ofNumber_getNum (n : Nat) (p : CPerm) (fuel : Nat) (hn1 : 1 ≤ n) (hn : n ≤ 64)
    (hs : p.m_nSize = n) (hb : p.IsBijection) (hfuel : 321 ≤ fuel) :
    CPerm.ofNumber fuel n p.GetNum = some p ∧
    Canonical p.GetNum ∧ value p.GetNum < n.factorial ∧
    (∀ q : CPerm, q.m_nSize = n → q.IsBijection → q.GetNum = p.GetNum → q = p) ∧
    (∀ r, r < n.factorial →
      ∃ q : CPerm, q.m_nSize = n ∧ q.IsBijection ∧ value q.GetNum = r) := by
  have key : ∀ q : CPerm, q.m_nSize = n → q.IsBijection →
      Canonical q.GetNum ∧ value q.GetNum < n.factorial ∧
      CPerm.ofNumber fuel n q.GetNum = some q := by
    intro q hqs hqb
    obtain ⟨g1, g2⟩ := CPerm.GetNum_spec q hqb.1 (by omega) (by omega)
    have hlt : value q.GetNum < n.factorial := by
      rw [g2, ← hqs, ← hqb.1]; exact (CPerm.rankVal_digits q.m_nMap).1
    have hlen := length_le_ten g1 hn hlt
    refine ⟨g1, hlt, ?_⟩
    rw [CPerm.ofNumber_spec fuel n _ hn1 (by omega) g1 (by omega), Nat.mod_eq_of_lt hlt, g2]
    have := CPerm.unrank_rankVal q hqb
    rw [hqs] at this
    rw [this]
    cases q
    simp only at hqs
    rw [hqs]
  obtain ⟨k1, k2, k3⟩ := key p hs hb
  refine ⟨k3, k1, k2, ?_, ?_⟩
  · intro q hqs hqb heq
    obtain ⟨-, -, q3⟩ := key q hqs hqb
    rw [heq, k3] at q3
    exact (Option.some.inj q3).symm
  · intro r hr
    refine ⟨{ m_nMap := CPerm.unrankSpec (CPerm.digits n r) n (List.range n), m_nSize := n },
      rfl, CPerm.unrank_isBijection n r, ?_⟩
    obtain ⟨g1, g2⟩ := CPerm.GetNum_spec
      { m_nMap := CPerm.unrankSpec (CPerm.digits n r) n (List.range n), m_nSize := n }
      (CPerm.length_unrankSpec _ _ _) hn1 (by simp only; omega)
    rw [g2]
    exact CPerm.rankVal_unrank n r hr

/-- The round trip of C2 at the permutation `(2,4,1,0,3)` of size 5. -/
theorem CPerm.ofNumber_getNum_witness :
    (1 ≤ 5 ∧ 5 ≤ 64 ∧ (⟨[2, 4, 1, 0, 3], 5⟩ : CPerm).m_nSize = 5 ∧
      (⟨[2, 4, 1, 0, 3], 5⟩ : CPerm).IsBijection ∧ 321 ≤ 321) ∧
    CPerm.ofNumber 321 5 (⟨[2, 4, 1, 0, 3], 5⟩ : CPerm).GetNum = some ⟨[2, 4, 1, 0, 3], 5⟩ :=
  ⟨⟨by decide, by decide, rfl, by decide, by decide⟩,
    (CPerm.ofNumber_getNum 5 ⟨[2, 4, 1, 0, 3], 5⟩ 321 (by decide) (by decide) rfl (by decide)
      (by decide)).1⟩

open uintx_t

/-- C4: for `p` with `n` entries and another object `q`, after `p *= q` the entry `i < n` of
`p` is `q[p[i]]` (first `p`, then `q`) and the size is unchanged; `[1,0,3,2] *= [2,3,0,1]`
gives `[3,2,1,0]`, and `[1,0,3,2]` composed with itself is the identity of size 4, for which
`IsIdentity()` returns true. -/
theorem CPerm.operator_mul_assign_get (p q : CPerm) (i : Nat)
    (h : p.m_nMap.length = p.m_nSize) (hi : i < p.m_nSize) :
    ((p.operator_mul_assign q).get i = q.get (p.get i) ∧
      (p.operator_mul_assign q).m_nSize = p.m_nSize) ∧
    (⟨[1, 0, 3, 2], 4⟩ : CPerm).operator_mul_assign ⟨[2, 3, 0, 1], 4⟩ = ⟨[3, 2, 1, 0], 4⟩ ∧
    (⟨[1, 0, 3, 2], 4⟩ : CPerm).operator_mul_assign ⟨[1, 0, 3, 2], 4⟩ = CPerm.identity 4 ∧
    ((⟨[1, 0, 3, 2], 4⟩ : CPerm).operator_mul_assign ⟨[1, 0, 3, 2], 4⟩).IsIdentity = true := by
  refine ⟨⟨?_, rfl⟩, by decide, by decide, by decide⟩
  unfold CPerm.get
  rw [CPerm.operator_mul_assign_map p q h, CPerm.getD_map_of_lt _ _ _ (by rw [h]; exact hi)]

theorem CPerm.operator_mul_assign_get_witness :
    ((⟨[1, 0, 3, 2], 4⟩ : CPerm).m_nMap.length = 4 ∧ 2 < 4) ∧
    ((⟨[1, 0, 3, 2], 4⟩ : CPerm).operator_mul_assign ⟨[2, 3, 0, 1], 4⟩).get 2 = 1 :=
  ⟨⟨rfl, by decide⟩,
    (CPerm.operator_mul_assign_get ⟨[1, 0, 3, 2], 4⟩ ⟨[2, 3, 0, 1], 4⟩ 2 rfl (by decide)).1.1⟩

/-- C5: for every bijection `p` and every previous table `t`, `Initialize(p)` (given `n!` rounds)
returns a table of order at least 1 whose entry `i`, for each `i` below the order, is `p`
composed with itself `i` times (`CPerm.pow p i`), entry 0 being the identity of the size of `p`;
for `p = [1,2,0]` the order is 3 and the table is `[identity, p, p*p]`. -/
theorem CPowerTable.initialize_entries (p : CPerm) (fuel : Nat) (t : CPowerTable)
    (hb : p.IsBijection) (hf : p.m_nSize.factorial ≤ fuel) :
    (∃ tab, CPowerTable.Initialize fuel t p = some tab ∧ 1 ≤ tab.GetOrder ∧
      (∀ i, i < tab.GetOrder → tab.get i = some (CPerm.pow p i)) ∧
      tab.get 0 = some (CPerm.identity p.m_nSize)) ∧
    CPowerTable.Initialize 6 CPowerTable.empty ⟨[1, 2, 0], 3⟩ =
      some ⟨[CPerm.identity 3, ⟨[1, 2, 0], 3⟩,
        (⟨[1, 2, 0], 3⟩ : CPerm).operator_mul_assign ⟨[1, 2, 0], 3⟩], 3⟩ := by
  refine ⟨?_, by decide⟩
  obtain ⟨k, k1, -, -, -, -, k6⟩ := CPowerTable.Initialize_spec p hb
  refine ⟨_, k6 fuel t hf, k1, fun i hi => CPowerTable.get_table p k i hi, ?_⟩
  exact CPowerTable.get_table p k 0 (by omega)

theorem CPowerTable.initialize_entries_witness :
    ((⟨[1, 2, 0], 3⟩ : CPerm).IsBijection ∧ Nat.factorial 3 ≤ 6) ∧
    ∃ tab, CPowerTable.Initialize 6 CPowerTable.empty ⟨[1, 2, 0], 3⟩ = some tab ∧
      1 ≤ tab.GetOrder ∧
      (∀ i, i < tab.GetOrder → tab.get i = some (CPerm.pow ⟨[1, 2, 0], 3⟩ i)) ∧
      tab.get 0 = some (CPerm.identity 3) :=
  ⟨⟨by decide, by decide⟩,
    (CPowerTable.initialize_entries ⟨[1, 2, 0], 3⟩ 6 CPowerTable.empty (by decide)
      (by decide)).1⟩

/-- C6: for every bijection `p` and every previous table `t` (empty, or initialized with another
permutation), `Initialize(p)` (given `n!` rounds) returns a table whose order `k = GetOrder()`
satisfies `k >= 1`, `p^k = identity` and `p^j != identity` for `0 < j < k`, and which holds
exactly `k` entries; the result does not depend on `t`. -/
theorem CPowerTable.initialize_order (p : CPerm) (fuel : Nat) (t : CPowerTable)
    (hb : p.IsBijection) (hf : p.m_nSize.factorial ≤ fuel) :
    ∃ tab, CPowerTable.Initialize fuel t p = some tab ∧ 1 ≤ tab.GetOrder ∧
      CPerm.pow p tab.GetOrder = CPerm.identity p.m_nSize ∧
      (∀ j, 0 < j → j < tab.GetOrder → CPerm.pow p j ≠ CPerm.identity p.m_nSize) ∧
      tab.m_stdPower.length = tab.GetOrder ∧
      CPowerTable.Initialize fuel CPowerTable.empty p = some tab := by
  obtain ⟨k, k1, -, k3, k4, -, k6⟩ := CPowerTable.Initialize_spec p hb
  refine ⟨_, k6 fuel t hf, k1, k3, k4, ?_, k6 fuel _ hf⟩
  show ((List.range k).map (CPerm.pow p)).length = k
  rw [List.length_map, List.length_range]

theorem CPowerTable.initialize_order_witness :
    ((⟨[1, 0, 3, 2], 4⟩ : CPerm).IsBijection ∧ Nat.factorial 4 ≤ 24) ∧
    ∃ tab, CPowerTable.Initialize 24 ⟨[CPerm.identity 3, ⟨[1, 2, 0], 3⟩, ⟨[2, 0, 1], 3⟩], 3⟩
        ⟨[1, 0, 3, 2], 4⟩ = some tab ∧ 1 ≤ tab.GetOrder ∧
      CPerm.pow ⟨[1, 0, 3, 2], 4⟩ tab.GetOrder = CPerm.identity 4 ∧
      (∀ j, 0 < j → j < tab.GetOrder → CPerm.pow ⟨[1, 0, 3, 2], 4⟩ j ≠ CPerm.identity 4) ∧
      tab.m_stdPower.length = tab.GetOrder ∧
      CPowerTable.Initialize 24 CPowerTable.empty ⟨[1, 0, 3, 2], 4⟩ = some tab :=
  ⟨⟨by decide, by decide⟩,
    CPowerTable.initialize_order ⟨[1, 0, 3, 2], 4⟩ 24
      ⟨[CPerm.identity 3, ⟨[1, 2, 0], 3⟩, ⟨[2, 0, 1], 3⟩], 3⟩ (by decide) (by decide)⟩

/-- C7: for every bijection `p`, the table `Initialize(p)` returns (given `n!` rounds), of order
`k`, satisfies `table[i] *= table[j]` gives `table[(i+j) mod k]` for all `i, j < k`, and
`table[k-1] *= p` gives the identity. -/
theorem CPowerTable.initialize_compose (p : CPerm) (fuel : Nat) (t : CPowerTable)
    (hb : p.IsBijection) (hf : p.m_nSize.factorial ≤ fuel) :
    ∃ tab, CPowerTable.Initialize fuel t p = some tab ∧
      (∀ i j, i < tab.GetOrder → j < tab.GetOrder →
        ∃ a b, tab.get i = some a ∧ tab.get j = some b ∧
          tab.get ((i + j) % tab.GetOrder) = some (a.operator_mul_assign b)) ∧
      ∃ l, tab.get (tab.GetOrder - 1) = some l ∧
        l.operator_mul_assign p = CPerm.identity p.m_nSize := by
  obtain ⟨k, k1, -, k3, -, k5, k6⟩ := CPowerTable.Initialize_spec p hb
  refine ⟨_, k6 fuel t hf, ?_, ?_⟩
  · intro i j hi hj
    refine ⟨_, _, CPowerTable.get_table p k i hi, CPowerTable.get_table p k j hj, ?_⟩
    rw [CPerm.pow_mul_pow hb, k5 (i + j)]
    exact CPowerTable.get_table p k _ (Nat.mod_lt _ (by omega))
  · refine ⟨_, CPowerTable.get_table p k (k - 1) (by show k - 1 < k; omega), ?_⟩
    show (CPerm.pow p (k - 1)).operator_mul_assign p = _
    rw [← CPerm.pow_succ_eq, ← k3]
    congr 1
    omega

theorem CPowerTable.initialize_compose_witness :
    ((⟨[1, 2, 0], 3⟩ : CPerm).IsBijection ∧ Nat.factorial 3 ≤ 6) ∧
    ∃ tab, CPowerTable.Initialize 6 CPowerTable.empty ⟨[1, 2, 0], 3⟩ = some tab ∧
      (∀ i j, i < tab.GetOrder → j < tab.GetOrder →
        ∃ a b, tab.get i = some a ∧ tab.get j = some b ∧
          tab.get ((i + j) % tab.GetOrder) = some (a.operator_mul_assign b)) ∧
      ∃ l, tab.get (tab.GetOrder - 1) = some l ∧
        l.operator_mul_assign ⟨[1, 2, 0], 3⟩ = CPerm.identity 3 :=
  ⟨⟨by decide, by decide⟩,
    CPowerTable.initialize_compose ⟨[1, 2, 0], 3⟩ 6 CPowerTable.empty (by decide) (by decide)⟩

/-- C8: at `n = 58` the table entry `g_nLandau[58]` is 471240, while the permutation `second58`
of 58 points (cycles of length 2, 3, 5, 7, 11, 13 and 17) is a bijection whose power table has
order 510510, which is larger. -/
theorem g_nLandau_58_exceeded :
    g_nLandau.getD 58 0 = 471240 ∧ CCayley.second58.m_nSize = 58 ∧
    CCayley.second58.IsBijection ∧
    (CPowerTable.Initialize 510510 CPowerTable.empty CCayley.second58).map CPowerTable.GetOrder
      = some 510510 ∧
    g_nLandau.getD 58 0 < 510510 := by
  refine ⟨by decide, rfl, by decide, ?_, by decide⟩
  rw [CCayley.Initialize_second58 510510 (Nat.le_refl _)]
  rfl

/-- C9: the constructor `CPerm(32, gen)` returns `gen0Perm` and `gen1Perm` for the two fixed
numbers of `Cayley32::ChooseGenerators`; given at least 5460 rounds, the power table of each has
order `5460 = g_nLandau[32]` whatever the table held before, so both assertions hold and
`ChooseGenerators` returns the engine with two tables of order 5460. -/
theorem Cayley32.chooseGenerators_order (fuel : Nat) (hf : 5460 ≤ fuel) :
    g_nLandau.getD 32 0 = 5460 ∧
    uintx_t.ofString "350F1C2036E12600512A8400920E" = some Cayley32.gen0Words ∧
    uintx_t.ofString "EEDC82EE2D472B430D13E5066CD5B" = some Cayley32.gen1Words ∧
    CPerm.ofNumber fuel 32 Cayley32.gen0Words = some Cayley32.gen0Perm ∧
    CPerm.ofNumber fuel 32 Cayley32.gen1Words = some Cayley32.gen1Perm ∧
    (∀ t, (CPowerTable.Initialize fuel t Cayley32.gen0Perm).map CPowerTable.GetOrder
      = some 5460) ∧
    (∀ t, (CPowerTable.Initialize fuel t Cayley32.gen1Perm).map CPowerTable.GetOrder
      = some 5460) ∧
    ∃ r, Cayley32.new.bind (Cayley32.ChooseGenerators fuel) = some r ∧ r.m_nOrder = 5460 ∧
      r.m_nPower0.GetOrder = 5460 ∧ r.m_nPower1.GetOrder = 5460 := by
  refine ⟨by decide, Cayley32.ofString_gen0, Cayley32.ofString_gen1,
    Cayley32.ofNumber_gen0 fuel (by omega), Cayley32.ofNumber_gen1 fuel (by omega), ?_, ?_, ?_⟩
  · intro t
    rw [Cayley32.Initialize_gen0 fuel hf]
    rfl
  · intro t
    rw [Cayley32.Initialize_gen1 fuel hf]
    rfl
  · have hnew : Cayley32.new = some ⟨32, 5460, CPowerTable.empty, CPowerTable.empty,
        CPerm.identity 32, initialDelayLine, 0⟩ := rfl
    rw [hnew, Option.some_bind]
    unfold Cayley32.ChooseGenerators
    rw [Cayley32.ofString_gen0, Cayley32.ofString_gen1]
    simp only [Option.some_bind]
    rw [Cayley32.ofNumber_gen0 fuel (by omega), Cayley32.ofNumber_gen1 fuel (by omega)]
    simp only [Option.some_bind]
    rw [Cayley32.Initialize_gen0 fuel hf, Cayley32.Initialize_gen1 fuel hf]
    simp only [Option.some_bind]
    rw [if_pos ⟨rfl, rfl⟩]
    exact ⟨_, rfl, rfl, rfl, rfl⟩

theorem Cayley32.chooseGenerators_order_witness :
    5460 ≤ 5460 ∧
    ∃ r, Cayley32.new.bind (Cayley32.ChooseGenerators 5460) = some r ∧ r.m_nOrder = 5460 ∧
      r.m_nPower0.GetOrder = 5460 ∧ r.m_nPower1.GetOrder = 5460 :=
  ⟨Nat.le_refl 5460, (Cayley32.chooseGenerators_order 5460 (Nat.le_refl 5460)).2.2.2.2.2.2.2⟩

/-- C10: for size 58 and the generator `rnd58`, `CCayley::ChooseGenerators` returns with the
generators `first58` and `second58`, whose power tables have the orders 471240 and 510510: the
two orders differ, and the first is `g_nLandau[58]`, which a permutation of 58 points exceeds. -/
theorem CCayley.chooseGenerators_58 :
    ∃ c r, CCayley.new 58 = some c ∧ c.m_nOrder = 471240 ∧
      CCayley.ChooseGenerators 510510 c CCayley.rnd58 0 = some r ∧
      r.1.m_nPower0.get 1 = some CCayley.first58 ∧
      r.1.m_nPower1.get 1 = some CCayley.second58 ∧
      r.1.m_nPower0.GetOrder = 471240 ∧ r.1.m_nPower1.GetOrder = 510510 := by
  have hA := CCayley.Initialize_first58 510510 (by decide) CPowerTable.empty
  have hB := CCayley.Initialize_second58 510510 (Nat.le_refl _) CPowerTable.empty
  have g0 : (⟨(List.range 471240).map (CPerm.pow CCayley.first58), 471240⟩ :
      CPowerTable).get 1 = some CCayley.first58 := by
    rw [CPowerTable.get_table _ _ 1 (by decide), CPerm.pow_one _ rfl]
  have g1 : (⟨(List.range 510510).map (CPerm.pow CCayley.second58), 510510⟩ :
      CPowerTable).get 1 = some CCayley.second58 := by
    rw [CPowerTable.get_table _ _ 1 (by decide), CPerm.pow_one _ rfl]
  have c0 := CCayley.chooseFirst_accept 510510 471240 CCayley.rnd58 510510 (CPerm.identity 58)
    CPowerTable.empty 0 _ (by decide) (by rw [CCayley.Randomize_58]; exact hA)
    (by show ¬ (471240 < 471240); decide)
  rw [CCayley.Randomize_58] at c0
  have c1 := CCayley.chooseSecond_accept 510510 471240 CCayley.rnd58 510510 CCayley.first58
    CPowerTable.empty 57 _ (by decide) (by rw [CCayley.RandomizeOdd_58]; exact hB)
    (by show ¬ (510510 < 471240); decide)
  rw [CCayley.RandomizeOdd_58] at c1
  have c2 := CCayley.chooseLoop_accept 510510 58 471240 CCayley.rnd58 510510 (CPerm.identity 58)
    CPowerTable.empty CPowerTable.empty 0 _ _ _ _ (by decide) c0 c1 g0 g1
    CCayley.fixedPointLoop_58
  refine ⟨⟨58, 471240, CPowerTable.empty, CPowerTable.empty, CPerm.identity 58,
      initialDelayLine, 0⟩,
    (⟨58, 471240, ⟨(List.range 471240).map (CPerm.pow CCayley.first58), 471240⟩,
      ⟨(List.range 510510).map (CPerm.pow CCayley.second58), 510510⟩, CPerm.identity 58,
      initialDelayLine, 0⟩, 113), rfl, rfl, ?_, g0, g1, rfl, rfl⟩
  unfold CCayley.ChooseGenerators
  show Option.map _ (CCayley.chooseLoop 510510 58 471240 CCayley.rnd58 510510
    (CPerm.identity 58) CPowerTable.empty CPowerTable.empty 0) = _
  rw [c2]
  rfl

open uintx_t

/-- C16: on the identity of size 5 (an even permutation, no inversion) with a generator that
always returns 1, `RandomizeOdd` makes three exchanges in its loop, its final test
`nCount ^ 1` is nonzero and a fourth exchange follows: the result `[1,2,3,4,0]` has 4
inversions and is even. -/
theorem CPerm.randomizeOdd_even :
    CPerm.inversions (CPerm.identity 5).m_nMap = 0 ∧
    (randomizeOddLoop 5 (fun _ => 1) 3 0 0 0 (CPerm.identity 5).m_nMap).2.2 = 3 ∧
    ((CPerm.identity 5).RandomizeOdd (fun _ => 1) 0).1.m_nMap = [1, 2, 3, 4, 0] ∧
    CPerm.inversions ((CPerm.identity 5).RandomizeOdd (fun _ => 1) 0).1.m_nMap % 2 = 0 := by
  decide

/-- C19, as the code has it: given at least 33 rounds, the constructor `CPerm(5, 73)` returns
the image array `(2,4,1,0,3)`. -/
theorem CPerm.ofNumber_5_73 (fuel : Nat) (hfuel : 33 ≤ fuel) :
    CPerm.ofNumber fuel 5 (uintx_t.ofInt 73) = some ⟨[2, 4, 1, 0, 3], 5⟩ :=
  CPerm.ofNumber_five fuel hfuel

theorem CPerm.ofNumber_5_73_witness :
    33 ≤ 40 ∧ CPerm.ofNumber 40 5 (uintx_t.ofInt 73) = some ⟨[2, 4, 1, 0, 3], 5⟩ :=
  ⟨by decide, CPerm.ofNumber_5_73 40 (by decide)⟩

/-- C19 as stated fails: `CPerm(5, 73)` returns, and its image array is not `(2,4,0,3,1)`. -/
theorem CPerm.ofNumber_5_73_ne :
    (CPerm.ofNumber 33 5 (uintx_t.ofInt 73)).isSome = true ∧
    CPerm.ofNumber 33 5 (uintx_t.ofInt 73) ≠ some ⟨[2, 4, 0, 3, 1], 5⟩ := by
  rw [CPerm.ofNumber_five 33 (Nat.le_refl 33)]
  decide

/-- C20: for well-formed normalized `x` and `y`, `x + y` has the value `value x + value y`, is
well formed, has at most `max |x| |y| + 1` words and, when both have at least one word, is
normalized; `FFFFFFFF + 1` is `100000000`. -/
theorem uintx_t.operator_add_value (x y : uintx_t) (hx : WF x) (hy : WF y)
    (hnx : Normalized x) (hny : Normalized y) :
    value (operator_add x y) = value x + value y ∧ WF (operator_add x y) ∧
    (operator_add x y).length ≤ max x.length y.length + 1 ∧
    (1 ≤ x.length → 1 ≤ y.length → Canonical (operator_add x y)) ∧
    (ofString "FFFFFFFF").bind (fun a => (ofString "1").map fun b => operator_add a b)
      = ofString "100000000" ∧
    ofString "100000000" = some [0, 1] := by
  obtain ⟨s1, s2, s3⟩ := operator_add_assign_spec hx hy
  refine ⟨s2, s1, ?_, ?_, by decide, by decide⟩
  · show (operator_add_assign x y).length ≤ _
    rcases s3 with h | ⟨h, -⟩ <;> omega
  · intro h1 h2
    exact canonical_add ⟨hx, h1, hnx⟩ ⟨hy, h2, hny⟩

theorem uintx_t.operator_add_value_witness :
    (WF [4294967295] ∧ WF [1] ∧ Normalized [4294967295] ∧ Normalized [1]) ∧
    value (operator_add [4294967295] [1]) = value [4294967295] + value [1] ∧
    (operator_add [4294967295] [1]).length ≤ max [4294967295].length [1].length + 1 :=
  ⟨⟨by decide, by decide, by decide, by decide⟩,
    (uintx_t.operator_add_value [4294967295] [1] (by decide) (by decide) (by decide)
      (by decide)).1,
    (uintx_t.operator_add_value [4294967295] [1] (by decide) (by decide) (by decide)
      (by decide)).2.2.1⟩

open uintx_t

/-- C11: a new engine `Cayley32` seeded with 1 is in the state `seededOne`, and so is a second
one.  The parity of `NextPerm` is one variable of the function, shared by all engines: the step
of the first engine runs with parity 0, composes with entry 2084 of the first table and leaves
the parity 1; step number 0 of the second engine then runs with parity 1 and composes with
entry 2084 of the second table, which gives another permutation than a step with parity 0. -/
theorem CCayley.nextPerm_shared_parity :
    (Cayley32.new.bind fun e => Cayley32.srand 5460 e [1]) = some Cayley32.seededOne ∧
    Cayley32.seededOne.NextPerm 0
      = some ({ Cayley32.seededOne with m_pCurPerm := Cayley32.stepZero }, 1) ∧
    Cayley32.seededOne.NextPerm 1
      = some ({ Cayley32.seededOne with m_pCurPerm := Cayley32.stepOne }, 0) ∧
    Cayley32.seededOne.m_nPower0.get 2084 = some (CPerm.pow Cayley32.gen0Perm 2084) ∧
    Cayley32.seededOne.m_nPower1.get 2084 = some (CPerm.pow Cayley32.gen1Perm 2084) ∧
    Cayley32.stepZero
      = Cayley32.seededOne.m_pCurPerm.operator_mul_assign (CPerm.pow Cayley32.gen0Perm 2084) ∧
    Cayley32.stepOne
      = Cayley32.seededOne.m_pCurPerm.operator_mul_assign (CPerm.pow Cayley32.gen1Perm 2084) ∧
    Cayley32.stepZero ≠ Cayley32.stepOne :=
  ⟨Cayley32.srand_one, Cayley32.NextPerm_zero, Cayley32.NextPerm_one,
    CPowerTable.get_table Cayley32.gen0Perm 5460 2084 (by decide),
    CPowerTable.get_table Cayley32.gen1Perm 5460 2084 (by decide),
    Cayley32.mul_gen0.symm, Cayley32.mul_gen1.symm, by decide⟩

/-- C12: when the step `NextPerm` returns the engine `c1`, `rand()` returns too; with `num` the
exclusive or over `i = 0..31` of `P[i] * keys[i]` modulo `2 ^ 64` for the permutation `P` after
the step, the delay line holds `num` at the old tail `t` and its other words are unchanged, the
new tail is `(t + 1) mod 32`, the value returned is `num` xor the delay-line word at the new
tail, and nothing else differs from `c1`. -/
theorem Cayley32e.rand_output (c c1 : CCayley) (i i1 : Nat)
    (h : c.NextPerm i = some (c1, i1)) (ht : c.m_nTail < 32)
    (hl : c.m_nDelayLine.length = 32) :
    ∃ out c2, Cayley32e.rand c i = some (out, c2, i1) ∧
      c2.m_pCurPerm = c1.m_pCurPerm ∧ c2.m_nPower0 = c1.m_nPower0 ∧
      c2.m_nPower1 = c1.m_nPower1 ∧ c2.m_nSize = c1.m_nSize ∧ c2.m_nOrder = c1.m_nOrder ∧
      c2.m_nDelayLine.length = 32 ∧
      c2.m_nDelayLine.getD c.m_nTail 0 = Cayley32e.numSpec c1.m_pCurPerm ∧
      (∀ j, j ≠ c.m_nTail → c2.m_nDelayLine.getD j 0 = c.m_nDelayLine.getD j 0) ∧
      c2.m_nTail = (c.m_nTail + 1) % 32 ∧
      out = Cayley32e.numSpec c1.m_pCurPerm ^^^ c2.m_nDelayLine.getD c2.m_nTail 0 ∧
      Cayley32e.numSpec c1.m_pCurPerm < 2 ^ 64 := by
  obtain ⟨g, -, -, -, hc1, -⟩ := CCayley.NextPerm_inv c c1 i i1 h
  have e1 : c1.m_nDelayLine = c.m_nDelayLine := by rw [hc1]
  have e2 : c1.m_nTail = c.m_nTail := by rw [hc1]
  refine ⟨_, _, Cayley32e.rand_eq c i c1 i1 h, rfl, rfl, rfl, rfl, rfl, ?_, ?_, ?_, ?_, ?_, ?_⟩
  · show (c1.m_nDelayLine.set _ _).length = 32
    rw [List.length_set, e1, hl]
  · show (c1.m_nDelayLine.set c1.m_nTail _).getD c.m_nTail 0 = _
    rw [e1, e2, uintx_t.getD_set, if_pos ⟨rfl, by rw [hl]; exact ht⟩,
      Cayley32e.num_eq_numSpec]
  · intro j hj
    show (c1.m_nDelayLine.set c1.m_nTail _).getD j 0 = _
    rw [e1, e2, uintx_t.getD_set, if_neg (fun hh => hj hh.1.symm)]
  · show (c1.m_nTail + 1) % 32 = _
    rw [e2]
  · show Cayley32e.num c1.m_pCurPerm ^^^ _ = _
    rw [Cayley32e.num_eq_numSpec]
  · rw [← Cayley32e.num_eq_numSpec]
    exact Cayley32e.num_lt _

theorem Cayley32e.rand_output_witness :
    (Cayley32.seededOne.NextPerm 0
        = some ({ Cayley32.seededOne with m_pCurPerm := Cayley32.stepZero }, 1) ∧
      Cayley32.seededOne.m_nTail < 32 ∧ Cayley32.seededOne.m_nDelayLine.length = 32) ∧
    ∃ out c2, Cayley32e.rand Cayley32.seededOne 0 = some (out, c2, 1) ∧
      c2.m_pCurPerm = Cayley32.stepZero ∧
      c2.m_nDelayLine.getD 0 0 = Cayley32e.numSpec Cayley32.stepZero ∧
      c2.m_nTail = 1 ∧
      out = Cayley32e.numSpec Cayley32.stepZero ^^^ c2.m_nDelayLine.getD c2.m_nTail 0 := by
  refine ⟨⟨Cayley32.NextPerm_zero, by decide, by decide⟩, ?_⟩
  obtain ⟨out, c2, h1, h2, -, -, -, -, -, h8, -, h10, h11, -⟩ :=
    Cayley32e.rand_output Cayley32.seededOne _ 0 1 Cayley32.NextPerm_zero (by decide)
      (by decide)
  exact ⟨out, c2, h1, h2, h8, h10, h11⟩

/-- C13: two engines `Cayley32` seeded with the same seed 1 are in the same state `seededOne`.
The first call of `rand()` on one of them runs with parity 0, returns 2079350733731690469 and
leaves the shared parity 1; the first call on the other then runs with parity 1 and returns
13478094467035858464: the two first values differ. -/
theorem Cayley32.rand_first_values_differ :
    (Cayley32.new.bind fun e => Cayley32.srand 5460 e [1]) = some Cayley32.seededOne ∧
    (Cayley32e.rand Cayley32.seededOne 0).map (fun r => (r.1, r.2.2))
      = some (2079350733731690469, 1) ∧
    (Cayley32e.rand Cayley32.seededOne 1).map (fun r => (r.1, r.2.2))
      = some (13478094467035858464, 0) ∧
    (2079350733731690469 : Nat) ≠ 13478094467035858464 := by
  refine ⟨Cayley32.srand_one, ?_, ?_, by decide⟩
  · rw [Cayley32.rand_zero]; rfl
  · rw [Cayley32.rand_one]; rfl

/-- C14 as stated fails: the engine seeded with 1 that has returned one value of `rand()` has
its tail at 1 and a changed delay line, and `srand(1)` on that state returns an engine with the
tail still 1 and a delay line that is not the 32 initial constants. -/
theorem Cayley32.srand_keeps_tail :
    ∃ out c1 c2, (Cayley32.new.bind fun e => Cayley32.srand 5460 e [1])
        = some Cayley32.seededOne ∧
      Cayley32e.rand Cayley32.seededOne 0 = some (out, c1, 1) ∧
      Cayley32.srand 5460 c1 [1] = some c2 ∧ c2.m_nTail = 1 ∧
      c2.m_nDelayLine ≠ initialDelayLine := by
  refine ⟨_, _, _, Cayley32.srand_one, Cayley32.rand_zero,
    Cayley32.srand_eq 5460 _ [1] (Nat.le_refl _) (by decide) rfl rfl (by decide) (by decide),
    rfl, ?_⟩
  show initialDelayLine.set 0 2288629442395688344 ≠ initialDelayLine
  decide

/-- C15: a new `Cayley32` engine is seeded once `srand(seed)` has returned, for every well-formed
normalized seed (so is a seeded one that is seeded again), and a new `Cayley32e` engine is
seeded once `srand(rnd)` has returned.  On
every seeded engine `c` and parity `i < 2`, `rand()` returns: the exponent
`D[t] mod m_nOrder` is below the number of entries of the table it indexes, the tail is below
32 before and after, the current permutation stays a bijection of size 32, and the engine is
seeded again; so every number `k` of successive calls returns `k` values below `2 ^ 64`. -/
theorem Cayley32e.rand_total (c : CCayley) (i k : Nat) (hc : c.Seeded) (hi : i < 2) :
    (∃ out c2, Cayley32e.rand c i = some (out, c2, 1 - i) ∧ out < 2 ^ 64 ∧
      c.m_nDelayLine.getD c.m_nTail 0 % c.m_nOrder
        < (if i = 0 then c.m_nPower0 else c.m_nPower1).m_stdPower.length ∧
      c.m_nTail < 32 ∧ c2.m_nTail < 32 ∧
      c2.m_pCurPerm.IsBijection ∧ c2.m_pCurPerm.m_nSize = 32 ∧ c2.Seeded) ∧
    (∃ r, Cayley32e.randLoop k c i = some r ∧ r.1.length = k ∧ (∀ v ∈ r.1, v < 2 ^ 64) ∧
      r.2.1.Seeded ∧ r.2.2 < 2) ∧
    (∀ (fuel : Nat) (seed : uintx_t), WF seed → Normalized seed → 5460 ≤ fuel →
      32 * seed.length + 1 ≤ fuel →
      ∃ e, (Cayley32.new.bind fun e => Cayley32.srand fuel e seed) = some e ∧ e.Seeded) ∧
    (∀ (fuel : Nat) (seed : uintx_t) (c0 : CCayley), c0.Seeded → c0.m_nOrder = 5460 →
      WF seed → Normalized seed → 5460 ≤ fuel → 32 * seed.length + 1 ≤ fuel →
      ∃ e, Cayley32.srand fuel c0 seed = some e ∧ e.Seeded) ∧
    (∀ (fuel : Nat) (rnd : Nat → Nat) (pos : Nat) (r : CCayley × Nat),
      (Cayley32e.new.bind fun e => CCayley.srand fuel e rnd pos) = some r → r.1.Seeded) := by
  refine ⟨?_, Cayley32e.randLoop_seeded k c i hc hi, ?_, ?_, ?_⟩
  · obtain ⟨g, out, c2, -, h2, h3, -, -, h6, h7⟩ := Cayley32e.rand_seeded c i hc hi
    exact ⟨out, c2, h3, h6, h2, hc.2.2.2.2.2.2.2, h7.2.2.2.2.2.2.2, h7.2.2.2.2.2.1.1,
      h7.2.2.2.2.2.1.2, h7⟩
  · intro fuel seed hw hnorm hf hf2
    rw [Cayley32.new_eq, Option.some_bind]
    refine ⟨_, Cayley32.srand_eq fuel _ seed hf hf2 rfl rfl hw hnorm, ?_⟩
    exact Cayley32.seeded_of_tables _ rfl rfl ⟨CPerm.unrank_isBijection 32 _, rfl⟩
      Cayley32.initialDelayLine_lt (by show 0 < 32; decide) rfl rfl
  · intro fuel seed c0 h0 ho hw hnorm hf hf2
    refine ⟨_, Cayley32.srand_eq fuel c0 seed hf hf2 ho h0.2.2.2.2.2.1.2 hw hnorm, ?_⟩
    exact Cayley32.seeded_of_tables _ h0.1 ho ⟨CPerm.unrank_isBijection 32 _, rfl⟩
      h0.2.2.2.2.2.2.1 h0.2.2.2.2.2.2.2 rfl rfl
  · intro fuel rnd pos r h
    exact CCayley.srand_seeded fuel rnd pos r h

theorem Cayley32e.rand_total_witness :
    (Cayley32.seededOne.Seeded ∧ 0 < 2) ∧
    ∃ r, Cayley32e.randLoop 3 Cayley32.seededOne 0 = some r ∧ r.1.length = 3 ∧
      (∀ v ∈ r.1, v < 2 ^ 64) ∧ r.2.1.Seeded ∧ r.2.2 < 2 :=
  ⟨⟨Cayley32.seededOne_seeded, by decide⟩,
    (Cayley32e.rand_total Cayley32.seededOne 0 3 Cayley32.seededOne_seeded (by decide)).2.1⟩

open uintx_t

/-- C17: for a bijection `p` of size `1 <= n <= 64`, `Randomize` depends on the generator only
through the `n - 1` reduced draws `j_i = rng_i mod (n - i)`, a tuple with `j_i < n - i`; every
such tuple is the tuple of reduced draws of some generator; two runs give the same permutation
exactly when their tuples of reduced draws are equal; every bijection of size `n` is the result
of some run; and the number of tuples, the product of the `n - i`, is `n!`. -/
theorem CPerm.Randomize_bijection (p : CPerm) (hb : p.IsBijection) (hn1 : 1 ≤ p.m_nSize)
    (hn : p.m_nSize ≤ 64) :
    (∀ (rng : Nat → Nat) (pos : Nat),
      (p.Randomize rng pos).1.m_nMap
        = CPerm.shuffle 0 (CPerm.draws p.m_nSize rng pos 0 (p.m_nSize - 1)) p.m_nMap ∧
      (CPerm.draws p.m_nSize rng pos 0 (p.m_nSize - 1)).length = p.m_nSize - 1 ∧
      CPerm.ValidDraws p.m_nSize 0 (CPerm.draws p.m_nSize rng pos 0 (p.m_nSize - 1)) ∧
      (p.Randomize rng pos).1.IsBijection ∧ (p.Randomize rng pos).1.m_nSize = p.m_nSize) ∧
    (∀ ds : List Nat, ds.length = p.m_nSize - 1 → CPerm.ValidDraws p.m_nSize 0 ds →
      ∃ rng : Nat → Nat, CPerm.draws p.m_nSize rng 0 0 (p.m_nSize - 1) = ds) ∧
    (∀ (rng1 rng2 : Nat → Nat) (pos1 pos2 : Nat),
      (p.Randomize rng1 pos1).1 = (p.Randomize rng2 pos2).1 ↔
        CPerm.draws p.m_nSize rng1 pos1 0 (p.m_nSize - 1)
          = CPerm.draws p.m_nSize rng2 pos2 0 (p.m_nSize - 1)) ∧
    (∀ q : CPerm, q.IsBijection → q.m_nSize = p.m_nSize →
      ∃ rng : Nat → Nat, (p.Randomize rng 0).1 = q) ∧
    ((List.range (p.m_nSize - 1)).map fun i => p.m_nSize - i).prod
      = p.m_nSize.factorial := by
  have hv : ∀ (rng : Nat → Nat) (pos : Nat),
      CPerm.ValidDraws p.m_nMap.length 0 (CPerm.draws p.m_nSize rng pos 0 (p.m_nSize - 1)) := by
    intro rng pos
    rw [hb.1]
    exact CPerm.validDraws_draws _ _ _ _ _ (by omega)
  have hreal : ∀ ds : List Nat, ds.length = p.m_nSize - 1 → CPerm.ValidDraws p.m_nSize 0 ds →
      ∃ rng : Nat → Nat, CPerm.draws p.m_nSize rng 0 0 (p.m_nSize - 1) = ds := by
    intro ds hl hd
    refine ⟨fun k => ds.getD k 0, ?_⟩
    rw [← hl]
    exact CPerm.draws_of_valid p.m_nSize (by
      calc p.m_nSize ≤ 64 := hn
        _ ≤ 2 ^ 64 := by norm_num) ds 0 0 hd _ (by intro k _; simp)
  refine ⟨?_, hreal, ?_, ?_, CPerm.prod_draw_ranges _ hn1⟩
  · intro rng pos
    have h := hv rng pos
    rw [hb.1] at h
    exact ⟨CPerm.Randomize_map p rng pos, CPerm.length_draws _ _ _ _ _, h,
      CPerm.Randomize_isBijection p rng pos hb⟩
  · intro rng1 rng2 pos1 pos2
    constructor
    · intro h
      have h2 := congrArg CPerm.m_nMap h
      rw [CPerm.Randomize_map, CPerm.Randomize_map] at h2
      exact CPerm.shuffle_inj _ _ 0 p.m_nMap hb.2.1 (hv rng1 pos1) (hv rng2 pos2)
        (by rw [CPerm.length_draws, CPerm.length_draws]) h2
    · intro h
      exact CPerm.eq_of_map_eq (by rfl) (by rw [CPerm.Randomize_map, CPerm.Randomize_map, h])
  · intro q hq hs
    have hperm : p.m_nMap.Perm q.m_nMap := by
      have h1 := CPerm.perm_of_isBijection hb
      have h2 := CPerm.perm_of_isBijection hq
      rw [hs] at h2
      exact h1.trans h2.symm
    obtain ⟨ds, d1, d2, d3⟩ := CPerm.shuffle_surj (p.m_nSize - 1) 0 p.m_nMap q.m_nMap hb.2.1
      hperm (by rw [hb.1]; omega) (by intro k hk; omega)
    rw [hb.1] at d2
    obtain ⟨rng, hr⟩ := hreal ds d1 d2
    refine ⟨rng, CPerm.eq_of_map_eq hs.symm ?_⟩
    rw [CPerm.Randomize_map, hr, d3]

theorem CPerm.Randomize_bijection_witness :
    ((⟨[0, 1, 2], 3⟩ : CPerm).IsBijection ∧ 1 ≤ 3 ∧ 3 ≤ 64) ∧
    (∃ rng : Nat → Nat, ((⟨[0, 1, 2], 3⟩ : CPerm).Randomize rng 0).1 = ⟨[2, 0, 1], 3⟩) ∧
    ((List.range (3 - 1)).map fun i => 3 - i).prod = Nat.factorial 3 :=
  ⟨⟨by decide, by decide, by decide⟩,
    (CPerm.Randomize_bijection ⟨[0, 1, 2], 3⟩ (by decide) (by decide) (by decide)).2.2.2.1
      ⟨[2, 0, 1], 3⟩ (by decide) rfl,
    (CPerm.Randomize_bijection ⟨[0, 1, 2], 3⟩ (by decide) (by decide) (by decide)).2.2.2.2⟩

open uintx_t

/-- C21: for well-formed normalized `x` and `y`, `x -= y` is canonical with the value
`value x - value y`, that is 0 when `value x <= value y`; `(x + y) - y` has the value of `x` and
is `x` itself when `x` has a word; `100000000 - 1` is `FFFFFFFF`. -/
theorem uintx_t.operator_sub_value (x y : uintx_t) (hx : WF x) (hnx : Normalized x)
    (hy : WF y) (hny : Normalized y) :
    Canonical (operator_sub_assign x y) ∧
    (value y ≤ value x → value (operator_sub_assign x y) + value y = value x) ∧
    (value x ≤ value y → value (operator_sub_assign x y) = 0) ∧
    value (operator_sub_assign (operator_add x y) y) = value x ∧
    (1 ≤ x.length → operator_sub_assign (operator_add x y) y = x) ∧
    (ofString "100000000").bind (fun a => (ofString "1").map fun b => operator_sub_assign a b)
      = ofString "FFFFFFFF" := by
  obtain ⟨s1, s2⟩ := operator_sub_normalized hx hnx hy hny
  obtain ⟨a1, a2, a3⟩ := operator_add_normalized hx hnx hy hny
  obtain ⟨b1, b2⟩ := operator_sub_normalized a1 a2 hy hny
  have hv : value (operator_sub_assign (operator_add x y) y) = value x := by
    show value (operator_sub_assign (operator_add_assign x y) y) = value x
    rw [b2, a3]
    omega
  refine ⟨s1, fun h => by rw [s2]; omega, fun h => by rw [s2]; omega, hv, ?_, by decide⟩
  intro hl
  exact Canonical.eq_of_value_eq b1 ⟨hx, hl, hnx⟩ hv

theorem uintx_t.operator_sub_value_witness :
    (WF [0, 1] ∧ Normalized [0, 1] ∧ WF [1] ∧ Normalized [1]) ∧
    Canonical (operator_sub_assign [0, 1] [1]) ∧
    (value [1] ≤ value [0, 1] → value (operator_sub_assign [0, 1] [1]) + value [1]
      = value [0, 1]) :=
  ⟨⟨by decide, by decide, by decide, by decide⟩,
    (uintx_t.operator_sub_value [0, 1] [1] (by decide) (by decide) (by decide) (by decide)).1,
    (uintx_t.operator_sub_value [0, 1] [1] (by decide) (by decide) (by decide)
      (by decide)).2.1⟩

/-- C25: the canonical number `[0, 1, 2]`, of value `2^65 + 2^32`, shifted right by 65 gives
`[2147483649]`: the word copy moves only word 2, the stale word 1 is shifted into the result,
and the value should be `floor((2^65 + 2^32) / 2^65) = 1`. -/
theorem uintx_t.operator_shr_stale_word :
    Canonical [0, 1, 2] ∧ value [0, 1, 2] = 2 ^ 65 + 2 ^ 32 ∧
    operator_shr_assign [0, 1, 2] 65 = [2147483649] ∧
    value [0, 1, 2] / 2 ^ 65 = 1 ∧
    value (operator_shr_assign [0, 1, 2] 65) ≠ value [0, 1, 2] / 2 ^ 65 := by
  decide

/-- C26: for canonical `x` and `y` (well formed, normalized, at least one word) the comparisons
agree with the order of the values: `>`, `>=`, `==`, `<`, `<=` and `!=`. -/
theorem uintx_t.comparisons_value (x y : uintx_t) (hx : Canonical x) (hy : Canonical y) :
    (operator_gt x y = true ↔ value x > value y) ∧
    (operator_ge x y = true ↔ value x ≥ value y) ∧
    (operator_eq x y = true ↔ value x = value y) ∧
    (operator_lt x y = true ↔ value x < value y) ∧
    (operator_le x y = true ↔ value x ≤ value y) ∧
    (operator_ne x y = true ↔ value x ≠ value y) := by
  refine ⟨?_, ?_, operator_eq_canonical hx hy, ?_, ?_, ?_⟩
  · rw [operator_gt_eq hx hy]; simp
  · rw [operator_ge_eq hx hy]; simp
  · unfold operator_lt
    rw [operator_gt_eq hy hx]; simp
  · rw [operator_le_eq hx hy]; simp
  · unfold operator_ne
    rw [Ne, ← operator_eq_canonical hx hy]
    simp

theorem uintx_t.comparisons_value_witness :
    (Canonical [5, 1] ∧ Canonical [7]) ∧
    (operator_gt [5, 1] [7] = true ↔ value [5, 1] > value [7]) ∧
    (operator_eq [5, 1] [7] = true ↔ value [5, 1] = value [7]) :=
  ⟨⟨by decide, by decide⟩,
    (uintx_t.comparisons_value [5, 1] [7] (by decide) (by decide)).1,
    (uintx_t.comparisons_value [5, 1] [7] (by decide) (by decide)).2.2.1⟩

/-- C28: the string constructor and the string assignment on `000000001` (9 digits) give the
two words `[1, 0]`, whose most significant word is 0; and `[0, 1] & [0, 2]`, on two canonical
numbers, is `[0, 0]`: neither result is normalized. -/
theorem uintx_t.not_normalized :
    ofString "000000001" = some [1, 0] ∧ operator_assign_string [] "000000001" = some [1, 0] ∧
    ¬ Normalized [1, 0] ∧
    Canonical [0, 1] ∧ Canonical [0, 2] ∧ operator_and [0, 1] [0, 2] = [0, 0] ∧
    ¬ Normalized [0, 0] := by
  decide

/-- C29: `[4294967295, 1] & [1]` is `[1, 1]`, of value `2^32 + 1`, where the bitwise and of the
values is 1 (the words of `x` above the length of `y` are kept); `[1] | [0, 1]` is `[1]`, where
the bitwise or of the values is `2^32 + 1` (the words of `y` above the length of `x` are
dropped). -/
theorem uintx_t.and_or_lengths :
    Canonical [4294967295, 1] ∧ Canonical [1] ∧ Canonical [0, 1] ∧
    operator_and [4294967295, 1] [1] = [1, 1] ∧
    value (operator_and [4294967295, 1] [1]) = 2 ^ 32 + 1 ∧
    value [4294967295, 1] &&& value [1] = 1 ∧
    operator_or [1] [0, 1] = [1] ∧ value (operator_or [1] [0, 1]) = 1 ∧
    value [1] ||| value [0, 1] = 2 ^ 32 + 1 := by
  decide

/-- C30: the seed of `main`, a number of one word (`9999999`, then `999999` by assignment), has
no word 1, which `operator uint64_t()` reads: the cast is outside the array; the cast to
`uint32_t` reads word 0. -/
theorem uintx_t.operator_uint64_one_word :
    ofInt 9999999 = [9999999] ∧ assignInt (ofInt 9999999) 999999 = [999999] ∧
    operator_uint64 (assignInt (ofInt 9999999) 999999) = none ∧
    operator_uint64 (ofInt 9999999) = none ∧
    operator_uint32 (assignInt (ofInt 9999999) 999999) = 999999 ∧
    operator_uint64 [5, 7] = some (7 * 2 ^ 32 + 5) := by
  decide

open uintx_t

/-- C27, amended: for every non-empty string `s` of decimal digits and capitals `A` to `F` with
no leading zero (the single digit `0` allowed), the constructor from a string succeeds and
`GetString` of the number it makes is `s`. -/
theorem uintx_t.getString_ofString (s : String) (hne : s.toList ≠ [])
    (hup : ∀ c ∈ s.toList, c ∈ upperHex)
    (hlead : s.toList.length = 1 ∨ s.toList.head? ≠ some '0') :
    (ofString s).bind GetString = some s :=
  GetString_after_ofString s hne hup hlead

/-- The round trip of C27 at the string `1FFFFFFFE` of nine digits, and at `0`. -/
theorem uintx_t.getString_ofString_witness :
    ("1FFFFFFFE".toList ≠ [] ∧ (∀ c ∈ "1FFFFFFFE".toList, c ∈ upperHex) ∧
      ("1FFFFFFFE".toList.length = 1 ∨ "1FFFFFFFE".toList.head? ≠ some '0')) ∧
    (ofString "1FFFFFFFE").bind GetString = some "1FFFFFFFE" :=
  ⟨⟨by decide, by decide, by decide⟩,
    uintx_t.getString_ofString "1FFFFFFFE" (by decide) (by decide) (by decide)⟩

/-- C27 as stated fails on lower case: `a` and `ff` are hex strings the constructor accepts,
without leading zero, and `GetString` renders them in capitals, `A` and `FF`. -/
theorem uintx_t.getString_lower_case :
    ofString "a" = some [10] ∧ (ofString "a").bind GetString = some "A" ∧
    (ofString "a").bind GetString ≠ some "a" ∧
    (ofString "ff").bind GetString = some "FF" ∧
    (ofString "ff").bind GetString ≠ some "ff" := by
  decide

open uintx_t

/-- C31: the string constructor and the string assignment yield no value exactly when the
string holds a character outside `0-9`, `A-F`, `a-f` (the `assert(false)` of `loadstring`);
on a string of such digits, in either case, both give the same number, whose value is the one
the string denotes in base 16. -/
theorem uintx_t.ofString_fails_iff (s : String) (x0 : uintx_t) :
    (ofString s = none ↔ ∃ c ∈ s.toList, c ∉ hexChars) ∧
    (operator_assign_string x0 s = none ↔ ∃ c ∈ s.toList, c ∉ hexChars) ∧
    ((∀ c ∈ s.toList, c ∈ hexChars) →
      ∃ x, ofString s = some x ∧ operator_assign_string x0 s = some x ∧ WF x ∧
        value x = hexNumber s.toList) := by
  refine ⟨ofString_eq_none_iff s, ?_, fun h => ?_⟩
  · rw [operator_assign_string_eq]
    exact ofString_eq_none_iff s
  · obtain ⟨x, x1, x2, -, x4⟩ := ofString_hexNumber s h
    exact ⟨x, x1, by rw [operator_assign_string_eq, x1], x2, x4⟩

/-- C31 on the strings `1fA`, which denotes 506, and `1g`, which is refused. -/
theorem uintx_t.ofString_fails_iff_witness :
    ((∀ c ∈ "1fA".toList, c ∈ hexChars) ∧ hexNumber "1fA".toList = 506 ∧
      ∃ x, ofString "1fA" = some x ∧ operator_assign_string [7, 7] "1fA" = some x ∧ WF x ∧
        value x = hexNumber "1fA".toList) ∧
    ofString "1g" = none :=
  ⟨⟨by decide, by decide, (uintx_t.ofString_fails_iff "1fA" [7, 7]).2.2 (by decide)⟩,
    (uintx_t.ofString_fails_iff "1g" []).1.mpr ⟨'g', by decide, by decide⟩⟩

/-- C32: `5 / 0` and `5 % 0` do not report a failure: the divisor copy `w = 0` satisfies
`w <= y` and `w <<= 1` leaves it 0, so the loop `while(w <= y) w <<= 1;` never ends and no
number of rounds makes either operator return. -/
theorem uintx_t.operator_div_by_zero (fuel : Nat) :
    operator_le [0] [5] = true ∧ operator_shl_assign [0] 1 = [0] ∧
    operator_div fuel [5] [0] = none ∧ operator_mod fuel [5] [0] = none :=
  ⟨by decide, by decide, (operator_div_mod_zero (by decide) fuel).1,
    (operator_div_mod_zero (by decide) fuel).2⟩

/-- C33: `CCayley(64)` fails on `assert(n < 64)`, although the table `g_nLandau` has 65 entries
and its entry 64 is 2042040; `CCayley(63)` is the last size that is constructed, and
`CCayley(65)` fails too. -/
theorem CCayley.new_64 :
    CCayley.new 64 = none ∧ g_nLandau.length = 65 ∧ g_nLandau.getD 64 0 = 2042040 ∧
    CCayley.new 63 = some ⟨63, 1141140, CPowerTable.empty, CPowerTable.empty, CPerm.identity 63,
      initialDelayLine, 0⟩ ∧
    CCayley.new 1 = some ⟨1, 1, CPowerTable.empty, CPowerTable.empty, CPerm.identity 1,
      initialDelayLine, 0⟩ ∧
    CCayley.new 65 = none := by
  refine ⟨rfl, rfl, rfl, rfl, rfl, rfl⟩

/-- C34: `operator==` on the identities of sizes 1 and 2 fails on
`assert(p0.m_nSize == p1.m_nSize)` and returns nothing, and so does `operator!=`, which calls
it; on two permutations of size 2 they return the comparison of the arrays. -/
theorem CPerm.operator_eq_sizes :
    CPerm.operator_eq (CPerm.identity 1) (CPerm.identity 2) = none ∧
    CPerm.operator_ne (CPerm.identity 1) (CPerm.identity 2) = none ∧
    CPerm.operator_eq (CPerm.identity 2) (CPerm.identity 2) = some true ∧
    CPerm.operator_eq (CPerm.identity 2) ⟨[1, 0], 2⟩ = some false ∧
    CPerm.operator_ne (CPerm.identity 2) ⟨[1, 0], 2⟩ = some true := by
  decide

/-- C35, amended: every one of the 32 strings of `rand()` is a nonzero constant below `2^64`;
the strings at the places 0, 2, 8, 9, 10, 13, 14, 17, 18, 19, 22, 24, 30 and 31 are odd and
the other 18 are even.  The strings are the ones `num` multiplies the map entries by. -/
theorem Cayley32e.keys_nonzero (perm : CPerm) (i : Nat) (hi : i < 32) :
    0 < Cayley32e.keys.getD i 0 ∧ Cayley32e.keys.getD i 0 < 2 ^ 64 ∧
    (Cayley32e.keys.getD i 0 % 2 = 1 ↔
      i ∈ [0, 2, 8, 9, 10, 13, 14, 17, 18, 19, 22, 24, 30, 31]) ∧
    Cayley32e.num perm = Cayley32e.numSpec perm := by
  refine ⟨?_, ?_, ?_, Cayley32e.num_eq_numSpec perm⟩ <;> interval_cases i <;> decide

/-- C35, amended, at the place 1: an even string. -/
theorem Cayley32e.keys_nonzero_witness :
    1 < 32 ∧ 0 < Cayley32e.keys.getD 1 0 ∧ Cayley32e.keys.getD 1 0 < 2 ^ 64 ∧
    (Cayley32e.keys.getD 1 0 % 2 = 1 ↔
      1 ∈ [0, 2, 8, 9, 10, 13, 14, 17, 18, 19, 22, 24, 30, 31]) :=
  ⟨by decide, (Cayley32e.keys_nonzero (CPerm.identity 32) 1 (by decide)).1,
    (Cayley32e.keys_nonzero (CPerm.identity 32) 1 (by decide)).2.1,
    (Cayley32e.keys_nonzero (CPerm.identity 32) 1 (by decide)).2.2.1⟩

/-- C35 as stated fails at the place 1: on the map with entry 1 at place 1 and 0 elsewhere
`num` is the string of that place, `3d43a82e494a9972`, which is even; 18 of the 32 strings
are even. -/
theorem Cayley32e.keys_even :
    Cayley32e.num ⟨[0, 1], 2⟩ = 0x3d43a82e494a9972 ∧
    Cayley32e.keys.getD 1 0 = 0x3d43a82e494a9972 ∧ Cayley32e.keys.getD 1 0 % 2 = 0 ∧
    (Cayley32e.keys.filter fun k => k % 2 = 0).length = 18 := by
  decide

open uintx_t

/-- C36: for every permutation `p` whose array is a bijection, `Initialize(p)` returns: with
`k` the order of `p` (the least positive power that is the identity), `k` divides `n!`, the
loop makes `k` tests, that is `k - 1` rounds, so every budget of at least `k` tests gives the
table of `k` entries and the order `k`, and no smaller budget is enough. -/
theorem CPowerTable.initialize_terminates (p : CPerm) (hb : p.IsBijection) :
    ∃ k, 1 ≤ k ∧ k ∣ p.m_nSize.factorial ∧ CPerm.pow p k = CPerm.identity p.m_nSize ∧
      (∀ j, 0 < j → j < k → CPerm.pow p j ≠ CPerm.identity p.m_nSize) ∧
      ∀ (fuel : Nat) (t : CPowerTable),
        (k ≤ fuel → ∃ tab, CPowerTable.Initialize fuel t p = some tab ∧ tab.GetOrder = k ∧
          tab.m_stdPower.length = k) ∧
        (fuel < k → CPowerTable.Initialize fuel t p = none) := by
  obtain ⟨k, k1, k2, k3, k4, -⟩ := CPerm.exists_order hb
  refine ⟨k, k1, k2, k3, k4, fun fuel t => ⟨fun hf => ?_, fun hf => ?_⟩⟩
  · refine ⟨_, CPowerTable.Initialize_of_order p hb k k1 k3 k4 fuel hf t, rfl, ?_⟩
    simp only [List.length_map, List.length_range]
  · exact CPowerTable.Initialize_short p hb k k4 fuel hf t

/-- C36 on the cycle `0 -> 1 -> 2 -> 0`. -/
theorem CPowerTable.initialize_terminates_witness :
    (⟨[1, 2, 0], 3⟩ : CPerm).IsBijection ∧
    ∃ k, 1 ≤ k ∧ k ∣ (3).factorial ∧ CPerm.pow ⟨[1, 2, 0], 3⟩ k = CPerm.identity 3 ∧
      (∀ j, 0 < j → j < k → CPerm.pow ⟨[1, 2, 0], 3⟩ j ≠ CPerm.identity 3) ∧
      ∀ (fuel : Nat) (t : CPowerTable),
        (k ≤ fuel → ∃ tab, CPowerTable.Initialize fuel t ⟨[1, 2, 0], 3⟩ = some tab ∧
          tab.GetOrder = k ∧ tab.m_stdPower.length = k) ∧
        (fuel < k → CPowerTable.Initialize fuel t ⟨[1, 2, 0], 3⟩ = none) :=
  ⟨by decide, CPowerTable.initialize_terminates ⟨[1, 2, 0], 3⟩ (by decide)⟩

/-- C37: on a new `Cayley32` engine `c` after `srand(seed)`, for a well-formed normalized seed
and a parity `i` of `NextPerm`, call `k` of `rand()` (from 0) returns; its exponent
`m_nDelayLine[m_nTail] % m_nOrder` is `D0[k] mod 5460` for `k < 32` and `num_(k-32) mod 5460`
after that, the current permutation is multiplied by that power of the generator of parity
`(i + k) mod 2`, and the value returned is `num_k xor D0[k+1]` for `k < 31` and
`num_k xor num_(k-31)` after that; `num_j` is `rawWord c i j`. -/
theorem Cayley32.delay_line_recurrence (fuel : Nat) (seed : uintx_t) (i k : Nat) (hw : WF seed)
    (hnorm : Normalized seed) (hf : 5460 ≤ fuel) (hf2 : 32 * seed.length + 1 ≤ fuel)
    (hi : i < 2) :
    ∃ c, (Cayley32.new.bind fun e => Cayley32.srand fuel e seed) = some c ∧
      ∃ outs ck ik g out ck1, Cayley32e.randLoop k c i = some (outs, ck, ik) ∧
        ik = (i + k) % 2 ∧
        ck.m_nDelayLine.getD ck.m_nTail 0 % ck.m_nOrder
          = (if k < 32 then initialDelayLine.getD k 0 else Cayley32e.rawWord c i (k - 32))
            % 5460 ∧
        (if ik = 0 then c.m_nPower0 else c.m_nPower1).get
          ((if k < 32 then initialDelayLine.getD k 0 else Cayley32e.rawWord c i (k - 32))
            % 5460) = some g ∧
        Cayley32e.rand ck ik = some (out, ck1, 1 - ik) ∧
        Cayley32e.randLoop (k + 1) c i = some (outs ++ [out], ck1, 1 - ik) ∧
        ck1.m_pCurPerm = ck.m_pCurPerm.operator_mul_assign g ∧
        Cayley32e.rawWord c i k = Cayley32e.num ck1.m_pCurPerm ∧
        out = Cayley32e.rawWord c i k ^^^
          (if k < 31 then initialDelayLine.getD (k + 1) 0
            else Cayley32e.rawWord c i (k - 31)) := by
  obtain ⟨c, c1, c2, c3, c4, c5⟩ := Cayley32.srand_new fuel seed hw hnorm hf hf2
  have h := Cayley32e.rand_recurrence c i c2 hi c5 k
  rw [c3, c4] at h
  exact ⟨c, c1, h⟩

/-- C37 at the seed 1 and call 40, the parity being 0 at the first call. -/
theorem Cayley32.delay_line_recurrence_witness :
    (WF [1] ∧ Normalized [1] ∧ 5460 ≤ 5460 ∧ 32 * [1].length + 1 ≤ 5460 ∧ 0 < 2) ∧
    ∃ c, (Cayley32.new.bind fun e => Cayley32.srand 5460 e [1]) = some c ∧
      ∃ outs ck ik g out ck1, Cayley32e.randLoop 40 c 0 = some (outs, ck, ik) ∧
        ik = (0 + 40) % 2 ∧
        ck.m_nDelayLine.getD ck.m_nTail 0 % ck.m_nOrder
          = (if 40 < 32 then initialDelayLine.getD 40 0 else Cayley32e.rawWord c 0 (40 - 32))
            % 5460 ∧
        (if ik = 0 then c.m_nPower0 else c.m_nPower1).get
          ((if 40 < 32 then initialDelayLine.getD 40 0 else Cayley32e.rawWord c 0 (40 - 32))
            % 5460) = some g ∧
        Cayley32e.rand ck ik = some (out, ck1, 1 - ik) ∧
        Cayley32e.randLoop (40 + 1) c 0 = some (outs ++ [out], ck1, 1 - ik) ∧
        ck1.m_pCurPerm = ck.m_pCurPerm.operator_mul_assign g ∧
        Cayley32e.rawWord c 0 40 = Cayley32e.num ck1.m_pCurPerm ∧
        out = Cayley32e.rawWord c 0 40 ^^^
          (if 40 < 31 then initialDelayLine.getD (40 + 1) 0
            else Cayley32e.rawWord c 0 (40 - 31)) :=
  ⟨⟨by decide, by decide, Nat.le_refl _, by decide, by decide⟩,
    Cayley32.delay_line_recurrence 5460 [1] 0 40 (by decide) (by decide) (Nat.le_refl _)
      (by decide) (by decide)⟩

/-- C38: for every bijection `perm` of size 32 and every `i < 10`, exchanging the map entries
at `i` and `i + 22` gives a different bijection with the same `num`: the string at `i + 22` is
the string at `i`, and the 32 strings take 22 distinct values. -/
theorem Cayley32e.num_not_injective (perm : CPerm) (i : Nat) (hb : perm.IsBijection)
    (hs : perm.m_nSize = 32) (hi : i < 10) :
    (⟨CPerm.swap perm.m_nMap i (i + 22), perm.m_nSize⟩ : CPerm).IsBijection ∧
    (⟨CPerm.swap perm.m_nMap i (i + 22), perm.m_nSize⟩ : CPerm) ≠ perm ∧
    Cayley32e.num ⟨CPerm.swap perm.m_nMap i (i + 22), perm.m_nSize⟩ = Cayley32e.num perm ∧
    Cayley32e.keys.getD (i + 22) 0 = Cayley32e.keys.getD i 0 ∧
    Cayley32e.keys.dedup.length = 22 := by
  obtain ⟨s1, s2⟩ := CPerm.swap_isBijection_ne perm hb i (i + 22) (by omega) (by omega)
    (by omega)
  refine ⟨s1, s2, Cayley32e.num_swap perm i hi (by rw [hb.1, hs]), ?_, by decide⟩
  interval_cases i <;> rfl

/-- C38 on the identity of size 32 and the places 3 and 25. -/
theorem Cayley32e.num_not_injective_witness :
    ((CPerm.identity 32).IsBijection ∧ (CPerm.identity 32).m_nSize = 32 ∧ 3 < 10) ∧
    (⟨CPerm.swap (CPerm.identity 32).m_nMap 3 (3 + 22), (CPerm.identity 32).m_nSize⟩
      : CPerm) ≠ CPerm.identity 32 ∧
    Cayley32e.num ⟨CPerm.swap (CPerm.identity 32).m_nMap 3 (3 + 22),
      (CPerm.identity 32).m_nSize⟩ = Cayley32e.num (CPerm.identity 32) :=
  ⟨⟨CPerm.identity_isBijection 32, rfl, by decide⟩,
    (Cayley32e.num_not_injective (CPerm.identity 32) 3 (CPerm.identity_isBijection 32) rfl
      (by decide)).2.1,
    (Cayley32e.num_not_injective (CPerm.identity 32) 3 (CPerm.identity_isBijection 32) rfl
      (by decide)).2.2.1⟩

open uintx_t

/-- C39: for bijections `p` and `q` of the same size `n`, `1 <= n <= 255`,
`p.GetNum() < q.GetNum()` (by `operator<`, and as values) exactly when the array of `p` read
from index `n - 1` down to 0 is lexicographically smaller than that of `q`; `CPerm(n, 0)` is
the reversal `i -> n - 1 - i`, and the identity has the rank `n! - 1`. -/
theorem CPerm.getNum_reverse_lex (p q : CPerm) (fuel : Nat) (hp : p.IsBijection)
    (hq : q.IsBijection) (hs : p.m_nSize = q.m_nSize) (hn1 : 1 ≤ p.m_nSize)
    (hn : p.m_nSize ≤ 255) (hf : 33 ≤ fuel) :
    (operator_lt (CPerm.GetNum p) (CPerm.GetNum q) = true ↔
      List.Lex (· < ·) p.m_nMap.reverse q.m_nMap.reverse) ∧
    (value (CPerm.GetNum p) < value (CPerm.GetNum q) ↔
      List.Lex (· < ·) p.m_nMap.reverse q.m_nMap.reverse) ∧
    (∃ r, CPerm.ofNumber fuel p.m_nSize (ofInt 0) = some r ∧ r.m_nSize = p.m_nSize ∧
      r.m_nMap = (List.range p.m_nSize).reverse ∧
      ∀ i, i < p.m_nSize → r.get i = p.m_nSize - 1 - i) ∧
    value (CPerm.GetNum (CPerm.identity p.m_nSize)) = p.m_nSize.factorial - 1 := by
  obtain ⟨cp, vp⟩ := CPerm.GetNum_spec p hp.1 hn1 (by omega)
  obtain ⟨cq, vq⟩ := CPerm.GetNum_spec q hq.1 (by omega) (by omega)
  have hperm : p.m_nMap.Perm q.m_nMap :=
    (CPerm.perm_of_isBijection hp).trans (hs ▸ (CPerm.perm_of_isBijection hq).symm)
  have hlex := CPerm.rankVal_lt_iff p.m_nSize p.m_nMap q.m_nMap hp.1 hp.2.1 hperm
  refine ⟨?_, ?_, ?_, ?_⟩
  · show operator_gt (CPerm.GetNum q) (CPerm.GetNum p) = true ↔ _
    rw [operator_gt_eq cq cp, decide_eq_true_iff, vp, vq]
    exact hlex
  · rw [vp, vq]
    exact hlex
  · refine ⟨_, CPerm.ofNumber_zero fuel p.m_nSize hn1 (by omega) hf, rfl, rfl, fun i hi => ?_⟩
    show (List.range p.m_nSize).reverse.getD i 0 = p.m_nSize - 1 - i
    rw [List.getD_eq_getElem?_getD, List.getElem?_reverse (by simpa using hi)]
    simp only [List.length_range]
    rw [← List.getD_eq_getElem?_getD, CPerm.getD_range _ _ (by omega)]
  · obtain ⟨-, vi⟩ := CPerm.GetNum_spec (CPerm.identity p.m_nSize)
      (CPerm.identity_isBijection _).1 hn1 (by show p.m_nSize ≤ 2 ^ 32; omega)
    rw [vi, CPerm.identity_map]
    have := CPerm.rankVal_range p.m_nSize
    omega

/-- C39 on `(1, 0, 2)` and `(0, 2, 1)` of size 3: read backwards, `2 0 1` comes after
`1 2 0`, and the ranks are 4 and 3. -/
theorem CPerm.getNum_reverse_lex_witness :
    ((⟨[0, 2, 1], 3⟩ : CPerm).IsBijection ∧ (⟨[1, 0, 2], 3⟩ : CPerm).IsBijection ∧
      1 ≤ 3 ∧ 3 ≤ 255 ∧ 33 ≤ 33) ∧
    value (CPerm.GetNum ⟨[0, 2, 1], 3⟩) = 3 ∧ value (CPerm.GetNum ⟨[1, 0, 2], 3⟩) = 4 ∧
    (operator_lt (CPerm.GetNum ⟨[0, 2, 1], 3⟩) (CPerm.GetNum ⟨[1, 0, 2], 3⟩) = true ↔
      List.Lex (· < ·) [1, 2, 0] [2, 0, 1]) ∧
    value (CPerm.GetNum (CPerm.identity 3)) = (3).factorial - 1 :=
  ⟨⟨by decide, by decide, by decide, by decide, Nat.le_refl _⟩, by decide, by decide,
    (CPerm.getNum_reverse_lex ⟨[0, 2, 1], 3⟩ ⟨[1, 0, 2], 3⟩ 33 (by decide) (by decide) rfl
      (by decide) (by decide) (Nat.le_refl _)).1,
    (CPerm.getNum_reverse_lex ⟨[0, 2, 1], 3⟩ ⟨[1, 0, 2], 3⟩ 33 (by decide) (by decide) rfl
      (by decide) (by decide) (Nat.le_refl _)).2.2.2⟩

/-- C40: `1 >> 64` computes `newsize = (1 - 64 + 31) / 32 = -1`, and the last loop of
`operator>>=`, `for(int i=newsize; i<m_nSize; i++) m_pData[i] = 0;`, starts at index `-1`,
below the array: the operator has no defined result, normalized or not (`1 >> 100` starts at
`-2`); `1 >> 63`, with `newsize = 0`, is the normalized 0. -/
theorem uintx_t.operator_shr_below_array :
    Canonical [1] ∧ bitcount [1] = 1 ∧ shrNewsize [1] 64 = -1 ∧ operator_shr [1] 64 = none ∧
    shrNewsize [1] 100 = -2 ∧ operator_shr [1] 100 = none ∧
    shrNewsize [1] 63 = 0 ∧ operator_shr [1] 63 = some [0] := by
  decide

open uintx_t

/-- C3: bijectivity is lost in two places.  The number `uintx_t("000000003")` is the two words
`[3, 0]`; in `CPerm(5, r)` its remainder modulo `5!` comes out as `[536871035, 4294967294]`,
the coefficient `c[4]` is `2527767215`, and `d[c[4]]` is read outside the array of 5 entries:
the constructor returns no permutation.  And `p *= p` on the one object `[1,0,3,2]`, a
bijection, reads entries it has already replaced and leaves `[0,0,2,2]`. -/
theorem CPerm.isBijection_lost :
    (ofString "000000003" = some [3, 0] ∧ WF [3, 0] ∧ value [3, 0] = 3 ∧
      CPerm.factorialLoop 4 1 ((List.replicate 5 []).set 0 (assignInt [] 1))
        = [[1], [1], [2], [6], [24]] ∧
      operator_mul_uint32 [24] 5 = [120] ∧
      operator_mod 65 [3, 0] [120] = some [536871035, 4294967294] ∧
      CPerm.coefficientLoop 65 [[1], [1], [2], [6], [24]] 4 [536871035, 4294967294]
        (List.replicate 5 0) = some [0, 1, 0, 3, 2527767215] ∧
      CPerm.buildLoop [0, 1, 0, 3, 2527767215] 5 (List.range 5) (CPerm.identity 5).m_nMap
        = none ∧
      CPerm.ofNumber 65 5 [3, 0] = none) ∧
    ((⟨[1, 0, 3, 2], 4⟩ : CPerm).IsBijection ∧
      CPerm.operator_mul_assign_self ⟨[1, 0, 3, 2], 4⟩ = ⟨[0, 0, 2, 2], 4⟩ ∧
      ¬ (CPerm.operator_mul_assign_self ⟨[1, 0, 3, 2], 4⟩).IsBijection) := by
  refine ⟨⟨by decide, by decide, by decide, by decide!, by decide!, by decide!, by decide!,
    by decide, by decide!⟩, by decide, by decide, by decide⟩

/-- C14, as the code has it: on an engine of order 5460 whose current permutation has size 32,
for every seed, `srand(seed)` returns exactly where the constructor `CPerm(32, seed)` does
(it does for every well-formed normalized seed, given `32 * length + 1` rounds); the current
permutation is then `CPerm(32, seed)`, the two tables are the ones `Initialize` builds for the
fixed generators `CPerm(32, gen0)` and `CPerm(32, gen1)`, their powers `0 .. 5459`, and the
delay line, the tail, the size and the order are what they were.  On a new engine the delay
line is therefore the 32 initial constants and the tail is 0. -/
theorem Cayley32.srand_every_seed (fuel : Nat) (c : CCayley) (seed : uintx_t)
    (hf : 5460 ≤ fuel) (ho : c.m_nOrder = 5460) (hs : c.m_pCurPerm.m_nSize = 32) :
    Cayley32.srand fuel c seed = (CPerm.ofNumber fuel 32 seed).map (fun p =>
      { c with m_nPower0 := ⟨(List.range 5460).map (CPerm.pow Cayley32.gen0Perm), 5460⟩,
               m_nPower1 := ⟨(List.range 5460).map (CPerm.pow Cayley32.gen1Perm), 5460⟩,
               m_pCurPerm := p }) ∧
    (∀ c2, Cayley32.srand fuel c seed = some c2 →
      CPerm.ofNumber fuel 32 seed = some c2.m_pCurPerm ∧
      c2.m_nDelayLine = c.m_nDelayLine ∧ c2.m_nTail = c.m_nTail ∧
      c2.m_nSize = c.m_nSize ∧ c2.m_nOrder = c.m_nOrder ∧
      CPowerTable.Initialize fuel c.m_nPower0 Cayley32.gen0Perm = some c2.m_nPower0 ∧
      CPowerTable.Initialize fuel c.m_nPower1 Cayley32.gen1Perm = some c2.m_nPower1 ∧
      c2.m_nPower0 = ⟨(List.range 5460).map (CPerm.pow Cayley32.gen0Perm), 5460⟩ ∧
      c2.m_nPower1 = ⟨(List.range 5460).map (CPerm.pow Cayley32.gen1Perm), 5460⟩) ∧
    ((ofString "350F1C2036E12600512A8400920E").bind (CPerm.ofNumber fuel 32)
        = some Cayley32.gen0Perm ∧
      (ofString "EEDC82EE2D472B430D13E5066CD5B").bind (CPerm.ofNumber fuel 32)
        = some Cayley32.gen1Perm) ∧
    (WF seed → Normalized seed → 32 * seed.length + 1 ≤ fuel →
      ∃ c2, Cayley32.srand fuel c seed = some c2) ∧
    (Cayley32.new.bind fun e => Cayley32.srand fuel e seed)
      = (CPerm.ofNumber fuel 32 seed).map (fun p =>
        ⟨32, 5460, ⟨(List.range 5460).map (CPerm.pow Cayley32.gen0Perm), 5460⟩,
          ⟨(List.range 5460).map (CPerm.pow Cayley32.gen1Perm), 5460⟩, p,
          initialDelayLine, 0⟩) := by
  have heq := Cayley32.srand_eq_map fuel c seed hf ho hs
  refine ⟨heq, ?_, ⟨?_, ?_⟩, ?_, ?_⟩
  · intro c2 h2
    rw [heq] at h2
    cases h : CPerm.ofNumber fuel 32 seed with
    | none => rw [h] at h2; simp at h2
    | some p =>
      rw [h, Option.map_some', Option.some.injEq] at h2
      subst h2
      exact ⟨rfl, rfl, rfl, rfl, rfl, Cayley32.Initialize_gen0 fuel hf _,
        Cayley32.Initialize_gen1 fuel hf _, rfl, rfl⟩
  · rw [Cayley32.ofString_gen0, Option.some_bind]
    exact Cayley32.ofNumber_gen0 fuel (by omega)
  · rw [Cayley32.ofString_gen1, Option.some_bind]
    exact Cayley32.ofNumber_gen1 fuel (by omega)
  · intro hw hnorm hf2
    exact ⟨_, Cayley32.srand_eq fuel c seed hf hf2 ho hs hw hnorm⟩
  · rw [Cayley32.new_eq, Option.some_bind]
    exact Cayley32.srand_eq_map fuel _ seed hf rfl rfl

/-- C14, as the code has it, on the seeded engine `seededOne` and the seed 1. -/
theorem Cayley32.srand_every_seed_witness :
    (5460 ≤ 5460 ∧ Cayley32.seededOne.m_nOrder = 5460 ∧
      Cayley32.seededOne.m_pCurPerm.m_nSize = 32 ∧ WF [1] ∧ Normalized [1] ∧
      32 * [1].length + 1 ≤ 5460) ∧
    (∃ c2, Cayley32.srand 5460 Cayley32.seededOne [1] = some c2) ∧
    ∀ c2, Cayley32.srand 5460 Cayley32.seededOne [1] = some c2 →
      CPerm.ofNumber 5460 32 [1] = some c2.m_pCurPerm ∧
      c2.m_nDelayLine = Cayley32.seededOne.m_nDelayLine ∧
      c2.m_nTail = Cayley32.seededOne.m_nTail ∧
      c2.m_nSize = Cayley32.seededOne.m_nSize ∧ c2.m_nOrder = Cayley32.seededOne.m_nOrder ∧
      CPowerTable.Initialize 5460 Cayley32.seededOne.m_nPower0 Cayley32.gen0Perm
        = some c2.m_nPower0 ∧
      CPowerTable.Initialize 5460 Cayley32.seededOne.m_nPower1 Cayley32.gen1Perm
        = some c2.m_nPower1 ∧
      c2.m_nPower0 = ⟨(List.range 5460).map (CPerm.pow Cayley32.gen0Perm), 5460⟩ ∧
      c2.m_nPower1 = ⟨(List.range 5460).map (CPerm.pow Cayley32.gen1Perm), 5460⟩ :=
  ⟨⟨Nat.le_refl _, rfl, rfl, by decide, by decide, by decide⟩,
    (Cayley32.srand_every_seed 5460 Cayley32.seededOne [1] (Nat.le_refl _) rfl rfl).2.2.2.1
      (by decide) (by decide) (by decide),
    (Cayley32.srand_every_seed 5460 Cayley32.seededOne [1] (Nat.le_refl _) rfl rfl).2.1⟩

/-- C18: the number `uintx_t("00000007B")` is the two words `[123, 0]`, of value 123, and
`123 mod 5!` is 3.  `CPerm(5, 3)` and `CPerm(5, 123)` on the one-word 123 are `(2,4,3,1,0)`,
but in `CPerm(5, r)` on the two words the remainder comes out as `[536871155, 4294967294]`,
the coefficient `c[4]` is `2527767220`, and `d[c[4]]` is read outside the array: the
constructor returns no permutation. -/
theorem CPerm.ofNumber_unnormalized :
    ofString "00000007B" = some [123, 0] ∧ WF [123, 0] ∧ value [123, 0] = 123 ∧
    123 % Nat.factorial 5 = 3 ∧
    CPerm.ofNumber 65 5 [3] = some ⟨[2, 4, 3, 1, 0], 5⟩ ∧
    CPerm.ofNumber 65 5 [123] = some ⟨[2, 4, 3, 1, 0], 5⟩ ∧
    operator_mod 65 [123, 0] [120] = some [536871155, 4294967294] ∧
    CPerm.coefficientLoop 65 [[1], [1], [2], [6], [24]] 4 [536871155, 4294967294]
      (List.replicate 5 0) = some [0, 1, 0, 3, 2527767220] ∧
    CPerm.buildLoop [0, 1, 0, 3, 2527767220] 5 (List.range 5) (CPerm.identity 5).m_nMap
      = none ∧
    CPerm.ofNumber 65 5 [123, 0] = none := by
  refine ⟨by decide, by decide, by decide, by decide, by decide!, by decide!, by decide!,
    by decide!, by decide, by decide!⟩

/-- C24: `1 << 2147483647`: the `int` sum `bitcount() + distance + 31` is `2147483679`, above
the largest `int`, and wraps to `-2147483617`; `grow` gets `-67108863` and changes nothing, the
one word is zeroed by the fill, and the result is the one word 0, of value 0 where
`1 * 2^2147483647` is expected; on the two words `[1, 1]` the same shift leaves `[0, 0]`,
which is not normalized either.  A shift within the range, `1 << 40`, is `[0, 256]`. -/
theorem uintx_t.operator_shl_int_overflow :
    Canonical [1] ∧ bitcount [1] = 1 ∧
    wrapInt ((bitcount [1] : Int) + 2147483647 + 32 - 1) = -2147483617 ∧
    Int.tdiv (-2147483617) 32 = -67108863 ∧
    operator_shl [1] 2147483647 = [0] ∧ value (operator_shl [1] 2147483647) = 0 ∧
    value (operator_shl [1] 2147483647) ≠ value [1] * 2 ^ 2147483647 ∧
    operator_shl [1] 40 = [0, 256] ∧
    Canonical [1, 1] ∧ operator_shl [1, 1] 2147483647 = [0, 0] ∧ ¬ Normalized [0, 0] := by
  have h : operator_shl [1] 2147483647 = [0] := by decide
  refine ⟨by decide, by decide, by decide, by decide, h, by rw [h]; decide, ?_, by decide,
    by decide, by decide, by decide⟩
  rw [h]
  exact Nat.ne_of_lt (Nat.mul_pos (by decide) (pow_pos (by decide) _))
